import Mathlib

/-!
# IRP-SBTS-MH: tabu memory, neighbourhood construction and the quantity LP

A shallow embedding of the parts of `src/Solver/Solver.cpp` that implement the
tabu memory (`hash`, `isTabu`, `execTabu`), the neighbourhood builder
(`buildMixNeigh`), the tabu search loop (`mixTabuSearch`), the TSP repair
(`callLKH`) and the constraint system of the quantity LP (`callModel`).

Conventions of the embedding
* `Arr2D<ID> visits` is a total map `period → node → int`; the dimensions
  `periodNum`, `nodeNum` are kept in `Config`.
* `Price` (`double`) is idealised as `ℚ`; rounding of floating point is not
  modelled.
* `static_cast<unsigned>(std::pow(x, gamma))` is `castUnsigned (gamma x)`, where
  the function `gamma : ℕ → ℕ` stands for `x ↦ ⌊x ^ γ⌋`; unsigned machine
  arithmetic is arithmetic modulo `2 ^ width`.
* The bit arrays `H1, H2, H3` are maps from an index to a bit; every index that
  the code uses is a remainder modulo `BitSize`.
* The MIP/LP engine and the TSP backend are external: they appear as the
  functions `mpOptimize` and `tspSolve` of `Config`.
-/

namespace IRP

/-- The type `Price` of the source (`double`), idealised as exact rationals. -/
abbrev Price := ℚ

/-- The visit matrix `Arr2D<ID> visits`, indexed `visits[period][node]`. -/
abbrev Visits := Nat → Nat → Int

/-- The assignment `visits[p][n] = x`. -/
def Visits.set (visits : Visits) (p n : Nat) (x : Int) : Visits :=
  fun p' n' => if p' = p ∧ n' = n then x else visits p' n'

/-- The enumeration `ActorType`. -/
inductive ActorType where
  | ADD
  | DEL
  | MOV
  | SWP
  deriving DecidableEq, Repr

/-- The move descriptor `Actor`; the constructor call in the source is
`Actor(actype, totalCost, modelCost, p1, n1, p2, n2)`. -/
structure Actor where
  actype : ActorType
  totalCost : Price
  modelCost : Price
  p1 : Int
  n1 : Int
  p2 : Int
  n2 : Int

/-- Data that the solver only reads: the dimensions set by `init`, the
constants declared in `Solver.h` (kept as parameters), and the two external
engines. -/
structure Config where
  /-- The member `nodeNum`. -/
  nodeNum : Nat
  /-- The member `periodNum`. -/
  periodNum : Nat
  /-- The constant `BitSize`, size of `H1`, `H2`, `H3`. -/
  BitSize : Nat
  /-- Width in bits of `unsigned long`, the type of the hash triple. -/
  ulongBits : Nat
  /-- The map `x ↦ ⌊x ^ gamma1⌋`. -/
  gamma1 : Nat → Nat
  /-- The map `x ↦ ⌊x ^ gamma2⌋`. -/
  gamma2 : Nat → Nat
  /-- The map `x ↦ ⌊x ^ gamma3⌋`. -/
  gamma3 : Nat → Nat
  /-- The tolerance of `Math::strongLess` and `Math::weakEqual`. -/
  epsilon : Price
  /-- The constant `Problem::MaxCost`. -/
  maxCost : Price
  /-- The default value of the parameter `minCost` of `buildMixNeigh`. -/
  defaultMinCost : Price
  /-- The constant `alpha`, the step bound of the tabu search. -/
  alpha : Int
  /-- The outcome of `mp.optimize()` on the model that `callModel` builds for a
  visit matrix: `some objective` when solved, `none` otherwise. -/
  mpOptimize : Visits → Option Price
  /-- The node order returned by `tspSolver.solve` for the list of visited
  nodes of one period. -/
  tspSolve : List Nat → List Nat

/-- The mutable members of `Solver` used by the search. -/
structure Solver where
  H1 : Nat → Bool
  H2 : Nat → Bool
  H3 : Nat → Bool
  hashValue1 : Nat
  hashValue2 : Nat
  hashValue3 : Nat
  routingCost : Nat → Nat → Price
  curTours : Nat → List Nat
  tourPrices : Nat → Price
  mixNeigh : List Actor
  bestCost : Price
  bestVisits : Visits

/-! ## Machine arithmetic -/

/-- Conversion to `unsigned` (32 bits). -/
def castUnsigned (x : Nat) : Nat := x % 2 ^ 32

/-- Addition of unsigned integers of width `w`. -/
def uadd (w x y : Nat) : Nat := (x + y) % 2 ^ w

/-- Subtraction of unsigned integers of width `w`. -/
def usub (w x y : Nat) : Nat := (x % 2 ^ w + (2 ^ w - y % 2 ^ w)) % 2 ^ w

/-- The expression `static_cast<unsigned>(std::pow(vid, gamma))` for an `int`
argument `vid`. -/
def powTerm (gamma : Nat → Nat) (vid : Int) : Nat := castUnsigned (gamma vid.toNat)

/-! ## Tabu memory -/

/-- The function `Solver::hash(visits, gamma)`: the sum is accumulated in an
`unsigned long long`, the result is returned as `unsigned`. -/
def hash (c : Config) (visits : Visits) (gamma : Nat → Nat) : Nat :=
  let sum := (List.range c.periodNum).foldl (fun sum p =>
    (List.range c.nodeNum).foldl (fun sum n =>
      if visits p n ≠ 0 then
        uadd 64 sum (powTerm gamma ((p : Int) * (c.nodeNum : Int) + (n : Int)))
      else sum) sum) 0
  castUnsigned (sum % c.BitSize)

/-- The incremental update of one hash value, the code shared by
`isTabu(hv1, hv2, hv3, act)`, `execTabu(hv1, hv2, hv3, act)` and
`execTabu(act)`, followed by `%= BitSize`. -/
def moveHash (c : Config) (gamma : Nat → Nat) (hv : Nat) (act : Actor) : Nat :=
  let w := c.ulongBits
  let N : Int := c.nodeNum
  if act.actype = ActorType.SWP then
    (uadd w (uadd w (usub w (usub w hv (powTerm gamma (act.p1 * N + act.n1)))
      (powTerm gamma (act.p2 * N + act.n2)))
      (powTerm gamma (act.p1 * N + act.n2)))
      (powTerm gamma (act.p2 * N + act.n1))) % c.BitSize
  else
    let vid1 : Int := match act.actype with
      | ActorType.DEL => 0
      | _ => act.p1 * N + act.n1
    let vid2 : Int := match act.actype with
      | ActorType.ADD => 0
      | _ => act.p2 * N + act.n2
    (uadd w hv (usub 32 (powTerm gamma vid1) (powTerm gamma vid2))) % c.BitSize

/-- The function `Solver::isTabu(hv1, hv2, hv3, act)`. -/
def isTabuWithMove (c : Config) (s : Solver) (hv1 hv2 hv3 : Nat) (act : Actor) : Bool :=
  s.H1 (moveHash c c.gamma1 hv1 act) && s.H2 (moveHash c c.gamma2 hv2 act)
    && s.H3 (moveHash c c.gamma3 hv3 act)

/-- The function `Solver::isTabu(visits)`. -/
def isTabu (c : Config) (s : Solver) (visits : Visits) : Bool :=
  s.H1 (hash c visits c.gamma1) && s.H2 (hash c visits c.gamma2)
    && s.H3 (hash c visits c.gamma3)

/-- The assignment `H[i] = 1`. -/
def setBit (H : Nat → Bool) (i : Nat) : Nat → Bool :=
  fun j => if j = i then true else H j

/-- The function `Solver::execTabu(hv1, hv2, hv3, act)`: sets the three bits, leaves the
persistent hash triple alone. -/
def execTabuWithMove (c : Config) (s : Solver) (hv1 hv2 hv3 : Nat) (act : Actor) : Solver :=
  { s with
    H1 := setBit s.H1 (moveHash c c.gamma1 hv1 act)
    H2 := setBit s.H2 (moveHash c c.gamma2 hv2 act)
    H3 := setBit s.H3 (moveHash c c.gamma3 hv3 act) }

/-- The function `Solver::execTabu(act)`: updates the persistent hash triple and sets the
three bits. -/
def execTabuAct (c : Config) (s : Solver) (act : Actor) : Solver :=
  let hv1 := moveHash c c.gamma1 s.hashValue1 act
  let hv2 := moveHash c c.gamma2 s.hashValue2 act
  let hv3 := moveHash c c.gamma3 s.hashValue3 act
  { s with
    hashValue1 := hv1
    hashValue2 := hv2
    hashValue3 := hv3
    H1 := setBit s.H1 hv1
    H2 := setBit s.H2 hv2
    H3 := setBit s.H3 hv3 }

/-- The function `Solver::execTabu(visits, change)`. -/
def execTabuVisits (c : Config) (s : Solver) (visits : Visits) (change : Bool) : Solver :=
  if change then
    { s with
      hashValue1 := hash c visits c.gamma1
      hashValue2 := hash c visits c.gamma2
      hashValue3 := hash c visits c.gamma3
      H1 := setBit s.H1 (hash c visits c.gamma1)
      H2 := setBit s.H2 (hash c visits c.gamma2)
      H3 := setBit s.H3 (hash c visits c.gamma3) }
  else
    { s with
      H1 := setBit s.H1 (hash c visits c.gamma1)
      H2 := setBit s.H2 (hash c visits c.gamma2)
      H3 := setBit s.H3 (hash c visits c.gamma3) }

/-! ## Auxiliary notions used to state the properties -/

/-- The term a cell `(p, n)` contributes to the sum in `hash`. -/
def cellTerm (c : Config) (gamma : Nat → Nat) (visits : Visits) (p n : Nat) : Nat :=
  if visits p n ≠ 0 then powTerm gamma ((p : Int) * (c.nodeNum : Int) + (n : Int)) else 0

/-- The sum in `hash`, over the natural numbers (no wrap-around). -/
def visitSum (c : Config) (gamma : Nat → Nat) (visits : Visits) : Nat :=
  ((List.range c.periodNum).map (fun p =>
    ((List.range c.nodeNum).map (fun n => cellTerm c gamma visits p n)).sum)).sum

/-- Assumptions on the constants of `Solver.h`: `BitSize` is a power of two that
fits the `unsigned` result of `hash`, `unsigned long` has at least 32 bits, and
`0 ^ γ = 0` for the three exponents. -/
structure TabuParams (c : Config) : Prop where
  bitSize_pow : ∃ k, k ≤ 32 ∧ c.BitSize = 2 ^ k
  ulong_ge : 32 ≤ c.ulongBits
  gamma1_zero : c.gamma1 0 = 0
  gamma2_zero : c.gamma2 0 = 0
  gamma3_zero : c.gamma3 0 = 0

/-- The move application in the loop of `Solver::mixTabuSearch`
(a chained assignment `a = b = x` stores into `b` first). -/
def applyMove (visits : Visits) (act : Actor) : Visits :=
  if act.actype = ActorType.SWP then
    (((visits.set act.p2.toNat act.n2.toNat 0).set act.p1.toNat act.n1.toNat 0).set
      act.p2.toNat act.n1.toNat 1).set act.p1.toNat act.n2.toNat 1
  else
    let visits1 := if act.n1 > 0 then visits.set act.p1.toNat act.n1.toNat 1 else visits
    if act.n2 > 0 then visits1.set act.p2.toNat act.n2.toNat 0 else visits1

/-! ## Numeric predicates and the quantity LP as seen by the search -/

/-- Modelled from the spec: `Math::strongLess` is declared in a utility header
outside `Solver.cpp`; the spec defines `strongLess(a,b) ⇔ a < b − ε`. -/
def strongLess (c : Config) (a b : Price) : Bool := decide (a < b - c.epsilon)

/-- Modelled from the spec: `Math::weakEqual` is declared in a utility header
outside `Solver.cpp`; the spec defines `weakEqual(a,b) ⇔ |a−b| ≤ ε`. -/
def weakEqual (c : Config) (a b : Price) : Bool := decide (|a - b| ≤ c.epsilon)

/-- The function `Solver::callModel`, as far as its result is concerned: the objective value
when `mp.optimize()` succeeds, the sentinel `-1` otherwise. -/
def callModel (c : Config) (visits : Visits) : Price :=
  match c.mpOptimize visits with
  | some objective => objective
  | none => -1

/-! ## Tour cost estimates -/

/-- The loop of `Solver::addNodeTourCost` over the consecutive pairs of a tour. -/
def addNodeTourLoop (c : Config) (s : Solver) (nid : Nat) : List Nat → Price → Price
  | a :: b :: rest, minCost =>
    let curCost := s.routingCost a nid + s.routingCost nid b - s.routingCost a b
    addNodeTourLoop c s nid (b :: rest) (if strongLess c curCost minCost then curCost else minCost)
  | _, minCost => minCost

/-- The function `Solver::addNodeTourCost`; on an empty tour the iterator `m = n + 1` is
already past the end, which has no defined behaviour (`none`). -/
def addNodeTourCost (c : Config) (s : Solver) (pid nid : Nat) : Option Price :=
  match s.curTours pid with
  | [] => none
  | tour => some (addNodeTourLoop c s nid tour c.maxCost)

/-- The function `Solver::delNodeTourCost`; `none` when `pos - 1` or `pos + 1` is not an
element of the tour (no defined behaviour in the source). -/
def delNodeTourCost (s : Solver) (pid nid : Nat) : Option Price :=
  let tour := s.curTours pid
  let pos := tour.indexOf nid
  if 0 < pos ∧ pos + 1 < tour.length then
    let pre := tour.getD (pos - 1) 0
    let succ := tour.getD (pos + 1) 0
    some (s.routingCost pre succ - s.routingCost nid pre - s.routingCost nid succ)
  else none

/-- The function `Solver::movNodeTourCost`. -/
def movNodeTourCost (c : Config) (s : Solver) (apid anid dpid dnid : Nat) : Option Price :=
  match addNodeTourCost c s apid anid, delNodeTourCost s dpid dnid with
  | some a, some d => some (a + d)
  | _, _ => none

/-- The function `Solver::swpNodeTourCost`. -/
def swpNodeTourCost (c : Config) (s : Solver) (p1 n1 p2 n2 : Nat) : Option Price :=
  match delNodeTourCost s p1 n1, delNodeTourCost s p2 n2,
      addNodeTourCost c s p2 n1, addNodeTourCost c s p1 n2 with
  | some d1, some d2, some a1, some a2 => some (d1 + d2 + a1 + a2)
  | _, _, _, _ => none

/-! ## Neighbourhood construction -/

/-- Runs the body `f` for every element of a list and concatenates what the
bodies push back; `none` as soon as one body has no defined behaviour. -/
def collectM {α β : Type} (f : α → Option (List β)) : List α → Option (List β)
  | [] => some []
  | x :: xs =>
    match f x, collectM f xs with
    | some ys, some zs => some (ys ++ zs)
    | _, _ => none

/-- The values of `n` in `for (ID n = 1; n < nodeNum; ++n)`. -/
def nodeLoop (c : Config) : List Nat := List.range' 1 (c.nodeNum - 1)

/-- Pushes `act` unless `isTabu(hashValue1, hashValue2, hashValue3, act)`. -/
def pushUnlessTabu (c : Config) (s : Solver) (act : Actor) : List Actor :=
  if isTabuWithMove c s s.hashValue1 s.hashValue2 s.hashValue3 act then [] else [act]

/-- The list `delNeigh` built by the first loop nest of `buildMixNeigh`. -/
def delNeighOf (c : Config) (s : Solver) (visits : Visits) : Option (List Actor) :=
  collectM (fun n =>
    collectM (fun p =>
      if visits p n ≠ 0 then
        match delNodeTourCost s p n with
        | some cost => some (pushUnlessTabu c s ⟨ActorType.DEL, cost, 0, -1, -1, p, n⟩)
        | none => none
      else some []) (List.range c.periodNum)) (nodeLoop c)

/-- The list `movNeigh` built by the first loop nest of `buildMixNeigh`. -/
def movNeighOf (c : Config) (s : Solver) (visits : Visits) : Option (List Actor) :=
  collectM (fun n =>
    let P1 := (List.range c.periodNum).filter (fun p => decide (visits p n ≠ 0))
    let P0 := (List.range c.periodNum).filter (fun p => decide (¬ visits p n ≠ 0))
    collectM (fun p0 =>
      collectM (fun p1 =>
        match movNodeTourCost c s p0 n p1 n with
        | some cost => some (pushUnlessTabu c s ⟨ActorType.MOV, cost, 0, p0, n, p1, n⟩)
        | none => none) P1) P0) (nodeLoop c)

/-- The list `swpNeigh` built by the second loop nest of `buildMixNeigh`. -/
def swpNeighOf (c : Config) (s : Solver) (visits : Visits) : Option (List Actor) :=
  collectM (fun n =>
    collectM (fun m =>
      let tvn := (List.range c.periodNum).filter
        (fun p => decide (visits p n ≠ 0 ∧ ¬ visits p m ≠ 0))
      let tvm := (List.range c.periodNum).filter
        (fun p => decide (¬ visits p n ≠ 0 ∧ visits p m ≠ 0))
      collectM (fun t1 =>
        collectM (fun t2 =>
          match swpNodeTourCost c s t1 n t2 m with
          | some cost => some (pushUnlessTabu c s ⟨ActorType.SWP, cost, 0, t1, n, t2, m⟩)
          | none => none) tvm) tvn) (List.range' (n + 1) (c.nodeNum - (n + 1)))) (nodeLoop c)

/-- The function `std::sort` by ascending `totalCost`. -/
def sortByCost (l : List Actor) : List Actor :=
  l.insertionSort (fun a1 a2 => a1.totalCost ≤ a2.totalCost)

/-- The bound `maxSize = 2 * periodNum * static_cast<unsigned>(sqrt(nodeNum))`. -/
def maxSize (c : Config) : Nat := castUnsigned (2 * c.periodNum * Nat.sqrt c.nodeNum)

/-- The three candidate lists that the evaluation loops of `buildMixNeigh`
run over: sorted, and cut after `maxSize` entries. -/
def candidateLists (c : Config) (s : Solver) (visits : Visits) :
    Option (List Actor × List Actor × List Actor) :=
  match delNeighOf c s visits, movNeighOf c s visits, swpNeighOf c s visits with
  | some delNeigh, some movNeigh, some swpNeigh =>
    some ((sortByCost delNeigh).take (maxSize c), (sortByCost movNeigh).take (maxSize c),
      (sortByCost swpNeigh).take (maxSize c))
  | _, _, _ => none

/-- The state threaded through the evaluation loops of `buildMixNeigh`. -/
structure EvalState where
  solver : Solver
  visits : Visits
  minCost : Price

/-- The part of an evaluation loop body between the trial assignment and the
revert: `act.modelCost = callModel(visits)` and the update of `mixNeigh`. -/
def evalCandidate (c : Config) (s : Solver) (visits : Visits) (minCost : Price) (act : Actor) :
    Solver × Price :=
  let modelCost := callModel c visits
  if modelCost ≥ 0 then
    let act1 : Actor := { act with modelCost := modelCost, totalCost := act.totalCost + modelCost }
    if strongLess c act1.totalCost minCost then
      ({ s with mixNeigh := [act1] }, act1.totalCost)
    else if weakEqual c act1.totalCost minCost then
      ({ s with mixNeigh := s.mixNeigh ++ [act1] }, minCost)
    else (s, minCost)
  else (s, minCost)

/-- The body of the loop over `delNeigh`. -/
def evalDel (c : Config) (st : EvalState) (del : Actor) : EvalState :=
  let s1 := execTabuWithMove c st.solver st.solver.hashValue1 st.solver.hashValue2
    st.solver.hashValue3 del
  let p2 := del.p2.toNat
  let n2 := del.n2.toNat
  let visits1 := st.visits.set p2 n2 0
  let r := evalCandidate c s1 visits1 st.minCost del
  { solver := r.1, visits := visits1.set p2 n2 1, minCost := r.2 }

/-- The body of the loop over `movNeigh`. -/
def evalMov (c : Config) (st : EvalState) (mov : Actor) : EvalState :=
  let s1 := execTabuWithMove c st.solver st.solver.hashValue1 st.solver.hashValue2
    st.solver.hashValue3 mov
  let p1 := mov.p1.toNat
  let n1 := mov.n1.toNat
  let p2 := mov.p2.toNat
  let n2 := mov.n2.toNat
  let visits1 := (st.visits.set p1 n1 1).set p2 n2 0
  let r := evalCandidate c s1 visits1 st.minCost mov
  { solver := r.1, visits := (visits1.set p1 n1 0).set p2 n2 1, minCost := r.2 }

/-- The body of the loop over `swpNeigh`. -/
def evalSwp (c : Config) (st : EvalState) (swp : Actor) : EvalState :=
  let s1 := execTabuWithMove c st.solver st.solver.hashValue1 st.solver.hashValue2
    st.solver.hashValue3 swp
  let p1 := swp.p1.toNat
  let n1 := swp.n1.toNat
  let p2 := swp.p2.toNat
  let n2 := swp.n2.toNat
  let visits1 := (((st.visits.set p2 n2 0).set p1 n1 0).set p2 n1 1).set p1 n2 1
  let r := evalCandidate c s1 visits1 st.minCost swp
  { solver := r.1,
    visits := (((visits1.set p2 n2 1).set p1 n1 1).set p2 n1 0).set p1 n2 0,
    minCost := r.2 }

/-- The function `Solver::buildMixNeigh(visits, minCost)`: the solver after the call (with
`aux.mixNeigh` and the bit arrays updated) and the matrix `visits` after the
call; `none` when a tour cost estimate has no defined behaviour. -/
def buildMixNeigh (c : Config) (s : Solver) (visits : Visits) (minCost : Price) :
    Option (Solver × Visits) :=
  match candidateLists c s visits with
  | some (delNeigh, movNeigh, swpNeigh) =>
    let st0 : EvalState := { solver := { s with mixNeigh := [] }, visits := visits,
                             minCost := minCost }
    let st1 := delNeigh.foldl (evalDel c) st0
    let st2 := movNeigh.foldl (evalMov c) st1
    let st3 := swpNeigh.foldl (evalSwp c) st2
    some (st3.solver, st3.visits)
  | none => none

/-! ## TSP repair -/

/-- The sum of `routingCost` over the consecutive pairs of a node sequence. -/
def tourCost (routingCost : Nat → Nat → Price) : List Nat → Price
  | a :: b :: rest => routingCost a b + tourCost routingCost (b :: rest)
  | _ => 0

/-- The body of the loop over `periods` in `Solver::callLKH`. -/
def callLKHPeriod (c : Config) (visits : Visits) (s : Solver) (p : Nat) : Solver :=
  let nodeIdMap := (List.range c.nodeNum).filter (fun n => decide (visits p n ≠ 0))
  if nodeIdMap.length > 2 then
    let nodes := c.tspSolve nodeIdMap
    let tour := nodes ++ [nodes.headD 0]
    { s with
      curTours := fun q => if q = p then tour else s.curTours q
      tourPrices := fun q => if q = p then tourCost s.routingCost tour else s.tourPrices q }
  else if nodeIdMap.length = 2 then
    let nodes := [nodeIdMap.getD 0 0, nodeIdMap.getD 1 0]
    let tour := nodes ++ [nodes.headD 0]
    { s with
      curTours := fun q => if q = p then tour else s.curTours q
      tourPrices := fun q => if q = p then tourCost s.routingCost tour else s.tourPrices q }
  else
    { s with
      curTours := fun q => if q = p then [0, 0] else s.curTours q
      tourPrices := fun q => if q = p then 0 else s.tourPrices q }

/-- The function `Solver::callLKH(visits, p1, p2)`: the solver after the call and the
returned sum of `tourPrices`. -/
def callLKH (c : Config) (s : Solver) (visits : Visits) (p1 p2 : Int) : Solver × Price :=
  let periods := (if p1 ≥ 0 then [p1.toNat] else []) ++ (if p2 ≥ 0 then [p2.toNat] else [])
    ++ (if p1 < 0 ∧ p2 < 0 then List.range c.periodNum else [])
  let s1 := periods.foldl (callLKHPeriod c visits) s
  (s1, ((List.range c.periodNum).map s1.tourPrices).sum)

/-! ## Tabu search -/

/-- The local state of `Solver::mixTabuSearch`. -/
structure TabuRun where
  solver : Solver
  visits : Visits
  modelCost : Price
  step : Int
  isImproved : Bool

/-- One pass through the loop of `Solver::mixTabuSearch` (condition, body and
increment) with `r` the random number behind `rand.pick(mixNeighSize)`. The
flag is `false` when the loop is left; the state returned with it carries the
effects of the last call of `buildMixNeigh`. -/
def mixTabuIter (c : Config) (r : Nat) (st : TabuRun) : Bool × TabuRun :=
  if st.step < c.alpha then
    match buildMixNeigh c st.solver st.visits c.defaultMinCost with
    | none => (false, st)
    | some (s1, visits1) =>
      match s1.mixNeigh[r % s1.mixNeigh.length]? with
      | none => (false, { st with solver := s1, visits := visits1 })
      | some act =>
        let visits2 := applyMove visits1 act
        let lkh := callLKH c s1 visits2 act.p1 act.p2
        let modelCost := act.modelCost + lkh.2
        let s3 := execTabuAct c lkh.1 act
        if strongLess c modelCost s3.bestCost then
          (true, { solver := { s3 with bestCost := modelCost, bestVisits := visits2 },
                   visits := visits2, modelCost := modelCost, step := -1 + 1,
                   isImproved := true })
        else
          (true, { solver := s3, visits := visits2, modelCost := modelCost,
                   step := st.step + 1, isImproved := st.isImproved })
  else (false, st)

/-- The loop of `Solver::mixTabuSearch`; the list holds one random number per
pass, and the timer runs out when the list is used up. -/
def mixTabuLoop (c : Config) : List Nat → TabuRun → TabuRun
  | [], st => st
  | r :: rs, st =>
    match mixTabuIter c r st with
    | (false, st1) => st1
    | (true, st1) => mixTabuLoop c rs st1

/-- The function `Solver::mixTabuSearch(visits, modelCost)`. -/
def mixTabuSearch (c : Config) (picks : List Nat) (s : Solver) (visits : Visits)
    (modelCost : Price) : TabuRun :=
  mixTabuLoop c picks { solver := execTabuVisits c s visits true, visits := visits,
                        modelCost := modelCost, step := 0, isImproved := false }

/-! ## Moves of the data model and sequences of tabu operations -/

/-- The moves DEL, MOV and ADD on a visit matrix, each with the matrix it
leads to: `DEL(p,n)` clears a set entry, `MOV` sets `visits[p1][n]` and clears
`visits[p2][n]`, `ADD(p,n)` sets a cleared entry. -/
inductive NonSwpMove (c : Config) (visits : Visits) : Actor → Visits → Prop where
  | del (p n : Nat) (hp : p < c.periodNum) (hn : n < c.nodeNum) (h : visits p n = 1)
      (tc mc : Price) (p1 n1 : Int) :
      NonSwpMove c visits ⟨ActorType.DEL, tc, mc, p1, n1, p, n⟩ (visits.set p n 0)
  | mov (p1 p2 n : Nat) (hp1 : p1 < c.periodNum) (hp2 : p2 < c.periodNum)
      (hn : n < c.nodeNum) (h1 : visits p1 n = 0) (h2 : visits p2 n = 1) (tc mc : Price) :
      NonSwpMove c visits ⟨ActorType.MOV, tc, mc, p1, n, p2, n⟩
        ((visits.set p1 n 1).set p2 n 0)
  | add (p n : Nat) (hp : p < c.periodNum) (hn : n < c.nodeNum) (h : visits p n = 0)
      (tc mc : Price) (p2 n2 : Int) :
      NonSwpMove c visits ⟨ActorType.ADD, tc, mc, p, n, p2, n2⟩ (visits.set p n 1)

/-- A call of one of the member functions of the tabu memory. -/
inductive TabuOp where
  | execTabuWithMove (hv1 hv2 hv3 : Nat) (act : Actor)
  | execTabuAct (act : Actor)
  | execTabuVisits (visits : Visits) (change : Bool)
  | isTabuWithMove (hv1 hv2 hv3 : Nat) (act : Actor)
  | isTabu (visits : Visits)

/-- The solver after a call of a member function of the tabu memory. -/
def TabuOp.run (c : Config) (s : Solver) : TabuOp → Solver
  | TabuOp.execTabuWithMove hv1 hv2 hv3 act => IRP.execTabuWithMove c s hv1 hv2 hv3 act
  | TabuOp.execTabuAct act => IRP.execTabuAct c s act
  | TabuOp.execTabuVisits visits change => IRP.execTabuVisits c s visits change
  | TabuOp.isTabuWithMove _ _ _ _ => s
  | TabuOp.isTabu _ => s

/-! ## Concrete data for the examples -/

/-- A configuration with three nodes and two periods; the exponents are
`2`, `1/2` and `3/2`; the LP is feasible exactly when customer `1` is visited
in period `0`. -/
def exampleConfig : Config where
  nodeNum := 3
  periodNum := 2
  BitSize := 1024
  ulongBits := 64
  gamma1 := fun x => x * x
  gamma2 := fun x => Nat.sqrt x
  gamma3 := fun x => Nat.sqrt (x * x * x)
  epsilon := 1 / 1000
  maxCost := 1000000
  defaultMinCost := 1000000
  alpha := 10
  mpOptimize := fun visits => if visits 0 1 ≠ 0 then some 5 else none
  tspSolve := fun nodes => nodes

/-- The matrix `[[1,1,0],[1,0,1]]`. -/
def exampleVisits : Visits := fun p n =>
  if (p = 0 ∧ n = 0) ∨ (p = 0 ∧ n = 1) ∨ (p = 1 ∧ n = 0) ∨ (p = 1 ∧ n = 2) then 1 else 0

/-- A solver state with empty tabu memory and the tours of `exampleVisits`. -/
def exampleSolver : Solver where
  H1 := fun _ => false
  H2 := fun _ => false
  H3 := fun _ => false
  hashValue1 := hash exampleConfig exampleVisits exampleConfig.gamma1
  hashValue2 := hash exampleConfig exampleVisits exampleConfig.gamma2
  hashValue3 := hash exampleConfig exampleVisits exampleConfig.gamma3
  routingCost := fun i j => if i = j then 0 else 3
  curTours := fun p => if p = 0 then [0, 1, 0] else if p = 1 then [0, 2, 0] else []
  tourPrices := fun p => if p < 2 then 6 else 0
  mixNeigh := []
  bestCost := 100
  bestVisits := exampleVisits

/-! ## Predicates on the search state -/

/-- Inside the dimensions, the entries of a visit matrix are `0` or `1`. -/
def IsVisitMatrix (c : Config) (visits : Visits) : Prop :=
  ∀ p, p < c.periodNum → ∀ n, n < c.nodeNum → visits p n = 0 ∨ visits p n = 1

/-- The tours agree with the visit matrix: every tour starts and ends with
depot `0` and contains every node `n ≥ 1` visited in its period. -/
def ToursConsistent (c : Config) (visits : Visits) (curTours : Nat → List Nat) : Prop :=
  ∀ p, p < c.periodNum →
    (curTours p).head? = some 0 ∧ (curTours p).getLast? = some 0
      ∧ ∀ n, 1 ≤ n → n < c.nodeNum → visits p n ≠ 0 → n ∈ curTours p

/-- The descriptors that the enumeration of `buildMixNeigh` gives to DEL moves:
`Actor(DEL, _, _, -1, -1, p, n)` for a node `n ≥ 1` visited in period `p`. -/
def DelCand (c : Config) (visits : Visits) (a : Actor) : Prop :=
  a.actype = ActorType.DEL ∧ a.p1 = -1 ∧ a.n1 = -1 ∧
    ∃ p n : Nat, a.p2 = p ∧ a.n2 = n ∧ p < c.periodNum ∧ 1 ≤ n ∧ n < c.nodeNum
      ∧ visits p n ≠ 0

/-- The descriptors that the enumeration of `buildMixNeigh` gives to MOV moves:
`Actor(MOV, _, _, p0, n, p1, n)` for a node `n ≥ 1` visited in period `p1` and
not in period `p0`. -/
def MovCand (c : Config) (visits : Visits) (a : Actor) : Prop :=
  a.actype = ActorType.MOV ∧
    ∃ p0 p1 n : Nat, a.p1 = p0 ∧ a.n1 = n ∧ a.p2 = p1 ∧ a.n2 = n ∧ p0 < c.periodNum
      ∧ p1 < c.periodNum ∧ 1 ≤ n ∧ n < c.nodeNum ∧ visits p0 n = 0 ∧ visits p1 n ≠ 0

/-- The descriptors that the enumeration of `buildMixNeigh` gives to SWP moves:
`Actor(SWP, _, _, t1, n, t2, m)` for nodes `1 ≤ n < m`, with `n` and not `m`
visited in period `t1`, `m` and not `n` visited in period `t2`. -/
def SwpCand (c : Config) (visits : Visits) (a : Actor) : Prop :=
  a.actype = ActorType.SWP ∧
    ∃ t1 t2 n m : Nat, a.p1 = t1 ∧ a.n1 = n ∧ a.p2 = t2 ∧ a.n2 = m ∧ t1 < c.periodNum
      ∧ t2 < c.periodNum ∧ 1 ≤ n ∧ n < m ∧ m < c.nodeNum
      ∧ visits t1 n ≠ 0 ∧ visits t1 m = 0 ∧ visits t2 n = 0 ∧ visits t2 m ≠ 0

/-- The solver `s'` differs from `s` at most in `aux.mixNeigh` and in bits of
`H1`, `H2`, `H3` that were clear in `s` and are set in `s'`. -/
structure TabuExtends (s s' : Solver) : Prop where
  hashValue1 : s'.hashValue1 = s.hashValue1
  hashValue2 : s'.hashValue2 = s.hashValue2
  hashValue3 : s'.hashValue3 = s.hashValue3
  routingCost : s'.routingCost = s.routingCost
  curTours : s'.curTours = s.curTours
  tourPrices : s'.tourPrices = s.tourPrices
  bestCost : s'.bestCost = s.bestCost
  bestVisits : s'.bestVisits = s.bestVisits
  H1 : ∀ i, s.H1 i = true → s'.H1 i = true
  H2 : ∀ i, s.H2 i = true → s'.H2 i = true
  H3 : ∀ i, s.H3 i = true → s'.H3 i = true

/-- The three bits of the post-move hash triple of `act`, computed from the
hash triple `hv1, hv2, hv3`, are set in `s`. -/
def MoveBitsSet (c : Config) (s : Solver) (hv1 hv2 hv3 : Nat) (act : Actor) : Prop :=
  s.H1 (moveHash c c.gamma1 hv1 act) = true ∧ s.H2 (moveHash c c.gamma2 hv2 act) = true
    ∧ s.H3 (moveHash c c.gamma3 hv3 act) = true

/-- A member of `mixNeigh` built on `visits`: an enumerated DEL, MOV or SWP
descriptor whose `modelCost` is the non-negative result of `callModel` on its
post-move matrix. -/
def GoodNeighbour (c : Config) (visits : Visits) (a : Actor) : Prop :=
  (DelCand c visits a ∨ MovCand c visits a ∨ SwpCand c visits a)
    ∧ a.modelCost = callModel c (applyMove visits a) ∧ 0 ≤ a.modelCost

/-- The persistent hash triple is the hash triple of `visits`. -/
def HashConsistent (c : Config) (s : Solver) (visits : Visits) : Prop :=
  s.hashValue1 = hash c visits c.gamma1 ∧ s.hashValue2 = hash c visits c.gamma2
    ∧ s.hashValue3 = hash c visits c.gamma3

/-- One depot, one customer and one period, with an LP that is infeasible for
every visit matrix. -/
def rejectConfig : Config :=
  { exampleConfig with nodeNum := 2, periodNum := 1, mpOptimize := fun _ => none }

/-- The matrix `[[1,1]]`. -/
def rejectVisits : Visits := fun p n => if p = 0 ∧ n < 2 then 1 else 0

/-- A solver state with empty tabu memory, the hash triple and the tour of
`rejectVisits`. -/
def rejectSolver : Solver where
  H1 := fun _ => false
  H2 := fun _ => false
  H3 := fun _ => false
  hashValue1 := hash rejectConfig rejectVisits rejectConfig.gamma1
  hashValue2 := hash rejectConfig rejectVisits rejectConfig.gamma2
  hashValue3 := hash rejectConfig rejectVisits rejectConfig.gamma3
  routingCost := fun i j => if i = j then 0 else 3
  curTours := fun p => if p = 0 then [0, 1, 0] else []
  tourPrices := fun p => if p = 0 then 6 else 0
  mixNeigh := []
  bestCost := 100
  bestVisits := rejectVisits

/-- The only candidate enumerated on `rejectVisits`: `DEL(0,1)`. -/
def rejectDel : Actor := ⟨ActorType.DEL, -6, 0, -1, -1, 0, 1⟩

/-! ## The quantity LP built by `callModel` -/

/-- A node of the instance (`pb::Node`): the fields that the quantity LP reads. -/
structure Node where
  initquantity : Int
  capacity : Int
  holdingcost : Price
  demands : List Int

/-- The instance (`Problem::Input`): the fields that the quantity LP reads. -/
structure Input where
  periodnum : Nat
  depotnum : Nat
  /-- The capacities `vehicles(v).capacity()`. -/
  vehicles : List Int
  nodes : List Node

/-- The node `nodes[n]`. -/
def Input.node (inp : Input) (n : Nat) : Node := inp.nodes.getD n ⟨0, 0, 0, []⟩

/-- The demand `nodes[n].demands(p)`. -/
def Input.demand (inp : Input) (n p : Nat) : Int := (inp.node n).demands.getD p 0

/-- The bound `min(input.vehicles(v).capacity(), nodes[n].capacity())`. -/
def Input.deliveryCap (inp : Input) (v n : Nat) : Int :=
  min (inp.vehicles.getD v 0) (inp.node n).capacity

/-- The value of the expression `quantity` of node `n` when the loop over the
periods reaches period `p`: the initial quantity, plus the deliveries and minus
the demands of the periods before `p`. -/
def quantityBefore (inp : Input) (delivery : Nat → Nat → Nat → ℚ) (n : Nat) : Nat → ℚ
  | 0 => (inp.node n).initquantity
  | p + 1 => quantityBefore inp delivery n p
      + (∑ v ∈ Finset.range inp.vehicles.length, delivery p v n) - inp.demand n p

/-- The expression `quantity` in the node capacity constraint of period `p`:
the deliveries of period `p` are added, its demand is not yet subtracted. -/
def quantityDelivered (inp : Input) (delivery : Nat → Nat → Nat → ℚ) (n p : Nat) : ℚ :=
  quantityBefore inp delivery n p + ∑ v ∈ Finset.range inp.vehicles.length, delivery p v n

/-- The expression `quantityLevel[n][p]`. -/
def quantityLevel (inp : Input) (delivery : Nat → Nat → Nat → ℚ) (n p : Nat) : ℚ :=
  quantityDelivered inp delivery n p - inp.demand n p

/-- The variable bounds and the constraints that `callModel` adds to the model
for the matrix `visits`, as a predicate on an assignment of the variables
`delivery[p][v][n]`. -/
def CallModelConstraints (inp : Input) (visits : Visits) (delivery : Nat → Nat → Nat → ℚ) :
    Prop :=
  (∀ p, p < inp.periodnum → ∀ v, v < inp.vehicles.length →
    (∀ n, n < inp.depotnum →
      -(inp.deliveryCap v n : ℚ) ≤ delivery p v n ∧ delivery p v n ≤ 0)
    ∧ (∀ n, inp.depotnum ≤ n → n < inp.nodes.length →
      0 ≤ delivery p v n ∧ delivery p v n ≤ (inp.deliveryCap v n : ℚ)))
  ∧ (∀ n, n < inp.nodes.length → ∀ p, p < inp.periodnum →
    quantityDelivered inp delivery n p ≤ ((inp.node n).capacity : ℚ)
      ∧ 0 ≤ quantityLevel inp delivery n p)
  ∧ (∀ p, p < inp.periodnum → ∀ v, v < inp.vehicles.length →
    (∀ n, n < inp.nodes.length →
      (if inp.depotnum ≤ n then (1 : ℚ) else -1) * delivery p v n
        ≤ (inp.deliveryCap v n : ℚ) * (visits p n : ℚ))
    ∧ ∑ n ∈ Finset.range inp.nodes.length, delivery p v n = 0)

/-- The value `aux.initHoldingCost` computed by `Solver::init`. -/
def initHoldingCost (inp : Input) : Price :=
  ∑ n ∈ Finset.range inp.nodes.length, (inp.node n).holdingcost * ((inp.node n).initquantity : ℚ)

/-- The objective `holdingCost` of the model of `callModel`. -/
def holdingCostObjective (inp : Input) (delivery : Nat → Nat → Nat → ℚ) : Price :=
  initHoldingCost inp + ∑ n ∈ Finset.range inp.nodes.length, ∑ p ∈ Finset.range inp.periodnum,
    (inp.node n).holdingcost * quantityLevel inp delivery n p

/-- The external LP engine is sound for the instance: when `mp.optimize()`
succeeds on the model of a visit matrix, the objective value it reports is
attained by an assignment that satisfies the constraints of that model. -/
def MpSolverSound (c : Config) (inp : Input) : Prop :=
  ∀ visits objective, c.mpOptimize visits = some objective →
    ∃ delivery, CallModelConstraints inp visits delivery
      ∧ holdingCostObjective inp delivery = objective

/-- The inventory level of the data model: `initQty_n + Σ_{p'≤p,v} d[p'][v][n]
− Σ_{p'≤p} demand_n[p']`. -/
def stock (inp : Input) (delivery : Nat → Nat → Nat → ℚ) (n p : Nat) : ℚ :=
  ((inp.node n).initquantity : ℚ)
    + (∑ p' ∈ Finset.range (p + 1), ∑ v ∈ Finset.range inp.vehicles.length, delivery p' v n)
    - ∑ p' ∈ Finset.range (p + 1), (inp.demand n p' : ℚ)

/-- An instance with one period and one vehicle of capacity `10`: a depot with
capacity `3` that produces `5` units (demand `-5`, the sign the instance
converter gives to the supplier), and a customer without demand. -/
def producerInput : Input where
  periodnum := 1
  depotnum := 1
  vehicles := [10]
  nodes := [⟨0, 3, 1, [-5]⟩, ⟨0, 10, 1, [0]⟩]

/-- Scenario S3: one depot (any data), one customer with demands `[8,8]`,
initial quantity `0` and capacity `10`, two periods, `vehicleNum` vehicles of
capacity `10`. -/
def s3Input (depot : Node) (holdingcost : Price) (vehicleNum : Nat) : Input where
  periodnum := 2
  depotnum := 1
  vehicles := List.replicate vehicleNum 10
  nodes := [depot, ⟨0, 10, holdingcost, [8, 8]⟩]

/-- The matrix `[[1,1],[1,0]]` of scenario S3. -/
def s3Visits : Visits := fun p n => if (p = 0 ∧ n < 2) ∨ (p = 1 ∧ n = 0) then 1 else 0

/-! ## Closed forms of the TSP repair -/

/-- The list `nodeIdMap[0 .. coords.size())` that `callLKH` collects for period
`p`: the nodes with `visits[p][n]` set, in increasing order. -/
def visitedNodes (c : Config) (visits : Visits) (p : Nat) : List Nat :=
  (List.range c.nodeNum).filter (fun n => decide (visits p n ≠ 0))

/-- The tour that one pass of the loop of `callLKH` stores in `curTours[p]`. -/
def repairedTour (c : Config) (visits : Visits) (p : Nat) : List Nat :=
  if (visitedNodes c visits p).length > 2 then
    c.tspSolve (visitedNodes c visits p) ++ [(c.tspSolve (visitedNodes c visits p)).headD 0]
  else if (visitedNodes c visits p).length = 2 then
    [(visitedNodes c visits p).getD 0 0, (visitedNodes c visits p).getD 1 0,
      (visitedNodes c visits p).getD 0 0]
  else [0, 0]

/-- The price that one pass of the loop of `callLKH` stores in `tourPrices[p]`. -/
def repairedPrice (c : Config) (visits : Visits) (routingCost : Nat → Nat → Price) (p : Nat) :
    Price :=
  if (visitedNodes c visits p).length ≥ 2 then tourCost routingCost (repairedTour c visits p)
  else 0

/-- The matrix `[[1,1,0],[1,0,0]]`: `exampleVisits` with customer `2` removed
from period `1`, which is then empty. -/
def emptyPeriodVisits : Visits := exampleVisits.set 1 2 0

/-- A move on `visits` followed by its inverse: a MOV of node `n ≥ 1` from
period `p2` to period `p1` and the MOV back, or `DEL(p,n)` and `ADD(p,n)`. -/
inductive InversePair (visits : Visits) : Actor → Actor → Prop where
  | mov (p1 p2 n : Nat) (hn : 1 ≤ n) (h1 : visits p1 n = 0) (h2 : visits p2 n = 1)
      (tc mc tc' mc' : Price) :
      InversePair visits ⟨ActorType.MOV, tc, mc, p1, n, p2, n⟩
        ⟨ActorType.MOV, tc', mc', p2, n, p1, n⟩
  | delAdd (p n : Nat) (hn : 1 ≤ n) (h : visits p n = 1) (tc mc tc' mc' : Price) :
      InversePair visits ⟨ActorType.DEL, tc, mc, -1, -1, p, n⟩
        ⟨ActorType.ADD, tc', mc', p, n, -1, -1⟩

/-! ## Solutions and the aggregation over the workers -/

/-- A delivery `(node, quantity)` of a vehicle route. -/
structure Delivery where
  node : Nat
  quantity : Int

/-- The type `Solution`: `totalCost` and, for period `p` and vehicle `v`, the
list `periodroutes(p).vehicleroutes(v).deliveries`. -/
structure Solution where
  totalCost : Price
  deliveries : Nat → Nat → List Delivery

/-- The loop of `Solver::solve` that collects the best result among the
workers, from worker `i` on, with the current `(bestIndex, bestValue)`; each
worker is given by `success[i]` and `solutions[i].totalCost`. -/
def collectBest : List (Bool × Price) → Nat → Int × Price → Int × Price
  | [], _, best => best
  | (success, totalCost) :: rest, i, (bestIndex, bestValue) =>
    if ¬ success then collectBest rest (i + 1) (bestIndex, bestValue)
    else if totalCost ≤ bestValue then collectBest rest (i + 1) (bestIndex, bestValue)
    else collectBest rest (i + 1) ((i : Int), totalCost)

/-- The end of `Solver::solve`, after the workers have been joined: `none` for
`return false`, otherwise the solution assigned to `output`. -/
def solveOutput (workers : List (Bool × Solution)) : Option Solution :=
  let best := collectBest (workers.map (fun w => (w.1, w.2.totalCost))) 0 (-1, 0)
  if best.1 < 0 then none
  else (workers[best.1.toNat]?).map (fun w => w.2)

/-! ## Initialisation -/

/-- The coordinates `x()`, `y()` of a node of the instance. -/
structure Coord where
  x : ℚ
  y : ℚ

/-- The expression `round(hypot(dx, dy))`, in exact arithmetic: the integer
nearest to `√(dx² + dy²)`, halves rounded away from zero, computed as
`⌊(⌊√⌊4(dx² + dy²)⌋⌋ + 1) / 2⌋`. -/
def roundHypot (dx dy : ℚ) : Price :=
  (((Nat.sqrt (Int.toNat ⌊4 * (dx * dx + dy * dy)⌋) + 1) / 2 : Nat) : ℚ)

/-- The assignment `routingCost[n][m] = value`. -/
def setCost (routingCost : Nat → Nat → Price) (n m : Nat) (value : Price) : Nat → Nat → Price :=
  fun i j => if i = n ∧ j = m then value else routingCost i j

/-- The value `round(hypot(i->x() - j->x(), i->y() - j->y()))` for the nodes
with indices `n` and `m`. -/
def nodeDistance (coords : List Coord) (n m : Nat) : Price :=
  roundHypot ((coords.getD n ⟨0, 0⟩).x - (coords.getD m ⟨0, 0⟩).x)
    ((coords.getD n ⟨0, 0⟩).y - (coords.getD m ⟨0, 0⟩).y)

/-- The matrix `aux.routingCost` after the loop nest of `Solver::init`, which
starts from the all-zero matrix of `reset()` and, for every node `n` and every
node `m` before it, stores the distance in `[m][n]` and then in `[n][m]`. -/
def initRoutingCost (coords : List Coord) : Nat → Nat → Price :=
  (List.range coords.length).foldl (fun routingCost n =>
    (List.range n).foldl (fun routingCost m =>
      setCost (setCost routingCost m n (nodeDistance coords n m)) n m (nodeDistance coords n m))
      routingCost) (fun _ _ => 0)

/-- The function `Solver::init`, as far as the state of the search is concerned:
it fills `aux.routingCost`; the other members are allocated (`resize` only adds
clear bits to `H1`, `H2`, `H3`). -/
def init (coords : List Coord) (s : Solver) : Solver :=
  { s with routingCost := initRoutingCost coords }

/-! ## Recording a solution -/

/-- The body of the loop over the vehicles in `Solver::initialSln`, for period
`p` and vehicle `v`: a non-empty delivery list appends its last node and then
all its nodes to `curTours[p]` and marks them in `bestVisits[p]`, an empty one
overwrites `curTours[p]` with `{0, 0}`; then the cost of the whole of
`curTours[p]` is added to `tourPrices[p]`. The result is `none` when a node of
the list is not an index of the matrices. -/
def initialSlnVehicle (c : Config) (sln : Solution) (p : Nat) (s : Solver) (v : Nat) :
    Option Solver :=
  let delivs := sln.deliveries p v
  let s1 : Option Solver :=
    match delivs.getLast? with
    | some last =>
      if delivs.all (fun d => decide (d.node < c.nodeNum)) then
        some { s with
          bestVisits := delivs.foldl (fun visits d => visits.set p d.node 1) s.bestVisits
          curTours := fun q =>
            if q = p then s.curTours p ++ last.node :: delivs.map (fun d => d.node)
            else s.curTours q }
      else none
    | none => some { s with curTours := fun q => if q = p then [0, 0] else s.curTours q }
  s1.map (fun s1 => { s1 with
    tourPrices := fun q =>
      if q = p then s1.tourPrices p + tourCost s1.routingCost (s1.curTours p)
      else s1.tourPrices q })

/-- The body of the loop over the periods in `Solver::initialSln`. -/
def initialSlnPeriod (c : Config) (inp : Input) (sln : Solution) (s : Solver) (p : Nat) :
    Option Solver :=
  if c.nodeNum = 0 then none
  else
    (List.range inp.vehicles.length).foldlM (initialSlnVehicle c sln p)
      { s with
        bestVisits := s.bestVisits.set p 0 1
        curTours := fun q => if q = p then [] else s.curTours q }

/-- The function `Solver::initialSln(sln)`; `none` stands for an access outside
the matrices. -/
def initialSln (c : Config) (inp : Input) (sln : Solution) (s : Solver) : Option Solver :=
  (List.range c.periodNum).foldlM (initialSlnPeriod c inp sln)
    { s with
      bestCost := sln.totalCost
      tourPrices := fun _ => 0
      bestVisits := fun _ _ => 0 }

/-- The value of `curTours[p]` that `initialSln` builds from the deliveries of
one vehicle. -/
def deliveryTour (delivs : List Delivery) : List Nat :=
  match delivs.getLast? with
  | some last => last.node :: delivs.map (fun d => d.node)
  | none => [0, 0]

/-- An instance with two vehicles. -/
def twoVehicleInput : Input :=
  { periodnum := 2, depotnum := 1, vehicles := [10, 10], nodes := [] }

/-- An instance with one vehicle. -/
def oneVehicleInput : Input :=
  { periodnum := 2, depotnum := 1, vehicles := [10], nodes := [] }

/-- A solution in which vehicle 0 visits customer 1 in every period and
vehicle 1 stays at the depot. -/
def idleVehicleSln : Solution :=
  { totalCost := 50
    deliveries := fun _ v => if v = 0 then [⟨1, 5⟩, ⟨0, 0⟩] else [] }

/-- A solution in which vehicle 0 visits customer 1 and vehicle 1 visits
customer 2 in every period. -/
def twoRouteSln : Solution :=
  { totalCost := 50
    deliveries := fun _ v => if v = 0 then [⟨1, 5⟩, ⟨0, 0⟩] else [⟨2, 5⟩, ⟨0, 0⟩] }

/-! ## The search -/

/-- The call `rand.pick(n)` on a stream of raw random numbers: the value drawn
and the rest of the stream (an exhausted stream yields `0`). -/
def pick (rs : List Nat) (n : Nat) : Nat × List Nat := (rs.headD 0 % n, rs.tail)

/-- The function `Solver::sampling(pool, res, K)`: the list `res` and the rest
of the random stream. -/
def sampling (pool : List Nat) (K : Nat) (rs : List Nat) : List Nat × List Nat :=
  let N := pool.length
  let K := if N > K then K else N
  (List.range' K (N - K)).foldl (fun (st : List Nat × List Nat) i =>
      let r := pick st.2 (i + 1)
      (if r.1 < K then st.1.set r.1 (pool.getD i 0) else st.1, r.2))
    (pool.take K, rs)

/-- The list `room` of `Solver::disturb`: the cells `p * nodeNum + n` with
`n ≥ 1`, in row-major order, that are visited (`visited = true`) or not
visited (`visited = false`). -/
def cellRoom (c : Config) (visits : Visits) (visited : Bool) : List Nat :=
  (List.range c.periodNum).flatMap (fun p =>
    ((List.range' 1 (c.nodeNum - 1)).filter (fun n => decide (visits p n ≠ 0) == visited)).map
      (fun n => p * c.nodeNum + n))

/-- The list `movRoom` of `Solver::disturb`. -/
def movRoom (c : Config) (visits : Visits) : List (Nat × Nat) :=
  (List.range' 1 (c.nodeNum - 1)).flatMap (fun n =>
    (List.range c.periodNum).flatMap (fun p1 =>
      (List.range' (p1 + 1) (c.periodNum - (p1 + 1))).flatMap (fun p2 =>
        (if visits p1 n ≠ 0 ∧ visits p2 n = 0 then [(p2 * c.nodeNum + n, p1 * c.nodeNum + n)]
          else [])
        ++ (if visits p1 n = 0 ∧ visits p2 n ≠ 0 then [(p1 * c.nodeNum + n, p2 * c.nodeNum + n)]
          else []))))

/-- The assignment `visits[vid / nodeNum][vid % nodeNum] = x`. -/
def setCell (c : Config) (visits : Visits) (vid : Nat) (x : Int) : Visits :=
  visits.set (vid / c.nodeNum) (vid % c.nodeNum) x

/-- The local state of the move loop of `Solver::disturb`. -/
structure MovState where
  visits : Visits
  addOpts : List Nat
  delOpts : List Nat
  mvNum : Nat
  movRoom : List (Nat × Nat)
  rs : List Nat

/-- The move loop of `Solver::disturb`; every pass erases one element of
`movRoom`, and the first argument bounds the number of passes. -/
def movLoop (c : Config) (movNumber : Nat) : Nat → MovState → MovState
  | 0, st => st
  | fuel + 1, st =>
    if st.mvNum < movNumber ∧ st.movRoom.length > 0 then
      let r := pick st.rs st.movRoom.length
      let pos := r.1
      let mov := st.movRoom.getD pos (0, 0)
      let st1 : MovState :=
        if ¬ (mov.1 ∈ st.addOpts) ∧ ¬ (mov.2 ∈ st.delOpts) then
          let visits1 := setCell c (setCell c st.visits mov.1 1) mov.2 0
          if callModel c visits1 < 0 then
            { st with visits := setCell c (setCell c visits1 mov.1 0) mov.2 1 }
          else
            { st with visits := visits1, mvNum := st.mvNum + 1,
                      addOpts := st.addOpts ++ [mov.1], delOpts := st.delOpts ++ [mov.2] }
        else st
      movLoop c movNumber fuel { st1 with movRoom := st.movRoom.eraseIdx pos, rs := r.2 }
    else st

/-- The local state of the deletion loop of `Solver::disturb`. -/
structure DelState where
  visits : Visits
  delNum : Nat
  room : List Nat
  rs : List Nat

/-- The deletion loop of `Solver::disturb`; every pass erases one element of
`room`, and the first argument bounds the number of passes. -/
def delLoop (c : Config) (delNumber : Nat) : Nat → DelState → DelState
  | 0, st => st
  | fuel + 1, st =>
    if st.delNum < delNumber ∧ st.room.length > 0 then
      let r := pick st.rs st.room.length
      let pos := r.1
      let del := st.room.getD pos 0
      let visits1 := setCell c st.visits del 0
      let st1 : DelState :=
        if callModel c visits1 < 0 then { st with visits := setCell c visits1 del 1 }
        else { st with visits := visits1, delNum := st.delNum + 1 }
      delLoop c delNumber fuel { st1 with room := st.room.eraseIdx pos, rs := r.2 }
    else st

/-- The body of the `do`-`while` loop of `Solver::disturb`: the matrix after
the additions, the moves and the deletions, and the rest of the random
stream. -/
def disturbRound (c : Config) (addNumber delNumber movNumber : Nat) (visits : Visits)
    (rs : List Nat) : Visits × List Nat :=
  let added := sampling (cellRoom c visits false) addNumber rs
  let visits1 := added.1.foldl (fun visits vid => setCell c visits vid 1) visits
  let room := movRoom c visits1
  let moved := movLoop c movNumber room.length
    { visits := visits1, addOpts := [], delOpts := [], mvNum := 0, movRoom := room, rs := added.2 }
  let room2 := cellRoom c moved.visits true
  let deleted := delLoop c delNumber room2.length
    { visits := moved.visits, delNum := 0, room := room2, rs := moved.rs }
  (deleted.visits, deleted.rs)

/-- The `do`-`while` loop of `Solver::disturb`; the first argument is the number
of times `timer.isTimeOut()` answers `false`. -/
def disturbLoop (c : Config) (s : Solver) (addNumber delNumber movNumber : Nat) :
    Nat → Visits → List Nat → Visits × List Nat
  | 0, visits, rs => disturbRound c addNumber delNumber movNumber visits rs
  | rounds + 1, visits, rs =>
    let r := disturbRound c addNumber delNumber movNumber visits rs
    if isTabu c s r.1 then disturbLoop c s addNumber delNumber movNumber rounds r.1 r.2
    else r

/-- What a call of `Solver::disturb` takes from outside: the raw random numbers
of the perturbation, the number of times the timer lets the `do`-`while` loop
go on, and the random numbers of the passes that the timer grants to
`mixTabuSearch`. -/
structure DisturbOracle where
  numbers : List Nat
  rounds : Nat
  picks : List Nat

/-- The function `Solver::disturb(visits)` up to the call of `mixTabuSearch`:
the perturbed matrix, its cost `callModel(visits) + callLKH(visits)`, and the
solver after the update of `bestCost` and `bestVisits`. -/
def disturbHead (c : Config) (o : DisturbOracle) (s : Solver) (visits : Visits) :
    Solver × Visits × Price :=
  let r1 := pick o.numbers 2
  let r2 := pick r1.2 2
  let r3 := pick r2.2 3
  let addNumber := 2 + r1.1
  let delNumber := 1 + r2.1
  let movNumber := 4 + r3.1
  let visits1 := (disturbLoop c s addNumber delNumber movNumber o.rounds visits r3.2).1
  let lkh := callLKH c s visits1 (-1) (-1)
  let totalCost := callModel c visits1 + lkh.2
  if strongLess c totalCost lkh.1.bestCost then
    ({ lkh.1 with bestCost := totalCost, bestVisits := visits1 }, visits1, totalCost)
  else (lkh.1, visits1, totalCost)

/-- The function `Solver::disturb(visits)`. -/
def disturb (c : Config) (o : DisturbOracle) (s : Solver) (visits : Visits) : TabuRun :=
  let h := disturbHead c o s visits
  mixTabuSearch c o.picks h.1 h.2.1 h.2.2

/-- The value of `p` in pass `i` of `Solver::mixFinalSearch`:
`100000 * 0.99^i` cut to an `int` (in exact arithmetic), and at least
`50000`. -/
def finalThreshold (i : Nat) : Int :=
  let p := ⌊(100000 : ℚ) * (99 / 100) ^ i⌋
  if p < 50000 then 50000 else p

/-- The loop of `Solver::mixFinalSearch` from pass `i` on, with the solver and
`aux.curVisits`; the list holds, for every pass that the timer grants, the raw
random number behind `rand.pick(100000)` and what the call of `disturb` takes
from outside. -/
def mixFinalSearch (c : Config) : Nat → List (Nat × DisturbOracle) → Solver → Visits →
    Solver × Visits
  | _, [], s, curVisits => (s, curVisits)
  | i, o :: rest, s, curVisits =>
    let curVisits1 :=
      if ((pick [o.1] 100000).1 : Int) < finalThreshold i then s.bestVisits else curVisits
    let run := disturb c o.2 s curVisits1
    mixFinalSearch c (i + 1) rest run.solver run.visits

/-- The MIP callback `nodeSetHandler` over the solutions `curSln` that one call
of `mp.optimize()` reports, in the order of the reports: `curSln` is swapped
into `sln` when `Math::strongLess(curSln.totalCost, sln.totalCost)`. -/
def acceptIncumbents (c : Config) (incumbents : List Solution) (sln : Solution) : Solution :=
  incumbents.foldl (fun sln curSln =>
    if strongLess c curSln.totalCost sln.totalCost then curSln else sln) sln

/-- The function `Solver::iteratedModel(sln)`, given the solutions its callback
is called with: the value of `sln` and the solver after `initialSln(sln)`. -/
def iteratedModel (c : Config) (inp : Input) (incumbents : List Solution) (sln : Solution)
    (s : Solver) : Option (Solution × Solver) :=
  let sln1 := acceptIncumbents c incumbents sln
  (initialSln c inp sln1 s).map (fun s1 => (sln1, s1))

/-- The function `Solver::getNeighWithModel(sln, visits, pl, timeInSec)`, given
the solutions its callback is called with (the other arguments only shape the
MIP): the value of `sln` and the solver after `initialSln(sln)`. -/
def getNeighWithModel (c : Config) (inp : Input) (incumbents : List Solution) (sln : Solution)
    (s : Solver) : Option (Solution × Solver) :=
  let sln1 := acceptIncumbents c incumbents sln
  (initialSln c inp sln1 s).map (fun s1 => (sln1, s1))

/-- What a call of `Solver::execSearch` takes from outside: the solutions
reported to the callback of `iteratedModel`, of `getNeighWithModel` on the
periods `{p, p+1, p+2}` and, in round `i`, on the periods `{p, p+1}`; the random
numbers of the passes of the first `mixTabuSearch`; the passes of
`mixFinalSearch`; and whether `mp.optimize()` succeeds in `getBestSln`. -/
structure SearchOracle where
  initial : List Solution
  three : Nat → List Solution
  two : Nat → Nat → List Solution
  picks : List Nat
  final : List (Nat × DisturbOracle)
  bestFeasible : Bool

/-- The calls of `getNeighWithModel` in `Solver::execSearch`, in order, each
given by the solutions reported to its callback. -/
def neighPhases (c : Config) (o : SearchOracle) : List (List Solution) :=
  (List.range (c.periodNum - 2)).map o.three
    ++ (List.range 2).flatMap (fun i => (List.range (c.periodNum - 1)).map (o.two i))

/-- A sequence of calls of `getNeighWithModel`. -/
def mipPhases (c : Config) (inp : Input) : List (List Solution) → Solution → Solver →
    Option (Solution × Solver)
  | [], sln, s => some (sln, s)
  | incumbents :: rest, sln, s =>
    match getNeighWithModel c inp incumbents sln s with
    | none => none
    | some r => mipPhases c inp rest r.1 r.2

/-- The function `Solver::getBestSln(sln, visits)`, as far as the solver is
concerned: `callLKH(visits)` is called when `mp.optimize()` succeeds. -/
def getBestSln (c : Config) (feasible : Bool) (s : Solver) (visits : Visits) : Solver :=
  if feasible then (callLKH c s visits (-1) (-1)).1 else s

/-- The function `Solver::execSearch(sln)`, as far as the solver is concerned;
`none` stands for an access outside the matrices in `initialSln`. -/
def execSearch (c : Config) (inp : Input) (o : SearchOracle) (sln : Solution) (s : Solver) :
    Option Solver :=
  match iteratedModel c inp o.initial sln s with
  | none => none
  | some r1 =>
    match mipPhases c inp (neighPhases c o) r1.1 r1.2 with
    | none => none
    | some r2 =>
      let run := mixTabuSearch c o.picks r2.2 r2.2.bestVisits r2.2.bestCost
      let fin := mixFinalSearch c 0 o.final run.solver run.visits
      some (getBestSln c o.bestFeasible fin.1 fin.1.bestVisits)

/-! ### The states of the solver along the search -/

/-- The solver after each pass through the loop of `mixTabuSearch`. -/
def mixTabuStates (c : Config) : List Nat → TabuRun → List Solver
  | [], _ => []
  | r :: rs, st =>
    match mixTabuIter c r st with
    | (false, st1) => [st1.solver]
    | (true, st1) => st1.solver :: mixTabuStates c rs st1

/-- The solver after `execTabu(visits, true)` and after each pass through the
loop of `mixTabuSearch(visits, modelCost)`. -/
def mixTabuSearchStates (c : Config) (picks : List Nat) (s : Solver) (visits : Visits)
    (modelCost : Price) : List Solver :=
  execTabuVisits c s visits true
    :: mixTabuStates c picks { solver := execTabuVisits c s visits true, visits := visits,
                               modelCost := modelCost, step := 0, isImproved := false }

/-- The solver after the update of the best solution in `disturb`, followed by
the states of its call of `mixTabuSearch`. -/
def disturbStates (c : Config) (o : DisturbOracle) (s : Solver) (visits : Visits) :
    List Solver :=
  let h := disturbHead c o s visits
  h.1 :: mixTabuSearchStates c o.picks h.1 h.2.1 h.2.2

/-- The states of the calls of `disturb` in `mixFinalSearch`, in order. -/
def mixFinalStates (c : Config) : Nat → List (Nat × DisturbOracle) → Solver → Visits →
    List Solver
  | _, [], _, _ => []
  | i, o :: rest, s, curVisits =>
    let curVisits1 :=
      if ((pick [o.1] 100000).1 : Int) < finalThreshold i then s.bestVisits else curVisits
    let run := disturb c o.2 s curVisits1
    disturbStates c o.2 s curVisits1 ++ mixFinalStates c (i + 1) rest run.solver run.visits

/-- The solver after each call of `initialSln` in a sequence of calls of
`getNeighWithModel`. -/
def mipStates (c : Config) (inp : Input) : List (List Solution) → Solution → Solver →
    List Solver
  | [], _, _ => []
  | incumbents :: rest, sln, s =>
    match getNeighWithModel c inp incumbents sln s with
    | none => []
    | some r => r.2 :: mipStates c inp rest r.1 r.2

/-- The states of the solver along `execSearch`, in order: after each call of
`initialSln`, after each pass of the first `mixTabuSearch`, along every call of
`disturb`, and after `getBestSln`. The list ends where the run does. -/
def execSearchStates (c : Config) (inp : Input) (o : SearchOracle) (sln : Solution)
    (s : Solver) : List Solver :=
  match iteratedModel c inp o.initial sln s with
  | none => []
  | some r1 =>
    r1.2 :: (mipStates c inp (neighPhases c o) r1.1 r1.2 ++
      match mipPhases c inp (neighPhases c o) r1.1 r1.2 with
      | none => []
      | some r2 =>
        let run := mixTabuSearch c o.picks r2.2 r2.2.bestVisits r2.2.bestCost
        let fin := mixFinalSearch c 0 o.final run.solver run.visits
        mixTabuSearchStates c o.picks r2.2 r2.2.bestVisits r2.2.bestCost
          ++ mixFinalStates c 0 o.final run.solver run.visits
          ++ [getBestSln c o.bestFeasible fin.1 fin.1.bestVisits])

/-- One step of the best solution: `bestCost` does not go up, and either
`bestCost` and `bestVisits` both stay, or a value strongly less than the old
`bestCost` is stored (by `disturb` or `mixTabuSearch`), or the step is a call
`initialSln(sln)`, which stores `sln.totalCost`. -/
def BestStep (c : Config) (inp : Input) (a b : Solver) : Prop :=
  b.bestCost ≤ a.bestCost
    ∧ ((b.bestCost = a.bestCost ∧ b.bestVisits = a.bestVisits)
      ∨ strongLess c b.bestCost a.bestCost = true
      ∨ ∃ sln, initialSln c inp sln a = some b ∧ b.bestCost = sln.totalCost)

/-- The solver `b` has the best solution of the solver `a`. -/
def SameBest (a b : Solver) : Prop :=
  b.bestCost = a.bestCost ∧ b.bestVisits = a.bestVisits

/-- A step of `disturb` or `mixTabuSearch`: the best solution stays, or a value
strongly less than the old `bestCost` is stored. -/
def SearchStep (c : Config) (a b : Solver) : Prop :=
  SameBest a b ∨ strongLess c b.bestCost a.bestCost = true

/-- The solution that `Solver::optimize` hands to `execSearch`: no deliveries
and the cost `Problem::MaxCost`. -/
def startSln : Solution := { totalCost := 1000000, deliveries := fun _ _ => [] }

/-- A solution that visits both customers in period 0 and customer 2 in
period 1. -/
def fullSln : Solution :=
  { totalCost := 40
    deliveries := fun p _ => if p = 0 then [⟨1, 5⟩, ⟨2, 5⟩, ⟨0, 0⟩] else [⟨2, 5⟩, ⟨0, 0⟩] }

/-- A run of `execSearch` on the example: the MIP phases report solutions of
cost 50, 60, 40 and 50, the first tabu search gets three passes, and
`mixFinalSearch` gets two. -/
def exampleOracle : SearchOracle :=
  { initial := [idleVehicleSln, { idleVehicleSln with totalCost := 60 }]
    three := fun _ => []
    two := fun i _ => if i = 0 then [fullSln] else [idleVehicleSln]
    picks := [0, 0, 0]
    final := [(0, ⟨[1, 0, 2, 3, 1, 4, 0, 2], 1, [0, 1]⟩), (70000, ⟨[0, 1, 1, 5, 2], 0, [1]⟩)]
    bestFeasible := true }

/-! ## Insertion costs -/

/-- The values `routingCost[a][n] + routingCost[n][b] - routingCost[a][b]` over
the consecutive pairs `(a, b)` of a tour, in the order of the tour: the list
that the claim about `addNodeTourCost` takes the minimum of. -/
def insertionCosts (routingCost : Nat → Nat → Price) (n : Nat) : List Nat → List Price
  | a :: b :: rest =>
    (routingCost a n + routingCost n b - routingCost a b)
      :: insertionCosts routingCost n (b :: rest)
  | _ => []

/-- The local state of `buildMixNeigh` after its three evaluation loops: the
solver, the matrix `visits` and the running minimum `minCost`. -/
def buildMixNeighState (c : Config) (s : Solver) (visits : Visits) (minCost : Price) :
    Option EvalState :=
  match candidateLists c s visits with
  | some (delNeigh, movNeigh, swpNeigh) =>
    let st0 : EvalState := { solver := { s with mixNeigh := [] }, visits := visits,
                             minCost := minCost }
    let st1 := delNeigh.foldl (evalDel c) st0
    let st2 := movNeigh.foldl (evalMov c) st1
    some (swpNeigh.foldl (evalSwp c) st2)
  | none => none

/-! ### The passes of the loops of `disturb` -/

/-- One pass through the body of the move loop of `Solver::disturb`. -/
def movPass (c : Config) (st : MovState) : MovState :=
  let r := pick st.rs st.movRoom.length
  let pos := r.1
  let mov := st.movRoom.getD pos (0, 0)
  let st1 : MovState :=
    if ¬ (mov.1 ∈ st.addOpts) ∧ ¬ (mov.2 ∈ st.delOpts) then
      let visits1 := setCell c (setCell c st.visits mov.1 1) mov.2 0
      if callModel c visits1 < 0 then
        { st with visits := setCell c (setCell c visits1 mov.1 0) mov.2 1 }
      else
        { st with visits := visits1, mvNum := st.mvNum + 1,
                  addOpts := st.addOpts ++ [mov.1], delOpts := st.delOpts ++ [mov.2] }
    else st
  { st1 with movRoom := st.movRoom.eraseIdx pos, rs := r.2 }

/-- One pass through the body of the deletion loop of `Solver::disturb`. -/
def delPass (c : Config) (st : DelState) : DelState :=
  let r := pick st.rs st.room.length
  let pos := r.1
  let del := st.room.getD pos 0
  let visits1 := setCell c st.visits del 0
  let st1 : DelState :=
    if callModel c visits1 < 0 then { st with visits := setCell c visits1 del 1 }
    else { st with visits := visits1, delNum := st.delNum + 1 }
  { st1 with room := st.room.eraseIdx pos, rs := r.2 }

/-- A MOV or DEL operation of a disturbance burst that is left applied: it
moves customer `n ≥ 1` from a period where it is visited to one where it is
not, or deletes a visited customer, and `callModel` returns a value `≥ 0` on
the matrix right after the operation. -/
def ValidatedStep (c : Config) (v v' : Visits) : Prop :=
  0 ≤ callModel c v'
    ∧ ((∃ pa pd n, 1 ≤ n ∧ v pa n = 0 ∧ v pd n = 1 ∧ v' = (v.set pa n 1).set pd n 0)
      ∨ ∃ p n, 1 ≤ n ∧ v p n = 1 ∧ v' = v.set p n 0)

/-- The matrix after the additions of one round of `disturb`, which are
applied without a call of `callModel`. -/
def disturbAdded (c : Config) (addNumber : Nat) (visits : Visits) (rs : List Nat) : Visits :=
  (sampling (cellRoom c visits false) addNumber rs).1.foldl
    (fun visits vid => setCell c visits vid 1) visits

/-- The invariant of the move loop: every entry of `movRoom` pairs two cells
of one customer `n ≥ 1`; the cell to set holds `0` unless it is in `addOpts`,
the cell to clear holds `1` unless it is in `delOpts`. -/
def MovInv (c : Config) (st : MovState) : Prop :=
  ∀ mov, mov ∈ st.movRoom → ∃ pa pd n, 1 ≤ n ∧ n < c.nodeNum
    ∧ mov = (pa * c.nodeNum + n, pd * c.nodeNum + n)
    ∧ (mov.1 ∉ st.addOpts → st.visits pa n = 0)
    ∧ (mov.2 ∉ st.delOpts → st.visits pd n = 1)

/-- The invariant of the deletion loop: the entries of `room` are pairwise
distinct cells of customers `n ≥ 1` that hold `1`. -/
def DelInv (c : Config) (st : DelState) : Prop :=
  st.room.Nodup ∧ ∀ d, d ∈ st.room → ∃ p n, 1 ≤ n ∧ n < c.nodeNum
    ∧ d = p * c.nodeNum + n ∧ st.visits p n = 1

/-- The state of the move loop when it ends, in one round of `disturb`. -/
def disturbMoved (c : Config) (addNumber movNumber : Nat) (visits : Visits) (rs : List Nat) :
    MovState :=
  movLoop c movNumber (movRoom c (disturbAdded c addNumber visits rs)).length
    { visits := disturbAdded c addNumber visits rs, addOpts := [], delOpts := [], mvNum := 0,
      movRoom := movRoom c (disturbAdded c addNumber visits rs),
      rs := (sampling (cellRoom c visits false) addNumber rs).2 }

/-- An instance with two depots (nodes `0` and `1`) and one vehicle. -/
def twoDepotInput : Input :=
  { periodnum := 2, depotnum := 2, vehicles := [10], nodes := [] }

/-! ## Lazy sub-tour elimination -/

/-- The values `e.isTrue(xpv.at(n, m))` of the edge variables of one period and
one vehicle in a MIP callback. -/
abbrev Edges := Nat → Nat → Bool

/-- The expression `inDegree` of node `n`: the number of edges `(m, n)`,
`m ≠ n`, that are set. -/
def inDegree (nodeNum : Nat) (x : Edges) (n : Nat) : Nat :=
  ((List.range nodeNum).filter (fun m => decide (m ≠ n) && x m n)).length

/-- The expression `outDegree` of node `n`. -/
def outDegree (nodeNum : Nat) (x : Edges) (n : Nat) : Nat :=
  ((List.range nodeNum).filter (fun m => decide (m ≠ n) && x n m)).length

/-- The path connectivity constraint `inDegree == outDegree` and the maximal
visit constraint `inDegree <= 1` of the MIP, at every node. -/
def DegreeOK (nodeNum : Nat) (x : Edges) : Prop :=
  ∀ n, n < nodeNum →
    inDegree nodeNum x n = outDegree nodeNum x n ∧ inDegree nodeNum x n ≤ 1

/-- The inner `for` loop of the walk in `subTourHandler`: the first node `n`,
other than `prev`, with the edge `(prev, n)` set. -/
def nextNode (nodeNum : Nat) (x : Edges) (prev : Nat) : Option Nat :=
  (List.range nodeNum).find? (fun n => decide (n ≠ prev) && x prev n)

/-- The `do`-`while (prev != s)` loop of `subTourHandler`, from the node `prev`
on, with the lists `tour` and `visited`; the first argument bounds the number of
passes, and `none` stands for a loop that does not end within it. -/
def walk (nodeNum depotNum : Nat) (x : Edges) (s : Nat) :
    Nat → Nat → List Nat → (Nat → Bool) → Option (List Nat × (Nat → Bool))
  | 0, _, _, _ => none
  | fuel + 1, prev, tour, visited =>
    match nextNode nodeNum x prev with
    | some n =>
      let tour1 := if s ≥ depotNum then tour ++ [n] else tour
      let visited1 := setBit visited n
      if n ≠ s then walk nodeNum depotNum x s fuel n tour1 visited1
      else some (tour1, visited1)
    | none =>
      if prev ≠ s then walk nodeNum depotNum x s fuel prev tour visited
      else some (tour, visited)

/-- The lists `bestTour`, `tour` and `visited` of `subTourHandler`. -/
structure SubTourState where
  bestTour : List Nat
  tour : List Nat
  visited : Nat → Bool

/-- The body of the loop over the start nodes `s` in `subTourHandler`, under
the policy `BestSubTour`. -/
def subTourStart (nodeNum depotNum fuel : Nat) (x : Edges) (st : SubTourState) (s : Nat) :
    Option SubTourState :=
  if st.visited s then some st
  else
    match walk nodeNum depotNum x s fuel s st.tour st.visited with
    | none => none
    | some r =>
      if r.1.isEmpty then some { st with tour := r.1, visited := r.2 }
      else if st.bestTour.isEmpty ∨ r.1.length < st.bestTour.length then
        some { bestTour := r.1, tour := st.bestTour, visited := r.2 }
      else some { st with tour := r.1, visited := r.2 }

/-- The loop over the start nodes for one period and one vehicle: `tour` and
`visited` are cleared, `bestTour` is kept from the pairs before; the result is
`bestTour` after the loop. -/
def subTourPair (nodeNum depotNum fuel : Nat) (x : Edges) (bestTour : List Nat) :
    Option (List Nat) :=
  ((List.range nodeNum).foldlM (subTourStart nodeNum depotNum fuel x)
    { bestTour := bestTour, tour := [], visited := fun _ => false }).map (fun st => st.bestTour)

/-- The pairs `(prev, n)` that the loop over `bestTour` collects, starting from
`prev = bestTour.back()`. -/
def cycleEdges (tour : List Nat) : List (Nat × Nat) :=
  List.zip (tour.getLastD 0 :: tour) tour

/-- A lazy constraint `sum of x[period][vehicle] over edges <= bound`. -/
structure LazyCut where
  period : Nat
  vehicle : Nat
  edges : List (Nat × Nat)
  bound : Nat

/-- The pairs `(period index, vehicle)` in the order of the two outer loops. -/
def handlerPairs (periods vehicleNum : Nat) : List (Nat × Nat) :=
  (List.range periods).flatMap (fun p => (List.range vehicleNum).map (fun v => (p, v)))

/-- The loops of `subTourHandler` over a list of pairs, with the current
`bestTour` and the cuts added so far. -/
def subTourLoop (nodeNum depotNum fuel : Nat) (x : Nat → Nat → Edges) :
    List (Nat × Nat) → List Nat → List LazyCut → Option (List Nat × List LazyCut)
  | [], bestTour, cuts => some (bestTour, cuts)
  | pv :: rest, bestTour, cuts =>
    match subTourPair nodeNum depotNum fuel (x pv.1 pv.2) bestTour with
    | none => none
    | some best1 =>
      subTourLoop nodeNum depotNum fuel x rest best1
        (if best1.isEmpty then cuts
         else cuts ++ [⟨pv.1, pv.2, cycleEdges best1, best1.length - 1⟩])

/-- The callback `subTourHandler` of `iteratedModel` (with `periods = periodNum`)
and of `getNeighWithModel` (with `periods = chPNum`): the lazy constraints it
adds, in order. -/
def subTourHandler (c : Config) (inp : Input) (fuel periods : Nat) (x : Nat → Nat → Edges) :
    Option (List LazyCut) :=
  (subTourLoop c.nodeNum inp.depotnum fuel x (handlerPairs periods inp.vehicles.length) [] []).map
    (fun r => r.2)

/-- The list `tour` is a closed cycle of the edges `x` made of customers only:
pairwise distinct nodes `n` with `depotNum ≤ n < nodeNum`, every one joined to
the next and the last to the first. -/
def IsCustomerCycle (nodeNum depotNum : Nat) (x : Edges) (tour : List Nat) : Prop :=
  tour ≠ [] ∧ tour.Nodup ∧ (∀ n, n ∈ tour → depotNum ≤ n ∧ n < nodeNum)
    ∧ ∀ e, e ∈ cycleEdges tour → e.1 ≠ e.2 ∧ x e.1 e.2 = true

/-- The lazy constraint holds for the edge values `y`. -/
def LazyCut.holds (cut : LazyCut) (y : Edges) : Prop :=
  (cut.edges.filter (fun e => y e.1 e.2)).length ≤ cut.bound

/-- Every closed cycle of the edges `y` passes through a depot. -/
def CyclesThroughDepot (depotNum : Nat) (y : Edges) : Prop :=
  ∀ tour : List Nat, tour ≠ [] → (∀ e, e ∈ cycleEdges tour → y e.1 e.2 = true) →
    ∃ n, n ∈ tour ∧ n < depotNum

/-- The invariant of the loop over the start nodes, before the start node `k`:
`bestTour` is the list `best0` it held on entry or a closed customer cycle of
`x`; `tour` is empty, or at least as long as a non-empty `bestTour`; the visited
nodes are closed under the successor; every start node below `k` that has a
successor is visited. -/
def SubTourInv (nodeNum depotNum : Nat) (x : Edges) (best0 : List Nat) (k : Nat)
    (st : SubTourState) : Prop :=
  (st.bestTour = best0 ∨ IsCustomerCycle nodeNum depotNum x st.bestTour)
    ∧ (st.tour = [] ∨ (st.bestTour ≠ [] ∧ st.bestTour.length ≤ st.tour.length))
    ∧ (∀ a b, st.visited a = true → nextNode nodeNum x a = some b → st.visited b = true)
    ∧ ∀ s', s' < k → (∃ d, nextNode nodeNum x s' = some d) → st.visited s' = true

/-- A cut of `subTourHandler` for a pair of the list `pairs`: its node list
`tour` is a closed customer cycle of the edges of that pair or of a pair before
it, and the constraint is `sum over the cyclic edges of tour <= |tour| - 1`. -/
def CutFromCycle (nodeNum depotNum : Nat) (x : Nat → Nat → Edges) (pairs : List (Nat × Nat))
    (cut : LazyCut) : Prop :=
  ∃ (tour : List Nat) (pre post : List (Nat × Nat)),
    pairs = pre ++ (cut.period, cut.vehicle) :: post
      ∧ cut.edges = cycleEdges tour ∧ cut.bound = tour.length - 1
      ∧ ∃ pv, pv ∈ pre ++ [(cut.period, cut.vehicle)]
          ∧ IsCustomerCycle nodeNum depotNum (x pv.1 pv.2) tour

/-- The variable bounds and the constraints that `iteratedModel` adds to the
model before the search starts, as a predicate on an assignment of the variables
`delivery[p][v][n]` and of the edge variables `x[p][v]`. -/
def IteratedModelConstraints (inp : Input) (x : Nat → Nat → Edges)
    (delivery : Nat → Nat → Nat → ℚ) : Prop :=
  (∀ p, p < inp.periodnum → ∀ v, v < inp.vehicles.length →
    (∀ n, n < inp.depotnum →
      -(inp.deliveryCap v n : ℚ) ≤ delivery p v n ∧ delivery p v n ≤ 0)
    ∧ (∀ n, n < inp.nodes.length → inp.depotnum ≤ n →
      0 ≤ delivery p v n ∧ delivery p v n ≤ (inp.deliveryCap v n : ℚ)))
  ∧ (∀ n, n < inp.nodes.length → ∀ p, p < inp.periodnum →
    quantityDelivered inp delivery n p ≤ ((inp.node n).capacity : ℚ)
      ∧ 0 ≤ quantityLevel inp delivery n p)
  ∧ (∀ p, p < inp.periodnum → ∀ v, v < inp.vehicles.length →
    ∑ n ∈ Finset.range inp.nodes.length, delivery p v n = 0)
  ∧ (∀ p, p < inp.periodnum → ∀ v, v < inp.vehicles.length →
    ∀ n, n < inp.nodes.length →
      inDegree inp.nodes.length (x p v) n = outDegree inp.nodes.length (x p v) n
      ∧ (if inp.depotnum ≤ n then (1 : ℚ) else -1) * delivery p v n
          ≤ (inp.deliveryCap v n : ℚ) * (inDegree inp.nodes.length (x p v) n : ℚ)
      ∧ (inp.depotnum ≤ n → (inDegree inp.nodes.length (x p v) n : ℚ) ≤ delivery p v n)
      ∧ inDegree inp.nodes.length (x p v) n ≤ 1)

/-- An instance with two periods and one vehicle of capacity `10`: a depot that
holds `100` units and produces `10` per period, and four customers that hold `5`
units, have capacity `10` and consume `1` unit per period. -/
def fourCustomerInput : Input where
  periodnum := 2
  depotnum := 1
  vehicles := [10]
  nodes := ⟨100, 1000, 1, [-10, -10]⟩ :: List.replicate 4 ⟨5, 10, 1, [1, 1]⟩

/-- Edge values on the five nodes of `fourCustomerInput`: in period `0` the
depot route `0 → 3 → 0` and the cycle `1 → 2 → 1`, in period `1` the depot route
`0 → 1 → 0` and the cycle `2 → 3 → 4 → 2`. -/
def staleEdges : Nat → Nat → Edges := fun p _ a b =>
  if p = 0 then
    decide ((a = 0 ∧ b = 3) ∨ (a = 3 ∧ b = 0) ∨ (a = 1 ∧ b = 2) ∨ (a = 2 ∧ b = 1))
  else
    decide ((a = 0 ∧ b = 1) ∨ (a = 1 ∧ b = 0) ∨ (a = 2 ∧ b = 3) ∨ (a = 3 ∧ b = 4)
      ∨ (a = 4 ∧ b = 2))

/-- Deliveries that go with `staleEdges`: one unit to every visited customer,
taken from the depot. -/
def staleDelivery : Nat → Nat → Nat → ℚ := fun p _ n =>
  if p = 0 then (if n = 0 then -3 else if n ≤ 3 then 1 else 0)
  else (if n = 0 then -4 else 1)

/-- An instance with one period and one vehicle of capacity `10`: the depot of
`fourCustomerInput` and nine customers like its customers. -/
def nineCustomerInput : Input where
  periodnum := 1
  depotnum := 1
  vehicles := [10]
  nodes := ⟨100, 1000, 1, [-10]⟩ :: List.replicate 9 ⟨5, 10, 1, [1]⟩

/-- Edge values on the ten nodes of `nineCustomerInput`: the depot route
`0 → 9 → 0` and the customer cycles `1 → 2 → 3 → 1`, `4 → 5 → 6 → 4` and
`7 → 8 → 7`. -/
def depotAndThreeCycles : Nat → Nat → Edges := fun _ _ a b =>
  decide ((a = 0 ∧ b = 9) ∨ (a = 9 ∧ b = 0)
    ∨ (a = 1 ∧ b = 2) ∨ (a = 2 ∧ b = 3) ∨ (a = 3 ∧ b = 1) ∨ (a = 4 ∧ b = 5)
    ∨ (a = 5 ∧ b = 6) ∨ (a = 6 ∧ b = 4) ∨ (a = 7 ∧ b = 8) ∨ (a = 8 ∧ b = 7))

/-- Deliveries that go with `depotAndThreeCycles`: one unit to every customer,
taken from the depot. -/
def nineCustomerDelivery : Nat → Nat → Nat → ℚ := fun _ _ n => if n = 0 then -9 else 1

/-- Edge values on nine nodes with the customer cycles `1 → 2 → 3 → 1`,
`4 → 5 → 6 → 4` and `7 → 8 → 7`. -/
def threeCycles : Nat → Nat → Edges := fun _ _ a b =>
  decide ((a = 1 ∧ b = 2) ∨ (a = 2 ∧ b = 3) ∨ (a = 3 ∧ b = 1) ∨ (a = 4 ∧ b = 5)
    ∨ (a = 5 ∧ b = 6) ∨ (a = 6 ∧ b = 4) ∨ (a = 7 ∧ b = 8) ∨ (a = 8 ∧ b = 7))

/-! ## Theorems -/

theorem Visits.set_same (visits : Visits) (p n : Nat) (x : Int) :
    visits.set p n x p n = x := by
  simp [Visits.set]

theorem Visits.set_other (visits : Visits) (p n : Nat) (x : Int) (p' n' : Nat)
    (h : ¬ (p' = p ∧ n' = n)) : visits.set p n x p' n' = visits p' n' := by
  simp [Visits.set, h]

theorem sum_map_range_update (f g : Nat → Nat) (k i0 : Nat) (hi : i0 < k)
    (h : ∀ i, i ≠ i0 → g i = f i) :
    ((List.range k).map g).sum + f i0 = ((List.range k).map f).sum + g i0 := by
  induction k with
  | zero => omega
  | succ k ih =>
    rw [List.range_succ, List.map_append, List.map_append, List.sum_append, List.sum_append]
    simp only [List.map_cons, List.map_nil, List.sum_cons, List.sum_nil, Nat.add_zero]
    by_cases hk : i0 = k
    · subst hk
      have : ((List.range i0).map g) = ((List.range i0).map f) := by
        apply List.map_congr_left
        intro a ha
        exact h a (by have := List.mem_range.mp ha; omega)
      rw [this]; omega
    · have := ih (by omega)
      have := h k (by omega)
      omega

theorem sum_map_range_congr (f g : Nat → Nat) (k : Nat) (h : ∀ i, i < k → g i = f i) :
    ((List.range k).map g).sum = ((List.range k).map f).sum := by
  congr 1
  apply List.map_congr_left
  intro a ha
  exact h a (List.mem_range.mp ha)

/-- Changing one cell of the matrix changes the hash sum by the terms of that cell. -/
theorem visitSum_set (c : Config) (gamma : Nat → Nat) (visits : Visits) (p n : Nat) (x : Int)
    (hp : p < c.periodNum) (hn : n < c.nodeNum) :
    visitSum c gamma (visits.set p n x) + cellTerm c gamma visits p n
      = visitSum c gamma visits + cellTerm c gamma (visits.set p n x) p n := by
  unfold visitSum
  have hrow := sum_map_range_update (fun n' => cellTerm c gamma visits p n')
    (fun n' => cellTerm c gamma (visits.set p n x) p n') c.nodeNum n hn (by
      intro i hi
      simp only [cellTerm]
      rw [Visits.set_other _ _ _ _ _ _ (by intro h; exact hi h.2)])
  have hout := sum_map_range_update
    (fun p' => ((List.range c.nodeNum).map (fun n' => cellTerm c gamma visits p' n')).sum)
    (fun p' => ((List.range c.nodeNum).map
      (fun n' => cellTerm c gamma (visits.set p n x) p' n')).sum) c.periodNum p hp (by
      intro i hi
      apply sum_map_range_congr
      intro j _
      simp only [cellTerm]
      rw [Visits.set_other _ _ _ _ _ _ (by intro h; exact hi h.1)])
  simp only at hrow hout
  omega

theorem uadd_modEq (w x y B : Nat) (hB : B ∣ 2 ^ w) : uadd w x y ≡ x + y [MOD B] := by
  unfold uadd
  exact (Nat.mod_modEq _ _).of_dvd hB

theorem usub_add_modEq (w x y B : Nat) (hB : B ∣ 2 ^ w) : usub w x y + y ≡ x [MOD B] := by
  have hpos : 0 < 2 ^ w := Nat.pow_pos (by decide)
  have hy : y % 2 ^ w < 2 ^ w := Nat.mod_lt _ hpos
  have h1 : usub w x y ≡ x % 2 ^ w + (2 ^ w - y % 2 ^ w) [MOD 2 ^ w] := Nat.mod_modEq _ _
  have h2 : y ≡ y % 2 ^ w [MOD 2 ^ w] := (Nat.mod_modEq _ _).symm
  have h3 : usub w x y + y ≡ x % 2 ^ w + (2 ^ w - y % 2 ^ w) + y % 2 ^ w [MOD 2 ^ w] :=
    Nat.ModEq.add h1 h2
  have h4 : x % 2 ^ w + (2 ^ w - y % 2 ^ w) + y % 2 ^ w = x % 2 ^ w + 2 ^ w := by omega
  rw [h4] at h3
  have h5 : x % 2 ^ w + 2 ^ w ≡ x [MOD 2 ^ w] := by
    unfold Nat.ModEq
    simp
  exact (h3.trans h5).of_dvd hB

theorem foldl_inner_modEq (f : Nat → Nat) (g : Nat → Bool) (l : List Nat) (acc : Nat) :
    l.foldl (fun sum n => if g n then uadd 64 sum (f n) else sum) acc
      ≡ acc + (l.map (fun n => if g n then f n else 0)).sum [MOD 2 ^ 64] := by
  induction l generalizing acc with
  | nil => simp [Nat.ModEq]
  | cons a l ih =>
    simp only [List.foldl_cons, List.map_cons, List.sum_cons]
    refine (ih _).trans ?_
    by_cases hg : g a
    · simp only [hg, if_true]
      have := uadd_modEq 64 acc (f a) (2 ^ 64) (dvd_refl _)
      have h2 := Nat.ModEq.add_right ((l.map (fun n => if g n then f n else 0)).sum) this
      rw [Nat.add_assoc] at h2
      exact h2
    · simp [hg, Nat.ModEq]

theorem foldl_outer_modEq (F : Nat → Nat → Nat) (G : Nat → Nat) (l : List Nat) (acc : Nat)
    (h : ∀ p acc, F acc p ≡ acc + G p [MOD 2 ^ 64]) :
    l.foldl F acc ≡ acc + (l.map G).sum [MOD 2 ^ 64] := by
  induction l generalizing acc with
  | nil => simp [Nat.ModEq]
  | cons a l ih =>
    simp only [List.foldl_cons, List.map_cons, List.sum_cons]
    refine (ih _).trans ?_
    have h2 := Nat.ModEq.add_right ((l.map G).sum) (h a acc)
    rw [Nat.add_assoc] at h2
    exact h2

theorem TabuParams.bitSize_pos {c : Config} (h : TabuParams c) : 0 < c.BitSize := by
  obtain ⟨k, _, hk⟩ := h.bitSize_pow
  rw [hk]; exact Nat.pow_pos (by decide)

theorem TabuParams.bitSize_dvd {c : Config} (h : TabuParams c) (w : Nat) (hw : 32 ≤ w) :
    c.BitSize ∣ 2 ^ w := by
  obtain ⟨k, hk32, hk⟩ := h.bitSize_pow
  rw [hk]; exact Nat.pow_dvd_pow 2 (by omega)

theorem TabuParams.bitSize_le {c : Config} (h : TabuParams c) : c.BitSize ≤ 2 ^ 32 :=
  Nat.le_of_dvd (Nat.pow_pos (by decide)) (h.bitSize_dvd 32 (le_refl _))

/-- The value of `hash` is the exact sum of the terms of the visited cells,
reduced modulo `BitSize`. -/
theorem hash_eq_visitSum (c : Config) (hc : TabuParams c) (visits : Visits) (gamma : Nat → Nat) :
    hash c visits gamma = visitSum c gamma visits % c.BitSize := by
  unfold hash visitSum
  have hfold := foldl_outer_modEq
    (fun sum p => (List.range c.nodeNum).foldl (fun sum n =>
      if visits p n ≠ 0 then
        uadd 64 sum (powTerm gamma ((p : Int) * (c.nodeNum : Int) + (n : Int)))
      else sum) sum)
    (fun p => ((List.range c.nodeNum).map (fun n => cellTerm c gamma visits p n)).sum)
    (List.range c.periodNum) 0 (by
      intro p acc
      have := foldl_inner_modEq
        (fun n => powTerm gamma ((p : Int) * (c.nodeNum : Int) + (n : Int)))
        (fun n => decide (visits p n ≠ 0)) (List.range c.nodeNum) acc
      simp only [decide_eq_true_eq] at this
      exact this)
  simp only [Nat.zero_add] at hfold
  have hB := hfold.of_dvd (hc.bitSize_dvd 64 (by decide))
  have hlt : (List.foldl (fun sum p => (List.range c.nodeNum).foldl (fun sum n =>
      if visits p n ≠ 0 then
        uadd 64 sum (powTerm gamma ((p : Int) * (c.nodeNum : Int) + (n : Int)))
      else sum) sum) 0 (List.range c.periodNum)) % c.BitSize < 2 ^ 32 :=
    lt_of_lt_of_le (Nat.mod_lt _ hc.bitSize_pos) hc.bitSize_le
  simp only [castUnsigned]
  rw [Nat.mod_eq_of_lt hlt]
  exact hB

theorem hash_lt (c : Config) (hc : TabuParams c) (visits : Visits) (gamma : Nat → Nat) :
    hash c visits gamma < c.BitSize := by
  rw [hash_eq_visitSum c hc]
  exact Nat.mod_lt _ hc.bitSize_pos

theorem moveHash_lt (c : Config) (hc : TabuParams c) (gamma : Nat → Nat) (hv : Nat)
    (act : Actor) : moveHash c gamma hv act < c.BitSize := by
  unfold moveHash
  simp only
  split <;> exact Nat.mod_lt _ hc.bitSize_pos

theorem powTerm_zero (gamma : Nat → Nat) (h : gamma 0 = 0) : powTerm gamma 0 = 0 := by
  simp [powTerm, castUnsigned, h]

theorem moveHash_nonswp_modEq (c : Config) (hc : TabuParams c) (gamma : Nat → Nat) (hv : Nat)
    (act : Actor) (h : act.actype ≠ ActorType.SWP) (vid1 vid2 : Int)
    (h1 : (match act.actype with
      | ActorType.DEL => (0 : Int)
      | _ => act.p1 * (c.nodeNum : Int) + act.n1) = vid1)
    (h2 : (match act.actype with
      | ActorType.ADD => (0 : Int)
      | _ => act.p2 * (c.nodeNum : Int) + act.n2) = vid2) :
    moveHash c gamma hv act + powTerm gamma vid2 ≡ hv + powTerm gamma vid1 [MOD c.BitSize] := by
  unfold moveHash
  simp only [h, if_false, h1, h2]
  have hB := hc.bitSize_dvd c.ulongBits hc.ulong_ge
  have hB32 := hc.bitSize_dvd 32 (le_refl _)
  have e1 : (uadd c.ulongBits hv (usub 32 (powTerm gamma vid1) (powTerm gamma vid2)))
      % c.BitSize ≡ hv + usub 32 (powTerm gamma vid1) (powTerm gamma vid2) [MOD c.BitSize] :=
    (Nat.mod_modEq _ _).trans (uadd_modEq _ _ _ _ hB)
  have e2 := usub_add_modEq 32 (powTerm gamma vid1) (powTerm gamma vid2) c.BitSize hB32
  have e3 := (Nat.ModEq.add_right (powTerm gamma vid2) e1)
  rw [Nat.add_assoc] at e3
  exact e3.trans (Nat.ModEq.add_left hv e2)

theorem moveHash_swp_modEq (c : Config) (hc : TabuParams c) (gamma : Nat → Nat) (hv : Nat)
    (act : Actor) (h : act.actype = ActorType.SWP) :
    moveHash c gamma hv act + powTerm gamma (act.p1 * (c.nodeNum : Int) + act.n1)
        + powTerm gamma (act.p2 * (c.nodeNum : Int) + act.n2)
      ≡ hv + powTerm gamma (act.p1 * (c.nodeNum : Int) + act.n2)
        + powTerm gamma (act.p2 * (c.nodeNum : Int) + act.n1) [MOD c.BitSize] := by
  unfold moveHash
  simp only [h, if_true]
  have hB := hc.bitSize_dvd c.ulongBits hc.ulong_ge
  generalize powTerm gamma (act.p1 * (c.nodeNum : Int) + act.n1) = a
  generalize powTerm gamma (act.p2 * (c.nodeNum : Int) + act.n2) = b
  generalize powTerm gamma (act.p1 * (c.nodeNum : Int) + act.n2) = x
  generalize powTerm gamma (act.p2 * (c.nodeNum : Int) + act.n1) = y
  have e1 : (uadd c.ulongBits (uadd c.ulongBits (usub c.ulongBits (usub c.ulongBits hv a) b) x) y)
      % c.BitSize ≡ usub c.ulongBits (usub c.ulongBits hv a) b + x + y [MOD c.BitSize] :=
    (Nat.mod_modEq _ _).trans ((uadd_modEq _ _ _ _ hB).trans
      (Nat.ModEq.add_right y (uadd_modEq _ _ _ _ hB)))
  have e2 := usub_add_modEq c.ulongBits (usub c.ulongBits hv a) b c.BitSize hB
  have e3 := usub_add_modEq c.ulongBits hv a c.BitSize hB
  have e4 : usub c.ulongBits (usub c.ulongBits hv a) b + b + a ≡ hv [MOD c.BitSize] :=
    (Nat.ModEq.add_right a e2).trans e3
  have e5 := Nat.ModEq.add_right b (Nat.ModEq.add_right a e1)
  have e6 := Nat.ModEq.add_right y (Nat.ModEq.add_right x e4)
  have r1 : usub c.ulongBits (usub c.ulongBits hv a) b + x + y + a + b
      = usub c.ulongBits (usub c.ulongBits hv a) b + b + a + x + y := by omega
  rw [r1] at e5
  exact e5.trans e6

/-- A remainder that agrees with the exact sum after adding the same terms is the hash. -/
theorem eq_hash_of_modEq (c : Config) (hc : TabuParams c) (gamma : Nat → Nat) (visits : Visits)
    (r b : Nat) (hr : r < c.BitSize)
    (h : r + b ≡ visitSum c gamma visits + b [MOD c.BitSize]) :
    r = hash c visits gamma := by
  rw [hash_eq_visitSum c hc]
  have h2 : r ≡ visitSum c gamma visits [MOD c.BitSize] := Nat.ModEq.add_right_cancel' b h
  unfold Nat.ModEq at h2
  rw [Nat.mod_eq_of_lt hr] at h2
  exact h2

theorem hash_modEq_visitSum (c : Config) (hc : TabuParams c) (gamma : Nat → Nat)
    (visits : Visits) : hash c visits gamma ≡ visitSum c gamma visits [MOD c.BitSize] := by
  rw [hash_eq_visitSum c hc]
  exact Nat.mod_modEq _ _

/-- Incremental update for a deletion at a visited cell. -/
theorem moveHash_del (c : Config) (hc : TabuParams c) (gamma : Nat → Nat) (hg : gamma 0 = 0)
    (visits : Visits) (p n : Nat) (hp : p < c.periodNum) (hn : n < c.nodeNum)
    (hvis : visits p n ≠ 0) (tc mc : Price) (p1 n1 : Int) :
    moveHash c gamma (hash c visits gamma) ⟨ActorType.DEL, tc, mc, p1, n1, p, n⟩
      = hash c (visits.set p n 0) gamma := by
  have hm := moveHash_nonswp_modEq c hc gamma (hash c visits gamma)
    ⟨ActorType.DEL, tc, mc, p1, n1, p, n⟩ (by simp) 0
    ((p : Int) * (c.nodeNum : Int) + (n : Int)) rfl rfl
  rw [powTerm_zero gamma hg, Nat.add_zero] at hm
  have hs := visitSum_set c gamma visits p n 0 hp hn
  simp only [cellTerm, Visits.set_same, hvis, ne_eq, not_false_eq_true, if_true,
    not_true_eq_false, if_false, Nat.add_zero] at hs
  apply eq_hash_of_modEq c hc gamma _ _ _ (moveHash_lt c hc _ _ _)
  rw [hs]
  exact hm.trans (hash_modEq_visitSum c hc gamma visits)

/-- Incremental update for an insertion at an unvisited cell. -/
theorem moveHash_add (c : Config) (hc : TabuParams c) (gamma : Nat → Nat) (hg : gamma 0 = 0)
    (visits : Visits) (p n : Nat) (hp : p < c.periodNum) (hn : n < c.nodeNum)
    (hvis : visits p n = 0) (tc mc : Price) (p2 n2 : Int) :
    moveHash c gamma (hash c visits gamma) ⟨ActorType.ADD, tc, mc, p, n, p2, n2⟩
      = hash c (visits.set p n 1) gamma := by
  have hm := moveHash_nonswp_modEq c hc gamma (hash c visits gamma)
    ⟨ActorType.ADD, tc, mc, p, n, p2, n2⟩ (by simp)
    ((p : Int) * (c.nodeNum : Int) + (n : Int)) 0 rfl rfl
  rw [powTerm_zero gamma hg, Nat.add_zero] at hm
  have hs := visitSum_set c gamma visits p n 1 hp hn
  simp only [cellTerm, Visits.set_same, hvis, ne_eq, not_true_eq_false, if_false,
    Nat.add_zero, one_ne_zero, not_false_eq_true, if_true] at hs
  apply eq_hash_of_modEq c hc gamma _ _ 0 (moveHash_lt c hc _ _ _)
  rw [Nat.add_zero, Nat.add_zero, hs]
  exact hm.trans (Nat.ModEq.add_right _ (hash_modEq_visitSum c hc gamma visits))

/-- Incremental update for a move from a visited cell to an unvisited cell. -/
theorem moveHash_mov (c : Config) (hc : TabuParams c) (gamma : Nat → Nat)
    (visits : Visits) (p1 n1 p2 n2 : Nat) (hp1 : p1 < c.periodNum) (hn1 : n1 < c.nodeNum)
    (hp2 : p2 < c.periodNum) (hn2 : n2 < c.nodeNum)
    (hvis1 : visits p1 n1 = 0) (hvis2 : visits p2 n2 ≠ 0) (tc mc : Price) :
    moveHash c gamma (hash c visits gamma) ⟨ActorType.MOV, tc, mc, p1, n1, p2, n2⟩
      = hash c ((visits.set p1 n1 1).set p2 n2 0) gamma := by
  have hne : ¬ (p2 = p1 ∧ n2 = n1) := by
    rintro ⟨rfl, rfl⟩
    exact hvis2 hvis1
  have hm := moveHash_nonswp_modEq c hc gamma (hash c visits gamma)
    ⟨ActorType.MOV, tc, mc, p1, n1, p2, n2⟩ (by simp)
    ((p1 : Int) * (c.nodeNum : Int) + (n1 : Int))
    ((p2 : Int) * (c.nodeNum : Int) + (n2 : Int)) rfl rfl
  have hs1 := visitSum_set c gamma visits p1 n1 1 hp1 hn1
  have hs2 := visitSum_set c gamma (visits.set p1 n1 1) p2 n2 0 hp2 hn2
  simp only [cellTerm, Visits.set_same, hvis1, ne_eq, not_true_eq_false, if_false,
    Nat.add_zero, one_ne_zero, not_false_eq_true, if_true] at hs1
  simp only [cellTerm, Visits.set_same, Visits.set_other _ _ _ _ _ _ hne, hvis2, ne_eq,
    not_true_eq_false, if_false, Nat.add_zero, not_false_eq_true, if_true] at hs2
  apply eq_hash_of_modEq c hc gamma _ _ _ (moveHash_lt c hc _ _ _)
  rw [hs2, hs1]
  exact hm.trans (Nat.ModEq.add_right _ (hash_modEq_visitSum c hc gamma visits))

/-- Incremental update for a swap of two customers between two periods. -/
theorem moveHash_swp (c : Config) (hc : TabuParams c) (gamma : Nat → Nat)
    (visits : Visits) (p1 n1 p2 n2 : Nat) (hp1 : p1 < c.periodNum) (hn1 : n1 < c.nodeNum)
    (hp2 : p2 < c.periodNum) (hn2 : n2 < c.nodeNum)
    (h11 : visits p1 n1 ≠ 0) (h22 : visits p2 n2 ≠ 0)
    (h12 : visits p1 n2 = 0) (h21 : visits p2 n1 = 0) (tc mc : Price) :
    moveHash c gamma (hash c visits gamma) ⟨ActorType.SWP, tc, mc, p1, n1, p2, n2⟩
      = hash c ((((visits.set p2 n2 0).set p1 n1 0).set p2 n1 1).set p1 n2 1) gamma := by
  have hp : p1 ≠ p2 := by
    rintro rfl
    exact h22 h12
  have hn : n1 ≠ n2 := by
    rintro rfl
    exact h11 h12
  have hm := moveHash_swp_modEq c hc gamma (hash c visits gamma)
    ⟨ActorType.SWP, tc, mc, p1, n1, p2, n2⟩ rfl
  simp only at hm
  have hsA := visitSum_set c gamma visits p2 n2 0 hp2 hn2
  have hsB := visitSum_set c gamma (visits.set p2 n2 0) p1 n1 0 hp1 hn1
  have hsC := visitSum_set c gamma ((visits.set p2 n2 0).set p1 n1 0) p2 n1 1 hp2 hn1
  have hsD := visitSum_set c gamma (((visits.set p2 n2 0).set p1 n1 0).set p2 n1 1) p1 n2 1
    hp1 hn2
  have d1 : ¬ (p1 = p2 ∧ n1 = n2) := fun h => hp h.1
  have d2 : ¬ (p2 = p1 ∧ n1 = n1) := fun h => hp h.1.symm
  have d3 : ¬ (p2 = p2 ∧ n1 = n2) := fun h => hn h.2
  have d4 : ¬ (p1 = p2 ∧ n2 = n1) := fun h => hp h.1
  have d5 : ¬ (p1 = p1 ∧ n2 = n1) := fun h => hn h.2.symm
  have d6 : ¬ (p1 = p2 ∧ n2 = n2) := fun h => hp h.1
  simp only [cellTerm, Visits.set_same, h22, ne_eq, not_true_eq_false, if_false,
    Nat.add_zero, not_false_eq_true, if_true] at hsA
  simp only [cellTerm, Visits.set_same, Visits.set_other _ _ _ _ _ _ d1, h11, ne_eq,
    not_true_eq_false, if_false, Nat.add_zero, not_false_eq_true, if_true] at hsB
  simp only [cellTerm, Visits.set_same, Visits.set_other _ _ _ _ _ _ d2,
    Visits.set_other _ _ _ _ _ _ d3, h21, ne_eq, one_ne_zero,
    not_true_eq_false, if_false, Nat.add_zero, not_false_eq_true, if_true] at hsC
  simp only [cellTerm, Visits.set_same, Visits.set_other _ _ _ _ _ _ d4,
    Visits.set_other _ _ _ _ _ _ d5, Visits.set_other _ _ _ _ _ _ d6, h12, ne_eq, one_ne_zero,
    not_true_eq_false, if_false, Nat.add_zero, not_false_eq_true, if_true] at hsD
  apply eq_hash_of_modEq c hc gamma _ _
    (powTerm gamma ((p1 : Int) * (c.nodeNum : Int) + (n1 : Int))
      + powTerm gamma ((p2 : Int) * (c.nodeNum : Int) + (n2 : Int))) (moveHash_lt c hc _ _ _)
  have e : visitSum c gamma ((((visits.set p2 n2 0).set p1 n1 0).set p2 n1 1).set p1 n2 1)
      + (powTerm gamma ((p1 : Int) * (c.nodeNum : Int) + (n1 : Int))
        + powTerm gamma ((p2 : Int) * (c.nodeNum : Int) + (n2 : Int)))
      = visitSum c gamma visits + powTerm gamma ((p1 : Int) * (c.nodeNum : Int) + (n2 : Int))
        + powTerm gamma ((p2 : Int) * (c.nodeNum : Int) + (n1 : Int)) := by omega
  rw [e, ← Nat.add_assoc]
  exact hm.trans (Nat.ModEq.add_right _ (Nat.ModEq.add_right _
    (hash_modEq_visitSum c hc gamma visits)))

theorem exampleConfig_tabuParams : TabuParams exampleConfig :=
  ⟨⟨10, by decide, rfl⟩, by decide, rfl, rfl, rfl⟩

/-! ## Properties of the tabu memory -/

/-- C1: for a visit matrix with `hv_k = hash(visits, gamma_k)` and a DEL, MOV or
ADD move on it, the three values that `isTabu(hv1,hv2,hv3,act)` computes
incrementally are the hashes of the post-move matrix, and the answer is that
of `isTabu` on the post-move matrix. -/
theorem isTabuWithMove_eq_isTabu_postMove (c : Config) (hc : TabuParams c) (s : Solver)
    (visits visits' : Visits) (act : Actor) (hv1 hv2 hv3 : Nat)
    (h1 : hv1 = hash c visits c.gamma1) (h2 : hv2 = hash c visits c.gamma2)
    (h3 : hv3 = hash c visits c.gamma3) (hm : NonSwpMove c visits act visits') :
    moveHash c c.gamma1 hv1 act = hash c visits' c.gamma1
      ∧ moveHash c c.gamma2 hv2 act = hash c visits' c.gamma2
      ∧ moveHash c c.gamma3 hv3 act = hash c visits' c.gamma3
      ∧ isTabuWithMove c s hv1 hv2 hv3 act = isTabu c s visits' := by
  have key : ∀ gamma : Nat → Nat, gamma 0 = 0 →
      moveHash c gamma (hash c visits gamma) act = hash c visits' gamma := by
    intro gamma hg
    cases hm with
    | del p n hp hn h tc mc p1 n1 =>
      exact moveHash_del c hc gamma hg visits p n hp hn (by rw [h]; decide) tc mc p1 n1
    | mov p1 p2 n hp1 hp2 hn h1 h2 tc mc =>
      exact moveHash_mov c hc gamma visits p1 n p2 n hp1 hn hp2 hn h1 (by rw [h2]; decide) tc mc
    | add p n hp hn h tc mc p2 n2 =>
      exact moveHash_add c hc gamma hg visits p n hp hn h tc mc p2 n2
  subst h1 h2 h3
  have k1 := key c.gamma1 hc.gamma1_zero
  have k2 := key c.gamma2 hc.gamma2_zero
  have k3 := key c.gamma3 hc.gamma3_zero
  refine ⟨k1, k2, k3, ?_⟩
  simp only [isTabuWithMove, isTabu, k1, k2, k3]

theorem isTabuWithMove_eq_isTabu_postMove_witness :
    NonSwpMove exampleConfig exampleVisits ⟨ActorType.DEL, 0, 0, -1, -1, (0 : Nat), (1 : Nat)⟩
        (exampleVisits.set 0 1 0)
      ∧ isTabuWithMove exampleConfig exampleSolver
          (hash exampleConfig exampleVisits exampleConfig.gamma1)
          (hash exampleConfig exampleVisits exampleConfig.gamma2)
          (hash exampleConfig exampleVisits exampleConfig.gamma3)
          ⟨ActorType.DEL, 0, 0, -1, -1, (0 : Nat), (1 : Nat)⟩
        = isTabu exampleConfig exampleSolver (exampleVisits.set 0 1 0) :=
  ⟨NonSwpMove.del 0 1 (by decide) (by decide) (by decide) 0 0 (-1) (-1),
    (isTabuWithMove_eq_isTabu_postMove exampleConfig exampleConfig_tabuParams exampleSolver
      exampleVisits (exampleVisits.set 0 1 0) ⟨ActorType.DEL, 0, 0, -1, -1, (0 : Nat), (1 : Nat)⟩
      _ _ _ rfl rfl rfl
      (NonSwpMove.del 0 1 (by decide) (by decide) (by decide) 0 0 (-1) (-1))).2.2.2⟩

theorem applyMove_swp (visits : Visits) (p1 n1 p2 n2 : Nat) (tc mc : Price) :
    applyMove visits ⟨ActorType.SWP, tc, mc, p1, n1, p2, n2⟩
      = (((visits.set p2 n2 0).set p1 n1 0).set p2 n1 1).set p1 n2 1 := by
  simp [applyMove]

/-- C2: for two customers `n ≠ m` and two periods with `visits[p1][n] = 1`,
`visits[p2][m] = 1`, `visits[p1][m] = 0`, `visits[p2][n] = 0`, the SWP branch of
the incremental update yields, for each of the three exponents, the hash of
the matrix after the swap, both in `isTabu(hv1,hv2,hv3,act)` and in the
persistent triple written by `execTabu(act)`. -/
theorem swp_moveHash_eq_hash (c : Config) (hc : TabuParams c) (s : Solver) (visits : Visits)
    (p1 p2 n m : Nat) (hp1 : p1 < c.periodNum) (hp2 : p2 < c.periodNum)
    (hn : n < c.nodeNum) (hm : m < c.nodeNum) (_hnm : n ≠ m)
    (h11 : visits p1 n = 1) (h22 : visits p2 m = 1) (h12 : visits p1 m = 0)
    (h21 : visits p2 n = 0) (tc mc : Price)
    (hs1 : s.hashValue1 = hash c visits c.gamma1) (hs2 : s.hashValue2 = hash c visits c.gamma2)
    (hs3 : s.hashValue3 = hash c visits c.gamma3) :
    (moveHash c c.gamma1 (hash c visits c.gamma1) ⟨ActorType.SWP, tc, mc, p1, n, p2, m⟩
        = hash c (applyMove visits ⟨ActorType.SWP, tc, mc, p1, n, p2, m⟩) c.gamma1
      ∧ moveHash c c.gamma2 (hash c visits c.gamma2) ⟨ActorType.SWP, tc, mc, p1, n, p2, m⟩
        = hash c (applyMove visits ⟨ActorType.SWP, tc, mc, p1, n, p2, m⟩) c.gamma2
      ∧ moveHash c c.gamma3 (hash c visits c.gamma3) ⟨ActorType.SWP, tc, mc, p1, n, p2, m⟩
        = hash c (applyMove visits ⟨ActorType.SWP, tc, mc, p1, n, p2, m⟩) c.gamma3)
    ∧ ((execTabuAct c s ⟨ActorType.SWP, tc, mc, p1, n, p2, m⟩).hashValue1
        = hash c (applyMove visits ⟨ActorType.SWP, tc, mc, p1, n, p2, m⟩) c.gamma1
      ∧ (execTabuAct c s ⟨ActorType.SWP, tc, mc, p1, n, p2, m⟩).hashValue2
        = hash c (applyMove visits ⟨ActorType.SWP, tc, mc, p1, n, p2, m⟩) c.gamma2
      ∧ (execTabuAct c s ⟨ActorType.SWP, tc, mc, p1, n, p2, m⟩).hashValue3
        = hash c (applyMove visits ⟨ActorType.SWP, tc, mc, p1, n, p2, m⟩) c.gamma3) := by
  have key : ∀ gamma : Nat → Nat,
      moveHash c gamma (hash c visits gamma) ⟨ActorType.SWP, tc, mc, p1, n, p2, m⟩
        = hash c (applyMove visits ⟨ActorType.SWP, tc, mc, p1, n, p2, m⟩) gamma := by
    intro gamma
    rw [applyMove_swp]
    exact moveHash_swp c hc gamma visits p1 n p2 m hp1 hn hp2 hm (by rw [h11]; decide)
      (by rw [h22]; decide) h12 h21 tc mc
  refine ⟨⟨key _, key _, key _⟩, ?_, ?_, ?_⟩
  · simp only [execTabuAct, hs1, key]
  · simp only [execTabuAct, hs2, key]
  · simp only [execTabuAct, hs3, key]

theorem setBit_mono (H : Nat → Bool) (i j : Nat) (h : H j = true) : setBit H i j = true := by
  unfold setBit
  split
  · rfl
  · exact h

theorem setBit_self (H : Nat → Bool) (i : Nat) : setBit H i i = true := by
  simp [setBit]

theorem TabuOp.run_mono (c : Config) (s : Solver) (op : TabuOp) (i : Nat) :
    (s.H1 i = true → (op.run c s).H1 i = true) ∧ (s.H2 i = true → (op.run c s).H2 i = true)
      ∧ (s.H3 i = true → (op.run c s).H3 i = true) := by
  cases op with
  | execTabuWithMove hv1 hv2 hv3 act =>
    exact ⟨setBit_mono _ _ _, setBit_mono _ _ _, setBit_mono _ _ _⟩
  | execTabuAct act => exact ⟨setBit_mono _ _ _, setBit_mono _ _ _, setBit_mono _ _ _⟩
  | execTabuVisits visits change =>
    cases change <;> exact ⟨setBit_mono _ _ _, setBit_mono _ _ _, setBit_mono _ _ _⟩
  | isTabuWithMove hv1 hv2 hv3 act => exact ⟨id, id, id⟩
  | isTabu visits => exact ⟨id, id, id⟩

theorem TabuOp.foldl_run_mono (c : Config) (ops : List TabuOp) (s : Solver) (i : Nat) :
    (s.H1 i = true → (ops.foldl (TabuOp.run c) s).H1 i = true)
      ∧ (s.H2 i = true → (ops.foldl (TabuOp.run c) s).H2 i = true)
      ∧ (s.H3 i = true → (ops.foldl (TabuOp.run c) s).H3 i = true) := by
  induction ops generalizing s with
  | nil => exact ⟨id, id, id⟩
  | cons op ops ih =>
    simp only [List.foldl_cons]
    have h1 := TabuOp.run_mono c s op i
    have h2 := ih (op.run c s)
    exact ⟨fun h => h2.1 (h1.1 h), fun h => h2.2.1 (h1.2.1 h), fun h => h2.2.2 (h1.2.2 h)⟩

/-- C4: the tabu memory is monotone. Each of the three `execTabu` overloads
keeps every bit of `H1`, `H2`, `H3` that was set, `isTabu` leaves the solver as
it is, and a visit matrix that is tabu stays tabu after any sequence of tabu
operations. -/
theorem tabu_memory_monotone (c : Config) :
    (∀ (s : Solver) (hv1 hv2 hv3 : Nat) (act : Actor) (visits : Visits) (change : Bool) (i : Nat),
      (s.H1 i = true → (execTabuWithMove c s hv1 hv2 hv3 act).H1 i = true
          ∧ (execTabuAct c s act).H1 i = true ∧ (execTabuVisits c s visits change).H1 i = true)
        ∧ (s.H2 i = true → (execTabuWithMove c s hv1 hv2 hv3 act).H2 i = true
          ∧ (execTabuAct c s act).H2 i = true ∧ (execTabuVisits c s visits change).H2 i = true)
        ∧ (s.H3 i = true → (execTabuWithMove c s hv1 hv2 hv3 act).H3 i = true
          ∧ (execTabuAct c s act).H3 i = true ∧ (execTabuVisits c s visits change).H3 i = true))
    ∧ (∀ (s : Solver) (hv1 hv2 hv3 : Nat) (act : Actor) (visits : Visits),
        (TabuOp.isTabuWithMove hv1 hv2 hv3 act).run c s = s ∧ (TabuOp.isTabu visits).run c s = s)
    ∧ (∀ (s : Solver) (ops : List TabuOp) (visits : Visits),
        isTabu c s visits = true → isTabu c (ops.foldl (TabuOp.run c) s) visits = true) := by
  refine ⟨?_, ?_, ?_⟩
  · intro s hv1 hv2 hv3 act visits change i
    have a := TabuOp.run_mono c s (TabuOp.execTabuWithMove hv1 hv2 hv3 act) i
    have b := TabuOp.run_mono c s (TabuOp.execTabuAct act) i
    have d := TabuOp.run_mono c s (TabuOp.execTabuVisits visits change) i
    exact ⟨fun h => ⟨a.1 h, b.1 h, d.1 h⟩, fun h => ⟨a.2.1 h, b.2.1 h, d.2.1 h⟩,
      fun h => ⟨a.2.2 h, b.2.2 h, d.2.2 h⟩⟩
  · intro s hv1 hv2 hv3 act visits
    exact ⟨rfl, rfl⟩
  · intro s ops visits h
    simp only [isTabu, Bool.and_eq_true] at h ⊢
    exact ⟨⟨(TabuOp.foldl_run_mono c ops s _).1 h.1.1, (TabuOp.foldl_run_mono c ops s _).2.1 h.1.2⟩,
      (TabuOp.foldl_run_mono c ops s _).2.2 h.2⟩

/-- C5: `isTabu(visits)` is true exactly when the three bits at the three
hashes of `visits` are set; in particular it is true right after
`execTabu(visits, change)`, for either value of `change`. -/
theorem isTabu_iff_bits_and_after_execTabu (c : Config) (s : Solver) (visits : Visits) :
    (isTabu c s visits = true ↔
      (s.H1 (hash c visits c.gamma1) = true ∧ s.H2 (hash c visits c.gamma2) = true
        ∧ s.H3 (hash c visits c.gamma3) = true))
    ∧ ∀ change : Bool, isTabu c (execTabuVisits c s visits change) visits = true := by
  constructor
  · simp only [isTabu, Bool.and_eq_true, and_assoc]
  · intro change
    cases change <;> simp [isTabu, execTabuVisits, setBit_self]

/-! ## The enumeration of candidates -/

theorem mem_of_collectM {α β : Type} (f : α → Option (List β)) (l : List α) (r : List β)
    (h : collectM f l = some r) (b : β) (hb : b ∈ r) :
    ∃ x, x ∈ l ∧ ∃ ys, f x = some ys ∧ b ∈ ys := by
  induction l generalizing r with
  | nil =>
    simp only [collectM, Option.some.injEq] at h
    subst h
    simp at hb
  | cons x xs ih =>
    simp only [collectM] at h
    cases hx : f x with
    | none => simp [hx] at h
    | some ys =>
      cases hxs : collectM f xs with
      | none => simp [hx, hxs] at h
      | some zs =>
        simp only [hx, hxs, Option.some.injEq] at h
        subst h
        rcases List.mem_append.mp hb with hb | hb
        · exact ⟨x, List.mem_cons_self _ _, ys, hx, hb⟩
        · obtain ⟨y, hy, ws, hws, hbw⟩ := ih zs hxs hb
          exact ⟨y, List.mem_cons_of_mem _ hy, ws, hws, hbw⟩

theorem collectM_isSome {α β : Type} (f : α → Option (List β)) (l : List α)
    (h : ∀ x, x ∈ l → ∃ ys, f x = some ys) : ∃ r, collectM f l = some r := by
  induction l with
  | nil => exact ⟨[], rfl⟩
  | cons x xs ih =>
    obtain ⟨ys, hys⟩ := h x (List.mem_cons_self _ _)
    obtain ⟨zs, hzs⟩ := ih (fun y hy => h y (List.mem_cons_of_mem _ hy))
    exact ⟨ys ++ zs, by simp [collectM, hys, hzs]⟩

theorem mem_nodeLoop (c : Config) (n : Nat) : n ∈ nodeLoop c ↔ 1 ≤ n ∧ n < c.nodeNum := by
  unfold nodeLoop
  rw [List.mem_range'_1]
  omega

theorem mem_pushUnlessTabu (c : Config) (s : Solver) (act a : Actor)
    (h : a ∈ pushUnlessTabu c s act) : a = act := by
  unfold pushUnlessTabu at h
  split at h
  · simp at h
  · simpa using h

theorem delNeighOf_mem (c : Config) (s : Solver) (visits : Visits) (l : List Actor)
    (h : delNeighOf c s visits = some l) (a : Actor) (ha : a ∈ l) : DelCand c visits a := by
  unfold delNeighOf at h
  obtain ⟨n, hn, ys, hys, hay⟩ := mem_of_collectM _ _ _ h a ha
  obtain ⟨p, hp, zs, hzs, haz⟩ := mem_of_collectM _ _ _ hys a hay
  rw [mem_nodeLoop] at hn
  have hp' := List.mem_range.mp hp
  by_cases hv : visits p n ≠ 0
  · simp only [hv, if_true, ne_eq, not_false_eq_true] at hzs
    cases hd : delNodeTourCost s p n with
    | none => simp [hd] at hzs
    | some cost =>
      simp only [hd, Option.some.injEq] at hzs
      subst hzs
      have := mem_pushUnlessTabu c s _ a haz
      subst this
      exact ⟨rfl, rfl, rfl, p, n, rfl, rfl, hp', hn.1, hn.2, hv⟩
  · simp only [hv, if_false, Option.some.injEq] at hzs
    subst hzs
    simp at haz

theorem movNeighOf_mem (c : Config) (s : Solver) (visits : Visits) (l : List Actor)
    (h : movNeighOf c s visits = some l) (a : Actor) (ha : a ∈ l) : MovCand c visits a := by
  unfold movNeighOf at h
  obtain ⟨n, hn, ys, hys, hay⟩ := mem_of_collectM _ _ _ h a ha
  obtain ⟨p0, hp0, zs, hzs, haz⟩ := mem_of_collectM _ _ _ hys a hay
  obtain ⟨p1, hp1, ws, hws, haw⟩ := mem_of_collectM _ _ _ hzs a haz
  rw [mem_nodeLoop] at hn
  rw [List.mem_filter] at hp0 hp1
  simp only [List.mem_range, decide_eq_true_eq, ne_eq, not_not] at hp0 hp1
  cases hd : movNodeTourCost c s p0 n p1 n with
  | none => simp [hd] at hws
  | some cost =>
    simp only [hd, Option.some.injEq] at hws
    subst hws
    have := mem_pushUnlessTabu c s _ a haw
    subst this
    exact ⟨rfl, p0, p1, n, rfl, rfl, rfl, rfl, hp0.1, hp1.1, hn.1, hn.2, hp0.2, hp1.2⟩

theorem swpNeighOf_mem (c : Config) (s : Solver) (visits : Visits) (l : List Actor)
    (h : swpNeighOf c s visits = some l) (a : Actor) (ha : a ∈ l) : SwpCand c visits a := by
  unfold swpNeighOf at h
  obtain ⟨n, hn, ys, hys, hay⟩ := mem_of_collectM _ _ _ h a ha
  obtain ⟨m, hm, zs, hzs, haz⟩ := mem_of_collectM _ _ _ hys a hay
  obtain ⟨t1, ht1, ws, hws, haw⟩ := mem_of_collectM _ _ _ hzs a haz
  obtain ⟨t2, ht2, us, hus, hau⟩ := mem_of_collectM _ _ _ hws a haw
  rw [mem_nodeLoop] at hn
  rw [List.mem_range'_1] at hm
  rw [List.mem_filter] at ht1 ht2
  simp only [List.mem_range, decide_eq_true_eq, ne_eq, not_not] at ht1 ht2
  cases hd : swpNodeTourCost c s t1 n t2 m with
  | none => simp [hd] at hus
  | some cost =>
    simp only [hd, Option.some.injEq] at hus
    subst hus
    have := mem_pushUnlessTabu c s _ a hau
    subst this
    exact ⟨rfl, t1, t2, n, m, rfl, rfl, rfl, rfl, ht1.1, ht2.1, hn.1, by omega, by omega,
      ht1.2.1, ht1.2.2, ht2.2.1, ht2.2.2⟩

theorem mem_sortByCost_take (l : List Actor) (k : Nat) (a : Actor)
    (h : a ∈ (sortByCost l).take k) : a ∈ l := by
  have h1 := List.mem_of_mem_take h
  unfold sortByCost at h1
  exact (List.perm_insertionSort _ l).mem_iff.mp h1

theorem candidateLists_mem (c : Config) (s : Solver) (visits : Visits)
    (dl ml sl : List Actor) (h : candidateLists c s visits = some (dl, ml, sl)) :
    (∀ a, a ∈ dl → DelCand c visits a) ∧ (∀ a, a ∈ ml → MovCand c visits a)
      ∧ (∀ a, a ∈ sl → SwpCand c visits a) := by
  unfold candidateLists at h
  cases hd : delNeighOf c s visits with
  | none => simp [hd] at h
  | some d =>
    cases hm : movNeighOf c s visits with
    | none => simp [hd, hm] at h
    | some m =>
      cases hs : swpNeighOf c s visits with
      | none => simp [hd, hm, hs] at h
      | some w =>
        simp only [hd, hm, hs, Option.some.injEq, Prod.mk.injEq] at h
        obtain ⟨rfl, rfl, rfl⟩ := h
        exact ⟨fun a ha => delNeighOf_mem c s visits d hd a (mem_sortByCost_take _ _ _ ha),
          fun a ha => movNeighOf_mem c s visits m hm a (mem_sortByCost_take _ _ _ ha),
          fun a ha => swpNeighOf_mem c s visits w hs a (mem_sortByCost_take _ _ _ ha)⟩

/-! ## The evaluation loops of `buildMixNeigh` -/

theorem TabuExtends.refl (s : Solver) : TabuExtends s s :=
  ⟨rfl, rfl, rfl, rfl, rfl, rfl, rfl, rfl, fun _ h => h, fun _ h => h, fun _ h => h⟩

theorem TabuExtends.trans {s1 s2 s3 : Solver} (h12 : TabuExtends s1 s2)
    (h23 : TabuExtends s2 s3) : TabuExtends s1 s3 :=
  ⟨h23.hashValue1.trans h12.hashValue1, h23.hashValue2.trans h12.hashValue2,
    h23.hashValue3.trans h12.hashValue3, h23.routingCost.trans h12.routingCost,
    h23.curTours.trans h12.curTours, h23.tourPrices.trans h12.tourPrices,
    h23.bestCost.trans h12.bestCost, h23.bestVisits.trans h12.bestVisits,
    fun i h => h23.H1 i (h12.H1 i h), fun i h => h23.H2 i (h12.H2 i h),
    fun i h => h23.H3 i (h12.H3 i h)⟩

theorem execTabuWithMove_extends (c : Config) (s : Solver) (hv1 hv2 hv3 : Nat) (a : Actor) :
    TabuExtends s (execTabuWithMove c s hv1 hv2 hv3 a) :=
  ⟨rfl, rfl, rfl, rfl, rfl, rfl, rfl, rfl, fun _ h => setBit_mono _ _ _ h,
    fun _ h => setBit_mono _ _ _ h, fun _ h => setBit_mono _ _ _ h⟩

theorem execTabuWithMove_bits (c : Config) (s : Solver) (hv1 hv2 hv3 : Nat) (a : Actor) :
    MoveBitsSet c (execTabuWithMove c s hv1 hv2 hv3 a) hv1 hv2 hv3 a :=
  ⟨setBit_self _ _, setBit_self _ _, setBit_self _ _⟩

theorem MoveBitsSet.mono {c : Config} {s s' : Solver} {hv1 hv2 hv3 : Nat} {a : Actor}
    (h : MoveBitsSet c s hv1 hv2 hv3 a) (he : TabuExtends s s') :
    MoveBitsSet c s' hv1 hv2 hv3 a :=
  ⟨he.H1 _ h.1, he.H2 _ h.2.1, he.H3 _ h.2.2⟩

theorem evalCandidate_extends (c : Config) (s : Solver) (visits : Visits) (minCost : Price)
    (a : Actor) : TabuExtends s (evalCandidate c s visits minCost a).1 := by
  unfold evalCandidate
  simp only
  split
  · split
    · exact ⟨rfl, rfl, rfl, rfl, rfl, rfl, rfl, rfl, fun _ h => h, fun _ h => h, fun _ h => h⟩
    · split
      · exact ⟨rfl, rfl, rfl, rfl, rfl, rfl, rfl, rfl, fun _ h => h, fun _ h => h, fun _ h => h⟩
      · exact TabuExtends.refl s
  · exact TabuExtends.refl s

theorem evalCandidate_mixNeigh (c : Config) (s : Solver) (visits : Visits) (minCost : Price)
    (a b : Actor) (hb : b ∈ (evalCandidate c s visits minCost a).1.mixNeigh) :
    b ∈ s.mixNeigh ∨
      (b = { a with modelCost := callModel c visits,
                    totalCost := a.totalCost + callModel c visits }
        ∧ 0 ≤ callModel c visits) := by
  unfold evalCandidate at hb
  simp only at hb
  split at hb
  · rename_i hge
    split at hb
    · simp only [List.mem_singleton] at hb
      exact Or.inr ⟨hb, hge⟩
    · split at hb
      · simp only [List.mem_append, List.mem_singleton] at hb
        rcases hb with hb | hb
        · exact Or.inl hb
        · exact Or.inr ⟨hb, hge⟩
      · exact Or.inl hb
  · exact Or.inl hb

theorem applyMove_delCand (c : Config) (visits : Visits) (a : Actor) (h : DelCand c visits a) :
    applyMove visits a = visits.set a.p2.toNat a.n2.toNat 0 := by
  obtain ⟨ht, _, hn1, p, n, _, hn2, _, hn, _, _⟩ := h
  unfold applyMove
  have h2 : a.n2 > 0 := by rw [hn2]; exact_mod_cast hn
  simp [ht, hn1, h2]

theorem applyMove_movCand (c : Config) (visits : Visits) (a : Actor) (h : MovCand c visits a) :
    applyMove visits a
      = (visits.set a.p1.toNat a.n1.toNat 1).set a.p2.toNat a.n2.toNat 0 := by
  obtain ⟨ht, p0, p1, n, _, hn1, _, hn2, _, _, hn, _, _, _⟩ := h
  unfold applyMove
  have h1 : a.n1 > 0 := by rw [hn1]; exact_mod_cast hn
  have h2 : a.n2 > 0 := by rw [hn2]; exact_mod_cast hn
  simp [ht, h1, h2]

theorem applyMove_swpCand (c : Config) (visits : Visits) (a : Actor) (h : SwpCand c visits a) :
    applyMove visits a
      = (((visits.set a.p2.toNat a.n2.toNat 0).set a.p1.toNat a.n1.toNat 0).set
          a.p2.toNat a.n1.toNat 1).set a.p1.toNat a.n2.toNat 1 := by
  unfold applyMove
  simp [h.1]

theorem Visits.set_set_restore (visits : Visits) (p n : Nat) (x y : Int) (h : visits p n = y) :
    (visits.set p n x).set p n y = visits := by
  funext p' n'
  unfold Visits.set
  by_cases hpn : p' = p ∧ n' = n
  · simp only [hpn, and_self, if_true]
    rw [← h]
  · simp [hpn]

theorem Visits.mov_restore (visits : Visits) (p1 n1 p2 n2 : Nat) (h1 : visits p1 n1 = 0)
    (h2 : visits p2 n2 = 1) :
    ((((visits.set p1 n1 1).set p2 n2 0).set p1 n1 0).set p2 n2 1) = visits := by
  funext p' n'
  unfold Visits.set
  by_cases hb : p' = p2 ∧ n' = n2
  · obtain ⟨rfl, rfl⟩ := hb
    simp [h2]
  · by_cases ha : p' = p1 ∧ n' = n1
    · obtain ⟨rfl, rfl⟩ := ha
      simp [hb, h1]
    · simp [ha, hb]

theorem Visits.swp_restore (visits : Visits) (p1 n1 p2 n2 : Nat) (h11 : visits p1 n1 = 1)
    (h22 : visits p2 n2 = 1) (h12 : visits p1 n2 = 0) (h21 : visits p2 n1 = 0) :
    ((((((((visits.set p2 n2 0).set p1 n1 0).set p2 n1 1).set p1 n2 1).set p2 n2 1).set
      p1 n1 1).set p2 n1 0).set p1 n2 0) = visits := by
  funext p' n'
  unfold Visits.set
  by_cases hd : p' = p1 ∧ n' = n2
  · obtain ⟨rfl, rfl⟩ := hd
    simp [h12]
  · by_cases hc : p' = p2 ∧ n' = n1
    · obtain ⟨rfl, rfl⟩ := hc
      simp [hd, h21]
    · by_cases ha : p' = p1 ∧ n' = n1
      · obtain ⟨rfl, rfl⟩ := ha
        have e1 : n' ≠ n2 := fun h => hd ⟨rfl, h⟩
        have e2 : p' ≠ p2 := fun h => hc ⟨h, rfl⟩
        simp [e1, e2, h11]
      · by_cases hb : p' = p2 ∧ n' = n2
        · obtain ⟨rfl, rfl⟩ := hb
          have e1 : p' ≠ p1 := fun h => hd ⟨h, rfl⟩
          have e2 : n' ≠ n1 := fun h => hc ⟨rfl, h⟩
          simp [e1, e2, h22]
        · simp [ha, hb, hc, hd]

theorem IsVisitMatrix.eq_one {c : Config} {visits : Visits} (hv : IsVisitMatrix c visits)
    {p n : Nat} (hp : p < c.periodNum) (hn : n < c.nodeNum) (h : visits p n ≠ 0) :
    visits p n = 1 := by
  rcases hv p hp n hn with h0 | h1
  · exact absurd h0 h
  · exact h1

theorem applyMove_costs (visits : Visits) (a : Actor) (tc mc : Price) :
    applyMove visits { a with modelCost := mc, totalCost := tc } = applyMove visits a := rfl

theorem DelCand.delCosts {c : Config} {visits : Visits} {a : Actor} (h : DelCand c visits a)
    (tc mc : Price) : DelCand c visits { a with modelCost := mc, totalCost := tc } := h

theorem MovCand.movCosts {c : Config} {visits : Visits} {a : Actor} (h : MovCand c visits a)
    (tc mc : Price) : MovCand c visits { a with modelCost := mc, totalCost := tc } := h

theorem SwpCand.swpCosts {c : Config} {visits : Visits} {a : Actor} (h : SwpCand c visits a)
    (tc mc : Price) : SwpCand c visits { a with modelCost := mc, totalCost := tc } := h

/-- What an evaluation loop body does to the solver, given that the trial
matrix is the post-move matrix of the candidate. -/
theorem evalCandidate_step (c : Config) (visits : Visits) (s : Solver) (minCost : Price)
    (a : Actor) (visits1 : Visits)
    (hgood : ∀ b, b ∈ s.mixNeigh → GoodNeighbour c visits b)
    (hv1 : visits1 = applyMove visits a)
    (hcand : DelCand c visits a ∨ MovCand c visits a ∨ SwpCand c visits a) :
    (∀ b, b ∈ (evalCandidate c (execTabuWithMove c s s.hashValue1 s.hashValue2 s.hashValue3 a)
        visits1 minCost a).1.mixNeigh → GoodNeighbour c visits b)
    ∧ TabuExtends s (evalCandidate c
        (execTabuWithMove c s s.hashValue1 s.hashValue2 s.hashValue3 a) visits1 minCost a).1
    ∧ MoveBitsSet c (evalCandidate c
        (execTabuWithMove c s s.hashValue1 s.hashValue2 s.hashValue3 a) visits1 minCost a).1
        s.hashValue1 s.hashValue2 s.hashValue3 a := by
  refine ⟨?_, ?_, ?_⟩
  · intro b hb
    rcases evalCandidate_mixNeigh c _ visits1 minCost a b hb with hb | ⟨hb, hge⟩
    · exact hgood b hb
    · subst hb
      refine ⟨?_, ?_, hge⟩
      · rcases hcand with h | h | h
        · exact Or.inl (h.delCosts _ _)
        · exact Or.inr (Or.inl (h.movCosts _ _))
        · exact Or.inr (Or.inr (h.swpCosts _ _))
      · rw [applyMove_costs, ← hv1]
  · exact (execTabuWithMove_extends c s _ _ _ a).trans (evalCandidate_extends c _ _ _ _)
  · exact (execTabuWithMove_bits c s _ _ _ a).mono (evalCandidate_extends c _ _ _ _)

theorem evalDel_step (c : Config) (visits : Visits) (hv : IsVisitMatrix c visits)
    (st : EvalState) (hvis : st.visits = visits)
    (hgood : ∀ b, b ∈ st.solver.mixNeigh → GoodNeighbour c visits b)
    (a : Actor) (ha : DelCand c visits a) :
    (evalDel c st a).visits = visits
    ∧ (∀ b, b ∈ (evalDel c st a).solver.mixNeigh → GoodNeighbour c visits b)
    ∧ TabuExtends st.solver (evalDel c st a).solver
    ∧ MoveBitsSet c (evalDel c st a).solver st.solver.hashValue1 st.solver.hashValue2
        st.solver.hashValue3 a := by
  have hstep := evalCandidate_step c visits st.solver st.minCost a
    (st.visits.set a.p2.toNat a.n2.toNat 0) hgood
    (by rw [applyMove_delCand c visits a ha, hvis]) (Or.inl ha)
  refine ⟨?_, hstep⟩
  obtain ⟨_, _, _, p, n, hp2, hn2, hp, _, hn, hne⟩ := ha
  simp only [evalDel, hvis, hp2, hn2, Int.toNat_natCast]
  exact Visits.set_set_restore visits p n 0 1 (hv.eq_one hp hn hne)

theorem evalMov_step (c : Config) (visits : Visits) (hv : IsVisitMatrix c visits)
    (st : EvalState) (hvis : st.visits = visits)
    (hgood : ∀ b, b ∈ st.solver.mixNeigh → GoodNeighbour c visits b)
    (a : Actor) (ha : MovCand c visits a) :
    (evalMov c st a).visits = visits
    ∧ (∀ b, b ∈ (evalMov c st a).solver.mixNeigh → GoodNeighbour c visits b)
    ∧ TabuExtends st.solver (evalMov c st a).solver
    ∧ MoveBitsSet c (evalMov c st a).solver st.solver.hashValue1 st.solver.hashValue2
        st.solver.hashValue3 a := by
  have hstep := evalCandidate_step c visits st.solver st.minCost a
    ((st.visits.set a.p1.toNat a.n1.toNat 1).set a.p2.toNat a.n2.toNat 0) hgood
    (by rw [applyMove_movCand c visits a ha, hvis]) (Or.inr (Or.inl ha))
  refine ⟨?_, hstep⟩
  obtain ⟨_, p0, p1, n, hp1, hn1, hp2, hn2, _, hp1', _, hn, h0, h1⟩ := ha
  simp only [evalMov, hvis, hp1, hn1, hp2, hn2, Int.toNat_natCast]
  exact Visits.mov_restore visits p0 n p1 n h0 (hv.eq_one hp1' hn h1)

theorem evalSwp_step (c : Config) (visits : Visits) (hv : IsVisitMatrix c visits)
    (st : EvalState) (hvis : st.visits = visits)
    (hgood : ∀ b, b ∈ st.solver.mixNeigh → GoodNeighbour c visits b)
    (a : Actor) (ha : SwpCand c visits a) :
    (evalSwp c st a).visits = visits
    ∧ (∀ b, b ∈ (evalSwp c st a).solver.mixNeigh → GoodNeighbour c visits b)
    ∧ TabuExtends st.solver (evalSwp c st a).solver
    ∧ MoveBitsSet c (evalSwp c st a).solver st.solver.hashValue1 st.solver.hashValue2
        st.solver.hashValue3 a := by
  have hstep := evalCandidate_step c visits st.solver st.minCost a
    ((((st.visits.set a.p2.toNat a.n2.toNat 0).set a.p1.toNat a.n1.toNat 0).set
      a.p2.toNat a.n1.toNat 1).set a.p1.toNat a.n2.toNat 1) hgood
    (by rw [applyMove_swpCand c visits a ha, hvis]) (Or.inr (Or.inr ha))
  refine ⟨?_, hstep⟩
  obtain ⟨_, t1, t2, n, m, hp1, hn1, hp2, hn2, ht1, ht2, _, hnm, hm, h11, h12, h21, h22⟩ := ha
  simp only [evalSwp, hvis, hp1, hn1, hp2, hn2, Int.toNat_natCast]
  exact Visits.swp_restore visits t1 n t2 m (hv.eq_one ht1 (by omega) h11)
    (hv.eq_one ht2 hm h22) h12 h21

/-- An evaluation loop of `buildMixNeigh` keeps `visits`, keeps `mixNeigh` within
the feasible candidates, only adds tabu bits, and sets the bits of every
candidate it runs over. -/
theorem foldl_eval_inv (c : Config) (visits : Visits)
    (ev : EvalState → Actor → EvalState) (Cand : Actor → Prop)
    (hstep : ∀ (st : EvalState) (a : Actor), Cand a → st.visits = visits →
      (∀ b, b ∈ st.solver.mixNeigh → GoodNeighbour c visits b) →
      (ev st a).visits = visits
      ∧ (∀ b, b ∈ (ev st a).solver.mixNeigh → GoodNeighbour c visits b)
      ∧ TabuExtends st.solver (ev st a).solver
      ∧ MoveBitsSet c (ev st a).solver st.solver.hashValue1 st.solver.hashValue2
          st.solver.hashValue3 a)
    (l : List Actor) (hl : ∀ a, a ∈ l → Cand a) (st : EvalState) (hvis : st.visits = visits)
    (hgood : ∀ b, b ∈ st.solver.mixNeigh → GoodNeighbour c visits b) :
    (l.foldl ev st).visits = visits
    ∧ (∀ b, b ∈ (l.foldl ev st).solver.mixNeigh → GoodNeighbour c visits b)
    ∧ TabuExtends st.solver (l.foldl ev st).solver
    ∧ ∀ a, a ∈ l → MoveBitsSet c (l.foldl ev st).solver st.solver.hashValue1
        st.solver.hashValue2 st.solver.hashValue3 a := by
  induction l generalizing st with
  | nil =>
    exact ⟨hvis, hgood, TabuExtends.refl _, fun a ha => absurd ha (List.not_mem_nil a)⟩
  | cons x xs ih =>
    obtain ⟨s1, s2, s3, s4⟩ := hstep st x (hl x (List.mem_cons_self _ _)) hvis hgood
    obtain ⟨r1, r2, r3, r4⟩ := ih (fun a ha => hl a (List.mem_cons_of_mem _ ha)) (ev st x) s1 s2
    simp only [List.foldl_cons]
    refine ⟨r1, r2, s3.trans r3, ?_⟩
    intro a ha
    rcases List.mem_cons.mp ha with rfl | ha
    · exact s4.mono r3
    · have := r4 a ha
      rw [s3.hashValue1, s3.hashValue2, s3.hashValue3] at this
      exact this

/-- What a defined call of `buildMixNeigh` does: `visits` is as on entry, the
members of `mixNeigh` are feasible candidates, the solver changes only in
`mixNeigh` and in tabu bits that get set, and the bits of every candidate that
an evaluation loop runs over are set. -/
theorem buildMixNeigh_spec (c : Config) (s : Solver) (visits : Visits) (minCost : Price)
    (hv : IsVisitMatrix c visits) (r : Solver × Visits)
    (h : buildMixNeigh c s visits minCost = some r) :
    ∃ dl ml sl, candidateLists c s visits = some (dl, ml, sl)
      ∧ r.2 = visits
      ∧ (∀ b, b ∈ r.1.mixNeigh → GoodNeighbour c visits b)
      ∧ TabuExtends s r.1
      ∧ ∀ a, a ∈ dl ++ ml ++ sl →
          MoveBitsSet c r.1 s.hashValue1 s.hashValue2 s.hashValue3 a := by
  unfold buildMixNeigh at h
  cases hcl : candidateLists c s visits with
  | none => simp [hcl] at h
  | some lists =>
    obtain ⟨dl, ml, sl⟩ := lists
    simp only [hcl, Option.some.injEq] at h
    obtain ⟨hd, hm, hs⟩ := candidateLists_mem c s visits dl ml sl hcl
    have e0 : TabuExtends s { s with mixNeigh := [] } :=
      ⟨rfl, rfl, rfl, rfl, rfl, rfl, rfl, rfl, fun _ h => h, fun _ h => h, fun _ h => h⟩
    obtain ⟨a1, a2, a3, a4⟩ := foldl_eval_inv c visits (evalDel c) (DelCand c visits)
      (fun st a ha hvis hg => evalDel_step c visits hv st hvis hg a ha) dl hd
      { solver := { s with mixNeigh := [] }, visits := visits, minCost := minCost } rfl
      (fun b hb => absurd hb (List.not_mem_nil b))
    obtain ⟨b1, b2, b3, b4⟩ := foldl_eval_inv c visits (evalMov c) (MovCand c visits)
      (fun st a ha hvis hg => evalMov_step c visits hv st hvis hg a ha) ml hm _ a1 a2
    obtain ⟨c1, c2, c3, c4⟩ := foldl_eval_inv c visits (evalSwp c) (SwpCand c visits)
      (fun st a ha hvis hg => evalSwp_step c visits hv st hvis hg a ha) sl hs _ b1 b2
    subst h
    refine ⟨dl, ml, sl, rfl, c1, c2, (e0.trans a3).trans (b3.trans c3), ?_⟩
    intro a ha
    simp only [List.mem_append] at ha
    rcases ha with (ha | ha) | ha
    · exact (a4 a ha).mono (b3.trans c3)
    · have := (b4 a ha).mono c3
      rw [a3.hashValue1, a3.hashValue2, a3.hashValue3] at this
      exact this
    · have := c4 a ha
      rw [b3.hashValue1, b3.hashValue2, b3.hashValue3, a3.hashValue1, a3.hashValue2,
        a3.hashValue3] at this
      exact this

/-! ## Definedness of the tour cost estimates -/

theorem delNodeTourCost_isSome (s : Solver) (pid nid : Nat) (hn : 1 ≤ nid)
    (hhead : (s.curTours pid).head? = some 0) (hlast : (s.curTours pid).getLast? = some 0)
    (hmem : nid ∈ s.curTours pid) : ∃ cost, delNodeTourCost s pid nid = some cost := by
  unfold delNodeTourCost
  simp only
  have hlt : (s.curTours pid).indexOf nid < (s.curTours pid).length :=
    List.indexOf_lt_length.mpr hmem
  have hget : (s.curTours pid)[(s.curTours pid).indexOf nid] = nid := List.getElem_indexOf hlt
  have hpos : 0 < (s.curTours pid).indexOf nid := by
    rcases Nat.eq_zero_or_pos ((s.curTours pid).indexOf nid) with h0 | h0
    · exfalso
      have h1 : (s.curTours pid)[0]? = some nid := by
        have := List.getElem?_eq_getElem hlt
        rw [hget] at this
        rw [h0] at this
        exact this
      rw [← List.head?_eq_getElem?] at h1
      rw [hhead] at h1
      simp only [Option.some.injEq] at h1
      omega
    · exact h0
  have hsucc : (s.curTours pid).indexOf nid + 1 < (s.curTours pid).length := by
    by_contra hcon
    have heq : (s.curTours pid).indexOf nid = (s.curTours pid).length - 1 := by omega
    have h1 : (s.curTours pid)[(s.curTours pid).length - 1]? = some nid := by
      have := List.getElem?_eq_getElem hlt
      rw [hget] at this
      rw [heq] at this
      exact this
    rw [← List.getLast?_eq_getElem?] at h1
    rw [hlast] at h1
    simp only [Option.some.injEq] at h1
    omega
  simp only [hpos, hsucc, and_self, if_true]
  exact ⟨_, rfl⟩

theorem addNodeTourCost_isSome (c : Config) (s : Solver) (pid nid : Nat)
    (hhead : (s.curTours pid).head? = some 0) : ∃ cost, addNodeTourCost c s pid nid = some cost := by
  unfold addNodeTourCost
  cases ht : s.curTours pid with
  | nil => simp [ht] at hhead
  | cons a l => exact ⟨_, rfl⟩

theorem delNeighOf_isSome (c : Config) (s : Solver) (visits : Visits)
    (ht : ToursConsistent c visits s.curTours) : ∃ l, delNeighOf c s visits = some l := by
  unfold delNeighOf
  apply collectM_isSome
  intro n hn
  rw [mem_nodeLoop] at hn
  apply collectM_isSome
  intro p hp
  have hp' := List.mem_range.mp hp
  obtain ⟨hh, hl, hm⟩ := ht p hp'
  by_cases hv : visits p n ≠ 0
  · obtain ⟨cost, hc⟩ := delNodeTourCost_isSome s p n hn.1 hh hl (hm n hn.1 hn.2 hv)
    simp only [hv, ne_eq, not_false_eq_true, if_true, hc]
    exact ⟨_, rfl⟩
  · simp only [hv, if_false]
    exact ⟨_, rfl⟩

theorem movNeighOf_isSome (c : Config) (s : Solver) (visits : Visits)
    (ht : ToursConsistent c visits s.curTours) : ∃ l, movNeighOf c s visits = some l := by
  unfold movNeighOf
  apply collectM_isSome
  intro n hn
  rw [mem_nodeLoop] at hn
  apply collectM_isSome
  intro p0 hp0
  apply collectM_isSome
  intro p1 hp1
  rw [List.mem_filter] at hp0 hp1
  simp only [List.mem_range, decide_eq_true_eq, ne_eq, not_not] at hp0 hp1
  obtain ⟨hh0, _, _⟩ := ht p0 hp0.1
  obtain ⟨hh1, hl1, hm1⟩ := ht p1 hp1.1
  obtain ⟨ca, hca⟩ := addNodeTourCost_isSome c s p0 n hh0
  obtain ⟨cd, hcd⟩ := delNodeTourCost_isSome s p1 n hn.1 hh1 hl1 (hm1 n hn.1 hn.2 hp1.2)
  simp only [movNodeTourCost, hca, hcd]
  exact ⟨_, rfl⟩

theorem swpNeighOf_isSome (c : Config) (s : Solver) (visits : Visits)
    (ht : ToursConsistent c visits s.curTours) : ∃ l, swpNeighOf c s visits = some l := by
  unfold swpNeighOf
  apply collectM_isSome
  intro n hn
  rw [mem_nodeLoop] at hn
  apply collectM_isSome
  intro m hm
  rw [List.mem_range'_1] at hm
  apply collectM_isSome
  intro t1 ht1
  apply collectM_isSome
  intro t2 ht2
  rw [List.mem_filter] at ht1 ht2
  simp only [List.mem_range, decide_eq_true_eq, ne_eq, not_not] at ht1 ht2
  obtain ⟨hh1, hl1, hm1⟩ := ht t1 ht1.1
  obtain ⟨hh2, hl2, hm2⟩ := ht t2 ht2.1
  obtain ⟨d1, hd1⟩ := delNodeTourCost_isSome s t1 n hn.1 hh1 hl1 (hm1 n hn.1 hn.2 ht1.2.1)
  obtain ⟨d2, hd2⟩ := delNodeTourCost_isSome s t2 m (by omega) hh2 hl2
    (hm2 m (by omega) (by omega) ht2.2.2)
  obtain ⟨a1, ha1⟩ := addNodeTourCost_isSome c s t2 n hh2
  obtain ⟨a2, ha2⟩ := addNodeTourCost_isSome c s t1 m hh1
  simp only [swpNodeTourCost, hd1, hd2, ha1, ha2]
  exact ⟨_, rfl⟩

/-- With tours that agree with the visit matrix, every tour cost estimate of
`buildMixNeigh` is defined, so the call returns. -/
theorem buildMixNeigh_isSome (c : Config) (s : Solver) (visits : Visits) (minCost : Price)
    (ht : ToursConsistent c visits s.curTours) :
    ∃ r, buildMixNeigh c s visits minCost = some r := by
  obtain ⟨d, hd⟩ := delNeighOf_isSome c s visits ht
  obtain ⟨m, hm⟩ := movNeighOf_isSome c s visits ht
  obtain ⟨w, hw⟩ := swpNeighOf_isSome c s visits ht
  simp only [buildMixNeigh, candidateLists, hd, hm, hw]
  exact ⟨_, rfl⟩

/-! ## The tabu search loop -/

theorem moveHash_delCand (c : Config) (hc : TabuParams c) (gamma : Nat → Nat) (hg : gamma 0 = 0)
    (visits : Visits) (a : Actor) (h : DelCand c visits a) :
    moveHash c gamma (hash c visits gamma) a = hash c (applyMove visits a) gamma := by
  rw [applyMove_delCand c visits a h]
  obtain ⟨ht, _, _, p, n, hp2, hn2, hp, _, hn, hne⟩ := h
  obtain ⟨ty, tc, mc, p1, n1, p2, n2⟩ := a
  simp only at ht hp2 hn2
  subst ht hp2 hn2
  simp only [Int.toNat_natCast]
  exact moveHash_del c hc gamma hg visits p n hp hn hne tc mc p1 n1

theorem moveHash_movCand (c : Config) (hc : TabuParams c) (gamma : Nat → Nat)
    (visits : Visits) (a : Actor) (h : MovCand c visits a) :
    moveHash c gamma (hash c visits gamma) a = hash c (applyMove visits a) gamma := by
  rw [applyMove_movCand c visits a h]
  obtain ⟨ht, p0, p1, n, hp1, hn1, hp2, hn2, hp0', hp1', _, hn, h0, h1⟩ := h
  obtain ⟨ty, tc, mc, q1, m1, q2, m2⟩ := a
  simp only at ht hp1 hn1 hp2 hn2
  subst ht hp1 hn1 hp2 hn2
  simp only [Int.toNat_natCast]
  exact moveHash_mov c hc gamma visits p0 n p1 n hp0' hn hp1' hn h0 h1 tc mc

theorem moveHash_swpCand (c : Config) (hc : TabuParams c) (gamma : Nat → Nat)
    (visits : Visits) (a : Actor) (h : SwpCand c visits a) :
    moveHash c gamma (hash c visits gamma) a = hash c (applyMove visits a) gamma := by
  rw [applyMove_swpCand c visits a h]
  obtain ⟨ht, t1, t2, n, m, hp1, hn1, hp2, hn2, ht1, ht2, _, hnm, hm, h11, h12, h21, h22⟩ := h
  obtain ⟨ty, tc, mc, q1, m1, q2, m2⟩ := a
  simp only at ht hp1 hn1 hp2 hn2
  subst ht hp1 hn1 hp2 hn2
  simp only [Int.toNat_natCast]
  exact moveHash_swp c hc gamma visits t1 n t2 m ht1 (by omega) ht2 hm h11 h22 h12 h21 tc mc

/-- For a candidate enumerated on `visits`, the incremental update of a hash of
`visits` is the hash of the matrix after the move application. -/
theorem moveHash_goodNeighbour (c : Config) (hc : TabuParams c) (gamma : Nat → Nat)
    (hg : gamma 0 = 0) (visits : Visits) (a : Actor)
    (h : DelCand c visits a ∨ MovCand c visits a ∨ SwpCand c visits a) :
    moveHash c gamma (hash c visits gamma) a = hash c (applyMove visits a) gamma := by
  rcases h with h | h | h
  · exact moveHash_delCand c hc gamma hg visits a h
  · exact moveHash_movCand c hc gamma visits a h
  · exact moveHash_swpCand c hc gamma visits a h

theorem IsVisitMatrix.set {c : Config} {visits : Visits} (hv : IsVisitMatrix c visits)
    (p n : Nat) (x : Int) (hx : x = 0 ∨ x = 1) : IsVisitMatrix c (visits.set p n x) := by
  intro p' hp' n' hn'
  unfold Visits.set
  split
  · exact hx
  · exact hv p' hp' n' hn'

theorem IsVisitMatrix.applyMove {c : Config} {visits : Visits} (hv : IsVisitMatrix c visits)
    (a : Actor) : IsVisitMatrix c (applyMove visits a) := by
  unfold IRP.applyMove
  by_cases hs : a.actype = ActorType.SWP
  · simp only [hs, if_true]
    exact (((hv.set _ _ 0 (Or.inl rfl)).set _ _ 0 (Or.inl rfl)).set _ _ 1 (Or.inr rfl)).set
      _ _ 1 (Or.inr rfl)
  · simp only [hs, if_false]
    by_cases h1 : a.n1 > 0 <;> by_cases h2 : a.n2 > 0 <;> simp only [h1, h2, if_true, if_false]
    · exact (hv.set _ _ 1 (Or.inr rfl)).set _ _ 0 (Or.inl rfl)
    · exact hv.set _ _ 1 (Or.inr rfl)
    · exact hv.set _ _ 0 (Or.inl rfl)
    · exact hv

theorem callLKHPeriod_tabu (c : Config) (visits : Visits) (s : Solver) (p : Nat) :
    (callLKHPeriod c visits s p).hashValue1 = s.hashValue1
      ∧ (callLKHPeriod c visits s p).hashValue2 = s.hashValue2
      ∧ (callLKHPeriod c visits s p).hashValue3 = s.hashValue3
      ∧ (callLKHPeriod c visits s p).H1 = s.H1 ∧ (callLKHPeriod c visits s p).H2 = s.H2
      ∧ (callLKHPeriod c visits s p).H3 = s.H3 := by
  unfold callLKHPeriod
  simp only
  split
  · exact ⟨rfl, rfl, rfl, rfl, rfl, rfl⟩
  · split <;> exact ⟨rfl, rfl, rfl, rfl, rfl, rfl⟩

theorem foldl_callLKHPeriod_tabu (c : Config) (visits : Visits) (l : List Nat) (s : Solver) :
    (l.foldl (callLKHPeriod c visits) s).hashValue1 = s.hashValue1
      ∧ (l.foldl (callLKHPeriod c visits) s).hashValue2 = s.hashValue2
      ∧ (l.foldl (callLKHPeriod c visits) s).hashValue3 = s.hashValue3
      ∧ (l.foldl (callLKHPeriod c visits) s).H1 = s.H1
      ∧ (l.foldl (callLKHPeriod c visits) s).H2 = s.H2
      ∧ (l.foldl (callLKHPeriod c visits) s).H3 = s.H3 := by
  induction l generalizing s with
  | nil => exact ⟨rfl, rfl, rfl, rfl, rfl, rfl⟩
  | cons p l ih =>
    simp only [List.foldl_cons]
    obtain ⟨a1, a2, a3, a4, a5, a6⟩ := callLKHPeriod_tabu c visits s p
    obtain ⟨b1, b2, b3, b4, b5, b6⟩ := ih (callLKHPeriod c visits s p)
    exact ⟨b1.trans a1, b2.trans a2, b3.trans a3, b4.trans a4, b5.trans a5, b6.trans a6⟩

/-- The call `callLKH` leaves the tabu memory alone. -/
theorem callLKH_tabu (c : Config) (s : Solver) (visits : Visits) (p1 p2 : Int) :
    (callLKH c s visits p1 p2).1.hashValue1 = s.hashValue1
      ∧ (callLKH c s visits p1 p2).1.hashValue2 = s.hashValue2
      ∧ (callLKH c s visits p1 p2).1.hashValue3 = s.hashValue3
      ∧ (callLKH c s visits p1 p2).1.H1 = s.H1 ∧ (callLKH c s visits p1 p2).1.H2 = s.H2
      ∧ (callLKH c s visits p1 p2).1.H3 = s.H3 := by
  unfold callLKH
  exact foldl_callLKHPeriod_tabu c visits _ s

/-- One pass through the loop of `mixTabuSearch` keeps the persistent hash
triple equal to the hash triple of `visits`. -/
theorem mixTabuIter_inv (c : Config) (hc : TabuParams c) (r : Nat) (st : TabuRun)
    (hv : IsVisitMatrix c st.visits) (hh : HashConsistent c st.solver st.visits) :
    IsVisitMatrix c (mixTabuIter c r st).2.visits
      ∧ HashConsistent c (mixTabuIter c r st).2.solver (mixTabuIter c r st).2.visits := by
  unfold mixTabuIter
  split
  · cases hb : buildMixNeigh c st.solver st.visits c.defaultMinCost with
    | none => exact ⟨hv, hh⟩
    | some res =>
      obtain ⟨s1, visits1⟩ := res
      obtain ⟨dl, ml, sl, _, hvis, hgood, hext, _⟩ :=
        buildMixNeigh_spec c st.solver st.visits c.defaultMinCost hv (s1, visits1) hb
      simp only at hvis hgood hext
      have hv1 : IsVisitMatrix c visits1 := by rw [hvis]; exact hv
      have hh1 : HashConsistent c s1 visits1 := by
        rw [hvis]
        exact ⟨hext.hashValue1.trans hh.1, hext.hashValue2.trans hh.2.1,
          hext.hashValue3.trans hh.2.2⟩
      have hgood1 : ∀ b, b ∈ s1.mixNeigh → GoodNeighbour c visits1 b := by
        rw [hvis]; exact hgood
      simp only
      cases hget : s1.mixNeigh[r % s1.mixNeigh.length]? with
      | none => exact ⟨hv1, hh1⟩
      | some act =>
        have hmem : act ∈ s1.mixNeigh := List.getElem?_mem hget
        obtain ⟨hcand, _, _⟩ := hgood1 act hmem
        obtain ⟨l1, l2, l3, _, _, _⟩ := callLKH_tabu c s1 (applyMove visits1 act) act.p1 act.p2
        have hnew : HashConsistent c
            (execTabuAct c (callLKH c s1 (applyMove visits1 act) act.p1 act.p2).1 act)
            (applyMove visits1 act) := by
          refine ⟨?_, ?_, ?_⟩
          · simp only [execTabuAct, l1, hh1.1]
            exact moveHash_goodNeighbour c hc c.gamma1 hc.gamma1_zero visits1 act hcand
          · simp only [execTabuAct, l2, hh1.2.1]
            exact moveHash_goodNeighbour c hc c.gamma2 hc.gamma2_zero visits1 act hcand
          · simp only [execTabuAct, l3, hh1.2.2]
            exact moveHash_goodNeighbour c hc c.gamma3 hc.gamma3_zero visits1 act hcand
        simp only
        split
        · exact ⟨hv1.applyMove act, hnew⟩
        · exact ⟨hv1.applyMove act, hnew⟩
  · exact ⟨hv, hh⟩

theorem mixTabuLoop_inv (c : Config) (hc : TabuParams c) (picks : List Nat) (st : TabuRun)
    (hv : IsVisitMatrix c st.visits) (hh : HashConsistent c st.solver st.visits) :
    IsVisitMatrix c (mixTabuLoop c picks st).visits
      ∧ HashConsistent c (mixTabuLoop c picks st).solver (mixTabuLoop c picks st).visits := by
  induction picks generalizing st with
  | nil => exact ⟨hv, hh⟩
  | cons r rs ih =>
    have hstep := mixTabuIter_inv c hc r st hv hh
    unfold mixTabuLoop
    cases hit : mixTabuIter c r st with
    | mk flag st1 =>
      rw [hit] at hstep
      cases flag with
      | false => exact hstep
      | true => exact ih st1 hstep.1 hstep.2

theorem exampleVisits_isVisitMatrix : IsVisitMatrix exampleConfig exampleVisits := by
  unfold IsVisitMatrix
  decide

theorem exampleSolver_toursConsistent :
    ToursConsistent exampleConfig exampleVisits exampleSolver.curTours := by
  unfold ToursConsistent
  decide

theorem rejectVisits_isVisitMatrix : IsVisitMatrix rejectConfig rejectVisits := by
  unfold IsVisitMatrix
  decide

theorem rejectSolver_toursConsistent :
    ToursConsistent rejectConfig rejectVisits rejectSolver.curTours := by
  unfold ToursConsistent
  decide

theorem rejectConfig_candidateLists :
    candidateLists rejectConfig rejectSolver rejectVisits = some ([rejectDel], [], []) := by
  have hsqrt : Nat.sqrt 2 = 1 := (Nat.eq_sqrt.2 ⟨by decide, by decide⟩).symm
  have hd : delNeighOf rejectConfig rejectSolver rejectVisits = some [rejectDel] := by
    simp [delNeighOf, nodeLoop, collectM, rejectConfig, exampleConfig, rejectVisits,
      delNodeTourCost, rejectSolver, pushUnlessTabu, isTabuWithMove, rejectDel]
    norm_num
  have hm : movNeighOf rejectConfig rejectSolver rejectVisits = some [] := by
    simp [movNeighOf, nodeLoop, collectM, rejectConfig, exampleConfig, rejectVisits]
  have hs : swpNeighOf rejectConfig rejectSolver rejectVisits = some [] := by
    simp [swpNeighOf, nodeLoop, collectM, rejectConfig, exampleConfig]
  have hmax : maxSize rejectConfig = 2 := by
    simp [maxSize, rejectConfig, exampleConfig, hsqrt, castUnsigned]
  simp [candidateLists, hd, hm, hs, hmax, sortByCost]

/-! ## Properties of the tabu search and of the neighbourhood construction -/

/-- C3: state invariant of `mixTabuSearch`. After the initial
`execTabu(visits, true)` and after every pass through the loop (a move picked
from `mixNeigh` applied to `visits`, then `execTabu(act)`), for every sequence
of picks, the persistent triple is the hash triple of `visits`. -/
theorem mixTabuSearch_hash_invariant (c : Config) (hc : TabuParams c) (picks : List Nat)
    (s : Solver) (visits : Visits) (modelCost : Price) (hv : IsVisitMatrix c visits) :
    (mixTabuSearch c picks s visits modelCost).solver.hashValue1
        = hash c (mixTabuSearch c picks s visits modelCost).visits c.gamma1
      ∧ (mixTabuSearch c picks s visits modelCost).solver.hashValue2
        = hash c (mixTabuSearch c picks s visits modelCost).visits c.gamma2
      ∧ (mixTabuSearch c picks s visits modelCost).solver.hashValue3
        = hash c (mixTabuSearch c picks s visits modelCost).visits c.gamma3 := by
  unfold mixTabuSearch
  exact (mixTabuLoop_inv c hc picks _ hv ⟨rfl, rfl, rfl⟩).2

theorem mixTabuSearch_hash_invariant_witness :
    IsVisitMatrix exampleConfig exampleVisits
      ∧ (mixTabuSearch exampleConfig [0, 1] exampleSolver exampleVisits 11).solver.hashValue1
        = hash exampleConfig
            (mixTabuSearch exampleConfig [0, 1] exampleSolver exampleVisits 11).visits
            exampleConfig.gamma1 :=
  ⟨exampleVisits_isVisitMatrix,
    (mixTabuSearch_hash_invariant exampleConfig exampleConfig_tabuParams [0, 1] exampleSolver
      exampleVisits 11 exampleVisits_isVisitMatrix).1⟩

/-- C6: `buildMixNeigh` reverts every trial move. For every visit matrix, with
tours that agree with it, and whatever the LP returns for the trial matrices,
the call returns and `visits` is then equal to its value on entry. -/
theorem buildMixNeigh_restores_visits (c : Config) (s : Solver) (visits : Visits)
    (minCost : Price) (hv : IsVisitMatrix c visits)
    (ht : ToursConsistent c visits s.curTours) :
    ∃ r, buildMixNeigh c s visits minCost = some r ∧ r.2 = visits := by
  obtain ⟨r, hr⟩ := buildMixNeigh_isSome c s visits minCost ht
  obtain ⟨_, _, _, _, hvis, _⟩ := buildMixNeigh_spec c s visits minCost hv r hr
  exact ⟨r, hr, hvis⟩

theorem buildMixNeigh_restores_visits_witness :
    IsVisitMatrix exampleConfig exampleVisits
      ∧ ToursConsistent exampleConfig exampleVisits exampleSolver.curTours
      ∧ ∃ r, buildMixNeigh exampleConfig exampleSolver exampleVisits 100 = some r
          ∧ r.2 = exampleVisits :=
  ⟨exampleVisits_isVisitMatrix, exampleSolver_toursConsistent,
    buildMixNeigh_restores_visits exampleConfig exampleSolver exampleVisits 100
      exampleVisits_isVisitMatrix exampleSolver_toursConsistent⟩

/-- C7, as stated, fails: on the matrix `[[1,1]]` with an LP that rejects every
matrix, the only candidate `DEL(0,1)` is evaluated and rejected (sentinel `-1`,
`mixNeigh` stays empty), and yet bit `0` of `H1`, clear on entry, is set on
return. -/
theorem rejected_candidate_sets_tabu_bit :
    ∃ r, buildMixNeigh rejectConfig rejectSolver rejectVisits rejectConfig.defaultMinCost = some r
      ∧ candidateLists rejectConfig rejectSolver rejectVisits = some ([rejectDel], [], [])
      ∧ callModel rejectConfig (applyMove rejectVisits rejectDel) = -1
      ∧ r.1.mixNeigh = []
      ∧ rejectSolver.H1 0 = false ∧ r.1.H1 0 = true := by
  obtain ⟨r, hr⟩ := buildMixNeigh_isSome rejectConfig rejectSolver rejectVisits
    rejectConfig.defaultMinCost rejectSolver_toursConsistent
  obtain ⟨dl, ml, sl, hcl, _, hgood, _, hbits⟩ := buildMixNeigh_spec rejectConfig rejectSolver
    rejectVisits rejectConfig.defaultMinCost rejectVisits_isVisitMatrix r hr
  rw [rejectConfig_candidateLists] at hcl
  simp only [Option.some.injEq, Prod.mk.injEq] at hcl
  obtain ⟨rfl, rfl, rfl⟩ := hcl
  refine ⟨r, hr, rejectConfig_candidateLists, rfl, ?_, rfl, ?_⟩
  · cases hmn : r.1.mixNeigh with
    | nil => rfl
    | cons b bs =>
      exfalso
      obtain ⟨_, hb1, hb2⟩ := hgood b (by rw [hmn]; exact List.mem_cons_self _ _)
      have : callModel rejectConfig (applyMove rejectVisits b) = -1 := rfl
      rw [hb1, this] at hb2
      norm_num at hb2
  · have h1 := (hbits rejectDel (by simp)).1
    have hidx : moveHash rejectConfig rejectConfig.gamma1 rejectSolver.hashValue1 rejectDel = 0 := by
      decide
    rw [hidx] at h1
    exact h1

/-- C7, amended: a candidate whose LP evaluation returns the sentinel is not
added to `mixNeigh` and leaves `visits` and the persistent hash triple as on
entry; the three bits of its post-move hash triple are set all the same, as
for every candidate an evaluation loop runs over, and no bit is cleared. -/
theorem rejected_candidate_effects (c : Config) (s : Solver) (visits : Visits)
    (minCost : Price) (hv : IsVisitMatrix c visits)
    (ht : ToursConsistent c visits s.curTours) :
    ∃ r dl ml sl, buildMixNeigh c s visits minCost = some r
      ∧ candidateLists c s visits = some (dl, ml, sl)
      ∧ r.2 = visits
      ∧ r.1.hashValue1 = s.hashValue1 ∧ r.1.hashValue2 = s.hashValue2
      ∧ r.1.hashValue3 = s.hashValue3
      ∧ (∀ i, (s.H1 i = true → r.1.H1 i = true) ∧ (s.H2 i = true → r.1.H2 i = true)
          ∧ (s.H3 i = true → r.1.H3 i = true))
      ∧ ∀ a, a ∈ dl ++ ml ++ sl →
          MoveBitsSet c r.1 s.hashValue1 s.hashValue2 s.hashValue3 a
          ∧ (callModel c (applyMove visits a) < 0 →
              ∀ b, b ∈ r.1.mixNeigh → applyMove visits b ≠ applyMove visits a) := by
  obtain ⟨r, hr⟩ := buildMixNeigh_isSome c s visits minCost ht
  obtain ⟨dl, ml, sl, hcl, hvis, hgood, hext, hbits⟩ :=
    buildMixNeigh_spec c s visits minCost hv r hr
  refine ⟨r, dl, ml, sl, hr, hcl, hvis, hext.hashValue1, hext.hashValue2, hext.hashValue3,
    fun i => ⟨hext.H1 i, hext.H2 i, hext.H3 i⟩, ?_⟩
  intro a ha
  refine ⟨hbits a ha, ?_⟩
  intro hneg b hb heq
  obtain ⟨_, hb1, hb2⟩ := hgood b hb
  rw [hb1, heq] at hb2
  exact absurd hneg (not_lt.mpr hb2)

theorem rejected_candidate_effects_witness :
    IsVisitMatrix rejectConfig rejectVisits
      ∧ ToursConsistent rejectConfig rejectVisits rejectSolver.curTours
      ∧ ∃ r dl ml sl, buildMixNeigh rejectConfig rejectSolver rejectVisits 100 = some r
          ∧ candidateLists rejectConfig rejectSolver rejectVisits = some (dl, ml, sl)
          ∧ r.2 = rejectVisits
          ∧ r.1.hashValue1 = rejectSolver.hashValue1 ∧ r.1.hashValue2 = rejectSolver.hashValue2
          ∧ r.1.hashValue3 = rejectSolver.hashValue3
          ∧ (∀ i, (rejectSolver.H1 i = true → r.1.H1 i = true)
              ∧ (rejectSolver.H2 i = true → r.1.H2 i = true)
              ∧ (rejectSolver.H3 i = true → r.1.H3 i = true))
          ∧ ∀ a, a ∈ dl ++ ml ++ sl →
              MoveBitsSet rejectConfig r.1 rejectSolver.hashValue1 rejectSolver.hashValue2
                rejectSolver.hashValue3 a
              ∧ (callModel rejectConfig (applyMove rejectVisits a) < 0 →
                  ∀ b, b ∈ r.1.mixNeigh → applyMove rejectVisits b ≠ applyMove rejectVisits a) :=
  ⟨rejectVisits_isVisitMatrix, rejectSolver_toursConsistent,
    rejected_candidate_effects rejectConfig rejectSolver rejectVisits 100
      rejectVisits_isVisitMatrix rejectSolver_toursConsistent⟩

/-- C8: every actor in the list `mixNeigh` returned by `buildMixNeigh` has
`modelCost ≥ 0`, the result of `callModel` on its post-move visit matrix; a
candidate for which `callModel` returned the sentinel `-1` is not a member. -/
theorem mixNeigh_members_feasible (c : Config) (s : Solver) (visits : Visits)
    (minCost : Price) (hv : IsVisitMatrix c visits)
    (ht : ToursConsistent c visits s.curTours) :
    ∃ r, buildMixNeigh c s visits minCost = some r
      ∧ ∀ a, a ∈ r.1.mixNeigh →
          0 ≤ a.modelCost ∧ a.modelCost = callModel c (applyMove visits a)
            ∧ callModel c (applyMove visits a) ≠ -1 := by
  obtain ⟨r, hr⟩ := buildMixNeigh_isSome c s visits minCost ht
  obtain ⟨_, _, _, _, _, hgood, _, _⟩ := buildMixNeigh_spec c s visits minCost hv r hr
  refine ⟨r, hr, ?_⟩
  intro a ha
  obtain ⟨_, h1, h2⟩ := hgood a ha
  refine ⟨h2, h1, ?_⟩
  intro h
  rw [h1, h] at h2
  norm_num at h2

theorem mixNeigh_members_feasible_witness :
    IsVisitMatrix exampleConfig exampleVisits
      ∧ ToursConsistent exampleConfig exampleVisits exampleSolver.curTours
      ∧ ∃ r, buildMixNeigh exampleConfig exampleSolver exampleVisits 100 = some r
          ∧ ∀ a, a ∈ r.1.mixNeigh →
              0 ≤ a.modelCost ∧ a.modelCost = callModel exampleConfig (applyMove exampleVisits a)
                ∧ callModel exampleConfig (applyMove exampleVisits a) ≠ -1 :=
  ⟨exampleVisits_isVisitMatrix, exampleSolver_toursConsistent,
    mixNeigh_members_feasible exampleConfig exampleSolver exampleVisits 100
      exampleVisits_isVisitMatrix exampleSolver_toursConsistent⟩

/-! ## The quantity LP -/

theorem quantityBefore_succ_eq_stock (inp : Input) (delivery : Nat → Nat → Nat → ℚ)
    (n p : Nat) : quantityBefore inp delivery n (p + 1) = stock inp delivery n p := by
  induction p with
  | zero =>
    simp only [quantityBefore, stock, Finset.sum_range_one, Nat.zero_add]
  | succ p ih =>
    rw [quantityBefore, ih]
    unfold stock
    rw [Finset.sum_range_succ _ (p + 1), Finset.sum_range_succ _ (p + 1)]
    ring

/-- The expression `quantityLevel[n][p]` of the model is the inventory level of
the data model. -/
theorem quantityLevel_eq_stock (inp : Input) (delivery : Nat → Nat → Nat → ℚ) (n p : Nat) :
    quantityLevel inp delivery n p = stock inp delivery n p := by
  rw [← quantityBefore_succ_eq_stock]
  simp only [quantityLevel, quantityDelivered, quantityBefore]

theorem producerInput_constraints :
    CallModelConstraints producerInput (fun _ _ => 1) (fun _ _ _ => 0) := by
  refine ⟨?_, ?_, ?_⟩
  · intro p _ v hv
    have hv0 : v = 0 := by simpa [producerInput] using hv
    subst hv0
    constructor
    · intro n hn
      have hn0 : n = 0 := by simpa [producerInput] using hn
      subst hn0
      simp [producerInput, Input.deliveryCap, Input.node]
    · intro n _ hn
      have hn1 : n < 2 := by simpa [producerInput] using hn
      interval_cases n <;> simp [producerInput, Input.deliveryCap, Input.node]
  · intro n hn p hp
    have hn1 : n < 2 := by simpa [producerInput] using hn
    have hp0 : p = 0 := by simpa [producerInput] using hp
    subst hp0
    interval_cases n <;>
      simp [quantityLevel, quantityDelivered, quantityBefore, producerInput, Input.node,
        Input.demand]
  · intro p _ v hv
    have hv0 : v = 0 := by simpa [producerInput] using hv
    subst hv0
    constructor
    · intro n hn
      have hn1 : n < 2 := by simpa [producerInput] using hn
      interval_cases n <;> simp [producerInput, Input.deliveryCap, Input.node]
    · simp

/-- C9, as stated, fails: in `producerInput` the all-zero deliveries satisfy
every constraint that `callModel` builds, and the level of the depot after
period `0` is `5`, above its capacity `3`. -/
theorem stock_above_capacity :
    CallModelConstraints producerInput (fun _ _ => 1) (fun _ _ _ => 0)
      ∧ stock producerInput (fun _ _ _ => 0) 0 0 = 5
      ∧ ((producerInput.node 0).capacity : ℚ) = 3
      ∧ ¬ (stock producerInput (fun _ _ _ => 0) 0 0 ≤ ((producerInput.node 0).capacity : ℚ)) := by
  have hs : stock producerInput (fun _ _ _ => 0) 0 0 = 5 := by
    simp [stock, producerInput, Input.node, Input.demand]
  have hc : ((producerInput.node 0).capacity : ℚ) = 3 := by
    simp [producerInput, Input.node]
  refine ⟨producerInput_constraints, hs, hc, ?_⟩
  rw [hs, hc]
  norm_num

/-- C9, amended: every assignment of the delivery variables that satisfies the
constraints built by `callModel` has, for every node and period, a
non-negative level after consumption and a level before consumption
(`stock + demand`) of at most the capacity of the node; the level after
consumption is at most the capacity whenever the demand of the period is not
negative. -/
theorem stock_bounds (inp : Input) (visits : Visits) (delivery : Nat → Nat → Nat → ℚ)
    (h : CallModelConstraints inp visits delivery) (n p : Nat) (hn : n < inp.nodes.length)
    (hp : p < inp.periodnum) :
    0 ≤ stock inp delivery n p
      ∧ stock inp delivery n p + (inp.demand n p : ℚ) ≤ ((inp.node n).capacity : ℚ)
      ∧ (0 ≤ inp.demand n p → stock inp delivery n p ≤ ((inp.node n).capacity : ℚ)) := by
  obtain ⟨hcap, hlev⟩ := h.2.1 n hn p hp
  rw [quantityLevel_eq_stock] at hlev
  have hq : quantityDelivered inp delivery n p = stock inp delivery n p + (inp.demand n p : ℚ) := by
    rw [← quantityLevel_eq_stock]
    simp only [quantityLevel]
    ring
  rw [hq] at hcap
  refine ⟨hlev, hcap, ?_⟩
  intro hd
  have : (0 : ℚ) ≤ (inp.demand n p : ℚ) := by exact_mod_cast hd
  linarith

theorem stock_bounds_witness :
    CallModelConstraints producerInput (fun _ _ => 1) (fun _ _ _ => 0)
      ∧ 1 < producerInput.nodes.length ∧ 0 < producerInput.periodnum
      ∧ 0 ≤ stock producerInput (fun _ _ _ => 0) 1 0
      ∧ stock producerInput (fun _ _ _ => 0) 1 0 + (producerInput.demand 1 0 : ℚ)
          ≤ ((producerInput.node 1).capacity : ℚ)
      ∧ (0 ≤ producerInput.demand 1 0 →
          stock producerInput (fun _ _ _ => 0) 1 0 ≤ ((producerInput.node 1).capacity : ℚ)) :=
  ⟨producerInput_constraints, by decide, by decide,
    stock_bounds producerInput (fun _ _ => 1) (fun _ _ _ => 0) producerInput_constraints 1 0
      (by decide) (by decide)⟩

theorem s3_no_solution (depot : Node) (holdingcost : Price) (vehicleNum : Nat)
    (delivery : Nat → Nat → Nat → ℚ) :
    ¬ CallModelConstraints (s3Input depot holdingcost vehicleNum) s3Visits delivery := by
  intro h
  obtain ⟨_, hlevel, hgate⟩ := h
  have hlen : (s3Input depot holdingcost vehicleNum).vehicles.length = vehicleNum := by
    simp [s3Input]
  -- the customer gets nothing in period 1, where it is not visited
  have hzero : ∑ v ∈ Finset.range vehicleNum, delivery 1 v 1 ≤ 0 := by
    apply Finset.sum_nonpos
    intro v hv
    have hv' : v < (s3Input depot holdingcost vehicleNum).vehicles.length := by
      rw [hlen]; exact Finset.mem_range.mp hv
    have hg := (hgate 1 (by simp [s3Input]) v hv').1 1 (by simp [s3Input])
    simpa [s3Input, s3Visits] using hg
  have h0 := (hlevel 1 (by simp [s3Input]) 0 (by simp [s3Input])).1
  have h1 := (hlevel 1 (by simp [s3Input]) 1 (by simp [s3Input])).2
  simp only [quantityLevel, quantityDelivered, quantityBefore, hlen] at h0 h1
  have e0 : (((s3Input depot holdingcost vehicleNum).node 1).initquantity : ℚ) = 0 := by
    simp [s3Input, Input.node]
  have e1 : (((s3Input depot holdingcost vehicleNum).node 1).capacity : ℚ) = 10 := by
    simp [s3Input, Input.node]
  have e2 : ((s3Input depot holdingcost vehicleNum).demand 1 0 : ℚ) = 8 := by
    simp [s3Input, Input.node, Input.demand]
  have e3 : ((s3Input depot holdingcost vehicleNum).demand 1 1 : ℚ) = 8 := by
    simp [s3Input, Input.node, Input.demand]
  rw [e0, e1] at h0
  rw [e0, e2, e3] at h1
  linarith

/-- C10: scenario S3. For one depot and one customer with demands `[8,8]`,
initial quantity `0` and capacity `10`, vehicles of capacity `10`, and
`visits = [[1,1],[1,0]]`, the constraint system built by `callModel` has no
solution, so `callModel` returns the sentinel `-1` (the LP engine reports
success only for a model that has a solution). -/
theorem s3_callModel_infeasible (c : Config) (depot : Node) (holdingcost : Price)
    (vehicleNum : Nat) (hsound : MpSolverSound c (s3Input depot holdingcost vehicleNum)) :
    (¬ ∃ delivery, CallModelConstraints (s3Input depot holdingcost vehicleNum) s3Visits delivery)
      ∧ callModel c s3Visits = -1 := by
  constructor
  · rintro ⟨delivery, hd⟩
    exact s3_no_solution depot holdingcost vehicleNum delivery hd
  · unfold callModel
    cases hopt : c.mpOptimize s3Visits with
    | none => rfl
    | some objective =>
      obtain ⟨delivery, hd, _⟩ := hsound s3Visits objective hopt
      exact absurd hd (s3_no_solution depot holdingcost vehicleNum delivery)

theorem rejectConfig_sound (inp : Input) : MpSolverSound rejectConfig inp := by
  intro visits objective h
  simp [rejectConfig] at h

theorem s3_callModel_infeasible_witness :
    MpSolverSound rejectConfig (s3Input ⟨20, 20, 1, [0, 0]⟩ 1 1)
      ∧ (¬ ∃ delivery, CallModelConstraints (s3Input ⟨20, 20, 1, [0, 0]⟩ 1 1) s3Visits delivery)
      ∧ callModel rejectConfig s3Visits = -1 :=
  ⟨rejectConfig_sound _,
    s3_callModel_infeasible rejectConfig ⟨20, 20, 1, [0, 0]⟩ 1 1 (rejectConfig_sound _)⟩

theorem swp_moveHash_eq_hash_witness :
    (1 : Nat) ≠ 2 ∧ exampleVisits 0 1 = 1 ∧ exampleVisits 1 2 = 1 ∧ exampleVisits 0 2 = 0
      ∧ exampleVisits 1 1 = 0
      ∧ moveHash exampleConfig exampleConfig.gamma1
          (hash exampleConfig exampleVisits exampleConfig.gamma1)
          ⟨ActorType.SWP, 0, 0, (0 : Nat), (1 : Nat), (1 : Nat), (2 : Nat)⟩
        = hash exampleConfig
            (applyMove exampleVisits ⟨ActorType.SWP, 0, 0, (0 : Nat), (1 : Nat), (1 : Nat), (2 : Nat)⟩)
            exampleConfig.gamma1 :=
  ⟨by decide, by decide, by decide, by decide, by decide,
    (swp_moveHash_eq_hash exampleConfig exampleConfig_tabuParams exampleSolver exampleVisits
      0 1 1 2 (by decide) (by decide) (by decide) (by decide) (by decide) (by decide)
      (by decide) (by decide) (by decide) 0 0 rfl rfl rfl).1.1⟩

theorem tabu_memory_monotone_witness :
    isTabu exampleConfig (execTabuVisits exampleConfig exampleSolver exampleVisits true)
        exampleVisits = true
      ∧ isTabu exampleConfig
          ([TabuOp.execTabuAct ⟨ActorType.DEL, 0, 0, -1, -1, 0, 1⟩,
            TabuOp.execTabuVisits (exampleVisits.set 1 1 1) false].foldl
            (TabuOp.run exampleConfig)
            (execTabuVisits exampleConfig exampleSolver exampleVisits true))
          exampleVisits = true :=
  have h : isTabu exampleConfig (execTabuVisits exampleConfig exampleSolver exampleVisits true)
      exampleVisits = true := by
    simp [isTabu, execTabuVisits, setBit_self]
  ⟨h, (tabu_memory_monotone exampleConfig).2.2 _ _ _ h⟩

/-! ## Runs of the model on the example data -/

/-- On the example data `buildMixNeigh` keeps exactly one neighbour, the
deletion of customer `2` from period `1`, with tour delta `-6`, LP cost `5` and
total cost `-1`; the other four candidates are rejected by the LP or cost more. -/
theorem exampleConfig_buildMixNeigh_run :
    (buildMixNeigh exampleConfig exampleSolver exampleVisits 1000000).map
      (fun r => r.1.mixNeigh.map (fun a => (a.actype, a.p2, a.n2, a.totalCost, a.modelCost)))
      = some [(ActorType.DEL, 1, 2, -1, 5)] := by
  decide!

/-- On the example data one pass of the tabu search loop applies that deletion:
customer `2` leaves period `1`, whose tour becomes `[0,0]`, and the step is
recorded as an improvement of `bestCost`. -/
theorem exampleConfig_mixTabuSearch_run :
    (mixTabuSearch exampleConfig [0] exampleSolver exampleVisits 11).visits 1 2 = 0
      ∧ (mixTabuSearch exampleConfig [0] exampleSolver exampleVisits 11).solver.curTours 1 = [0, 0]
      ∧ (mixTabuSearch exampleConfig [0] exampleSolver exampleVisits 11).isImproved = true
      ∧ (mixTabuSearch exampleConfig [0] exampleSolver exampleVisits 11).solver.bestCost = 11 := by
  decide!

/-! ## The TSP repair -/

theorem callLKHPeriod_eq (c : Config) (visits : Visits) (s : Solver) (p : Nat) :
    callLKHPeriod c visits s p =
      { s with
        curTours := fun q => if q = p then repairedTour c visits p else s.curTours q
        tourPrices := fun q =>
          if q = p then repairedPrice c visits s.routingCost p else s.tourPrices q } := by
  unfold callLKHPeriod repairedPrice repairedTour visitedNodes
  simp only
  by_cases h2 : ((List.range c.nodeNum).filter (fun n => decide (visits p n ≠ 0))).length > 2
  · have h2' : ((List.range c.nodeNum).filter (fun n => decide (visits p n ≠ 0))).length ≥ 2 := by
      omega
    simp only [h2, h2', if_true]
  · by_cases h3 : ((List.range c.nodeNum).filter (fun n => decide (visits p n ≠ 0))).length = 2
    · have h3' : ((List.range c.nodeNum).filter (fun n => decide (visits p n ≠ 0))).length ≥ 2 := by
        omega
      rw [if_neg h2, if_pos h3, if_neg h2, if_pos h3, if_pos h3']
      rfl
    · have h3' : ¬ ((List.range c.nodeNum).filter
          (fun n => decide (visits p n ≠ 0))).length ≥ 2 := by omega
      simp only [h2, h3, h3', if_false]

/-- After the loop of `callLKH` over a list of periods, the entries of the
periods in the list are the repaired tours and prices, the other entries and
the cost matrix are as before. -/
theorem foldl_callLKHPeriod_eq (c : Config) (visits : Visits) (l : List Nat) (s : Solver) :
    (l.foldl (callLKHPeriod c visits) s).routingCost = s.routingCost
      ∧ (∀ q, (l.foldl (callLKHPeriod c visits) s).curTours q
          = if q ∈ l then repairedTour c visits q else s.curTours q)
      ∧ (∀ q, (l.foldl (callLKHPeriod c visits) s).tourPrices q
          = if q ∈ l then repairedPrice c visits s.routingCost q else s.tourPrices q) := by
  induction l generalizing s with
  | nil => simp
  | cons p l ih =>
    obtain ⟨h1, h2, h3⟩ := ih (callLKHPeriod c visits s p)
    simp only [List.foldl_cons]
    rw [callLKHPeriod_eq] at h1 h2 h3 ⊢
    simp only at h1 h2 h3
    refine ⟨h1, ?_, ?_⟩
    · intro q
      rw [h2 q]
      by_cases hq : q ∈ l
      · simp [hq]
      · by_cases hqp : q = p
        · simp [hq, hqp]
        · simp [hq, hqp]
    · intro q
      rw [h3 q]
      by_cases hq : q ∈ l
      · simp [hq]
      · by_cases hqp : q = p
        · simp [hq, hqp]
        · simp [hq, hqp]

theorem mem_callLKH_periods (c : Config) (p1 p2 : Int) (p : Nat) (hp : p < c.periodNum)
    (hsel : (p1 < 0 ∧ p2 < 0) ∨ p1 = p ∨ p2 = p) :
    p ∈ (if p1 ≥ 0 then [p1.toNat] else []) ++ (if p2 ≥ 0 then [p2.toNat] else [])
      ++ (if p1 < 0 ∧ p2 < 0 then List.range c.periodNum else []) := by
  rcases hsel with h | h | h
  · simp [h, hp]
  · subst h
    simp
  · subst h
    simp

theorem visitedNodes_of_no_customer (c : Config) (visits : Visits) (p : Nat)
    (hnone : ∀ n, 1 ≤ n → n < c.nodeNum → visits p n = 0) :
    (visitedNodes c visits p).length ≤ 1 := by
  unfold visitedNodes
  cases hN : c.nodeNum with
  | zero => simp
  | succ k =>
    rw [List.range_succ_eq_map, List.filter_cons]
    have htail : (List.map Nat.succ (List.range k)).filter (fun n => decide (visits p n ≠ 0))
        = [] := by
      rw [List.filter_eq_nil_iff]
      intro a ha
      obtain ⟨b, hb, rfl⟩ := List.mem_map.mp ha
      have := List.mem_range.mp hb
      simp [hnone (b + 1) (by omega) (by omega)]
    rw [htail]
    split <;> simp

theorem visitedNodes_of_one_customer (c : Config) (visits : Visits) (p cust : Nat)
    (h0 : visits p 0 ≠ 0) (hc1 : 1 ≤ cust) (hcN : cust < c.nodeNum) (hc : visits p cust ≠ 0)
    (hnone : ∀ n, 1 ≤ n → n < c.nodeNum → n ≠ cust → visits p n = 0) :
    visitedNodes c visits p = [0, cust] := by
  unfold visitedNodes
  have hsplit : List.range c.nodeNum
      = [0] ++ List.range' 1 (cust - 1) ++ [cust]
        ++ List.range' (cust + 1) (c.nodeNum - cust - 1) := by
    rw [List.range_eq_range']
    have a : List.range' 0 c.nodeNum = List.range' 0 1 ++ List.range' (0 + 1) (c.nodeNum - 1) := by
      rw [List.range'_append_1]; congr 1; omega
    have b : List.range' (0 + 1) (c.nodeNum - 1)
        = List.range' 1 (cust - 1) ++ List.range' (1 + (cust - 1)) (c.nodeNum - cust) := by
      rw [List.range'_append_1]; congr 1; omega
    have d : List.range' (1 + (cust - 1)) (c.nodeNum - cust)
        = List.range' cust 1 ++ List.range' (cust + 1) (c.nodeNum - cust - 1) := by
      rw [List.range'_append_1]; congr 1 <;> omega
    rw [a, b, d]
    simp [List.range']
  rw [hsplit]
  simp only [List.filter_append]
  have hA : (List.range' 1 (cust - 1)).filter (fun n => decide (visits p n ≠ 0)) = [] := by
    rw [List.filter_eq_nil_iff]
    intro a ha
    rw [List.mem_range'_1] at ha
    simp [hnone a (by omega) (by omega) (by omega)]
  have hB : (List.range' (cust + 1) (c.nodeNum - cust - 1)).filter
      (fun n => decide (visits p n ≠ 0)) = [] := by
    rw [List.filter_eq_nil_iff]
    intro a ha
    rw [List.mem_range'_1] at ha
    simp [hnone a (by omega) (by omega) (by omega)]
  rw [hA, hB]
  simp [h0, hc]

theorem callLKH_at (c : Config) (s : Solver) (visits : Visits) (p1 p2 : Int) (p : Nat)
    (hp : p < c.periodNum) (hsel : (p1 < 0 ∧ p2 < 0) ∨ p1 = p ∨ p2 = p) :
    (callLKH c s visits p1 p2).1.curTours p = repairedTour c visits p
      ∧ (callLKH c s visits p1 p2).1.tourPrices p = repairedPrice c visits s.routingCost p := by
  have hmem := mem_callLKH_periods c p1 p2 p hp hsel
  obtain ⟨_, h2, h3⟩ := foldl_callLKHPeriod_eq c visits
    ((if p1 ≥ 0 then [p1.toNat] else []) ++ (if p2 ≥ 0 then [p2.toNat] else [])
      ++ (if p1 < 0 ∧ p2 < 0 then List.range c.periodNum else [])) s
  unfold callLKH
  simp only
  rw [h2 p, h3 p, if_pos hmem, if_pos hmem]
  exact ⟨rfl, rfl⟩

theorem exampleSolver_routingCost_symm (i j : Nat) :
    exampleSolver.routingCost i j = exampleSolver.routingCost j i := by
  simp only [exampleSolver, eq_comm]

/-- C13: empty-period boundary. For every visit matrix in which no customer is
visited in period `p`, `callLKH`, run on all periods or with `p` among the
affected periods, leaves `tourPrices[p] = 0` and `curTours[p] = [0,0]`. -/
theorem callLKH_empty_period (c : Config) (s : Solver) (visits : Visits) (p1 p2 : Int) (p : Nat)
    (hp : p < c.periodNum) (hsel : (p1 < 0 ∧ p2 < 0) ∨ p1 = p ∨ p2 = p)
    (hnone : ∀ n, 1 ≤ n → n < c.nodeNum → visits p n = 0) :
    (callLKH c s visits p1 p2).1.tourPrices p = 0
      ∧ (callLKH c s visits p1 p2).1.curTours p = [0, 0] := by
  obtain ⟨h1, h2⟩ := callLKH_at c s visits p1 p2 p hp hsel
  have hlen := visitedNodes_of_no_customer c visits p hnone
  have e1 : ¬ (visitedNodes c visits p).length > 2 := by omega
  have e2 : ¬ (visitedNodes c visits p).length = 2 := by omega
  have e3 : ¬ (visitedNodes c visits p).length ≥ 2 := by omega
  rw [h1, h2]
  simp only [repairedPrice, repairedTour, e1, e2, e3, if_false, and_self]

theorem callLKH_empty_period_witness :
    (1 : Nat) < exampleConfig.periodNum
      ∧ (∀ n, 1 ≤ n → n < exampleConfig.nodeNum → emptyPeriodVisits 1 n = 0)
      ∧ (callLKH exampleConfig exampleSolver emptyPeriodVisits (-1) (-1)).1.tourPrices 1 = 0
      ∧ (callLKH exampleConfig exampleSolver emptyPeriodVisits (-1) (-1)).1.curTours 1 = [0, 0] :=
  ⟨by decide, by decide,
    callLKH_empty_period exampleConfig exampleSolver emptyPeriodVisits (-1) (-1) 1 (by decide)
      (Or.inl ⟨by decide, by decide⟩) (by decide)⟩

/-- C14: single-customer boundary. For every visit matrix in which period `p`
has `visits[p][0] = 1` and exactly one customer `cust` visited, `callLKH` sets
`curTours[p] = [0,cust,0]` and `tourPrices[p] = 2*routingCost[0][cust]`
(the cost matrix being symmetric), whatever the TSP solver would return. -/
theorem callLKH_single_customer (c : Config) (s : Solver) (visits : Visits) (p1 p2 : Int)
    (p cust : Nat) (hp : p < c.periodNum) (hsel : (p1 < 0 ∧ p2 < 0) ∨ p1 = p ∨ p2 = p)
    (h0 : visits p 0 = 1) (hc1 : 1 ≤ cust) (hcN : cust < c.nodeNum) (hc : visits p cust ≠ 0)
    (hnone : ∀ n, 1 ≤ n → n < c.nodeNum → n ≠ cust → visits p n = 0)
    (hsym : ∀ i j, s.routingCost i j = s.routingCost j i) :
    ∀ tsp : List Nat → List Nat,
      (callLKH { c with tspSolve := tsp } s visits p1 p2).1.curTours p = [0, cust, 0]
        ∧ (callLKH { c with tspSolve := tsp } s visits p1 p2).1.tourPrices p
          = 2 * s.routingCost 0 cust := by
  intro tsp
  obtain ⟨h1, h2⟩ := callLKH_at { c with tspSolve := tsp } s visits p1 p2 p hp hsel
  have hnodes := visitedNodes_of_one_customer { c with tspSolve := tsp } visits p cust
    (by rw [h0]; decide) hc1 hcN hc hnone
  rw [h1, h2]
  simp only [repairedPrice, repairedTour, hnodes, List.length_cons, List.length_nil]
  simp only [Nat.reduceAdd, gt_iff_lt, lt_self_iff_false, if_false, if_true, ge_iff_le, le_refl,
    List.getD_cons_zero, List.getD_cons_succ, tourCost, true_and]
  rw [hsym cust 0]
  ring

theorem callLKH_single_customer_witness :
    (0 : Nat) < exampleConfig.periodNum ∧ exampleVisits 0 0 = 1 ∧ exampleVisits 0 1 ≠ 0
      ∧ (∀ n, 1 ≤ n → n < exampleConfig.nodeNum → n ≠ 1 → exampleVisits 0 n = 0)
      ∧ ∀ tsp : List Nat → List Nat,
          (callLKH { exampleConfig with tspSolve := tsp } exampleSolver exampleVisits
              (0 : Nat) (-1)).1.curTours 0 = [0, 1, 0]
            ∧ (callLKH { exampleConfig with tspSolve := tsp } exampleSolver exampleVisits
              (0 : Nat) (-1)).1.tourPrices 0 = 2 * exampleSolver.routingCost 0 1 :=
  ⟨by decide, by decide, by decide, by decide,
    callLKH_single_customer exampleConfig exampleSolver exampleVisits (0 : Nat) (-1) 0 1
      (by decide) (Or.inr (Or.inl rfl)) (by decide) (by decide) (by decide) (by decide)
      (by decide) exampleSolver_routingCost_symm⟩

/-! ## Moves and their inverses -/

theorem eq_of_modEq_of_lt {B a b : Nat} (h : a ≡ b [MOD B]) (ha : a < B) (hb : b < B) :
    a = b := by
  unfold Nat.ModEq at h
  rwa [Nat.mod_eq_of_lt ha, Nat.mod_eq_of_lt hb] at h

theorem moveHash_mov_reverse (c : Config) (hc : TabuParams c) (gamma : Nat → Nat) (hv : Nat)
    (hlt : hv < c.BitSize) (p1 p2 n : Nat) (tc mc tc' mc' : Price) :
    moveHash c gamma (moveHash c gamma hv ⟨ActorType.MOV, tc, mc, p1, n, p2, n⟩)
      ⟨ActorType.MOV, tc', mc', p2, n, p1, n⟩ = hv := by
  have e1 := moveHash_nonswp_modEq c hc gamma hv ⟨ActorType.MOV, tc, mc, p1, n, p2, n⟩
    (by simp) _ _ rfl rfl
  have e2 := moveHash_nonswp_modEq c hc gamma
    (moveHash c gamma hv ⟨ActorType.MOV, tc, mc, p1, n, p2, n⟩)
    ⟨ActorType.MOV, tc', mc', p2, n, p1, n⟩ (by simp) _ _ rfl rfl
  simp only at e1 e2
  have e3 := Nat.ModEq.add_right_cancel' _ (e2.trans e1)
  exact eq_of_modEq_of_lt e3 (moveHash_lt c hc _ _ _) hlt

theorem moveHash_del_add (c : Config) (hc : TabuParams c) (gamma : Nat → Nat) (hv : Nat)
    (hlt : hv < c.BitSize) (p n : Nat) (tc mc tc' mc' : Price) :
    moveHash c gamma (moveHash c gamma hv ⟨ActorType.DEL, tc, mc, -1, -1, p, n⟩)
      ⟨ActorType.ADD, tc', mc', p, n, -1, -1⟩ = hv := by
  have e1 := moveHash_nonswp_modEq c hc gamma hv ⟨ActorType.DEL, tc, mc, -1, -1, p, n⟩
    (by simp) _ _ rfl rfl
  have e2 := moveHash_nonswp_modEq c hc gamma
    (moveHash c gamma hv ⟨ActorType.DEL, tc, mc, -1, -1, p, n⟩)
    ⟨ActorType.ADD, tc', mc', p, n, -1, -1⟩ (by simp) _ _ rfl rfl
  simp only at e1 e2
  have e3 := Nat.ModEq.add_right_cancel' _ (e2.trans e1)
  exact eq_of_modEq_of_lt e3 (moveHash_lt c hc _ _ _) hlt

theorem moveHash_inversePair (c : Config) (hc : TabuParams c) (gamma : Nat → Nat) (hv : Nat)
    (hlt : hv < c.BitSize) (visits : Visits) (act inv : Actor)
    (h : InversePair visits act inv) :
    moveHash c gamma (moveHash c gamma hv act) inv = hv := by
  cases h with
  | mov p1 p2 n hn h1 h2 tc mc tc' mc' =>
    exact moveHash_mov_reverse c hc gamma hv hlt p1 p2 n tc mc tc' mc'
  | delAdd p n hn h tc mc tc' mc' =>
    exact moveHash_del_add c hc gamma hv hlt p n tc mc tc' mc'

theorem applyMove_inversePair (visits : Visits) (act inv : Actor)
    (h : InversePair visits act inv) : applyMove (applyMove visits act) inv = visits := by
  cases h with
  | mov p1 p2 n hn h1 h2 tc mc tc' mc' =>
    have hpos : (n : Int) > 0 := by exact_mod_cast hn
    simp only [applyMove, hpos, if_true, Int.toNat_natCast, reduceCtorEq, if_false]
    funext p' n'
    unfold Visits.set
    by_cases ha : p' = p1 ∧ n' = n
    · obtain ⟨rfl, rfl⟩ := ha
      simp [h1]
    · by_cases hb : p' = p2 ∧ n' = n
      · obtain ⟨rfl, rfl⟩ := hb
        have e1 : p' ≠ p1 := fun h => ha ⟨h, rfl⟩
        simp [e1, h2]
      · simp [ha, hb]
  | delAdd p n hn h tc mc tc' mc' =>
    have hpos : (n : Int) > 0 := by exact_mod_cast hn
    have hneg : ¬ ((-1 : Int) > 0) := by decide
    simp only [applyMove, hpos, hneg, if_true, Int.toNat_natCast, reduceCtorEq, if_false]
    exact Visits.set_set_restore visits p n 0 1 h

/-- C16: applying a MOV and then the reverse MOV, or `DEL(p,n)` and then
`ADD(p,n)`, each through the move application of `mixTabuSearch` followed by
`execTabu(act)`, restores `visits` and the persistent hash triple (a triple of
remainders modulo `BitSize`, as `execTabu` leaves it) to their values before
the first move. -/
theorem inverse_move_restores (c : Config) (hc : TabuParams c) (s : Solver) (visits : Visits)
    (act inv : Actor) (h1 : s.hashValue1 < c.BitSize) (h2 : s.hashValue2 < c.BitSize)
    (h3 : s.hashValue3 < c.BitSize) (h : InversePair visits act inv) :
    applyMove (applyMove visits act) inv = visits
      ∧ (execTabuAct c (execTabuAct c s act) inv).hashValue1 = s.hashValue1
      ∧ (execTabuAct c (execTabuAct c s act) inv).hashValue2 = s.hashValue2
      ∧ (execTabuAct c (execTabuAct c s act) inv).hashValue3 = s.hashValue3 :=
  ⟨applyMove_inversePair visits act inv h,
    moveHash_inversePair c hc c.gamma1 s.hashValue1 h1 visits act inv h,
    moveHash_inversePair c hc c.gamma2 s.hashValue2 h2 visits act inv h,
    moveHash_inversePair c hc c.gamma3 s.hashValue3 h3 visits act inv h⟩

theorem inverse_move_restores_witness :
    exampleSolver.hashValue1 < exampleConfig.BitSize
      ∧ exampleSolver.hashValue2 < exampleConfig.BitSize
      ∧ exampleSolver.hashValue3 < exampleConfig.BitSize
      ∧ InversePair exampleVisits ⟨ActorType.MOV, 0, 0, (1 : Nat), (1 : Nat), (0 : Nat), (1 : Nat)⟩
          ⟨ActorType.MOV, 0, 0, (0 : Nat), (1 : Nat), (1 : Nat), (1 : Nat)⟩
      ∧ applyMove (applyMove exampleVisits
            ⟨ActorType.MOV, 0, 0, (1 : Nat), (1 : Nat), (0 : Nat), (1 : Nat)⟩)
          ⟨ActorType.MOV, 0, 0, (0 : Nat), (1 : Nat), (1 : Nat), (1 : Nat)⟩ = exampleVisits :=
  ⟨hash_lt _ exampleConfig_tabuParams _ _, hash_lt _ exampleConfig_tabuParams _ _,
    hash_lt _ exampleConfig_tabuParams _ _,
    InversePair.mov 1 0 1 (by decide) (by decide) (by decide) 0 0 0 0,
    (inverse_move_restores exampleConfig exampleConfig_tabuParams exampleSolver exampleVisits _ _
      (hash_lt _ exampleConfig_tabuParams _ _) (hash_lt _ exampleConfig_tabuParams _ _)
      (hash_lt _ exampleConfig_tabuParams _ _)
      (InversePair.mov 1 0 1 (by decide) (by decide) (by decide) 0 0 0 0)).1⟩

/-- C17, as stated, fails: on `exampleVisits` the move `SWP((0,1),(1,2))` applied
twice leaves customer `1` out of period `0`, where it was visited before, and
moves the first hash from `35` to `23`. -/
theorem swp_twice_not_restored :
    applyMove (applyMove exampleVisits ⟨ActorType.SWP, 0, 0, 0, 1, 1, 2⟩)
        ⟨ActorType.SWP, 0, 0, 0, 1, 1, 2⟩ 0 1 = 0
      ∧ exampleVisits 0 1 = 1
      ∧ exampleSolver.hashValue1 = 35
      ∧ (execTabuAct exampleConfig (execTabuAct exampleConfig exampleSolver
          ⟨ActorType.SWP, 0, 0, 0, 1, 1, 2⟩) ⟨ActorType.SWP, 0, 0, 0, 1, 1, 2⟩).hashValue1 = 23 := by
  decide

theorem moveHash_swp_inverse (c : Config) (hc : TabuParams c) (gamma : Nat → Nat) (hv : Nat)
    (hlt : hv < c.BitSize) (p1 n1 p2 n2 : Nat) (tc mc tc' mc' : Price) :
    moveHash c gamma (moveHash c gamma hv ⟨ActorType.SWP, tc, mc, p1, n1, p2, n2⟩)
      ⟨ActorType.SWP, tc', mc', p2, n1, p1, n2⟩ = hv := by
  have e1 := moveHash_swp_modEq c hc gamma hv ⟨ActorType.SWP, tc, mc, p1, n1, p2, n2⟩ rfl
  have e2 := moveHash_swp_modEq c hc gamma
    (moveHash c gamma hv ⟨ActorType.SWP, tc, mc, p1, n1, p2, n2⟩)
    ⟨ActorType.SWP, tc', mc', p2, n1, p1, n2⟩ rfl
  simp only at e1 e2
  generalize powTerm gamma ((p1 : Int) * (c.nodeNum : Int) + (n1 : Int)) = a at e1 e2
  generalize powTerm gamma ((p2 : Int) * (c.nodeNum : Int) + (n2 : Int)) = b at e1 e2
  generalize powTerm gamma ((p1 : Int) * (c.nodeNum : Int) + (n2 : Int)) = x at e1 e2
  generalize powTerm gamma ((p2 : Int) * (c.nodeNum : Int) + (n1 : Int)) = y at e1 e2
  generalize moveHash c gamma hv ⟨ActorType.SWP, tc, mc, p1, n1, p2, n2⟩ = m1 at e1 e2
  have hm2 := moveHash_lt c hc gamma m1 ⟨ActorType.SWP, tc', mc', p2, n1, p1, n2⟩
  generalize moveHash c gamma m1 ⟨ActorType.SWP, tc', mc', p2, n1, p1, n2⟩ = m2 at e2 hm2
  have r1 : m2 + y + x = m2 + (x + y) := by omega
  have r2 : m1 + b + a = m1 + a + b := by omega
  have r3 : hv + x + y = hv + (x + y) := by omega
  rw [r1, r2] at e2
  rw [r3] at e1
  exact eq_of_modEq_of_lt (Nat.ModEq.add_right_cancel' _ (e2.trans e1)) hm2 hlt

/-- C17, amended: the inverse of `SWP((p1,n1),(p2,n2))` is the SWP with the two
periods exchanged, `SWP((p2,n1),(p1,n2))`: applying one after the other, each
through the move application of `mixTabuSearch` followed by `execTabu(act)`,
restores `visits` and the persistent hash triple. Applying the SWP with the
same arguments a second time repeats the four assignments and leaves `visits`
in the swapped state. -/
theorem swp_inverse_restores (c : Config) (hc : TabuParams c) (s : Solver) (visits : Visits)
    (p1 n1 p2 n2 : Nat) (tc mc tc' mc' : Price)
    (h1 : s.hashValue1 < c.BitSize) (h2 : s.hashValue2 < c.BitSize)
    (h3 : s.hashValue3 < c.BitSize)
    (h11 : visits p1 n1 = 1) (h22 : visits p2 n2 = 1) (h12 : visits p1 n2 = 0)
    (h21 : visits p2 n1 = 0) :
    applyMove (applyMove visits ⟨ActorType.SWP, tc, mc, p1, n1, p2, n2⟩)
        ⟨ActorType.SWP, tc', mc', p2, n1, p1, n2⟩ = visits
      ∧ (execTabuAct c (execTabuAct c s ⟨ActorType.SWP, tc, mc, p1, n1, p2, n2⟩)
          ⟨ActorType.SWP, tc', mc', p2, n1, p1, n2⟩).hashValue1 = s.hashValue1
      ∧ (execTabuAct c (execTabuAct c s ⟨ActorType.SWP, tc, mc, p1, n1, p2, n2⟩)
          ⟨ActorType.SWP, tc', mc', p2, n1, p1, n2⟩).hashValue2 = s.hashValue2
      ∧ (execTabuAct c (execTabuAct c s ⟨ActorType.SWP, tc, mc, p1, n1, p2, n2⟩)
          ⟨ActorType.SWP, tc', mc', p2, n1, p1, n2⟩).hashValue3 = s.hashValue3
      ∧ applyMove (applyMove visits ⟨ActorType.SWP, tc, mc, p1, n1, p2, n2⟩)
          ⟨ActorType.SWP, tc', mc', p1, n1, p2, n2⟩
        = applyMove visits ⟨ActorType.SWP, tc, mc, p1, n1, p2, n2⟩ := by
  refine ⟨?_, moveHash_swp_inverse c hc c.gamma1 s.hashValue1 h1 p1 n1 p2 n2 tc mc tc' mc',
    moveHash_swp_inverse c hc c.gamma2 s.hashValue2 h2 p1 n1 p2 n2 tc mc tc' mc',
    moveHash_swp_inverse c hc c.gamma3 s.hashValue3 h3 p1 n1 p2 n2 tc mc tc' mc', ?_⟩
  · have hp : p1 ≠ p2 := by
      rintro rfl
      rw [h12] at h22
      exact absurd h22 (by decide)
    have hn : n1 ≠ n2 := by
      rintro rfl
      rw [h12] at h11
      exact absurd h11 (by decide)
    simp only [applyMove, if_true, Int.toNat_natCast]
    funext p' n'
    unfold Visits.set
    by_cases ha : p' = p1 ∧ n' = n1
    · obtain ⟨rfl, rfl⟩ := ha
      simp [hp, hn, h11]
    · by_cases hb : p' = p2 ∧ n' = n2
      · obtain ⟨rfl, rfl⟩ := hb
        have e1 : p' ≠ p1 := fun h => hp h.symm
        have e2 : n' ≠ n1 := fun h => hn h.symm
        simp [e1, e2, h22]
      · by_cases hd : p' = p1 ∧ n' = n2
        · obtain ⟨rfl, rfl⟩ := hd
          have e2 : n' ≠ n1 := fun h => hn h.symm
          simp [hp, e2, h12]
        · by_cases he : p' = p2 ∧ n' = n1
          · obtain ⟨rfl, rfl⟩ := he
            have e1 : p' ≠ p1 := fun h => hp h.symm
            simp [e1, hn, h21]
          · simp [ha, hb, hd, he]
  · simp only [applyMove, if_true, Int.toNat_natCast]
    funext p' n'
    unfold Visits.set
    by_cases hd : p' = p1 ∧ n' = n2
    · simp [hd]
    · by_cases he : p' = p2 ∧ n' = n1
      · simp [hd, he]
      · by_cases ha : p' = p1 ∧ n' = n1
        · simp [hd, he, ha]
        · by_cases hb : p' = p2 ∧ n' = n2
          · simp [hd, he, ha, hb]
          · simp [hd, he, ha, hb]

theorem swp_inverse_restores_witness :
    exampleSolver.hashValue1 < exampleConfig.BitSize
      ∧ exampleVisits 0 1 = 1 ∧ exampleVisits 1 2 = 1 ∧ exampleVisits 0 2 = 0
      ∧ exampleVisits 1 1 = 0
      ∧ applyMove (applyMove exampleVisits
            ⟨ActorType.SWP, 0, 0, (0 : Nat), (1 : Nat), (1 : Nat), (2 : Nat)⟩)
          ⟨ActorType.SWP, 0, 0, (1 : Nat), (1 : Nat), (0 : Nat), (2 : Nat)⟩ = exampleVisits :=
  ⟨hash_lt _ exampleConfig_tabuParams _ _, by decide, by decide, by decide, by decide,
    (swp_inverse_restores exampleConfig exampleConfig_tabuParams exampleSolver exampleVisits
      0 1 1 2 0 0 0 0 (hash_lt _ exampleConfig_tabuParams _ _)
      (hash_lt _ exampleConfig_tabuParams _ _) (hash_lt _ exampleConfig_tabuParams _ _)
      (by decide) (by decide) (by decide) (by decide)).1⟩

/-! ## The aggregation over the workers -/

theorem collectBest_ge (l : List (Bool × Price)) (i : Nat) (bestIndex : Int) (bestValue : Price) :
    bestValue ≤ (collectBest l i (bestIndex, bestValue)).2
      ∧ ∀ w, w ∈ l → w.1 = true → w.2 ≤ (collectBest l i (bestIndex, bestValue)).2 := by
  induction l generalizing i bestIndex bestValue with
  | nil => exact ⟨le_refl _, fun w hw => absurd hw (List.not_mem_nil w)⟩
  | cons x xs ih =>
    obtain ⟨success, totalCost⟩ := x
    cases success with
    | false =>
      obtain ⟨h1, h2⟩ := ih (i + 1) bestIndex bestValue
      simp only [collectBest, Bool.false_eq_true, not_false_eq_true, if_true]
      refine ⟨h1, ?_⟩
      intro w hw hws
      rcases List.mem_cons.mp hw with rfl | hw
      · exact absurd hws (by simp)
      · exact h2 w hw hws
    | true =>
      by_cases hle : totalCost ≤ bestValue
      · obtain ⟨h1, h2⟩ := ih (i + 1) bestIndex bestValue
        simp only [collectBest, not_true_eq_false, if_false, hle, if_true]
        refine ⟨h1, ?_⟩
        intro w hw hws
        rcases List.mem_cons.mp hw with rfl | hw
        · exact le_trans hle h1
        · exact h2 w hw hws
      · obtain ⟨h1, h2⟩ := ih (i + 1) (i : Int) totalCost
        simp only [collectBest, not_true_eq_false, if_false, hle]
        refine ⟨le_trans (le_of_lt (not_le.mp hle)) h1, ?_⟩
        intro w hw hws
        rcases List.mem_cons.mp hw with rfl | hw
        · exact h1
        · exact h2 w hw hws

theorem collectBest_index (l : List (Bool × Price)) (i : Nat) (bestIndex : Int)
    (bestValue : Price) (pre : List (Bool × Price)) (hpre : pre.length = i)
    (hinv : 0 ≤ bestIndex → ∃ w, (pre ++ l)[bestIndex.toNat]? = some w ∧ w.2 = bestValue) :
    0 ≤ (collectBest l i (bestIndex, bestValue)).1 →
      ∃ w, (pre ++ l)[(collectBest l i (bestIndex, bestValue)).1.toNat]? = some w
        ∧ w.2 = (collectBest l i (bestIndex, bestValue)).2 := by
  induction l generalizing i bestIndex bestValue pre with
  | nil => exact hinv
  | cons x xs ih =>
    have happ : pre ++ x :: xs = (pre ++ [x]) ++ xs := by simp
    have hkeep := ih (i + 1) bestIndex bestValue (pre ++ [x]) (by simp [hpre])
      (by rw [← happ]; exact hinv)
    rw [← happ] at hkeep
    obtain ⟨success, totalCost⟩ := x
    cases success with
    | false =>
      simp only [collectBest, Bool.false_eq_true, not_false_eq_true, if_true]
      exact hkeep
    | true =>
      by_cases hle : totalCost ≤ bestValue
      · simp only [collectBest, not_true_eq_false, if_false, hle, if_true]
        exact hkeep
      · simp only [collectBest, not_true_eq_false, if_false, hle]
        have hnew := ih (i + 1) (i : Int) totalCost (pre ++ [(true, totalCost)]) (by simp [hpre])
          (by
            intro _
            refine ⟨(true, totalCost), ?_, rfl⟩
            rw [Int.toNat_natCast, ← hpre, List.getElem?_append_left (by simp)]
            simp)
        rw [← happ] at hnew
        exact hnew

/-- What the aggregation in `Solver::solve` selects: a worker whose `totalCost`
is at least that of every worker that succeeded. -/
theorem solveOutput_is_max (workers : List (Bool × Solution)) (out : Solution)
    (h : solveOutput workers = some out) :
    (∃ w, w ∈ workers ∧ w.2 = out)
      ∧ ∀ w, w ∈ workers → w.1 = true → w.2.totalCost ≤ out.totalCost := by
  unfold solveOutput at h
  simp only at h
  split at h
  · exact absurd h (by simp)
  · rename_i hneg
    have hnn : 0 ≤ (collectBest (workers.map (fun w => (w.1, w.2.totalCost))) 0 (-1, 0)).1 := by
      omega
    obtain ⟨hge, hall⟩ := collectBest_ge (workers.map (fun w => (w.1, w.2.totalCost))) 0 (-1) 0
    obtain ⟨w, hw, hwc⟩ := collectBest_index (workers.map (fun w => (w.1, w.2.totalCost))) 0
      (-1) 0 [] rfl (fun h0 => absurd h0 (by decide)) hnn
    simp only [List.nil_append, List.getElem?_map, Option.map_eq_some'] at hw
    obtain ⟨w0, hw0, hw0e⟩ := hw
    rw [hw0] at h
    simp only [Option.map_some', Option.some.injEq] at h
    subst h
    refine ⟨⟨w0, List.getElem?_mem hw0, rfl⟩, ?_⟩
    intro w' hw' hs
    have := hall (w'.1, w'.2.totalCost) (List.mem_map.mpr ⟨w', hw', rfl⟩) hs
    simp only at this
    rw [← hwc, ← hw0e] at this
    exact this

/-- C18: the code at a failing input. With two workers that both succeed, with
total costs `10` and `20`, `solve` assigns the solution of cost `20` to
`output`, although the other worker found the solution of lower cost. -/
theorem solveOutput_picks_worse :
    (solveOutput [(true, ⟨10, fun _ _ => []⟩), (true, ⟨20, fun _ _ => []⟩)]).map
      (fun sln => sln.totalCost) = some 20 := by
  decide!

/-! ## Costs and tabu status of the members of `mixNeigh` -/

theorem mem_pushUnlessTabu_notTabu (c : Config) (s : Solver) (act a : Actor)
    (h : a ∈ pushUnlessTabu c s act) :
    isTabuWithMove c s s.hashValue1 s.hashValue2 s.hashValue3 a = false := by
  unfold pushUnlessTabu at h
  split at h
  · simp at h
  · rename_i hnt
    simp only [List.mem_singleton] at h
    subst h
    simpa using hnt

theorem delNeighOf_notTabu (c : Config) (s : Solver) (visits : Visits) (l : List Actor)
    (h : delNeighOf c s visits = some l) (a : Actor) (ha : a ∈ l) :
    isTabuWithMove c s s.hashValue1 s.hashValue2 s.hashValue3 a = false := by
  unfold delNeighOf at h
  obtain ⟨n, _, ys, hys, hay⟩ := mem_of_collectM _ _ _ h a ha
  obtain ⟨p, _, zs, hzs, haz⟩ := mem_of_collectM _ _ _ hys a hay
  by_cases hv : visits p n ≠ 0
  · simp only [hv, if_true, ne_eq, not_false_eq_true] at hzs
    cases hd : delNodeTourCost s p n with
    | none => simp [hd] at hzs
    | some cost =>
      simp only [hd, Option.some.injEq] at hzs
      subst hzs
      exact mem_pushUnlessTabu_notTabu c s _ a haz
  · simp only [hv, if_false, Option.some.injEq] at hzs
    subst hzs
    simp at haz

theorem movNeighOf_notTabu (c : Config) (s : Solver) (visits : Visits) (l : List Actor)
    (h : movNeighOf c s visits = some l) (a : Actor) (ha : a ∈ l) :
    isTabuWithMove c s s.hashValue1 s.hashValue2 s.hashValue3 a = false := by
  unfold movNeighOf at h
  obtain ⟨n, _, ys, hys, hay⟩ := mem_of_collectM _ _ _ h a ha
  obtain ⟨p0, _, zs, hzs, haz⟩ := mem_of_collectM _ _ _ hys a hay
  obtain ⟨p1, _, ws, hws, haw⟩ := mem_of_collectM _ _ _ hzs a haz
  cases hd : movNodeTourCost c s p0 n p1 n with
  | none => simp [hd] at hws
  | some cost =>
    simp only [hd, Option.some.injEq] at hws
    subst hws
    exact mem_pushUnlessTabu_notTabu c s _ a haw

theorem swpNeighOf_notTabu (c : Config) (s : Solver) (visits : Visits) (l : List Actor)
    (h : swpNeighOf c s visits = some l) (a : Actor) (ha : a ∈ l) :
    isTabuWithMove c s s.hashValue1 s.hashValue2 s.hashValue3 a = false := by
  unfold swpNeighOf at h
  obtain ⟨n, _, ys, hys, hay⟩ := mem_of_collectM _ _ _ h a ha
  obtain ⟨m, _, zs, hzs, haz⟩ := mem_of_collectM _ _ _ hys a hay
  obtain ⟨t1, _, ws, hws, haw⟩ := mem_of_collectM _ _ _ hzs a haz
  obtain ⟨t2, _, us, hus, hau⟩ := mem_of_collectM _ _ _ hws a haw
  cases hd : swpNodeTourCost c s t1 n t2 m with
  | none => simp [hd] at hus
  | some cost =>
    simp only [hd, Option.some.injEq] at hus
    subst hus
    exact mem_pushUnlessTabu_notTabu c s _ a hau

/-- Every candidate that reaches an evaluation loop passed the tabu test of the
enumeration. -/
theorem candidateLists_notTabu (c : Config) (s : Solver) (visits : Visits)
    (dl ml sl : List Actor) (h : candidateLists c s visits = some (dl, ml, sl)) (a : Actor)
    (ha : a ∈ dl ++ ml ++ sl) :
    isTabuWithMove c s s.hashValue1 s.hashValue2 s.hashValue3 a = false := by
  unfold candidateLists at h
  cases hd : delNeighOf c s visits with
  | none => simp [hd] at h
  | some d =>
    cases hm : movNeighOf c s visits with
    | none => simp [hd, hm] at h
    | some m =>
      cases hs : swpNeighOf c s visits with
      | none => simp [hd, hm, hs] at h
      | some w =>
        simp only [hd, hm, hs, Option.some.injEq, Prod.mk.injEq] at h
        obtain ⟨rfl, rfl, rfl⟩ := h
        simp only [List.mem_append] at ha
        rcases ha with (ha | ha) | ha
        · exact delNeighOf_notTabu c s visits d hd a (mem_sortByCost_take _ _ _ ha)
        · exact movNeighOf_notTabu c s visits m hm a (mem_sortByCost_take _ _ _ ha)
        · exact swpNeighOf_notTabu c s visits w hs a (mem_sortByCost_take _ _ _ ha)

/-- The running minimum and the list `mixNeigh` after one candidate has been
evaluated: the minimum is the argument of `buildMixNeigh` or `strongLess` than
it, every member is `weakEqual` to the minimum, and every member satisfies a
property `Q` of the candidates that does not depend on the two cost fields. -/
theorem evalCandidate_costs (c : Config) (heps : 0 ≤ c.epsilon) (arg : Price)
    (Q : Actor → Prop) (hQ : ∀ (a : Actor) (tc mc : Price), Q a →
      Q { a with modelCost := mc, totalCost := tc })
    (s : Solver) (visits : Visits) (minCost : Price) (a : Actor) (ha : Q a)
    (hmin : minCost = arg ∨ minCost < arg - c.epsilon)
    (hmem : ∀ b, b ∈ s.mixNeigh → |b.totalCost - minCost| ≤ c.epsilon ∧ Q b) :
    ((evalCandidate c s visits minCost a).2 = arg
        ∨ (evalCandidate c s visits minCost a).2 < arg - c.epsilon)
      ∧ ∀ b, b ∈ (evalCandidate c s visits minCost a).1.mixNeigh →
          |b.totalCost - (evalCandidate c s visits minCost a).2| ≤ c.epsilon ∧ Q b := by
  unfold evalCandidate
  simp only
  split
  · split
    · rename_i hsl
      simp only [strongLess, decide_eq_true_eq] at hsl
      refine ⟨Or.inr ?_, ?_⟩
      · show a.totalCost + callModel c visits < arg - c.epsilon
        rcases hmin with h | h
        · rw [h] at hsl; exact hsl
        · linarith
      · intro b hb
        simp only [List.mem_singleton] at hb
        subst hb
        simp only [sub_self, abs_zero]
        exact ⟨heps, hQ a _ _ ha⟩
    · split
      · rename_i hwe
        simp only [weakEqual, decide_eq_true_eq] at hwe
        refine ⟨hmin, ?_⟩
        intro b hb
        simp only [List.mem_append, List.mem_singleton] at hb
        rcases hb with hb | hb
        · exact hmem b hb
        · subst hb
          exact ⟨hwe, hQ a _ _ ha⟩
      · exact ⟨hmin, hmem⟩
  · exact ⟨hmin, hmem⟩

theorem foldl_eval_costs (c : Config) (heps : 0 ≤ c.epsilon) (arg : Price)
    (Q : Actor → Prop) (hQ : ∀ (a : Actor) (tc mc : Price), Q a →
      Q { a with modelCost := mc, totalCost := tc })
    (ev : EvalState → Actor → EvalState)
    (hev : ∀ (st : EvalState) (a : Actor), ∃ visits1,
      (ev st a).solver = (evalCandidate c (execTabuWithMove c st.solver st.solver.hashValue1
          st.solver.hashValue2 st.solver.hashValue3 a) visits1 st.minCost a).1
        ∧ (ev st a).minCost = (evalCandidate c (execTabuWithMove c st.solver
          st.solver.hashValue1 st.solver.hashValue2 st.solver.hashValue3 a) visits1
          st.minCost a).2)
    (l : List Actor) (hl : ∀ a, a ∈ l → Q a) (st : EvalState)
    (hmin : st.minCost = arg ∨ st.minCost < arg - c.epsilon)
    (hmem : ∀ b, b ∈ st.solver.mixNeigh → |b.totalCost - st.minCost| ≤ c.epsilon ∧ Q b) :
    ((l.foldl ev st).minCost = arg ∨ (l.foldl ev st).minCost < arg - c.epsilon)
      ∧ ∀ b, b ∈ (l.foldl ev st).solver.mixNeigh →
          |b.totalCost - (l.foldl ev st).minCost| ≤ c.epsilon ∧ Q b := by
  induction l generalizing st with
  | nil => exact ⟨hmin, hmem⟩
  | cons x xs ih =>
    simp only [List.foldl_cons]
    obtain ⟨visits1, e1, e2⟩ := hev st x
    have hstep := evalCandidate_costs c heps arg Q hQ
      (execTabuWithMove c st.solver st.solver.hashValue1 st.solver.hashValue2
        st.solver.hashValue3 x) visits1 st.minCost x (hl x (List.mem_cons_self _ _)) hmin hmem
    rw [← e1, ← e2] at hstep
    exact ih (fun a ha => hl a (List.mem_cons_of_mem _ ha)) (ev st x) hstep.1 hstep.2

/-- The cost side of a defined call of `buildMixNeigh`: the final running
minimum is the argument `minCost` or `strongLess` than it, every member of
`mixNeigh` is `weakEqual` to it, and every member inherits the properties of
the candidates that do not depend on the cost fields. -/
theorem buildMixNeigh_costs (c : Config) (heps : 0 ≤ c.epsilon) (s : Solver) (visits : Visits)
    (minCost : Price) (Q : Actor → Prop) (hQ : ∀ (a : Actor) (tc mc : Price), Q a →
      Q { a with modelCost := mc, totalCost := tc })
    (r : Solver × Visits) (h : buildMixNeigh c s visits minCost = some r)
    (hcand : ∀ dl ml sl, candidateLists c s visits = some (dl, ml, sl) →
      ∀ a, a ∈ dl ++ ml ++ sl → Q a) :
    ∃ m, (m = minCost ∨ m < minCost - c.epsilon)
      ∧ ∀ b, b ∈ r.1.mixNeigh → |b.totalCost - m| ≤ c.epsilon ∧ Q b := by
  unfold buildMixNeigh at h
  cases hcl : candidateLists c s visits with
  | none => simp [hcl] at h
  | some lists =>
    obtain ⟨dl, ml, sl⟩ := lists
    simp only [hcl, Option.some.injEq] at h
    have hq := hcand dl ml sl hcl
    have a1 := foldl_eval_costs c heps minCost Q hQ (evalDel c) (fun st a => ⟨_, rfl, rfl⟩) dl
      (fun a ha => hq a (by simp [ha]))
      { solver := { s with mixNeigh := [] }, visits := visits, minCost := minCost }
      (Or.inl rfl) (fun b hb => absurd hb (List.not_mem_nil b))
    have a2 := foldl_eval_costs c heps minCost Q hQ (evalMov c) (fun st a => ⟨_, rfl, rfl⟩) ml
      (fun a ha => hq a (by simp [ha])) _ a1.1 a1.2
    have a3 := foldl_eval_costs c heps minCost Q hQ (evalSwp c) (fun st a => ⟨_, rfl, rfl⟩) sl
      (fun a ha => hq a (by simp [ha])) _ a2.1 a2.2
    subst h
    exact ⟨_, a3.1, a3.2⟩

theorem foldl_eval_pred (c : Config) (Q : Actor → Prop)
    (hQ : ∀ (a : Actor) (tc mc : Price), Q a → Q { a with modelCost := mc, totalCost := tc })
    (ev : EvalState → Actor → EvalState)
    (hev : ∀ (st : EvalState) (a : Actor), ∃ visits1,
      (ev st a).solver = (evalCandidate c (execTabuWithMove c st.solver st.solver.hashValue1
          st.solver.hashValue2 st.solver.hashValue3 a) visits1 st.minCost a).1)
    (l : List Actor) (hl : ∀ a, a ∈ l → Q a) (st : EvalState)
    (hmem : ∀ b, b ∈ st.solver.mixNeigh → Q b) :
    ∀ b, b ∈ (l.foldl ev st).solver.mixNeigh → Q b := by
  induction l generalizing st with
  | nil => exact hmem
  | cons x xs ih =>
    simp only [List.foldl_cons]
    apply ih (fun a ha => hl a (List.mem_cons_of_mem _ ha))
    intro b hb
    obtain ⟨visits1, e1⟩ := hev st x
    rw [e1] at hb
    rcases evalCandidate_mixNeigh c _ visits1 st.minCost x b hb with hb | ⟨hb, _⟩
    · exact hmem b hb
    · subst hb
      exact hQ x _ _ (hl x (List.mem_cons_self _ _))

/-- Every member of `mixNeigh` inherits the properties of the candidates that
do not depend on the cost fields. -/
theorem buildMixNeigh_pred (c : Config) (s : Solver) (visits : Visits) (minCost : Price)
    (Q : Actor → Prop)
    (hQ : ∀ (a : Actor) (tc mc : Price), Q a → Q { a with modelCost := mc, totalCost := tc })
    (r : Solver × Visits) (h : buildMixNeigh c s visits minCost = some r)
    (hcand : ∀ dl ml sl, candidateLists c s visits = some (dl, ml, sl) →
      ∀ a, a ∈ dl ++ ml ++ sl → Q a) :
    ∀ b, b ∈ r.1.mixNeigh → Q b := by
  unfold buildMixNeigh at h
  cases hcl : candidateLists c s visits with
  | none => simp [hcl] at h
  | some lists =>
    obtain ⟨dl, ml, sl⟩ := lists
    simp only [hcl, Option.some.injEq] at h
    have hq := hcand dl ml sl hcl
    have a1 := foldl_eval_pred c Q hQ (evalDel c) (fun st a => ⟨_, rfl⟩) dl
      (fun a ha => hq a (by simp [ha]))
      { solver := { s with mixNeigh := [] }, visits := visits, minCost := minCost }
      (fun b hb => absurd hb (List.not_mem_nil b))
    have a2 := foldl_eval_pred c Q hQ (evalMov c) (fun st a => ⟨_, rfl⟩) ml
      (fun a ha => hq a (by simp [ha])) _ a1
    have a3 := foldl_eval_pred c Q hQ (evalSwp c) (fun st a => ⟨_, rfl⟩) sl
      (fun a ha => hq a (by simp [ha])) _ a2
    subst h
    exact a3

/-- C19, as stated, fails: called on the example data with `minCost = -1`,
`buildMixNeigh` returns the deletion of customer `2` from period `1`, whose
`totalCost` is `-1`: equal to the argument, not `strongLess` than it. -/
theorem mixNeigh_member_not_strongLess :
    (buildMixNeigh exampleConfig exampleSolver exampleVisits (-1)).map
      (fun r => r.1.mixNeigh.map
        (fun a => (a.actype, a.p2, a.n2, a.totalCost, strongLess exampleConfig a.totalCost (-1))))
      = some [(ActorType.DEL, 1, 2, -1, false)] := by
  decide!

/-- C19, amended: every actor in the `mixNeigh` returned by
`buildMixNeigh(visits, minCost)` has a `totalCost` that is `weakEqual` to the
final running minimum, and that minimum is the argument `minCost` or
`strongLess` than it; so `totalCost ≤ minCost + ε`, and a candidate within `ε`
of the argument is returned without being `strongLess` than it. -/
theorem mixNeigh_costs_near_minimum (c : Config) (heps : 0 ≤ c.epsilon) (s : Solver)
    (visits : Visits) (minCost : Price) (ht : ToursConsistent c visits s.curTours) :
    ∃ r m, buildMixNeigh c s visits minCost = some r
      ∧ (m = minCost ∨ strongLess c m minCost = true)
      ∧ ∀ a, a ∈ r.1.mixNeigh →
          weakEqual c a.totalCost m = true ∧ a.totalCost ≤ minCost + c.epsilon := by
  obtain ⟨r, hr⟩ := buildMixNeigh_isSome c s visits minCost ht
  obtain ⟨m, hm, hmem⟩ := buildMixNeigh_costs c heps s visits minCost (fun _ => True)
    (fun _ _ _ _ => trivial) r hr (fun _ _ _ _ _ _ => trivial)
  refine ⟨r, m, hr, ?_, ?_⟩
  · rcases hm with h | h
    · exact Or.inl h
    · exact Or.inr (by simpa [strongLess] using h)
  · intro a ha
    obtain ⟨hw, _⟩ := hmem a ha
    refine ⟨by simpa [weakEqual] using hw, ?_⟩
    have habs := (abs_le.mp hw).2
    rcases hm with h | h
    · rw [h] at habs; linarith
    · linarith

theorem exampleConfig_epsilon_nonneg : 0 ≤ exampleConfig.epsilon := by
  simp [exampleConfig]

theorem mixNeigh_costs_near_minimum_witness :
    0 ≤ exampleConfig.epsilon
      ∧ ToursConsistent exampleConfig exampleVisits exampleSolver.curTours
      ∧ ∃ r m, buildMixNeigh exampleConfig exampleSolver exampleVisits (-1) = some r
          ∧ (m = -1 ∨ strongLess exampleConfig m (-1) = true)
          ∧ ∀ a, a ∈ r.1.mixNeigh →
              weakEqual exampleConfig a.totalCost m = true
                ∧ a.totalCost ≤ -1 + exampleConfig.epsilon :=
  ⟨exampleConfig_epsilon_nonneg, exampleSolver_toursConsistent,
    mixNeigh_costs_near_minimum exampleConfig exampleConfig_epsilon_nonneg exampleSolver
      exampleVisits (-1) exampleSolver_toursConsistent⟩

/-- C20: no candidate returned in `mixNeigh` leads to a tabu state. When
`buildMixNeigh` is entered with the persistent triple equal to the hash triple
of `visits` (as in `mixTabuSearch`), the hash triple of the post-move matrix of
every returned actor did not have all three bits set in `H1`, `H2`, `H3` on
entry. -/
theorem mixNeigh_not_tabu (c : Config) (hc : TabuParams c) (s : Solver) (visits : Visits)
    (minCost : Price) (hh : HashConsistent c s visits) (hv : IsVisitMatrix c visits)
    (ht : ToursConsistent c visits s.curTours) :
    ∃ r, buildMixNeigh c s visits minCost = some r
      ∧ ∀ a, a ∈ r.1.mixNeigh → isTabu c s (applyMove visits a) = false := by
  obtain ⟨r, hr⟩ := buildMixNeigh_isSome c s visits minCost ht
  obtain ⟨_, _, _, _, _, hgood, _, _⟩ := buildMixNeigh_spec c s visits minCost hv r hr
  have hnt := buildMixNeigh_pred c s visits minCost
    (fun a => isTabuWithMove c s s.hashValue1 s.hashValue2 s.hashValue3 a = false)
    (fun _ _ _ h => h) r hr (fun dl ml sl h a ha => candidateLists_notTabu c s visits dl ml sl h a ha)
  refine ⟨r, hr, ?_⟩
  intro a ha
  obtain ⟨hcand, _, _⟩ := hgood a ha
  have h1 := moveHash_goodNeighbour c hc c.gamma1 hc.gamma1_zero visits a hcand
  have h2 := moveHash_goodNeighbour c hc c.gamma2 hc.gamma2_zero visits a hcand
  have h3 := moveHash_goodNeighbour c hc c.gamma3 hc.gamma3_zero visits a hcand
  have := hnt a ha
  simp only [isTabuWithMove, hh.1, hh.2.1, hh.2.2, h1, h2, h3] at this
  simpa [isTabu] using this

theorem exampleSolver_hashConsistent : HashConsistent exampleConfig exampleSolver exampleVisits :=
  ⟨rfl, rfl, rfl⟩

theorem mixNeigh_not_tabu_witness :
    HashConsistent exampleConfig exampleSolver exampleVisits
      ∧ IsVisitMatrix exampleConfig exampleVisits
      ∧ ToursConsistent exampleConfig exampleVisits exampleSolver.curTours
      ∧ ∃ r, buildMixNeigh exampleConfig exampleSolver exampleVisits 100 = some r
          ∧ ∀ a, a ∈ r.1.mixNeigh →
              isTabu exampleConfig exampleSolver (applyMove exampleVisits a) = false :=
  ⟨exampleSolver_hashConsistent, exampleVisits_isVisitMatrix, exampleSolver_toursConsistent,
    mixNeigh_not_tabu exampleConfig exampleConfig_tabuParams exampleSolver exampleVisits 100
      exampleSolver_hashConsistent exampleVisits_isVisitMatrix exampleSolver_toursConsistent⟩

/-! ## The routing cost matrix -/

theorem foldl_setCost_row (coords : List Coord) (n j : Nat) (routingCost : Nat → Nat → Price)
    (hj : j ≤ n) :
    (List.range j).foldl (fun routingCost m =>
      setCost (setCost routingCost m n (nodeDistance coords n m)) n m (nodeDistance coords n m))
      routingCost
    = fun a b =>
        if a = n ∧ b < j then nodeDistance coords n b
        else if b = n ∧ a < j then nodeDistance coords n a
        else routingCost a b := by
  induction j with
  | zero =>
    funext a b
    simp
  | succ j ih =>
    rw [List.range_succ, List.foldl_append, ih (by omega)]
    funext a b
    simp only [List.foldl_cons, List.foldl_nil, setCost]
    split_ifs <;>
      first
        | rfl
        | (exfalso; omega)
        | (have hbj : b = j := by omega
           subst hbj; rfl)
        | (have haj : a = j := by omega
           subst haj; rfl)

/-- The closed form of the cost matrix computed by `Solver::init`. -/
theorem initRoutingCost_eq (coords : List Coord) (i j : Nat) :
    initRoutingCost coords i j
      = if i < coords.length ∧ j < coords.length ∧ i ≠ j then
          (if j < i then nodeDistance coords i j else nodeDistance coords j i)
        else 0 := by
  unfold initRoutingCost
  have key : ∀ k, (List.range k).foldl (fun routingCost n =>
      (List.range n).foldl (fun routingCost m =>
        setCost (setCost routingCost m n (nodeDistance coords n m)) n m
          (nodeDistance coords n m)) routingCost) (fun _ _ => 0)
      = fun a b => if a < k ∧ b < k ∧ a ≠ b then
          (if b < a then nodeDistance coords a b else nodeDistance coords b a) else 0 := by
    intro k
    induction k with
    | zero =>
      funext a b
      simp
    | succ k ih =>
      rw [List.range_succ, List.foldl_append, ih]
      simp only [List.foldl_cons, List.foldl_nil]
      rw [foldl_setCost_row coords k k _ (le_refl k)]
      funext a b
      by_cases h1 : a = k ∧ b < k
      · obtain ⟨rfl, hb⟩ := h1
        have e1 : a < a + 1 := by omega
        have e2 : b < a + 1 := by omega
        have e3 : a ≠ b := by omega
        simp [hb, e1, e2, e3]
      · by_cases h2 : b = k ∧ a < k
        · obtain ⟨rfl, ha⟩ := h2
          have e1 : a < b + 1 := by omega
          have e3 : a ≠ b := by omega
          have e4 : ¬ b < a := by omega
          simp [ha, e1, e3, e4, h1]
        · simp only [h1, h2, if_false]
          by_cases h3 : a < k ∧ b < k ∧ a ≠ b
          · have e : a < k + 1 ∧ b < k + 1 ∧ a ≠ b := ⟨by omega, by omega, h3.2.2⟩
            simp only [h3, e, and_self, if_true]
          · have e : ¬ (a < k + 1 ∧ b < k + 1 ∧ a ≠ b) := by
              rintro ⟨ha, hb, hab⟩
              by_cases hak : a = k
              · exact h1 ⟨hak, by omega⟩
              · by_cases hbk : b = k
                · exact h2 ⟨hbk, by omega⟩
                · exact h3 ⟨by omega, by omega, hab⟩
            simp only [h3, e, if_false]
  rw [key coords.length]

theorem roundHypot_neg (dx dy : ℚ) : roundHypot (-dx) (-dy) = roundHypot dx dy := by
  unfold roundHypot
  simp only [neg_mul_neg]

theorem nodeDistance_symm (coords : List Coord) (n m : Nat) :
    nodeDistance coords n m = nodeDistance coords m n := by
  unfold nodeDistance
  rw [← roundHypot_neg]
  congr 1 <;> ring

theorem roundHypot_nonneg (dx dy : ℚ) : 0 ≤ roundHypot dx dy := by
  unfold roundHypot
  exact Nat.cast_nonneg _

theorem nodeDistance_self (coords : List Coord) (n : Nat) : nodeDistance coords n n = 0 := by
  unfold nodeDistance roundHypot
  simp

/-- The value `roundHypot dx dy` is the real number `√(dx² + dy²)` rounded to the
nearest integer. -/
theorem roundHypot_eq_round_sqrt (dx dy : ℚ) :
    ((roundHypot dx dy : ℚ) : ℝ) = ((round (Real.sqrt ((dx : ℝ) ^ 2 + (dy : ℝ) ^ 2)) : ℤ) : ℝ) := by
  unfold roundHypot
  set q : ℚ := dx * dx + dy * dy with hq
  have hq0 : 0 ≤ q := by
    rw [hq]; nlinarith [mul_self_nonneg dx, mul_self_nonneg dy]
  have hfloor0 : 0 ≤ ⌊4 * q⌋ := Int.floor_nonneg.mpr (by positivity)
  set t : Nat := Nat.sqrt (Int.toNat ⌊4 * q⌋) with ht
  have hcast : ((Int.toNat ⌊4 * q⌋ : Nat) : ℤ) = ⌊4 * q⌋ := Int.toNat_of_nonneg hfloor0
  have hlo : t * t ≤ Int.toNat ⌊4 * q⌋ := Nat.sqrt_le _
  have hhi : Int.toNat ⌊4 * q⌋ < (t + 1) * (t + 1) := Nat.lt_succ_sqrt _
  -- bounds on `4 q` over the rationals
  have hloQ : ((t : ℚ)) * t ≤ 4 * q := by
    have h1 : ((t * t : Nat) : ℤ) ≤ ⌊4 * q⌋ := by rw [← hcast]; exact_mod_cast hlo
    have h2 : ((⌊4 * q⌋ : ℤ) : ℚ) ≤ 4 * q := Int.floor_le _
    have h3 : (((t * t : Nat) : ℤ) : ℚ) ≤ ((⌊4 * q⌋ : ℤ) : ℚ) := by exact_mod_cast h1
    have h4 : (((t * t : Nat) : ℤ) : ℚ) = (t : ℚ) * t := by push_cast; ring
    linarith
  have hhiQ : 4 * q < ((t : ℚ) + 1) * (t + 1) := by
    have h1 : ⌊4 * q⌋ + 1 ≤ (((t + 1) * (t + 1) : Nat) : ℤ) := by
      rw [← hcast]; exact_mod_cast hhi
    have h2 : 4 * q < ((⌊4 * q⌋ : ℤ) : ℚ) + 1 := Int.lt_floor_add_one _
    have h3 : ((⌊4 * q⌋ + 1 : ℤ) : ℚ) ≤ ((((t + 1) * (t + 1) : Nat) : ℤ) : ℚ) := by
      exact_mod_cast h1
    have h4 : ((((t + 1) * (t + 1) : Nat) : ℤ) : ℚ) = ((t : ℚ) + 1) * (t + 1) := by
      push_cast; ring
    have h5 : ((⌊4 * q⌋ + 1 : ℤ) : ℚ) = ((⌊4 * q⌋ : ℤ) : ℚ) + 1 := by push_cast; ring
    linarith
  -- the same bounds over the reals, for the square root
  have hqR : ((dx : ℝ) ^ 2 + (dy : ℝ) ^ 2) = ((q : ℚ) : ℝ) := by
    rw [hq]; push_cast; ring
  have hloR : ((t : ℝ)) * t ≤ 4 * ((q : ℚ) : ℝ) := by exact_mod_cast hloQ
  have hhiR : 4 * ((q : ℚ) : ℝ) < ((t : ℝ) + 1) * (t + 1) := by exact_mod_cast hhiQ
  have hsq1 : (t : ℝ) / 2 ≤ Real.sqrt ((q : ℚ) : ℝ) := by
    apply Real.le_sqrt_of_sq_le
    nlinarith
  have hsq2 : Real.sqrt ((q : ℚ) : ℝ) < ((t : ℝ) + 1) / 2 := by
    rw [Real.sqrt_lt' (by positivity)]
    nlinarith
  -- the nearest integer
  have hr1 : 2 * ((t + 1) / 2) ≤ t + 1 := Nat.mul_div_le _ _
  have hr2 : t + 1 < 2 * ((t + 1) / 2) + 2 := by omega
  have hr1R : 2 * (((t + 1) / 2 : Nat) : ℝ) ≤ (t : ℝ) + 1 := by exact_mod_cast hr1
  have hr2R : (t : ℝ) + 1 < 2 * (((t + 1) / 2 : Nat) : ℝ) + 2 := by exact_mod_cast hr2
  have hround : round (Real.sqrt ((q : ℚ) : ℝ)) = (((t + 1) / 2 : Nat) : ℤ) := by
    rw [round_eq, Int.floor_eq_iff]
    constructor
    · have hc : ((((t + 1) / 2 : Nat) : ℤ) : ℝ) = (((t + 1) / 2 : Nat) : ℝ) := by norm_cast
      rw [hc]
      have hh : t + 1 ≤ 2 * ((t + 1) / 2) + 1 := by omega
      have hhR : (t : ℝ) + 1 ≤ 2 * (((t + 1) / 2 : Nat) : ℝ) + 1 := by exact_mod_cast hh
      linarith
    · have hc : ((((t + 1) / 2 : Nat) : ℤ) : ℝ) = (((t + 1) / 2 : Nat) : ℝ) := by norm_cast
      rw [hc]
      have hh : t ≤ 2 * ((t + 1) / 2) := by omega
      have hhR : (t : ℝ) ≤ 2 * (((t + 1) / 2 : Nat) : ℝ) := by exact_mod_cast hh
      linarith
  rw [hqR, hround]
  push_cast
  rfl

/-- C11: after `init`, the routing cost matrix is symmetric with zero diagonal
and non-negative entries: for all nodes `i`, `j`, `routingCost[i][j]` equals
`routingCost[j][i]` and `round(hypot(xi−xj, yi−yj))` (in exact arithmetic, as a
value of the model and as a real number), is not negative, and
`routingCost[i][i] = 0`. -/
theorem init_routingCost (coords : List Coord) (s : Solver) (i j : Nat)
    (hi : i < coords.length) (hj : j < coords.length) :
    (init coords s).routingCost i j = (init coords s).routingCost j i
      ∧ (init coords s).routingCost i j
          = roundHypot ((coords.getD i ⟨0, 0⟩).x - (coords.getD j ⟨0, 0⟩).x)
              ((coords.getD i ⟨0, 0⟩).y - (coords.getD j ⟨0, 0⟩).y)
      ∧ (((init coords s).routingCost i j : ℚ) : ℝ)
          = ((round (Real.sqrt
              ((((coords.getD i ⟨0, 0⟩).x - (coords.getD j ⟨0, 0⟩).x : ℚ) : ℝ) ^ 2
                + (((coords.getD i ⟨0, 0⟩).y - (coords.getD j ⟨0, 0⟩).y : ℚ) : ℝ) ^ 2)) : ℤ) : ℝ)
      ∧ 0 ≤ (init coords s).routingCost i j
      ∧ (init coords s).routingCost i i = 0 := by
  have hval : (init coords s).routingCost i j = nodeDistance coords i j := by
    show initRoutingCost coords i j = _
    rw [initRoutingCost_eq]
    by_cases hij : i = j
    · subst hij
      simp [nodeDistance_self]
    · have h : i < coords.length ∧ j < coords.length ∧ i ≠ j := ⟨hi, hj, hij⟩
      rw [if_pos h]
      by_cases hlt : j < i
      · rw [if_pos hlt]
      · rw [if_neg hlt, nodeDistance_symm]
  have hval' : (init coords s).routingCost j i = nodeDistance coords j i := by
    show initRoutingCost coords j i = _
    rw [initRoutingCost_eq]
    by_cases hij : j = i
    · subst hij
      simp [nodeDistance_self]
    · have h : j < coords.length ∧ i < coords.length ∧ j ≠ i := ⟨hj, hi, hij⟩
      rw [if_pos h]
      by_cases hlt : i < j
      · rw [if_pos hlt]
      · rw [if_neg hlt, nodeDistance_symm]
  refine ⟨?_, hval, ?_, ?_, ?_⟩
  · rw [hval, hval', nodeDistance_symm]
  · rw [hval]
    exact roundHypot_eq_round_sqrt _ _
  · rw [hval]
    exact roundHypot_nonneg _ _
  · show initRoutingCost coords i i = 0
    rw [initRoutingCost_eq]
    simp

theorem init_routingCost_witness :
    (0 : Nat) < [(⟨0, 0⟩ : Coord), ⟨3, 4⟩].length ∧ (1 : Nat) < [(⟨0, 0⟩ : Coord), ⟨3, 4⟩].length
      ∧ (init [⟨0, 0⟩, ⟨3, 4⟩] exampleSolver).routingCost 0 1
          = (init [⟨0, 0⟩, ⟨3, 4⟩] exampleSolver).routingCost 1 0 :=
  ⟨by decide, by decide,
    (init_routingCost [⟨0, 0⟩, ⟨3, 4⟩] exampleSolver 0 1 (by decide) (by decide)).1⟩

/-- The distance between the points `(0,0)` and `(3,4)` is `5`, between `(0,0)`
and `(1,1)` it is `1` (`√2` rounded), and between `(0,0)` and `(1.5,2)` it is
`3` (`2.5` rounded away from zero). -/
theorem roundHypot_examples :
    roundHypot 3 4 = 5 ∧ roundHypot 1 1 = 1 ∧ roundHypot (3 / 2) 2 = 3
      ∧ (init [⟨0, 0⟩, ⟨3, 4⟩] exampleSolver).routingCost 0 1 = 5 := by
  decide!

theorem foldl_set_visits (p : Nat) (delivs : List Delivery) (visits : Visits) (q n : Nat) :
    delivs.foldl (fun visits d => visits.set p d.node 1) visits q n
      = if q = p ∧ n ∈ delivs.map (fun d => d.node) then 1 else visits q n := by
  induction delivs generalizing visits with
  | nil => simp
  | cons d rest ih =>
    rw [List.foldl_cons, ih]
    simp only [List.map_cons, List.mem_cons, Visits.set]
    by_cases hq : q = p
    · by_cases hr : n ∈ rest.map (fun d => d.node)
      · simp [hq, hr]
      · by_cases hn : n = d.node
        · simp [hq, hn]
        · simp [hq, hr, hn]
    · simp [hq]

/-- With one vehicle, the body of the loop over the periods in closed form. -/
theorem initialSlnPeriod_one (c : Config) (inp : Input) (sln : Solution) (s : Solver) (p : Nat)
    (hV : inp.vehicles.length = 1) (hN : 0 < c.nodeNum)
    (hrange : ∀ d ∈ sln.deliveries p 0, d.node < c.nodeNum) :
    ∃ r, initialSlnPeriod c inp sln s p = some r
      ∧ r.routingCost = s.routingCost ∧ r.bestCost = s.bestCost
      ∧ r.curTours p = deliveryTour (sln.deliveries p 0)
      ∧ r.tourPrices p = s.tourPrices p + tourCost s.routingCost (deliveryTour (sln.deliveries p 0))
      ∧ (∀ n, r.bestVisits p n
          = if n = 0 ∨ n ∈ (sln.deliveries p 0).map (fun d => d.node) then 1 else s.bestVisits p n)
      ∧ (∀ q, q ≠ p → r.curTours q = s.curTours q ∧ r.tourPrices q = s.tourPrices q
          ∧ ∀ n, r.bestVisits q n = s.bestVisits q n) := by
  have hall : (sln.deliveries p 0).all (fun d => decide (d.node < c.nodeNum)) = true := by
    rw [List.all_eq_true]
    intro d hd
    exact decide_eq_true (hrange d hd)
  unfold initialSlnPeriod
  have hr1 : List.range 1 = [0] := rfl
  rw [if_neg (by omega), hV, hr1]
  simp only [List.foldlM_cons, List.foldlM_nil, initialSlnVehicle, deliveryTour]
  cases hlast : (sln.deliveries p 0).getLast? with
  | none =>
    simp only [Option.map_some', Option.bind_eq_bind, Option.some_bind, Option.pure_def]
    refine ⟨_, rfl, rfl, rfl, ?_, ?_, ?_, ?_⟩
    · simp
    · simp
    · intro n
      have hnil : sln.deliveries p 0 = [] := List.getLast?_eq_none_iff.mp hlast
      simp only [hnil, List.map_nil, List.not_mem_nil, or_false, Visits.set]
      by_cases hn : n = 0 <;> simp [hn]
    · intro q hq
      simp [hq, Visits.set]
  | some last =>
    simp only [hall, if_true, Option.map_some', Option.bind_eq_bind, Option.some_bind,
      Option.pure_def]
    refine ⟨_, rfl, rfl, rfl, ?_, ?_, ?_, ?_⟩
    · simp
    · simp
    · intro n
      show (sln.deliveries p 0).foldl (fun visits d => visits.set p d.node 1)
        (s.bestVisits.set p 0 1) p n = _
      rw [foldl_set_visits]
      simp only [Visits.set, true_and]
      by_cases hr : n ∈ (sln.deliveries p 0).map (fun d => d.node)
      · simp [hr]
      · by_cases hn : n = 0 <;> simp [hr, hn]
    · intro q hq
      refine ⟨by simp [hq], by simp [hq], ?_⟩
      intro n
      show (sln.deliveries p 0).foldl (fun visits d => visits.set p d.node 1)
        (s.bestVisits.set p 0 1) q n = _
      rw [foldl_set_visits]
      simp [hq, Visits.set]

/-- With one vehicle, the loop over the first `P` periods in closed form. -/
theorem initialSln_periods_one (c : Config) (inp : Input) (sln : Solution) (s : Solver)
    (hV : inp.vehicles.length = 1) (hN : 0 < c.nodeNum) (P : Nat)
    (hrange : ∀ q < P, ∀ d ∈ sln.deliveries q 0, d.node < c.nodeNum) :
    ∃ r, (List.range P).foldlM (initialSlnPeriod c inp sln) s = some r
      ∧ r.routingCost = s.routingCost ∧ r.bestCost = s.bestCost
      ∧ (∀ q < P, r.curTours q = deliveryTour (sln.deliveries q 0)
          ∧ r.tourPrices q
              = s.tourPrices q + tourCost s.routingCost (deliveryTour (sln.deliveries q 0))
          ∧ ∀ n, r.bestVisits q n
              = if n = 0 ∨ n ∈ (sln.deliveries q 0).map (fun d => d.node) then 1
                else s.bestVisits q n)
      ∧ (∀ q, P ≤ q → r.curTours q = s.curTours q ∧ r.tourPrices q = s.tourPrices q
          ∧ ∀ n, r.bestVisits q n = s.bestVisits q n) := by
  induction P with
  | zero =>
    refine ⟨s, rfl, rfl, rfl, ?_, ?_⟩
    · intro q hq
      omega
    · intro q _
      exact ⟨rfl, rfl, fun _ => rfl⟩
  | succ P ih =>
    obtain ⟨r, hr, hrc, hbc, hlow, hhigh⟩ := ih (fun q hq => hrange q (by omega))
    obtain ⟨r', hr', hrc', hbc', htour, hprice, hvis, hother⟩ :=
      initialSlnPeriod_one c inp sln r P hV hN (hrange P (by omega))
    refine ⟨r', ?_, hrc'.trans hrc, hbc'.trans hbc, ?_, ?_⟩
    · rw [List.range_succ, List.foldlM_append, hr]
      simp only [Option.bind_eq_bind, Option.some_bind, List.foldlM_cons, List.foldlM_nil]
      rw [hr']
      rfl
    · intro q hq
      by_cases hqP : q = P
      · subst hqP
        obtain ⟨h1, h2, h3⟩ := hhigh q (le_refl q)
        refine ⟨htour, ?_, ?_⟩
        · rw [hprice, h2, hrc]
        · intro n
          rw [hvis, h3]
      · obtain ⟨h1, h2, h3⟩ := hother q hqP
        obtain ⟨g1, g2, g3⟩ := hlow q (by omega)
        refine ⟨h1.trans g1, h2.trans g2, ?_⟩
        intro n
        rw [h3, g3]
    · intro q hq
      obtain ⟨h1, h2, h3⟩ := hother q (by omega)
      obtain ⟨g1, g2, g3⟩ := hhigh q (by omega)
      refine ⟨h1.trans g1, h2.trans g2, ?_⟩
      intro n
      rw [h3, g3]

theorem mem_deliveryTour (delivs : List Delivery) (n : Nat) (hn : 1 ≤ n) :
    n ∈ deliveryTour delivs ↔ n ∈ delivs.map (fun d => d.node) := by
  unfold deliveryTour
  cases hlast : delivs.getLast? with
  | none =>
    have hnil : delivs = [] := List.getLast?_eq_none_iff.mp hlast
    subst hnil
    simp only [List.mem_cons, List.map_nil, List.not_mem_nil, or_false, iff_false]
    omega
  | some last =>
    have hmem : last ∈ delivs := List.mem_of_getLast?_eq_some hlast
    simp only [List.mem_cons]
    constructor
    · rintro (h | h)
      · rw [h]
        exact List.mem_map_of_mem _ hmem
      · exact h
    · exact Or.inr

theorem count_deliveryTour (delivs : List Delivery) (D n : Nat) (hD : 1 ≤ D) (hn : D ≤ n)
    (hnodup : (delivs.map (fun d => d.node)).Nodup)
    (hlast : ∀ d ∈ delivs.getLast?, d.node < D) :
    (deliveryTour delivs).count n = if n ∈ delivs.map (fun d => d.node) then 1 else 0 := by
  unfold deliveryTour
  cases hl : delivs.getLast? with
  | none =>
    have hnil : delivs = [] := List.getLast?_eq_none_iff.mp hl
    subst hnil
    have h0 : n ≠ 0 := by omega
    simp only [List.map_nil, List.not_mem_nil, if_false]
    rw [List.count_cons_of_ne h0, List.count_cons_of_ne h0]
    rfl
  | some last =>
    have hlt : last.node < D := hlast last (by rw [hl]; rfl)
    have hne : n ≠ last.node := by omega
    show (last.node :: delivs.map (fun d => d.node)).count n = _
    rw [List.count_cons_of_ne hne, List.count_eq_of_nodup hnodup]

theorem idleVehicleSln_range :
    ∀ q < exampleConfig.periodNum, ∀ d ∈ idleVehicleSln.deliveries q 0,
      d.node < exampleConfig.nodeNum := by
  intro q _ d hd
  have h : d = ⟨1, 5⟩ ∨ d = ⟨0, 0⟩ := by
    simpa [idleVehicleSln] using hd
  rcases h with h | h <;> subst h <;> decide

/-- C12: with two vehicles, `initialSln` leaves `curTours[0]` and
`tourPrices[0]` out of step with `bestVisits[0]`. When vehicle 1 has no
delivery, the tour of vehicle 0 is overwritten by `{0, 0}` although customer 1
stays marked in `bestVisits[0]`, and `tourPrices[0]` keeps the cost `6` of the
lost tour; when both vehicles serve a customer, the cost of the first tour is
added twice (`18` against `12`). -/
theorem initialSln_two_vehicles :
    (initialSln exampleConfig twoVehicleInput idleVehicleSln exampleSolver).map
        (fun r => (r.curTours 0, r.bestVisits 0 1, r.tourPrices 0,
          tourCost r.routingCost (r.curTours 0)))
      = some ([0, 0], 1, 6, 0)
    ∧ (initialSln exampleConfig twoVehicleInput twoRouteSln exampleSolver).map
        (fun r => (r.curTours 0, r.tourPrices 0, tourCost r.routingCost (r.curTours 0)))
      = some ([0, 1, 0, 0, 2, 0], 18, 12) := by
  decide!

/-- With a single vehicle, `initialSln(sln)` returns, stores
`sln.totalCost` in `bestCost`, and for every period `p` the value
`tourPrices[p]` is the sum of `routingCost` over the consecutive pairs of
`curTours[p]` and a node `n ≥ D` is in `curTours[p]` exactly if
`bestVisits[p][n] = 1`; when the delivery nodes of the period are pairwise
distinct and the last of them is a depot, every such node occurs exactly once in
`curTours[p]`. -/
theorem initialSln_single_vehicle (c : Config) (inp : Input) (sln : Solution) (s : Solver)
    (p : Nat) (hV : inp.vehicles.length = 1) (hN : 0 < c.nodeNum) (hD : 1 ≤ inp.depotnum)
    (hp : p < c.periodNum)
    (hrange : ∀ q < c.periodNum, ∀ d ∈ sln.deliveries q 0, d.node < c.nodeNum) :
    ∃ r, initialSln c inp sln s = some r
      ∧ r.bestCost = sln.totalCost
      ∧ r.tourPrices p = tourCost r.routingCost (r.curTours p)
      ∧ (∀ n, inp.depotnum ≤ n → (n ∈ r.curTours p ↔ r.bestVisits p n = 1))
      ∧ (((sln.deliveries p 0).map (fun d => d.node)).Nodup →
          (∀ d ∈ (sln.deliveries p 0).getLast?, d.node < inp.depotnum) →
          ∀ n, inp.depotnum ≤ n →
            (r.curTours p).count n = if r.bestVisits p n = 1 then 1 else 0) := by
  obtain ⟨r, hr, hrc, hbc, hlow, _⟩ := initialSln_periods_one c inp sln
    { s with bestCost := sln.totalCost, tourPrices := fun _ => 0, bestVisits := fun _ _ => 0 }
    hV hN c.periodNum hrange
  obtain ⟨htour, hprice, hvis⟩ := hlow p hp
  have hv : ∀ n, 1 ≤ n →
      (r.bestVisits p n = 1 ↔ n ∈ (sln.deliveries p 0).map (fun d => d.node)) := by
    intro n hn
    rw [hvis]
    have h0 : n ≠ 0 := by omega
    by_cases hm : n ∈ (sln.deliveries p 0).map (fun d => d.node)
    · simp [hm]
    · simp [hm, h0]
  refine ⟨r, hr, hbc, ?_, ?_, ?_⟩
  · rw [hprice, htour, hrc]
    simp
  · intro n hn
    rw [htour, mem_deliveryTour _ n (by omega), hv n (by omega)]
  · intro hnodup hlast n hn
    rw [htour, count_deliveryTour _ inp.depotnum n hD hn hnodup hlast]
    by_cases hm : n ∈ (sln.deliveries p 0).map (fun d => d.node)
    · rw [if_pos hm, if_pos ((hv n (by omega)).mpr hm)]
    · rw [if_neg hm, if_neg (fun h => hm ((hv n (by omega)).mp h))]

theorem initialSln_single_vehicle_witness :
    oneVehicleInput.vehicles.length = 1 ∧ 0 < exampleConfig.nodeNum
      ∧ 1 ≤ oneVehicleInput.depotnum ∧ 0 < exampleConfig.periodNum
      ∧ (∀ q < exampleConfig.periodNum, ∀ d ∈ idleVehicleSln.deliveries q 0,
          d.node < exampleConfig.nodeNum)
      ∧ ∃ r, initialSln exampleConfig oneVehicleInput idleVehicleSln exampleSolver = some r
          ∧ r.bestCost = idleVehicleSln.totalCost
          ∧ r.tourPrices 0 = tourCost r.routingCost (r.curTours 0)
          ∧ (∀ n, oneVehicleInput.depotnum ≤ n → (n ∈ r.curTours 0 ↔ r.bestVisits 0 n = 1))
          ∧ (((idleVehicleSln.deliveries 0 0).map (fun d => d.node)).Nodup →
              (∀ d ∈ (idleVehicleSln.deliveries 0 0).getLast?, d.node < oneVehicleInput.depotnum) →
              ∀ n, oneVehicleInput.depotnum ≤ n →
                (r.curTours 0).count n = if r.bestVisits 0 n = 1 then 1 else 0) :=
  ⟨by decide, by decide, by decide, by decide, idleVehicleSln_range,
    initialSln_single_vehicle exampleConfig oneVehicleInput idleVehicleSln exampleSolver 0
      (by decide) (by decide) (by decide) (by decide) idleVehicleSln_range⟩

/-- On the example, `initialSln` with one vehicle records the tour `0, 1, 0` of
cost `6` for period 0. -/
theorem initialSln_example_run :
    (initialSln exampleConfig oneVehicleInput idleVehicleSln exampleSolver).map
        (fun r => (r.curTours 0, r.bestVisits 0 1, r.bestVisits 0 2, r.tourPrices 0, r.bestCost))
      = some ([0, 1, 0], 1, 0, 6, 50) := by
  decide!

/-! ## The best solution along the search -/

theorem sameBest_refl (a : Solver) : SameBest a a := ⟨rfl, rfl⟩

theorem sameBest_trans {a b d : Solver} (h1 : SameBest a b) (h2 : SameBest b d) :
    SameBest a d :=
  ⟨h2.1.trans h1.1, h2.2.trans h1.2⟩

theorem strongLess_lt (c : Config) (heps : 0 ≤ c.epsilon) (a b : Price)
    (h : strongLess c a b = true) : a < b := by
  unfold strongLess at h
  have := of_decide_eq_true h
  linarith

theorem callLKHPeriod_sameBest (c : Config) (visits : Visits) (s : Solver) (p : Nat) :
    SameBest s (callLKHPeriod c visits s p) := by
  unfold callLKHPeriod
  simp only
  split
  · exact ⟨rfl, rfl⟩
  · split <;> exact ⟨rfl, rfl⟩

theorem callLKH_sameBest (c : Config) (s : Solver) (visits : Visits) (p1 p2 : Int) :
    SameBest s (callLKH c s visits p1 p2).1 := by
  unfold callLKH
  simp only
  generalize (if p1 ≥ 0 then [p1.toNat] else []) ++ (if p2 ≥ 0 then [p2.toNat] else [])
    ++ (if p1 < 0 ∧ p2 < 0 then List.range c.periodNum else []) = l
  induction l generalizing s with
  | nil => exact sameBest_refl s
  | cons p l ih =>
    simp only [List.foldl_cons]
    exact sameBest_trans (callLKHPeriod_sameBest c visits s p) (ih _)

theorem execTabuVisits_sameBest (c : Config) (s : Solver) (visits : Visits) (change : Bool) :
    SameBest s (execTabuVisits c s visits change) := by
  unfold execTabuVisits
  split <;> exact ⟨rfl, rfl⟩

theorem evalCandidate_sameBest (c : Config) (s : Solver) (visits : Visits) (minCost : Price)
    (act : Actor) : SameBest s (evalCandidate c s visits minCost act).1 := by
  unfold evalCandidate
  simp only
  split
  · split
    · exact ⟨rfl, rfl⟩
    · split <;> exact ⟨rfl, rfl⟩
  · exact ⟨rfl, rfl⟩

theorem foldl_eval_sameBest (c : Config) (ev : EvalState → Actor → EvalState)
    (hev : ∀ (st : EvalState) (a : Actor), ∃ visits1,
      (ev st a).solver = (evalCandidate c (execTabuWithMove c st.solver st.solver.hashValue1
          st.solver.hashValue2 st.solver.hashValue3 a) visits1 st.minCost a).1)
    (l : List Actor) (st : EvalState) :
    SameBest st.solver (l.foldl ev st).solver := by
  induction l generalizing st with
  | nil => exact sameBest_refl _
  | cons x xs ih =>
    simp only [List.foldl_cons]
    obtain ⟨visits1, e1⟩ := hev st x
    have h1 : SameBest st.solver (ev st x).solver := by
      rw [e1]
      exact sameBest_trans ⟨rfl, rfl⟩ (evalCandidate_sameBest c _ visits1 st.minCost x)
    exact sameBest_trans h1 (ih _)

theorem buildMixNeigh_sameBest (c : Config) (s : Solver) (visits : Visits) (minCost : Price)
    (r : Solver × Visits) (h : buildMixNeigh c s visits minCost = some r) :
    SameBest s r.1 := by
  unfold buildMixNeigh at h
  cases hcl : candidateLists c s visits with
  | none => simp [hcl] at h
  | some lists =>
    obtain ⟨dl, ml, sl⟩ := lists
    simp only [hcl, Option.some.injEq] at h
    have a1 := foldl_eval_sameBest c (evalDel c) (fun st a => ⟨_, rfl⟩) dl
      { solver := { s with mixNeigh := [] }, visits := visits, minCost := minCost }
    have a2 := foldl_eval_sameBest c (evalMov c) (fun st a => ⟨_, rfl⟩) ml
      (dl.foldl (evalDel c)
        { solver := { s with mixNeigh := [] }, visits := visits, minCost := minCost })
    have a3 := foldl_eval_sameBest c (evalSwp c) (fun st a => ⟨_, rfl⟩) sl
      (ml.foldl (evalMov c) (dl.foldl (evalDel c)
        { solver := { s with mixNeigh := [] }, visits := visits, minCost := minCost }))
    subst h
    exact sameBest_trans ⟨rfl, rfl⟩ (sameBest_trans a1 (sameBest_trans a2 a3))

/-- One pass through the loop of `mixTabuSearch` keeps the best solution or
stores a strongly smaller cost. -/
theorem mixTabuIter_searchStep (c : Config) (r : Nat) (st : TabuRun) :
    SearchStep c st.solver (mixTabuIter c r st).2.solver := by
  unfold mixTabuIter
  split
  · cases hb : buildMixNeigh c st.solver st.visits c.defaultMinCost with
    | none => exact Or.inl (sameBest_refl _)
    | some r1 =>
      obtain ⟨s1, visits1⟩ := r1
      have h1 : SameBest st.solver s1 := buildMixNeigh_sameBest c _ _ _ _ hb
      simp only
      cases ha : s1.mixNeigh[r % s1.mixNeigh.length]? with
      | none => exact Or.inl h1
      | some act =>
        simp only
        have h2 : SameBest st.solver
            (execTabuAct c (callLKH c s1 (applyMove visits1 act) act.p1 act.p2).1 act) :=
          sameBest_trans (sameBest_trans h1 (callLKH_sameBest c s1 _ _ _)) ⟨rfl, rfl⟩
        split
        · next hlt =>
          right
          show strongLess c _ st.solver.bestCost = true
          rw [← h2.1]
          exact hlt
        · exact Or.inl h2
  · exact Or.inl (sameBest_refl _)

theorem chain_append_getLastD {α : Type} (R : α → α → Prop) (a : α) (l1 l2 : List α)
    (h1 : List.Chain R a l1) (h2 : List.Chain R (l1.getLastD a) l2) :
    List.Chain R a (l1 ++ l2) := by
  induction l1 generalizing a with
  | nil => exact h2
  | cons x xs ih =>
    rw [List.chain_cons] at h1
    rw [List.cons_append, List.chain_cons]
    refine ⟨h1.1, ih x h1.2 ?_⟩
    cases xs with
    | nil => exact h2
    | cons y ys => simpa [List.getLastD] using h2

theorem getLastD_cons_eq {α : Type} (a x : α) (xs : List α) :
    (x :: xs).getLastD a = xs.getLastD x := by
  cases xs with
  | nil => rfl
  | cons y ys => simp [List.getLastD]

theorem getLastD_append_eq {α : Type} (a : α) (l1 l2 : List α) :
    (l1 ++ l2).getLastD a = l2.getLastD (l1.getLastD a) := by
  induction l1 generalizing a with
  | nil => rfl
  | cons x xs ih =>
    rw [List.cons_append, getLastD_cons_eq, getLastD_cons_eq, ih]

/-- The states of the loop of `mixTabuSearch` form a chain of search steps and
end in the solver that the loop returns. -/
theorem mixTabuStates_chain (c : Config) (picks : List Nat) (st : TabuRun) :
    List.Chain (SearchStep c) st.solver (mixTabuStates c picks st)
      ∧ (mixTabuStates c picks st).getLastD st.solver = (mixTabuLoop c picks st).solver := by
  induction picks generalizing st with
  | nil => exact ⟨List.Chain.nil, rfl⟩
  | cons r rs ih =>
    have hstep := mixTabuIter_searchStep c r st
    unfold mixTabuStates mixTabuLoop
    cases hit : mixTabuIter c r st with
    | mk flag st1 =>
      rw [hit] at hstep
      cases flag with
      | false => exact ⟨List.Chain.cons hstep List.Chain.nil, rfl⟩
      | true =>
        obtain ⟨h1, h2⟩ := ih st1
        refine ⟨List.Chain.cons hstep h1, ?_⟩
        show (st1.solver :: mixTabuStates c rs st1).getLastD st.solver = _
        rw [getLastD_cons_eq, h2]

theorem mixTabuSearchStates_chain (c : Config) (picks : List Nat) (s : Solver) (visits : Visits)
    (modelCost : Price) :
    List.Chain (SearchStep c) s (mixTabuSearchStates c picks s visits modelCost)
      ∧ (mixTabuSearchStates c picks s visits modelCost).getLastD s
          = (mixTabuSearch c picks s visits modelCost).solver := by
  obtain ⟨h1, h2⟩ := mixTabuStates_chain c picks
    { solver := execTabuVisits c s visits true, visits := visits,
      modelCost := modelCost, step := 0, isImproved := false }
  unfold mixTabuSearchStates mixTabuSearch
  refine ⟨List.Chain.cons (Or.inl (execTabuVisits_sameBest c s visits true)) h1, ?_⟩
  rw [getLastD_cons_eq]
  exact h2

theorem disturbHead_searchStep (c : Config) (o : DisturbOracle) (s : Solver) (visits : Visits) :
    SearchStep c s (disturbHead c o s visits).1 := by
  unfold disturbHead
  simp only
  split
  · next hlt =>
    right
    rw [(callLKH_sameBest c s _ _ _).1] at hlt
    exact hlt
  · exact Or.inl (callLKH_sameBest c s _ _ _)

theorem disturbStates_chain (c : Config) (o : DisturbOracle) (s : Solver) (visits : Visits) :
    List.Chain (SearchStep c) s (disturbStates c o s visits)
      ∧ (disturbStates c o s visits).getLastD s = (disturb c o s visits).solver := by
  obtain ⟨h1, h2⟩ := mixTabuSearchStates_chain c o.picks (disturbHead c o s visits).1
    (disturbHead c o s visits).2.1 (disturbHead c o s visits).2.2
  unfold disturbStates disturb
  refine ⟨List.Chain.cons (disturbHead_searchStep c o s visits) h1, ?_⟩
  simp only
  rw [getLastD_cons_eq]
  exact h2

theorem mixFinalStates_chain (c : Config) (os : List (Nat × DisturbOracle)) (i : Nat)
    (s : Solver) (curVisits : Visits) :
    List.Chain (SearchStep c) s (mixFinalStates c i os s curVisits)
      ∧ (mixFinalStates c i os s curVisits).getLastD s
          = (mixFinalSearch c i os s curVisits).1 := by
  induction os generalizing i s curVisits with
  | nil => exact ⟨List.Chain.nil, rfl⟩
  | cons o rest ih =>
    unfold mixFinalStates mixFinalSearch
    simp only
    obtain ⟨h1, h2⟩ := disturbStates_chain c o.2 s
      (if ((pick [o.1] 100000).1 : Int) < finalThreshold i then s.bestVisits else curVisits)
    obtain ⟨g1, g2⟩ := ih (i + 1)
      (disturb c o.2 s
        (if ((pick [o.1] 100000).1 : Int) < finalThreshold i then s.bestVisits
          else curVisits)).solver
      (disturb c o.2 s
        (if ((pick [o.1] 100000).1 : Int) < finalThreshold i then s.bestVisits
          else curVisits)).visits
    refine ⟨chain_append_getLastD _ _ _ _ h1 (by rw [h2]; exact g1), ?_⟩
    rw [getLastD_append_eq, h2]
    exact g2

theorem acceptIncumbents_le (c : Config) (heps : 0 ≤ c.epsilon) (incumbents : List Solution)
    (sln : Solution) : (acceptIncumbents c incumbents sln).totalCost ≤ sln.totalCost := by
  unfold acceptIncumbents
  induction incumbents generalizing sln with
  | nil => exact le_refl _
  | cons x xs ih =>
    simp only [List.foldl_cons]
    split
    · next hlt => exact le_trans (ih x) (le_of_lt (strongLess_lt c heps _ _ hlt))
    · exact ih sln

theorem foldlM_option_inv {α β : Type} (f : β → α → Option β) (P : β → Prop)
    (hf : ∀ b a b', P b → f b a = some b' → P b') (l : List α) (b b' : β) (hb : P b)
    (h : l.foldlM f b = some b') : P b' := by
  induction l generalizing b with
  | nil =>
    simp only [List.foldlM_nil, Option.pure_def, Option.some.injEq] at h
    subst h
    exact hb
  | cons x xs ih =>
    simp only [List.foldlM_cons, Option.bind_eq_bind] at h
    cases hx : f b x with
    | none => simp [hx] at h
    | some b1 =>
      rw [hx] at h
      exact ih b1 (hf b x b1 hb hx) h

theorem initialSlnVehicle_bestCost (c : Config) (sln : Solution) (p : Nat) (s : Solver) (v : Nat)
    (r : Solver) (h : initialSlnVehicle c sln p s v = some r) : r.bestCost = s.bestCost := by
  unfold initialSlnVehicle at h
  simp only at h
  cases hl : (sln.deliveries p v).getLast? with
  | none =>
    simp only [hl, Option.map_some', Option.some.injEq] at h
    subst h
    rfl
  | some last =>
    simp only [hl] at h
    split at h
    · simp only [Option.map_some', Option.some.injEq] at h
      subst h
      rfl
    · simp at h

theorem initialSlnPeriod_bestCost (c : Config) (inp : Input) (sln : Solution) (s : Solver)
    (p : Nat) (r : Solver) (h : initialSlnPeriod c inp sln s p = some r) :
    r.bestCost = s.bestCost := by
  unfold initialSlnPeriod at h
  split at h
  · simp at h
  · exact foldlM_option_inv (initialSlnVehicle c sln p) (fun b => b.bestCost = s.bestCost)
      (fun b a b' hb hf => (initialSlnVehicle_bestCost c sln p b a b' hf).trans hb) _ _ r (by rfl) h

/-- The call `initialSln(sln)` stores `sln.totalCost` in `bestCost`. -/
theorem initialSln_bestCost (c : Config) (inp : Input) (sln : Solution) (s r : Solver)
    (h : initialSln c inp sln s = some r) : r.bestCost = sln.totalCost := by
  unfold initialSln at h
  exact foldlM_option_inv (initialSlnPeriod c inp sln) (fun b => b.bestCost = sln.totalCost)
    (fun b a b' hb hf => (initialSlnPeriod_bestCost c inp sln b a b' hf).trans hb) _ _ r (by rfl) h

/-- A MIP phase that starts with `bestCost = sln.totalCost` ends with
`bestCost = sln.totalCost` and is a step of the best solution. -/
theorem getNeighWithModel_step (c : Config) (inp : Input) (heps : 0 ≤ c.epsilon)
    (incumbents : List Solution) (sln : Solution) (s : Solver) (r : Solution × Solver)
    (hle : sln.totalCost ≤ s.bestCost)
    (h : getNeighWithModel c inp incumbents sln s = some r) :
    r.2.bestCost = r.1.totalCost ∧ BestStep c inp s r.2 := by
  unfold getNeighWithModel at h
  simp only at h
  cases hi : initialSln c inp (acceptIncumbents c incumbents sln) s with
  | none => simp [hi] at h
  | some s1 =>
    simp only [hi, Option.map_some', Option.some.injEq] at h
    subst h
    have hb := initialSln_bestCost c inp _ s s1 hi
    refine ⟨hb, ?_, Or.inr (Or.inr ⟨_, hi, hb⟩)⟩
    show s1.bestCost ≤ s.bestCost
    rw [hb]
    exact le_trans (acceptIncumbents_le c heps incumbents sln) hle

theorem mipStates_chain (c : Config) (inp : Input) (heps : 0 ≤ c.epsilon)
    (phases : List (List Solution)) (sln : Solution) (s : Solver)
    (hle : sln.totalCost ≤ s.bestCost) :
    List.Chain (BestStep c inp) s (mipStates c inp phases sln s)
      ∧ ∀ r, mipPhases c inp phases sln s = some r →
          (mipStates c inp phases sln s).getLastD s = r.2 := by
  induction phases generalizing sln s with
  | nil =>
    refine ⟨List.Chain.nil, ?_⟩
    intro r hr
    simp only [mipPhases, Option.some.injEq] at hr
    subst hr
    rfl
  | cons ph rest ih =>
    unfold mipStates mipPhases
    cases hg : getNeighWithModel c inp ph sln s with
    | none =>
      refine ⟨List.Chain.nil, ?_⟩
      intro r hr
      simp at hr
    | some r1 =>
      obtain ⟨hb, hstep⟩ := getNeighWithModel_step c inp heps ph sln s r1 hle hg
      obtain ⟨h1, h2⟩ := ih r1.1 r1.2 (le_of_eq hb.symm)
      refine ⟨List.Chain.cons hstep h1, ?_⟩
      intro r hr
      show (r1.2 :: mipStates c inp rest r1.1 r1.2).getLastD s = r.2
      rw [getLastD_cons_eq]
      exact h2 r hr

theorem searchStep_bestStep (c : Config) (inp : Input) (heps : 0 ≤ c.epsilon) {a b : Solver}
    (h : SearchStep c a b) : BestStep c inp a b := by
  rcases h with h | h
  · exact ⟨le_of_eq h.1, Or.inl h⟩
  · exact ⟨le_of_lt (strongLess_lt c heps _ _ h), Or.inr (Or.inl h)⟩

theorem getBestSln_sameBest (c : Config) (feasible : Bool) (s : Solver) (visits : Visits) :
    SameBest s (getBestSln c feasible s visits) := by
  unfold getBestSln
  split
  · exact callLKH_sameBest c s visits _ _
  · exact sameBest_refl s

/-- The states of the search after the MIP phases form a chain of search steps
and end in the solver that `execSearch` returns. -/
theorem searchStates_chain (c : Config) (o : SearchOracle) (s : Solver) :
    List.Chain (SearchStep c) s
        (mixTabuSearchStates c o.picks s s.bestVisits s.bestCost
          ++ mixFinalStates c 0 o.final
              (mixTabuSearch c o.picks s s.bestVisits s.bestCost).solver
              (mixTabuSearch c o.picks s s.bestVisits s.bestCost).visits
          ++ [getBestSln c o.bestFeasible
              (mixFinalSearch c 0 o.final
                (mixTabuSearch c o.picks s s.bestVisits s.bestCost).solver
                (mixTabuSearch c o.picks s s.bestVisits s.bestCost).visits).1
              (mixFinalSearch c 0 o.final
                (mixTabuSearch c o.picks s s.bestVisits s.bestCost).solver
                (mixTabuSearch c o.picks s s.bestVisits s.bestCost).visits).1.bestVisits]) := by
  obtain ⟨h1, h2⟩ := mixTabuSearchStates_chain c o.picks s s.bestVisits s.bestCost
  obtain ⟨g1, g2⟩ := mixFinalStates_chain c o.final 0
    (mixTabuSearch c o.picks s s.bestVisits s.bestCost).solver
    (mixTabuSearch c o.picks s s.bestVisits s.bestCost).visits
  apply chain_append_getLastD
  · exact chain_append_getLastD _ _ _ _ h1 (by rw [h2]; exact g1)
  · rw [getLastD_append_eq, h2, g2]
    exact List.Chain.cons (Or.inl (getBestSln_sameBest c _ _ _)) List.Chain.nil

theorem iteratedModel_eq_getNeighWithModel (c : Config) (inp : Input)
    (incumbents : List Solution) (sln : Solution) (s : Solver) :
    iteratedModel c inp incumbents sln s = getNeighWithModel c inp incumbents sln s := rfl

/-- The states of `execSearch`, with the solver it starts from put in front,
form a chain of steps of the best solution when `sln.totalCost` is not above the
initial `bestCost`, and from the first call of `initialSln` on in any case. -/
theorem execSearchStates_chain (c : Config) (inp : Input) (o : SearchOracle) (sln : Solution)
    (s : Solver) (heps : 0 ≤ c.epsilon) :
    List.Chain' (BestStep c inp) (execSearchStates c inp o sln s)
      ∧ (sln.totalCost ≤ s.bestCost →
          List.Chain (BestStep c inp) s (execSearchStates c inp o sln s))
      ∧ ∀ r, execSearch c inp o sln s = some r →
          (execSearchStates c inp o sln s).getLast? = some r := by
  unfold execSearchStates execSearch
  cases hi : iteratedModel c inp o.initial sln s with
  | none =>
    refine ⟨List.chain'_nil, fun _ => List.Chain.nil, ?_⟩
    intro r hr
    simp at hr
  | some r1 =>
    simp only
    rw [iteratedModel_eq_getNeighWithModel] at hi
    have hacc : r1.2.bestCost = r1.1.totalCost := by
      unfold getNeighWithModel at hi
      simp only at hi
      cases hj : initialSln c inp (acceptIncumbents c o.initial sln) s with
      | none => simp [hj] at hi
      | some s1 =>
        simp only [hj, Option.map_some', Option.some.injEq] at hi
        subst hi
        exact initialSln_bestCost c inp _ s s1 hj
    obtain ⟨m1, m2⟩ := mipStates_chain c inp heps (neighPhases c o) r1.1 r1.2
      (le_of_eq hacc.symm)
    have htail : List.Chain (BestStep c inp) r1.2
        (mipStates c inp (neighPhases c o) r1.1 r1.2 ++
          match mipPhases c inp (neighPhases c o) r1.1 r1.2 with
          | none => []
          | some r2 =>
            mixTabuSearchStates c o.picks r2.2 r2.2.bestVisits r2.2.bestCost
              ++ mixFinalStates c 0 o.final
                  (mixTabuSearch c o.picks r2.2 r2.2.bestVisits r2.2.bestCost).solver
                  (mixTabuSearch c o.picks r2.2 r2.2.bestVisits r2.2.bestCost).visits
              ++ [getBestSln c o.bestFeasible
                  (mixFinalSearch c 0 o.final
                    (mixTabuSearch c o.picks r2.2 r2.2.bestVisits r2.2.bestCost).solver
                    (mixTabuSearch c o.picks r2.2 r2.2.bestVisits r2.2.bestCost).visits).1
                  (mixFinalSearch c 0 o.final
                    (mixTabuSearch c o.picks r2.2 r2.2.bestVisits r2.2.bestCost).solver
                    (mixTabuSearch c o.picks r2.2 r2.2.bestVisits
                      r2.2.bestCost).visits).1.bestVisits]) := by
      apply chain_append_getLastD _ _ _ _ m1
      cases hm : mipPhases c inp (neighPhases c o) r1.1 r1.2 with
      | none => exact List.Chain.nil
      | some r2 =>
        simp only
        rw [m2 r2 hm]
        exact List.Chain.imp (fun _ _ h => searchStep_bestStep c inp heps h) (searchStates_chain c o r2.2)
    refine ⟨htail, ?_, ?_⟩
    · intro hle
      exact List.Chain.cons (getNeighWithModel_step c inp heps o.initial sln s r1 hle hi).2 htail
    · intro r hr
      cases hm : mipPhases c inp (neighPhases c o) r1.1 r1.2 with
      | none => simp [hm] at hr
      | some r2 =>
        simp only [hm, Option.some.injEq] at hr
        simp only [hm]
        rw [← hr]
        rw [← List.cons_append, ← List.append_assoc, ← List.append_assoc]
        exact List.getLast?_append_of_ne_nil _ (by simp) |>.trans (by simp)

/-- C15: the values of `aux.bestCost` along `execSearch` never go up. Every
state of the solver along the search — after each call of `initialSln` (one per
MIP phase), after the update in `disturb` and after each pass of
`mixTabuSearch` — has a `bestCost` not greater than the state before it; between
two states either `bestCost` and `bestVisits` are both unchanged, or `disturb`
or `mixTabuSearch` has stored a strongly smaller `bestCost`, or `initialSln` has
stored `sln.totalCost`. The value that the first call of `initialSln` replaces
is covered when `sln.totalCost` is not above it, and the last state is the
solver that `execSearch` returns. The tolerance of `strongLess` is taken to be
non-negative. -/
theorem execSearch_bestCost_nonincreasing (c : Config) (inp : Input) (o : SearchOracle)
    (sln : Solution) (s : Solver) (heps : 0 ≤ c.epsilon) :
    List.Chain' (fun x y : Price => y ≤ x)
        ((execSearchStates c inp o sln s).map (fun a => a.bestCost))
      ∧ List.Chain' (BestStep c inp) (execSearchStates c inp o sln s)
      ∧ (sln.totalCost ≤ s.bestCost →
          List.Chain (BestStep c inp) s (execSearchStates c inp o sln s))
      ∧ ∀ r, execSearch c inp o sln s = some r →
          (execSearchStates c inp o sln s).getLast? = some r := by
  obtain ⟨h1, h2, h3⟩ := execSearchStates_chain c inp o sln s heps
  refine ⟨?_, h1, h2, h3⟩
  rw [List.chain'_map]
  exact h1.imp (fun _ _ h => h.1)

theorem execSearch_bestCost_nonincreasing_witness :
    0 ≤ exampleConfig.epsilon
      ∧ List.Chain' (fun x y : Price => y ≤ x)
          ((execSearchStates exampleConfig oneVehicleInput exampleOracle startSln
            exampleSolver).map (fun a => a.bestCost)) :=
  ⟨exampleConfig_epsilon_nonneg,
    (execSearch_bestCost_nonincreasing exampleConfig oneVehicleInput exampleOracle startSln
      exampleSolver exampleConfig_epsilon_nonneg).1⟩

/-- On the example, `bestCost` takes the values 50 and 40 in the MIP phases, 14
and 11 in the first tabu search, and stays at 11, the value that `execSearch`
returns with. -/
theorem exampleOracle_execSearch_run :
    (execSearchStates exampleConfig oneVehicleInput exampleOracle startSln exampleSolver).map
        (fun a => a.bestCost)
      = [50, 40, 40, 40, 14, 11, 11, 11, 11, 11, 11, 11, 11, 11, 11]
    ∧ (execSearch exampleConfig oneVehicleInput exampleOracle startSln exampleSolver).map
        (fun a => a.bestCost) = some 11 := by
  decide!

/-! ## The tour cost estimates -/

theorem indexOf_append_cons {α : Type} [DecidableEq α] (l1 l2 : List α) (n : α) (h : n ∉ l1) :
    (l1 ++ n :: l2).indexOf n = l1.length := by
  induction l1 with
  | nil => simp
  | cons x xs ih =>
    have hx : x ≠ n := fun e => h (by rw [e]; exact List.mem_cons_self _ _)
    have hxs : n ∉ xs := fun e => h (List.mem_cons_of_mem _ e)
    rw [List.cons_append, List.indexOf_cons_ne _ hx, ih hxs, List.length_cons]

/-- C21: for every period `p` and node `n` that occurs in `curTours[p]` strictly
between its first and last element, `delNodeTourCost(p, n)` returns
`routingCost[pre][succ] - routingCost[n][pre] - routingCost[n][succ]`, where
`pre` and `succ` are the elements immediately before and after `n` in
`curTours[p]` (at the occurrence that `find` locates, the first one). -/
theorem delNodeTourCost_interior (s : Solver) (p n pre succ : Nat) (l1 l2 : List Nat)
    (htour : s.curTours p = l1 ++ pre :: n :: succ :: l2) (hfirst : n ∉ l1) (hpre : n ≠ pre) :
    delNodeTourCost s p n
      = some (s.routingCost pre succ - s.routingCost n pre - s.routingCost n succ) := by
  have hsplit : s.curTours p = (l1 ++ [pre]) ++ n :: (succ :: l2) := by
    rw [htour]; simp
  have hnot : n ∉ l1 ++ [pre] := by
    simp only [List.mem_append, List.mem_singleton, not_or]
    exact ⟨hfirst, hpre⟩
  have hidx : (s.curTours p).indexOf n = l1.length + 1 := by
    rw [hsplit, indexOf_append_cons _ _ _ hnot]
    simp
  have hlen : (s.curTours p).length = l1.length + 3 + l2.length := by
    rw [htour]; simp; omega
  unfold delNodeTourCost
  simp only [hidx]
  rw [if_pos ⟨by omega, by omega⟩]
  have h1 : (s.curTours p).getD (l1.length + 1 - 1) 0 = pre := by
    rw [htour, List.getD_append_right _ _ _ _ (by omega)]
    simp
  have h2 : (s.curTours p).getD (l1.length + 1 + 1) 0 = succ := by
    rw [htour, List.getD_append_right _ _ _ _ (by omega)]
    have e : l1.length + 1 + 1 - l1.length = 2 := by omega
    rw [e]
    rfl
  rw [h1, h2]

theorem delNodeTourCost_interior_witness :
    exampleSolver.curTours 0 = [] ++ 0 :: 1 :: 0 :: [] ∧ (1 : Nat) ∉ ([] : List Nat)
      ∧ (1 : Nat) ≠ 0
      ∧ delNodeTourCost exampleSolver 0 1
          = some (exampleSolver.routingCost 0 0 - exampleSolver.routingCost 1 0
              - exampleSolver.routingCost 1 0) :=
  ⟨rfl, by decide, by decide,
    delNodeTourCost_interior exampleSolver 0 1 0 0 [] [] rfl (by decide) (by decide)⟩

theorem delNodeTourCost_isSome_iff (s : Solver) (pid nid : Nat) :
    (delNodeTourCost s pid nid).isSome = true
      ↔ 0 < (s.curTours pid).indexOf nid
        ∧ (s.curTours pid).indexOf nid + 1 < (s.curTours pid).length := by
  unfold delNodeTourCost
  simp only
  split
  · next h => simp [h]
  · next h => simp [h]

/-- C29: `delNodeTourCost` never indexes outside the tour when called from
`buildMixNeigh`. Under the invariant that every `curTours[p]` starts and ends
with depot `0` and contains every customer `n ≥ 1` visited in period `p`, the
position that `find` returns for such a customer is strictly interior, so
`pos - 1` and `pos + 1` are positions of the tour and the call is defined; and
all the tour cost estimates that the enumeration of `buildMixNeigh` asks for
are defined. -/
theorem delNodeTourCost_in_bounds (c : Config) (s : Solver) (visits : Visits)
    (ht : ToursConsistent c visits s.curTours) :
    (∀ p n, p < c.periodNum → 1 ≤ n → n < c.nodeNum → visits p n ≠ 0 →
        0 < (s.curTours p).indexOf n
          ∧ (s.curTours p).indexOf n + 1 < (s.curTours p).length
          ∧ (s.curTours p).getD ((s.curTours p).indexOf n) 0 = n
          ∧ ∃ cost, delNodeTourCost s p n = some cost)
      ∧ ∃ lists, candidateLists c s visits = some lists := by
  constructor
  · intro p n hp hn1 hnN hv
    obtain ⟨hh, hl, hm⟩ := ht p hp
    obtain ⟨cost, hc⟩ := delNodeTourCost_isSome s p n hn1 hh hl (hm n hn1 hnN hv)
    have hpos := (delNodeTourCost_isSome_iff s p n).mp (by rw [hc]; rfl)
    refine ⟨hpos.1, hpos.2, ?_, cost, hc⟩
    have hlt : (s.curTours p).indexOf n < (s.curTours p).length :=
      List.indexOf_lt_length.mpr (hm n hn1 hnN hv)
    rw [List.getD_eq_getElem _ _ hlt]
    exact List.getElem_indexOf hlt
  · obtain ⟨d, hd⟩ := delNeighOf_isSome c s visits ht
    obtain ⟨m, hm⟩ := movNeighOf_isSome c s visits ht
    obtain ⟨w, hw⟩ := swpNeighOf_isSome c s visits ht
    simp only [candidateLists, hd, hm, hw]
    exact ⟨_, rfl⟩

theorem delNodeTourCost_in_bounds_witness :
    ToursConsistent exampleConfig exampleVisits exampleSolver.curTours
      ∧ (∀ p n, p < exampleConfig.periodNum → 1 ≤ n → n < exampleConfig.nodeNum →
          exampleVisits p n ≠ 0 →
          0 < (exampleSolver.curTours p).indexOf n
            ∧ (exampleSolver.curTours p).indexOf n + 1 < (exampleSolver.curTours p).length
            ∧ (exampleSolver.curTours p).getD ((exampleSolver.curTours p).indexOf n) 0 = n
            ∧ ∃ cost, delNodeTourCost exampleSolver p n = some cost)
      ∧ ∃ lists, candidateLists exampleConfig exampleSolver exampleVisits = some lists :=
  ⟨exampleSolver_toursConsistent,
    delNodeTourCost_in_bounds exampleConfig exampleSolver exampleVisits
      exampleSolver_toursConsistent⟩

/-- Without the invariant the call has no defined behaviour: for a node that is
not in the tour, `find` returns `end()` and `pos + 1` is past it; for a tour
that starts with the node, `pos - 1` is before `begin()`. -/
theorem delNodeTourCost_undefined_examples :
    delNodeTourCost exampleSolver 0 2 = none
      ∧ delNodeTourCost { exampleSolver with curTours := fun _ => [1, 0, 1] } 0 1 = none := by
  decide

/-! ## The frame of the TSP repair -/

/-- C26: the call `callLKH(visits, p1, p2)` with at least one of `p1`, `p2`
non-negative recomputes `curTours[p]` and `tourPrices[p]` only for the periods
`p` in `{p1, p2}` that are `≥ 0`, leaves `curTours` and `tourPrices` of every
other period (and the cost matrix) unchanged, and returns the sum of
`tourPrices` over all periods. -/
theorem callLKH_frame (c : Config) (s : Solver) (visits : Visits) (p1 p2 : Int)
    (hsel : 0 ≤ p1 ∨ 0 ≤ p2) :
    (∀ q : Nat, ((0 ≤ p1 ∧ p1 = q) ∨ (0 ≤ p2 ∧ p2 = q)) →
        (callLKH c s visits p1 p2).1.curTours q = repairedTour c visits q
          ∧ (callLKH c s visits p1 p2).1.tourPrices q = repairedPrice c visits s.routingCost q)
      ∧ (∀ q : Nat, p1 ≠ q → p2 ≠ q →
        (callLKH c s visits p1 p2).1.curTours q = s.curTours q
          ∧ (callLKH c s visits p1 p2).1.tourPrices q = s.tourPrices q)
      ∧ (callLKH c s visits p1 p2).1.routingCost = s.routingCost
      ∧ (callLKH c s visits p1 p2).2
          = ((List.range c.periodNum).map (callLKH c s visits p1 p2).1.tourPrices).sum := by
  have hall : ¬ (p1 < 0 ∧ p2 < 0) := by omega
  obtain ⟨h1, h2, h3⟩ := foldl_callLKHPeriod_eq c visits
    ((if p1 ≥ 0 then [p1.toNat] else []) ++ (if p2 ≥ 0 then [p2.toNat] else [])
      ++ (if p1 < 0 ∧ p2 < 0 then List.range c.periodNum else [])) s
  have hmem : ∀ q : Nat, q ∈ (if p1 ≥ 0 then [p1.toNat] else [])
      ++ (if p2 ≥ 0 then [p2.toNat] else [])
      ++ (if p1 < 0 ∧ p2 < 0 then List.range c.periodNum else [])
      ↔ ((0 ≤ p1 ∧ p1 = q) ∨ (0 ≤ p2 ∧ p2 = q)) := by
    intro q
    rw [if_neg hall]
    simp only [List.append_nil, List.mem_append]
    constructor
    · rintro (h | h)
      · left
        split at h
        · next hp =>
          simp only [List.mem_singleton] at h
          exact ⟨hp, by omega⟩
        · simp at h
      · right
        split at h
        · next hp =>
          simp only [List.mem_singleton] at h
          exact ⟨hp, by omega⟩
        · simp at h
    · rintro (⟨hp, h⟩ | ⟨hp, h⟩)
      · left
        rw [if_pos hp]
        simp only [List.mem_singleton]
        omega
      · right
        rw [if_pos hp]
        simp only [List.mem_singleton]
        omega
  refine ⟨?_, ?_, ?_, ?_⟩
  · intro q hq
    unfold callLKH
    simp only
    rw [h2 q, h3 q, if_pos ((hmem q).mpr hq), if_pos ((hmem q).mpr hq)]
    exact ⟨rfl, rfl⟩
  · intro q hq1 hq2
    have hnot : ¬ ((0 ≤ p1 ∧ p1 = q) ∨ (0 ≤ p2 ∧ p2 = q)) := by
      rintro (⟨_, h⟩ | ⟨_, h⟩)
      · exact hq1 h
      · exact hq2 h
    unfold callLKH
    simp only
    rw [h2 q, h3 q, if_neg (fun h => hnot ((hmem q).mp h)), if_neg (fun h => hnot ((hmem q).mp h))]
    exact ⟨rfl, rfl⟩
  · unfold callLKH
    exact h1
  · rfl

theorem callLKH_frame_witness :
    ((0 : Int) ≤ 1 ∨ (0 : Int) ≤ -1)
      ∧ (callLKH exampleConfig exampleSolver emptyPeriodVisits 1 (-1)).1.curTours 0
          = exampleSolver.curTours 0
      ∧ (callLKH exampleConfig exampleSolver emptyPeriodVisits 1 (-1)).1.curTours 1
          = repairedTour exampleConfig emptyPeriodVisits 1 :=
  ⟨Or.inl (by decide),
    ((callLKH_frame exampleConfig exampleSolver emptyPeriodVisits 1 (-1)
      (Or.inl (by decide))).2.1 0 (by decide) (by decide)).1,
    ((callLKH_frame exampleConfig exampleSolver emptyPeriodVisits 1 (-1)
      (Or.inl (by decide))).1 1 (Or.inl ⟨by decide, rfl⟩)).1⟩

/-- On the example, removing customer `2` from period `1` and repairing period
`1` alone gives the tours `0, 1, 0` (as before) and `0, 0`, and the cost `6`. -/
theorem callLKH_frame_example :
    (callLKH exampleConfig exampleSolver emptyPeriodVisits 1 (-1)).1.curTours 0 = [0, 1, 0]
      ∧ (callLKH exampleConfig exampleSolver emptyPeriodVisits 1 (-1)).1.curTours 1 = [0, 0]
      ∧ (callLKH exampleConfig { exampleSolver with tourPrices := fun _ => 6 }
          emptyPeriodVisits 1 (-1)).2 = 6 := by
  decide!

/-! ## The insertion estimate -/

theorem addNodeTourLoop_eq_foldl (c : Config) (s : Solver) (n : Nat) (tour : List Nat)
    (m : Price) :
    addNodeTourLoop c s n tour m
      = (insertionCosts s.routingCost n tour).foldl
          (fun m cost => if strongLess c cost m then cost else m) m := by
  induction tour generalizing m with
  | nil => rfl
  | cons a rest ih =>
    cases rest with
    | nil => rfl
    | cons b rest2 =>
      simp only [addNodeTourLoop, insertionCosts, List.foldl_cons]
      exact ih _

/-- The running minimum of `addNodeTourCost` over a list of costs, started at
`m`: the result is `m` or one of the costs, is not above `m`, and is not above
any cost by more than the tolerance. -/
theorem foldl_strongLess_min (c : Config) (heps : 0 ≤ c.epsilon) (costs : List Price)
    (m : Price) :
    ((costs.foldl (fun m cost => if strongLess c cost m then cost else m) m) = m
        ∨ (costs.foldl (fun m cost => if strongLess c cost m then cost else m) m) ∈ costs)
      ∧ (costs.foldl (fun m cost => if strongLess c cost m then cost else m) m) ≤ m
      ∧ ∀ cost, cost ∈ costs →
          (costs.foldl (fun m cost => if strongLess c cost m then cost else m) m)
            ≤ cost + c.epsilon := by
  induction costs generalizing m with
  | nil => exact ⟨Or.inl rfl, le_refl _, fun _ h => absurd h (List.not_mem_nil _)⟩
  | cons x xs ih =>
    simp only [List.foldl_cons]
    obtain ⟨h1, h2, h3⟩ := ih (if strongLess c x m then x else m)
    by_cases hx : strongLess c x m = true
    · have hlt : x < m - c.epsilon := by
        simpa [strongLess] using hx
      rw [if_pos hx] at h1 h2 h3 ⊢
      refine ⟨Or.inr ?_, by linarith, ?_⟩
      · rcases h1 with h1 | h1
        · rw [h1]; exact List.mem_cons_self _ _
        · exact List.mem_cons_of_mem _ h1
      · intro cost hc
        rcases List.mem_cons.mp hc with rfl | hc
        · linarith
        · exact h3 cost hc
    · have hge : ¬ x < m - c.epsilon := by
        simpa [strongLess] using hx
      rw [if_neg hx] at h1 h2 h3 ⊢
      refine ⟨?_, h2, ?_⟩
      · rcases h1 with h1 | h1
        · exact Or.inl h1
        · exact Or.inr (List.mem_cons_of_mem _ h1)
      · intro cost hc
        rcases List.mem_cons.mp hc with rfl | hc
        · linarith
        · exact h3 cost hc

theorem insertionCosts_int (routingCost : Nat → Nat → Price)
    (hint : ∀ i j, ∃ z : ℤ, routingCost i j = z) (n : Nat) (tour : List Nat) :
    ∀ cost, cost ∈ insertionCosts routingCost n tour → ∃ z : ℤ, cost = z := by
  induction tour with
  | nil => intro cost h; simp [insertionCosts] at h
  | cons a rest ih =>
    cases rest with
    | nil => intro cost h; simp [insertionCosts] at h
    | cons b rest2 =>
      intro cost h
      simp only [insertionCosts, List.mem_cons] at h
      rcases h with h | h
      · obtain ⟨z1, h1⟩ := hint a n
        obtain ⟨z2, h2⟩ := hint n b
        obtain ⟨z3, h3⟩ := hint a b
        refine ⟨z1 + z2 - z3, ?_⟩
        rw [h, h1, h2, h3]
        push_cast
        ring
      · exact ih cost h

theorem int_lt_sub_of_lt (eps : ℚ) (heps : eps < 1) (x y : ℤ) (h : (x : ℚ) < y) :
    (x : ℚ) < y - eps := by
  have h1 : x + 1 ≤ y := by exact_mod_cast h
  have h2 : ((x + 1 : ℤ) : ℚ) ≤ (y : ℚ) := by exact_mod_cast h1
  push_cast at h2
  linarith

/-- On integer costs and with a tolerance below `1`, the running minimum is the
exact minimum of the start value and the costs. -/
theorem foldl_strongLess_exact (c : Config) (heps0 : 0 ≤ c.epsilon) (heps1 : c.epsilon < 1)
    (costs : List Price) (hint : ∀ cost, cost ∈ costs → ∃ z : ℤ, cost = z) (m : Price)
    (hm : ∃ z : ℤ, m = z) :
    ∀ cost, cost ∈ costs →
      (costs.foldl (fun m cost => if strongLess c cost m then cost else m) m) ≤ cost := by
  induction costs generalizing m with
  | nil => intro cost h; exact absurd h (List.not_mem_nil _)
  | cons x xs ih =>
    simp only [List.foldl_cons]
    obtain ⟨zx, hzx⟩ := hint x (List.mem_cons_self _ _)
    obtain ⟨zm, hzm⟩ := hm
    have hm' : ∃ z : ℤ, (if strongLess c x m then x else m) = z := by
      split
      · exact ⟨zx, hzx⟩
      · exact ⟨zm, hzm⟩
    have hrec := ih (fun cost h => hint cost (List.mem_cons_of_mem _ h))
      (if strongLess c x m then x else m) hm'
    have hle := (foldl_strongLess_min c heps0 xs (if strongLess c x m then x else m)).2.1
    intro cost hc
    rcases List.mem_cons.mp hc with rfl | hc
    · refine le_trans hle ?_
      by_cases hx : strongLess c cost m = true
      · rw [if_pos hx]
      · have hge : ¬ cost < m - c.epsilon := by
          simpa [strongLess] using hx
        rw [if_neg hx]
        by_contra hcon
        push_neg at hcon
        apply hge
        rw [hzx, hzm] at hcon ⊢
        exact int_lt_sub_of_lt c.epsilon heps1 zx zm hcon
    · exact hrec cost hc

/-- C22: for every period `p` whose `curTours[p]` has at least two elements and
every node `n`, `addNodeTourCost(p, n)` returns the minimum, over all
consecutive pairs `(a, b)` of `curTours[p]`, of
`routingCost[a][n] + routingCost[n][b] - routingCost[a][b]`; for the empty tour
`[0, 0]` this is `2 * routingCost[0][n]`. The routing costs are integers (as
`init` leaves them), the tolerance of `strongLess` lies in `[0, 1)`, and the
start value `Problem::MaxCost` is an integer not below every insertion cost. -/
theorem addNodeTourCost_is_minimum (c : Config) (s : Solver) (p n : Nat)
    (heps0 : 0 ≤ c.epsilon) (heps1 : c.epsilon < 1)
    (hint : ∀ i j, ∃ z : ℤ, s.routingCost i j = z) (hmax : ∃ z : ℤ, c.maxCost = z)
    (hlen : 2 ≤ (s.curTours p).length)
    (hcap : ∃ cost, cost ∈ insertionCosts s.routingCost n (s.curTours p) ∧ cost ≤ c.maxCost) :
    ∃ r, addNodeTourCost c s p n = some r
      ∧ r ∈ insertionCosts s.routingCost n (s.curTours p)
      ∧ (∀ cost, cost ∈ insertionCosts s.routingCost n (s.curTours p) → r ≤ cost)
      ∧ (s.curTours p = [0, 0] → s.routingCost n 0 = s.routingCost 0 n →
          s.routingCost 0 0 = 0 → r = 2 * s.routingCost 0 n) := by
  have hdef : addNodeTourCost c s p n
      = some (addNodeTourLoop c s n (s.curTours p) c.maxCost) := by
    unfold addNodeTourCost
    cases ht : s.curTours p with
    | nil => rw [ht] at hlen; simp at hlen
    | cons a l => rfl
  have hints := insertionCosts_int s.routingCost hint n (s.curTours p)
  obtain ⟨h1, h2, _⟩ := foldl_strongLess_min c heps0
    (insertionCosts s.routingCost n (s.curTours p)) c.maxCost
  have hex := foldl_strongLess_exact c heps0 heps1
    (insertionCosts s.routingCost n (s.curTours p)) hints c.maxCost hmax
  rw [← addNodeTourLoop_eq_foldl] at h1 h2 hex
  have hmem : addNodeTourLoop c s n (s.curTours p) c.maxCost
      ∈ insertionCosts s.routingCost n (s.curTours p) := by
    rcases h1 with h1 | h1
    · obtain ⟨cost, hc, hle⟩ := hcap
      have := hex cost hc
      have heq : cost = c.maxCost := by
        rw [h1] at this
        exact le_antisymm hle this
      rw [h1, ← heq]
      exact hc
    · exact h1
  refine ⟨_, hdef, hmem, hex, ?_⟩
  intro ht hsym hdiag
  rw [ht] at hmem
  simp only [insertionCosts, List.mem_singleton] at hmem
  rw [ht, hmem, hsym, hdiag]
  ring

theorem exampleSolver_routingCost_int (i j : Nat) :
    ∃ z : ℤ, exampleSolver.routingCost i j = z := by
  by_cases h : i = j
  · exact ⟨0, by simp [exampleSolver, h]⟩
  · exact ⟨3, by simp [exampleSolver, h]⟩

theorem addNodeTourCost_is_minimum_witness :
    2 ≤ (exampleSolver.curTours 0).length
      ∧ ∃ r, addNodeTourCost exampleConfig exampleSolver 0 2 = some r
          ∧ r ∈ insertionCosts exampleSolver.routingCost 2 (exampleSolver.curTours 0)
          ∧ (∀ cost, cost ∈ insertionCosts exampleSolver.routingCost 2
              (exampleSolver.curTours 0) → r ≤ cost)
          ∧ (exampleSolver.curTours 0 = [0, 0] →
              exampleSolver.routingCost 2 0 = exampleSolver.routingCost 0 2 →
              exampleSolver.routingCost 0 0 = 0 → r = 2 * exampleSolver.routingCost 0 2) :=
  ⟨by decide,
    addNodeTourCost_is_minimum exampleConfig exampleSolver 0 2 (by decide!) (by decide!)
      exampleSolver_routingCost_int ⟨1000000, by simp [exampleConfig]⟩ (by decide)
      ⟨3, by decide!, by decide!⟩⟩

/-- On the example, inserting customer `2` into the tour `0, 1, 0` costs `3`
at either position, and into the empty tour `0, 0` it costs `6`. -/
theorem addNodeTourCost_examples :
    addNodeTourCost exampleConfig exampleSolver 0 2 = some 3
      ∧ addNodeTourCost exampleConfig { exampleSolver with curTours := fun _ => [0, 0] } 0 2
          = some 6 := by
  decide!

/-- With costs that are not integers the tolerance shows: after the cost `10`
the cost `9.9995` is not `strongLess` and the estimate stays at `10`. -/
theorem addNodeTourCost_tolerance_example :
    addNodeTourCost exampleConfig
        { exampleSolver with
          routingCost := fun i j =>
            if i = 0 ∧ j = 2 then 10 else if i = 1 ∧ j = 2 then 19999 / 2000 else 0
          curTours := fun _ => [0, 1, 0] } 0 2
      = some 10 := by
  decide!

/-! ## Sampling -/

/-- The replacement loop of `sampling` from position `a` on: when `res` holds
the elements of `pool` at pairwise distinct positions below `a`, it does so
afterwards for positions below `a + len`, and its length is unchanged. -/
theorem sampling_loop_inv (pool : List Nat) (K : Nat) (len a : Nat) (st : List Nat × List Nat)
    (idx : List Nat) (hres : st.1 = idx.map (fun i => pool.getD i 0)) (hnd : idx.Nodup)
    (hlt : ∀ i, i ∈ idx → i < a) :
    ∃ idx1 : List Nat,
      ((List.range' a len).foldl (fun (st : List Nat × List Nat) i =>
          ((if (pick st.2 (i + 1)).1 < K then st.1.set (pick st.2 (i + 1)).1 (pool.getD i 0)
            else st.1), (pick st.2 (i + 1)).2)) st).1
        = idx1.map (fun i => pool.getD i 0)
      ∧ idx1.Nodup ∧ (∀ i, i ∈ idx1 → i < a + len) ∧ idx1.length = idx.length := by
  induction len generalizing a st idx with
  | zero => exact ⟨idx, hres, hnd, fun i hi => by have := hlt i hi; omega, rfl⟩
  | succ len ih =>
    simp only [List.range', List.foldl_cons]
    have hnew : a ∉ idx := fun h => by have := hlt a h; omega
    by_cases hr : (pick st.2 (a + 1)).1 < K
    · obtain ⟨idx1, h1, h2, h3, h4⟩ := ih (a + 1)
        (st.1.set (pick st.2 (a + 1)).1 (pool.getD a 0), (pick st.2 (a + 1)).2)
        (idx.set (pick st.2 (a + 1)).1 a)
        (by simp only [hres, List.map_set])
        (hnd.set hnew)
        (by
          intro i hi
          rcases List.mem_or_eq_of_mem_set hi with h | h
          · have := hlt i h; omega
          · omega)
      refine ⟨idx1, ?_, h2, fun i hi => by have := h3 i hi; omega, ?_⟩
      · rw [if_pos hr]
        exact h1
      · rw [h4, List.length_set]
    · obtain ⟨idx1, h1, h2, h3, h4⟩ := ih (a + 1) (st.1, (pick st.2 (a + 1)).2) idx hres hnd
        (fun i hi => by have := hlt i hi; omega)
      refine ⟨idx1, ?_, h2, fun i hi => by have := h3 i hi; omega, h4⟩
      rw [if_neg hr]
      exact h1

theorem take_eq_map_getD (pool : List Nat) (K : Nat) (hK : K ≤ pool.length) :
    pool.take K = (List.range K).map (fun i => pool.getD i 0) := by
  apply List.ext_getElem
  · simp [hK]
  · intro i h1 h2
    simp only [List.length_take, lt_min_iff] at h1
    simp [List.getD_eq_getElem, h1.2]

/-- C30: for every pool of size `N`, every `K ≥ 0` and every sequence of random
picks, `sampling(pool, res, K)` returns `res` of length `min(N, K)` whose
entries are the elements of `pool` at pairwise distinct positions, so a pool
of distinct values yields no duplicates; `pool` is a `const` reference and is
not written. -/
theorem sampling_distinct_positions (pool : List Nat) (K : Nat) (rs : List Nat) :
    ∃ idx : List Nat,
      (sampling pool K rs).1 = idx.map (fun i => pool.getD i 0)
        ∧ idx.Nodup ∧ (∀ i, i ∈ idx → i < pool.length)
        ∧ (sampling pool K rs).1.length = min pool.length K
        ∧ (pool.Nodup → (sampling pool K rs).1.Nodup)
        ∧ ∀ x, x ∈ (sampling pool K rs).1 → x ∈ pool := by
  have hK : (if pool.length > K then K else pool.length) ≤ pool.length := by
    split <;> omega
  have hKmin : (if pool.length > K then K else pool.length) = min pool.length K := by
    split <;> omega
  obtain ⟨idx, h1, h2, h3, h4⟩ := sampling_loop_inv pool
    (if pool.length > K then K else pool.length)
    (pool.length - (if pool.length > K then K else pool.length))
    (if pool.length > K then K else pool.length)
    (pool.take (if pool.length > K then K else pool.length), rs)
    (List.range (if pool.length > K then K else pool.length))
    (take_eq_map_getD pool _ hK) (List.nodup_range _)
    (fun i hi => List.mem_range.mp hi)
  have h3' : ∀ i, i ∈ idx → i < pool.length := fun i hi => by
    have := h3 i hi
    omega
  have hres : (sampling pool K rs).1 = idx.map (fun i => pool.getD i 0) := h1
  refine ⟨idx, hres, h2, h3', ?_, ?_, ?_⟩
  · rw [hres, List.length_map, h4, List.length_range, hKmin]
  · intro hpool
    rw [hres]
    refine (List.nodup_map_iff_inj_on h2).mpr ?_
    intro i hi j hj hij
    have hi' := h3' i hi
    have hj' := h3' j hj
    rw [List.getD_eq_getElem _ _ hi', List.getD_eq_getElem _ _ hj'] at hij
    exact (List.Nodup.getElem_inj_iff hpool).mp hij
  · intro x hx
    rw [hres] at hx
    obtain ⟨i, hi, rfl⟩ := List.mem_map.mp hx
    rw [List.getD_eq_getElem _ _ (h3' i hi)]
    exact List.getElem_mem _

/-- On the pool `10, 11, 12, 13, 14` with `K = 2` and the picks `0, 3, 1`,
`sampling` returns `12, 14`. -/
theorem sampling_example :
    (sampling [10, 11, 12, 13, 14] 2 [0, 3, 1]).1 = [12, 14]
      ∧ (sampling [10, 11, 12] 5 [1, 2]).1 = [10, 11, 12]
      ∧ (sampling [10, 11, 12] 0 [0, 0, 0]).1 = [] := by
  decide

/-! ## The final running minimum of `buildMixNeigh` -/

theorem buildMixNeigh_eq_state (c : Config) (s : Solver) (visits : Visits) (minCost : Price) :
    buildMixNeigh c s visits minCost
      = (buildMixNeighState c s visits minCost).map (fun st => (st.solver, st.visits)) := by
  unfold buildMixNeigh buildMixNeighState
  cases candidateLists c s visits with
  | none => rfl
  | some lists =>
    obtain ⟨dl, ml, sl⟩ := lists
    rfl

/-- One evaluation: the running minimum does not go up, the members of
`mixNeigh` stay within the tolerance of it, and a feasible candidate is not
`strongLess` than the new minimum. -/
theorem evalCandidate_min (c : Config) (heps : 0 ≤ c.epsilon) (s : Solver) (visits1 : Visits)
    (m : Price) (a : Actor)
    (hmem : ∀ b, b ∈ s.mixNeigh → |b.totalCost - m| ≤ c.epsilon) :
    (evalCandidate c s visits1 m a).2 ≤ m
      ∧ (∀ b, b ∈ (evalCandidate c s visits1 m a).1.mixNeigh →
          |b.totalCost - (evalCandidate c s visits1 m a).2| ≤ c.epsilon)
      ∧ (0 ≤ callModel c visits1 →
          ¬ (a.totalCost + callModel c visits1
              < (evalCandidate c s visits1 m a).2 - c.epsilon)) := by
  unfold evalCandidate
  simp only
  split
  · split
    · rename_i hsl
      simp only [strongLess, decide_eq_true_eq] at hsl
      refine ⟨?_, ?_, ?_⟩
      · show a.totalCost + callModel c visits1 ≤ m
        linarith
      · intro b hb
        simp only [List.mem_singleton] at hb
        subst hb
        simp only [sub_self, abs_zero]
        exact heps
      · intro _
        show ¬ (a.totalCost + callModel c visits1
          < a.totalCost + callModel c visits1 - c.epsilon)
        linarith
    · rename_i hsl
      simp only [strongLess, decide_eq_true_eq] at hsl
      split
      · rename_i hwe
        simp only [weakEqual, decide_eq_true_eq] at hwe
        refine ⟨le_refl _, ?_, fun _ => hsl⟩
        intro b hb
        simp only [List.mem_append, List.mem_singleton] at hb
        rcases hb with hb | hb
        · exact hmem b hb
        · subst hb
          exact hwe
      · exact ⟨le_refl _, hmem, fun _ => hsl⟩
  · rename_i hneg
    exact ⟨le_refl _, hmem, fun h => absurd h hneg⟩

/-- An evaluation loop of `buildMixNeigh`, with respect to the running
minimum. -/
theorem foldl_eval_min (c : Config) (heps : 0 ≤ c.epsilon) (visits : Visits)
    (ev : EvalState → Actor → EvalState) (Cand : Actor → Prop)
    (hstep : ∀ (st : EvalState) (a : Actor), Cand a → st.visits = visits →
      (∀ b, b ∈ st.solver.mixNeigh → GoodNeighbour c visits b) →
      (ev st a).visits = visits
      ∧ (∀ b, b ∈ (ev st a).solver.mixNeigh → GoodNeighbour c visits b)
      ∧ ∃ s1 : Solver, s1.mixNeigh = st.solver.mixNeigh
          ∧ (ev st a).solver = (evalCandidate c s1 (applyMove visits a) st.minCost a).1
          ∧ (ev st a).minCost = (evalCandidate c s1 (applyMove visits a) st.minCost a).2)
    (l : List Actor) (hl : ∀ a, a ∈ l → Cand a) (st : EvalState) (hvis : st.visits = visits)
    (hgood : ∀ b, b ∈ st.solver.mixNeigh → GoodNeighbour c visits b)
    (hmem : ∀ b, b ∈ st.solver.mixNeigh → |b.totalCost - st.minCost| ≤ c.epsilon) :
    (l.foldl ev st).visits = visits
      ∧ (∀ b, b ∈ (l.foldl ev st).solver.mixNeigh → GoodNeighbour c visits b)
      ∧ (l.foldl ev st).minCost ≤ st.minCost
      ∧ (∀ b, b ∈ (l.foldl ev st).solver.mixNeigh →
          |b.totalCost - (l.foldl ev st).minCost| ≤ c.epsilon)
      ∧ ∀ a, a ∈ l → 0 ≤ callModel c (applyMove visits a) →
          ¬ (a.totalCost + callModel c (applyMove visits a)
              < (l.foldl ev st).minCost - c.epsilon) := by
  induction l generalizing st with
  | nil =>
    exact ⟨hvis, hgood, le_refl _, hmem, fun a ha => absurd ha (List.not_mem_nil a)⟩
  | cons x xs ih =>
    obtain ⟨s1, s2, sv, hs1, e1, e2⟩ := hstep st x (hl x (List.mem_cons_self _ _)) hvis hgood
    obtain ⟨m1, m2, m3⟩ := evalCandidate_min c heps sv (applyMove visits x) st.minCost x
      (by rw [hs1]; exact hmem)
    rw [← e1, ← e2] at m2
    rw [← e2] at m1 m3
    obtain ⟨r1, r2, r3, r4, r5⟩ := ih (fun a ha => hl a (List.mem_cons_of_mem _ ha)) (ev st x)
      s1 s2 m2
    simp only [List.foldl_cons]
    refine ⟨r1, r2, le_trans r3 m1, r4, ?_⟩
    intro a ha hfeas
    rcases List.mem_cons.mp ha with rfl | ha
    · have := m3 hfeas
      intro hcon
      apply this
      linarith
    · exact r5 a ha hfeas

theorem evalDel_min_step (c : Config) (visits : Visits) (hv : IsVisitMatrix c visits)
    (st : EvalState) (a : Actor) (ha : DelCand c visits a) (hvis : st.visits = visits)
    (hgood : ∀ b, b ∈ st.solver.mixNeigh → GoodNeighbour c visits b) :
    (evalDel c st a).visits = visits
      ∧ (∀ b, b ∈ (evalDel c st a).solver.mixNeigh → GoodNeighbour c visits b)
      ∧ ∃ s1 : Solver, s1.mixNeigh = st.solver.mixNeigh
          ∧ (evalDel c st a).solver = (evalCandidate c s1 (applyMove visits a) st.minCost a).1
          ∧ (evalDel c st a).minCost
              = (evalCandidate c s1 (applyMove visits a) st.minCost a).2 := by
  obtain ⟨h1, h2, _, _⟩ := evalDel_step c visits hv st hvis hgood a ha
  refine ⟨h1, h2, execTabuWithMove c st.solver st.solver.hashValue1 st.solver.hashValue2
    st.solver.hashValue3 a, rfl, ?_, ?_⟩
  · rw [applyMove_delCand c visits a ha, ← hvis]
    rfl
  · rw [applyMove_delCand c visits a ha, ← hvis]
    rfl

theorem evalMov_min_step (c : Config) (visits : Visits) (hv : IsVisitMatrix c visits)
    (st : EvalState) (a : Actor) (ha : MovCand c visits a) (hvis : st.visits = visits)
    (hgood : ∀ b, b ∈ st.solver.mixNeigh → GoodNeighbour c visits b) :
    (evalMov c st a).visits = visits
      ∧ (∀ b, b ∈ (evalMov c st a).solver.mixNeigh → GoodNeighbour c visits b)
      ∧ ∃ s1 : Solver, s1.mixNeigh = st.solver.mixNeigh
          ∧ (evalMov c st a).solver = (evalCandidate c s1 (applyMove visits a) st.minCost a).1
          ∧ (evalMov c st a).minCost
              = (evalCandidate c s1 (applyMove visits a) st.minCost a).2 := by
  obtain ⟨h1, h2, _, _⟩ := evalMov_step c visits hv st hvis hgood a ha
  refine ⟨h1, h2, execTabuWithMove c st.solver st.solver.hashValue1 st.solver.hashValue2
    st.solver.hashValue3 a, rfl, ?_, ?_⟩
  · rw [applyMove_movCand c visits a ha, ← hvis]
    rfl
  · rw [applyMove_movCand c visits a ha, ← hvis]
    rfl

theorem evalSwp_min_step (c : Config) (visits : Visits) (hv : IsVisitMatrix c visits)
    (st : EvalState) (a : Actor) (ha : SwpCand c visits a) (hvis : st.visits = visits)
    (hgood : ∀ b, b ∈ st.solver.mixNeigh → GoodNeighbour c visits b) :
    (evalSwp c st a).visits = visits
      ∧ (∀ b, b ∈ (evalSwp c st a).solver.mixNeigh → GoodNeighbour c visits b)
      ∧ ∃ s1 : Solver, s1.mixNeigh = st.solver.mixNeigh
          ∧ (evalSwp c st a).solver = (evalCandidate c s1 (applyMove visits a) st.minCost a).1
          ∧ (evalSwp c st a).minCost
              = (evalCandidate c s1 (applyMove visits a) st.minCost a).2 := by
  obtain ⟨h1, h2, _, _⟩ := evalSwp_step c visits hv st hvis hgood a ha
  refine ⟨h1, h2, execTabuWithMove c st.solver st.solver.hashValue1 st.solver.hashValue2
    st.solver.hashValue3 a, rfl, ?_, ?_⟩
  · rw [applyMove_swpCand c visits a ha, ← hvis]
    rfl
  · rw [applyMove_swpCand c visits a ha, ← hvis]
    rfl

/-- C27: on return from `buildMixNeigh` every member of `mixNeigh` has a
`totalCost` that is `weakEqual` to the final running minimum `minCost`, and no
candidate that an evaluation loop ran over and found feasible for the LP has a
`totalCost` (tour estimate plus LP cost) `strongLess` than that final minimum.
The tolerance is taken to be non-negative; the matrix is a 0/1 matrix whose
tours agree with it, as in `mixTabuSearch`. -/
theorem mixNeigh_best_up_to_tolerance (c : Config) (heps : 0 ≤ c.epsilon) (s : Solver)
    (visits : Visits) (minCost : Price) (hv : IsVisitMatrix c visits)
    (ht : ToursConsistent c visits s.curTours) :
    ∃ st dl ml sl, buildMixNeighState c s visits minCost = some st
      ∧ buildMixNeigh c s visits minCost = some (st.solver, st.visits)
      ∧ candidateLists c s visits = some (dl, ml, sl)
      ∧ st.minCost ≤ minCost
      ∧ (∀ b, b ∈ st.solver.mixNeigh → weakEqual c b.totalCost st.minCost = true)
      ∧ ∀ a, a ∈ dl ++ ml ++ sl → 0 ≤ callModel c (applyMove visits a) →
          strongLess c (a.totalCost + callModel c (applyMove visits a)) st.minCost = false := by
  obtain ⟨d, hd⟩ := delNeighOf_isSome c s visits ht
  obtain ⟨m, hm⟩ := movNeighOf_isSome c s visits ht
  obtain ⟨w, hw⟩ := swpNeighOf_isSome c s visits ht
  have hcl : candidateLists c s visits
      = some ((sortByCost d).take (maxSize c), (sortByCost m).take (maxSize c),
          (sortByCost w).take (maxSize c)) := by
    simp only [candidateLists, hd, hm, hw]
  obtain ⟨hdl, hml, hsl⟩ := candidateLists_mem c s visits _ _ _ hcl
  obtain ⟨a1, a2, a3, a4, a5⟩ := foldl_eval_min c heps visits (evalDel c) (DelCand c visits)
    (fun st a ha hvis hg => evalDel_min_step c visits hv st a ha hvis hg)
    ((sortByCost d).take (maxSize c)) hdl
    { solver := { s with mixNeigh := [] }, visits := visits, minCost := minCost } rfl
    (fun b hb => absurd hb (List.not_mem_nil b)) (fun b hb => absurd hb (List.not_mem_nil b))
  obtain ⟨b1, b2, b3, b4, b5⟩ := foldl_eval_min c heps visits (evalMov c) (MovCand c visits)
    (fun st a ha hvis hg => evalMov_min_step c visits hv st a ha hvis hg)
    ((sortByCost m).take (maxSize c)) hml _ a1 a2 a4
  obtain ⟨c1, c2, c3, c4, c5⟩ := foldl_eval_min c heps visits (evalSwp c) (SwpCand c visits)
    (fun st a ha hvis hg => evalSwp_min_step c visits hv st a ha hvis hg)
    ((sortByCost w).take (maxSize c)) hsl _ b1 b2 b4
  have hstate : buildMixNeighState c s visits minCost
      = some (((sortByCost w).take (maxSize c)).foldl (evalSwp c)
          (((sortByCost m).take (maxSize c)).foldl (evalMov c)
            (((sortByCost d).take (maxSize c)).foldl (evalDel c)
              { solver := { s with mixNeigh := [] }, visits := visits,
                minCost := minCost }))) := by
    simp only [buildMixNeighState, hcl]
  refine ⟨_, _, _, _, hstate, ?_, hcl, ?_, ?_, ?_⟩
  · rw [buildMixNeigh_eq_state, hstate]
    rfl
  · exact le_trans c3 (le_trans b3 a3)
  · intro b hb
    simp only [weakEqual, decide_eq_true_eq]
    exact c4 b hb
  · intro a ha hfeas
    simp only [strongLess, decide_eq_false_iff_not]
    simp only [List.mem_append] at ha
    rcases ha with (ha | ha) | ha
    · intro hcon
      exact a5 a ha hfeas (by linarith)
    · intro hcon
      exact b5 a ha hfeas (by linarith)
    · exact c5 a ha hfeas

theorem mixNeigh_best_up_to_tolerance_witness :
    IsVisitMatrix exampleConfig exampleVisits
      ∧ ToursConsistent exampleConfig exampleVisits exampleSolver.curTours
      ∧ ∃ st dl ml sl, buildMixNeighState exampleConfig exampleSolver exampleVisits 100 = some st
          ∧ buildMixNeigh exampleConfig exampleSolver exampleVisits 100
              = some (st.solver, st.visits)
          ∧ candidateLists exampleConfig exampleSolver exampleVisits = some (dl, ml, sl)
          ∧ st.minCost ≤ 100
          ∧ (∀ b, b ∈ st.solver.mixNeigh →
              weakEqual exampleConfig b.totalCost st.minCost = true)
          ∧ ∀ a, a ∈ dl ++ ml ++ sl → 0 ≤ callModel exampleConfig (applyMove exampleVisits a) →
              strongLess exampleConfig
                (a.totalCost + callModel exampleConfig (applyMove exampleVisits a))
                st.minCost = false :=
  ⟨exampleVisits_isVisitMatrix, exampleSolver_toursConsistent,
    mixNeigh_best_up_to_tolerance exampleConfig exampleConfig_epsilon_nonneg exampleSolver
      exampleVisits 100 exampleVisits_isVisitMatrix exampleSolver_toursConsistent⟩

/-- On the example the final running minimum is `-1`, the cost of the one
member of `mixNeigh`. -/
theorem buildMixNeighState_example :
    (buildMixNeighState exampleConfig exampleSolver exampleVisits 100).map
        (fun st => (st.minCost, st.solver.mixNeigh.map (fun a => a.totalCost)))
      = some (-1, [-1]) := by
  decide!

/-! ## The disturbance burst -/

theorem movLoop_succ (c : Config) (movNumber fuel : Nat) (st : MovState) :
    movLoop c movNumber (fuel + 1) st
      = if st.mvNum < movNumber ∧ st.movRoom.length > 0 then
          movLoop c movNumber fuel (movPass c st)
        else st := rfl

theorem delLoop_succ (c : Config) (delNumber fuel : Nat) (st : DelState) :
    delLoop c delNumber (fuel + 1) st
      = if st.delNum < delNumber ∧ st.room.length > 0 then
          delLoop c delNumber fuel (delPass c st)
        else st := rfl

theorem cell_decode (N p n : Nat) (hn : n < N) : (p * N + n) / N = p ∧ (p * N + n) % N = n := by
  have hN : 0 < N := by omega
  constructor
  · rw [Nat.add_comm, Nat.add_mul_div_right _ _ hN, Nat.div_eq_of_lt hn, Nat.zero_add]
  · rw [Nat.add_comm, Nat.add_mul_mod_self_right, Nat.mod_eq_of_lt hn]

theorem setCell_encode (c : Config) (visits : Visits) (p n : Nat) (hn : n < c.nodeNum) (x : Int) :
    setCell c visits (p * c.nodeNum + n) x = visits.set p n x := by
  unfold setCell
  rw [(cell_decode c.nodeNum p n hn).1, (cell_decode c.nodeNum p n hn).2]

theorem pick_lt (rs : List Nat) (n : Nat) (hn : 0 < n) : (pick rs n).1 < n :=
  Nat.mod_lt _ hn

theorem getD_pick_mem {α : Type} (l : List α) (rs : List Nat) (d : α) (h : l.length > 0) :
    l.getD (pick rs l.length).1 d ∈ l := by
  rw [List.getD_eq_getElem _ _ (pick_lt rs l.length h)]
  exact List.getElem_mem _

theorem mem_cellRoom (c : Config) (visits : Visits) (b : Bool) (vid : Nat) :
    vid ∈ cellRoom c visits b
      ↔ ∃ p n, p < c.periodNum ∧ 1 ≤ n ∧ n < c.nodeNum ∧ (decide (visits p n ≠ 0) == b) = true
          ∧ vid = p * c.nodeNum + n := by
  unfold cellRoom
  simp only [List.mem_flatMap, List.mem_range, List.mem_map, List.mem_filter, List.mem_range'_1]
  constructor
  · rintro ⟨p, hp, n, ⟨⟨hn1, hn2⟩, hb⟩, rfl⟩
    exact ⟨p, n, hp, hn1, by omega, hb, rfl⟩
  · rintro ⟨p, n, hp, hn1, hn2, hb, rfl⟩
    exact ⟨p, hp, n, ⟨⟨hn1, by omega⟩, hb⟩, rfl⟩

theorem mem_movRoom (c : Config) (visits : Visits) (mov : Nat × Nat) (h : mov ∈ movRoom c visits) :
    ∃ pa pd n, pa < c.periodNum ∧ pd < c.periodNum ∧ 1 ≤ n ∧ n < c.nodeNum
      ∧ visits pa n = 0 ∧ visits pd n ≠ 0
      ∧ mov = (pa * c.nodeNum + n, pd * c.nodeNum + n) := by
  unfold movRoom at h
  simp only [List.mem_flatMap, List.mem_range, List.mem_range'_1, List.mem_append] at h
  obtain ⟨n, ⟨hn1, hn2⟩, p1, hp1, p2, ⟨hp2a, hp2b⟩, hm⟩ := h
  rcases hm with hm | hm
  · split at hm
    · next hc =>
      simp only [List.mem_singleton] at hm
      exact ⟨p2, p1, n, by omega, hp1, hn1, by omega, hc.2, hc.1, hm⟩
    · simp at hm
  · split at hm
    · next hc =>
      simp only [List.mem_singleton] at hm
      exact ⟨p1, p2, n, hp1, by omega, hn1, by omega, hc.1, hc.2, hm⟩
    · simp at hm

theorem movPass_skip (c : Config) (st : MovState)
    (hg : ¬ (¬ ((st.movRoom.getD (pick st.rs st.movRoom.length).1 (0, 0)).1 ∈ st.addOpts)
      ∧ ¬ ((st.movRoom.getD (pick st.rs st.movRoom.length).1 (0, 0)).2 ∈ st.delOpts))) :
    movPass c st
      = { st with movRoom := st.movRoom.eraseIdx (pick st.rs st.movRoom.length).1,
                  rs := (pick st.rs st.movRoom.length).2 } := by
  unfold movPass
  simp only
  rw [if_neg hg]

theorem movPass_reject (c : Config) (st : MovState)
    (hg : ¬ ((st.movRoom.getD (pick st.rs st.movRoom.length).1 (0, 0)).1 ∈ st.addOpts)
      ∧ ¬ ((st.movRoom.getD (pick st.rs st.movRoom.length).1 (0, 0)).2 ∈ st.delOpts))
    (hc : callModel c (setCell c (setCell c st.visits
        (st.movRoom.getD (pick st.rs st.movRoom.length).1 (0, 0)).1 1)
        (st.movRoom.getD (pick st.rs st.movRoom.length).1 (0, 0)).2 0) < 0) :
    movPass c st
      = { st with
          visits := setCell c (setCell c (setCell c (setCell c st.visits
            (st.movRoom.getD (pick st.rs st.movRoom.length).1 (0, 0)).1 1)
            (st.movRoom.getD (pick st.rs st.movRoom.length).1 (0, 0)).2 0)
            (st.movRoom.getD (pick st.rs st.movRoom.length).1 (0, 0)).1 0)
            (st.movRoom.getD (pick st.rs st.movRoom.length).1 (0, 0)).2 1
          movRoom := st.movRoom.eraseIdx (pick st.rs st.movRoom.length).1,
          rs := (pick st.rs st.movRoom.length).2 } := by
  unfold movPass
  simp only
  rw [if_pos hg, if_pos hc]

theorem movPass_accept (c : Config) (st : MovState)
    (hg : ¬ ((st.movRoom.getD (pick st.rs st.movRoom.length).1 (0, 0)).1 ∈ st.addOpts)
      ∧ ¬ ((st.movRoom.getD (pick st.rs st.movRoom.length).1 (0, 0)).2 ∈ st.delOpts))
    (hc : ¬ callModel c (setCell c (setCell c st.visits
        (st.movRoom.getD (pick st.rs st.movRoom.length).1 (0, 0)).1 1)
        (st.movRoom.getD (pick st.rs st.movRoom.length).1 (0, 0)).2 0) < 0) :
    movPass c st
      = { st with
          visits := setCell c (setCell c st.visits
            (st.movRoom.getD (pick st.rs st.movRoom.length).1 (0, 0)).1 1)
            (st.movRoom.getD (pick st.rs st.movRoom.length).1 (0, 0)).2 0
          mvNum := st.mvNum + 1
          addOpts := st.addOpts ++ [(st.movRoom.getD (pick st.rs st.movRoom.length).1 (0, 0)).1]
          delOpts := st.delOpts ++ [(st.movRoom.getD (pick st.rs st.movRoom.length).1 (0, 0)).2]
          movRoom := st.movRoom.eraseIdx (pick st.rs st.movRoom.length).1,
          rs := (pick st.rs st.movRoom.length).2 } := by
  unfold movPass
  simp only
  rw [if_pos hg, if_neg hc]

theorem encode_ne (N pa n pb m : Nat) (h : pa * N + n ≠ pb * N + m) : ¬ (pa = pb ∧ n = m) := by
  rintro ⟨rfl, rfl⟩
  exact h rfl

theorem Visits.mov_revert (visits : Visits) (pa pd n : Nat) (h0 : visits pa n = 0)
    (h1 : visits pd n = 1) :
    ((((visits.set pa n 1).set pd n 0).set pa n 0).set pd n 1) = visits := by
  funext p' n'
  unfold Visits.set
  by_cases hd : p' = pd ∧ n' = n
  · obtain ⟨rfl, rfl⟩ := hd
    simp [h1]
  · by_cases ha : p' = pa ∧ n' = n
    · obtain ⟨rfl, rfl⟩ := ha
      have hpd : ¬ p' = pd := fun h => hd ⟨h, rfl⟩
      simp [hpd, h0]
    · simp [hd, ha]

/-- One pass of the move loop keeps the invariant and either leaves `visits`
as it was (the entry is skipped, or the move is rejected and reverted) or
applies a validated move. -/
theorem movPass_spec (c : Config) (st : MovState) (hinv : MovInv c st)
    (hne : st.movRoom.length > 0) :
    MovInv c (movPass c st)
      ∧ ((movPass c st).visits = st.visits ∨ ValidatedStep c st.visits (movPass c st).visits) := by
  have hmem := getD_pick_mem st.movRoom st.rs (0, 0) hne
  obtain ⟨pa, pd, n, hn1, hnN, hshape, h0, h1⟩ := hinv _ hmem
  have hsub : ∀ mov, mov ∈ st.movRoom.eraseIdx (pick st.rs st.movRoom.length).1 →
      mov ∈ st.movRoom := fun mov h => List.mem_of_mem_eraseIdx h
  by_cases hg : ¬ ((st.movRoom.getD (pick st.rs st.movRoom.length).1 (0, 0)).1 ∈ st.addOpts)
      ∧ ¬ ((st.movRoom.getD (pick st.rs st.movRoom.length).1 (0, 0)).2 ∈ st.delOpts)
  · have hv0 : st.visits pa n = 0 := h0 hg.1
    have hv1 : st.visits pd n = 1 := h1 hg.2
    have hset : setCell c (setCell c st.visits
        (st.movRoom.getD (pick st.rs st.movRoom.length).1 (0, 0)).1 1)
        (st.movRoom.getD (pick st.rs st.movRoom.length).1 (0, 0)).2 0
        = (st.visits.set pa n 1).set pd n 0 := by
      rw [hshape]
      simp only
      rw [setCell_encode c _ pa n hnN, setCell_encode c _ pd n hnN]
    by_cases hc : callModel c (setCell c (setCell c st.visits
        (st.movRoom.getD (pick st.rs st.movRoom.length).1 (0, 0)).1 1)
        (st.movRoom.getD (pick st.rs st.movRoom.length).1 (0, 0)).2 0) < 0
    · rw [movPass_reject c st hg hc]
      have hrev : setCell c (setCell c (setCell c (setCell c st.visits
            (st.movRoom.getD (pick st.rs st.movRoom.length).1 (0, 0)).1 1)
            (st.movRoom.getD (pick st.rs st.movRoom.length).1 (0, 0)).2 0)
            (st.movRoom.getD (pick st.rs st.movRoom.length).1 (0, 0)).1 0)
            (st.movRoom.getD (pick st.rs st.movRoom.length).1 (0, 0)).2 1 = st.visits := by
        rw [hset, hshape]
        simp only
        rw [setCell_encode c _ pa n hnN, setCell_encode c _ pd n hnN]
        exact Visits.mov_revert st.visits pa pd n hv0 hv1
      rw [hrev]
      refine ⟨?_, Or.inl rfl⟩
      intro mov hm
      exact hinv mov (hsub mov hm)
    · rw [movPass_accept c st hg hc, hset]
      refine ⟨?_, Or.inr ⟨?_, Or.inl ⟨pa, pd, n, hn1, hv0, hv1, rfl⟩⟩⟩
      · intro mov hm
        obtain ⟨pa', pd', n', hn1', hnN', hshape', h0', h1'⟩ := hinv mov (hsub mov hm)
        refine ⟨pa', pd', n', hn1', hnN', hshape', ?_, ?_⟩
        · intro hnot
          simp only [List.mem_append, List.mem_singleton, not_or] at hnot
          have hv := h0' hnot.1
          have hne1 : ¬ (pa' = pa ∧ n' = n) := by
            apply encode_ne c.nodeNum pa' n' pa n
            have := hnot.2
            rw [hshape', hshape] at this
            exact this
          show ((st.visits.set pa n 1).set pd n 0) pa' n' = 0
          unfold Visits.set
          by_cases hd : pa' = pd ∧ n' = n
          · simp [hd]
          · simp [hd, hne1, hv]
        · intro hnot
          simp only [List.mem_append, List.mem_singleton, not_or] at hnot
          have hv := h1' hnot.1
          have hne2 : ¬ (pd' = pd ∧ n' = n) := by
            apply encode_ne c.nodeNum pd' n' pd n
            have := hnot.2
            rw [hshape', hshape] at this
            exact this
          show ((st.visits.set pa n 1).set pd n 0) pd' n' = 1
          unfold Visits.set
          by_cases ha : pd' = pa ∧ n' = n
          · have hpapd : ¬ pa = pd := fun h => hne2 ⟨ha.1.trans h, ha.2⟩
            simp [ha, hpapd]
          · simp [hne2, ha, hv]
      · rw [← hset]
        exact not_lt.mp hc
  · rw [movPass_skip c st hg]
    refine ⟨?_, Or.inl rfl⟩
    intro mov hm
    exact hinv mov (hsub mov hm)

/-- The move loop applies validated moves only. -/
theorem movLoop_validated (c : Config) (movNumber fuel : Nat) (st : MovState)
    (hinv : MovInv c st) :
    Relation.ReflTransGen (ValidatedStep c) st.visits (movLoop c movNumber fuel st).visits := by
  induction fuel generalizing st with
  | zero => exact Relation.ReflTransGen.refl
  | succ fuel ih =>
    rw [movLoop_succ]
    split
    · next hcond =>
      obtain ⟨hinv1, hstep⟩ := movPass_spec c st hinv hcond.2
      have hrest := ih (movPass c st) hinv1
      rcases hstep with h | h
      · rw [h] at hrest
        exact hrest
      · exact Relation.ReflTransGen.head h hrest
    · exact Relation.ReflTransGen.refl

theorem delPass_reject (c : Config) (st : DelState)
    (hc : callModel c (setCell c st.visits
        (st.room.getD (pick st.rs st.room.length).1 0) 0) < 0) :
    delPass c st
      = { st with
          visits := setCell c (setCell c st.visits
            (st.room.getD (pick st.rs st.room.length).1 0) 0)
            (st.room.getD (pick st.rs st.room.length).1 0) 1
          room := st.room.eraseIdx (pick st.rs st.room.length).1,
          rs := (pick st.rs st.room.length).2 } := by
  unfold delPass
  simp only
  rw [if_pos hc]

theorem delPass_accept (c : Config) (st : DelState)
    (hc : ¬ callModel c (setCell c st.visits
        (st.room.getD (pick st.rs st.room.length).1 0) 0) < 0) :
    delPass c st
      = { st with
          visits := setCell c st.visits (st.room.getD (pick st.rs st.room.length).1 0) 0
          delNum := st.delNum + 1
          room := st.room.eraseIdx (pick st.rs st.room.length).1,
          rs := (pick st.rs st.room.length).2 } := by
  unfold delPass
  simp only
  rw [if_neg hc]

theorem mem_eraseIdx_ne_of_nodup {α : Type} (l : List α) (k : Nat) (hk : k < l.length)
    (hnd : l.Nodup) (x : α) (hx : x ∈ l.eraseIdx k) : x ≠ l[k] := by
  obtain ⟨i, hi, hne, rfl⟩ := List.mem_eraseIdx_iff_getElem.mp hx
  intro h
  exact hne ((List.Nodup.getElem_inj_iff hnd).mp h)

/-- One pass of the deletion loop keeps the invariant and either leaves
`visits` as it was (the deletion is rejected and reverted) or applies a
validated deletion. -/
theorem delPass_spec (c : Config) (st : DelState) (hinv : DelInv c st)
    (hne : st.room.length > 0) :
    DelInv c (delPass c st)
      ∧ ((delPass c st).visits = st.visits ∨ ValidatedStep c st.visits (delPass c st).visits) := by
  obtain ⟨hnd, hcells⟩ := hinv
  have hlt := pick_lt st.rs st.room.length hne
  have hmem := getD_pick_mem st.room st.rs 0 hne
  obtain ⟨p, n, hn1, hnN, hshape, hv1⟩ := hcells _ hmem
  have hsub : ∀ d, d ∈ st.room.eraseIdx (pick st.rs st.room.length).1 → d ∈ st.room :=
    fun d h => List.mem_of_mem_eraseIdx h
  have hnd' : (st.room.eraseIdx (pick st.rs st.room.length).1).Nodup := hnd.eraseIdx _
  have hset : setCell c st.visits (st.room.getD (pick st.rs st.room.length).1 0) 0
      = st.visits.set p n 0 := by
    rw [hshape, setCell_encode c _ p n hnN]
  by_cases hc : callModel c (setCell c st.visits
      (st.room.getD (pick st.rs st.room.length).1 0) 0) < 0
  · rw [delPass_reject c st hc]
    have hrev : setCell c (setCell c st.visits
        (st.room.getD (pick st.rs st.room.length).1 0) 0)
        (st.room.getD (pick st.rs st.room.length).1 0) 1 = st.visits := by
      rw [hset, hshape, setCell_encode c _ p n hnN]
      exact Visits.set_set_restore st.visits p n 0 1 hv1
    rw [hrev]
    exact ⟨⟨hnd', fun d hd => hcells d (hsub d hd)⟩, Or.inl rfl⟩
  · rw [delPass_accept c st hc, hset]
    refine ⟨⟨hnd', ?_⟩, Or.inr ⟨?_, Or.inr ⟨p, n, hn1, hv1, rfl⟩⟩⟩
    · intro d hd
      obtain ⟨p', n', hn1', hnN', hshape', hv1'⟩ := hcells d (hsub d hd)
      refine ⟨p', n', hn1', hnN', hshape', ?_⟩
      have hne' := mem_eraseIdx_ne_of_nodup st.room _ hlt hnd d hd
      rw [← List.getD_eq_getElem _ 0 hlt, hshape, hshape'] at hne'
      have hcell := encode_ne c.nodeNum p' n' p n hne'
      show (st.visits.set p n 0) p' n' = 1
      unfold Visits.set
      simp [hcell, hv1']
    · rw [← hset]
      exact not_lt.mp hc

/-- The deletion loop applies validated deletions only. -/
theorem delLoop_validated (c : Config) (delNumber fuel : Nat) (st : DelState)
    (hinv : DelInv c st) :
    Relation.ReflTransGen (ValidatedStep c) st.visits (delLoop c delNumber fuel st).visits := by
  induction fuel generalizing st with
  | zero => exact Relation.ReflTransGen.refl
  | succ fuel ih =>
    rw [delLoop_succ]
    split
    · next hcond =>
      obtain ⟨hinv1, hstep⟩ := delPass_spec c st hinv hcond.2
      have hrest := ih (delPass c st) hinv1
      rcases hstep with h | h
      · rw [h] at hrest
        exact hrest
      · exact Relation.ReflTransGen.head h hrest
    · exact Relation.ReflTransGen.refl

theorem cellRoom_nodup (c : Config) (visits : Visits) (b : Bool) :
    (cellRoom c visits b).Nodup := by
  unfold cellRoom
  rw [List.nodup_flatMap]
  constructor
  · intro p _
    apply List.Nodup.map
    · intro a1 a2 h
      simp only at h
      omega
    · exact (List.nodup_range' 1 (c.nodeNum - 1)).filter _
  · apply (List.nodup_range c.periodNum).pairwise_of_forall_ne
    intro p _ q _ hpq
    simp only [Function.onFun]
    rw [List.disjoint_left]
    intro x hx hy
    simp only [List.mem_map, List.mem_filter, List.mem_range'_1] at hx hy
    obtain ⟨n, ⟨⟨_, hn⟩, _⟩, rfl⟩ := hx
    obtain ⟨m, ⟨⟨_, hm⟩, _⟩, hxy⟩ := hy
    have h1 := cell_decode c.nodeNum p n (by omega)
    have h2 := cell_decode c.nodeNum q m (by omega)
    rw [← hxy] at h1
    exact hpq (h2.1.symm.trans h1.1).symm

theorem ValidatedStep.isVisitMatrix {c : Config} {v v' : Visits} (h : ValidatedStep c v v')
    (hv : IsVisitMatrix c v) : IsVisitMatrix c v' := by
  obtain ⟨_, h | h⟩ := h
  · obtain ⟨pa, pd, n, _, _, _, rfl⟩ := h
    exact (hv.set pa n 1 (Or.inr rfl)).set pd n 0 (Or.inl rfl)
  · obtain ⟨p, n, _, _, rfl⟩ := h
    exact hv.set p n 0 (Or.inl rfl)

theorem validated_isVisitMatrix {c : Config} {v v' : Visits}
    (h : Relation.ReflTransGen (ValidatedStep c) v v') (hv : IsVisitMatrix c v) :
    IsVisitMatrix c v' := by
  induction h with
  | refl => exact hv
  | tail _ hstep ih => exact hstep.isVisitMatrix ih

theorem ValidatedStep.depot_column {c : Config} {v v' : Visits} (h : ValidatedStep c v v')
    (p : Nat) : v' p 0 = v p 0 := by
  obtain ⟨_, h | h⟩ := h
  · obtain ⟨pa, pd, n, hn, _, _, rfl⟩ := h
    unfold Visits.set
    have h0 : ¬ (0 = n) := by omega
    simp [h0]
  · obtain ⟨q, n, hn, _, rfl⟩ := h
    unfold Visits.set
    have h0 : ¬ (0 = n) := by omega
    simp [h0]

theorem validated_depot_column {c : Config} {v v' : Visits}
    (h : Relation.ReflTransGen (ValidatedStep c) v v') (p : Nat) : v' p 0 = v p 0 := by
  induction h with
  | refl => rfl
  | tail _ hstep ih => exact (hstep.depot_column p).trans ih

theorem sampling_subset (pool : List Nat) (K : Nat) (rs : List Nat) (x : Nat)
    (hx : x ∈ (sampling pool K rs).1) : x ∈ pool := by
  have hK : (if pool.length > K then K else pool.length) ≤ pool.length := by
    split <;> omega
  obtain ⟨idx, h1, _, h3, _⟩ := sampling_loop_inv pool
    (if pool.length > K then K else pool.length)
    (pool.length - (if pool.length > K then K else pool.length))
    (if pool.length > K then K else pool.length)
    (pool.take (if pool.length > K then K else pool.length), rs)
    (List.range (if pool.length > K then K else pool.length))
    (take_eq_map_getD pool _ hK) (List.nodup_range _)
    (fun i hi => List.mem_range.mp hi)
  have hres : (sampling pool K rs).1 = idx.map (fun i => pool.getD i 0) := h1
  rw [hres] at hx
  obtain ⟨i, hi, rfl⟩ := List.mem_map.mp hx
  have hlt : i < pool.length := by
    have := h3 i hi
    omega
  rw [List.getD_eq_getElem _ _ hlt]
  exact List.getElem_mem _

/-- The additions of a round set cells of customers `n ≥ 1` that held `0`; the
matrix stays a 0/1 matrix and the depot column is not written. -/
theorem foldl_setCell_added (c : Config) (l : List Nat)
    (hl : ∀ vid, vid ∈ l → ∃ p n, 1 ≤ n ∧ n < c.nodeNum ∧ vid = p * c.nodeNum + n)
    (visits : Visits) (hv : IsVisitMatrix c visits) :
    IsVisitMatrix c (l.foldl (fun visits vid => setCell c visits vid 1) visits)
      ∧ (∀ p, (l.foldl (fun visits vid => setCell c visits vid 1) visits) p 0 = visits p 0)
      ∧ ∀ p n, (l.foldl (fun visits vid => setCell c visits vid 1) visits) p n = visits p n
          ∨ (1 ≤ n ∧ n < c.nodeNum ∧ p * c.nodeNum + n ∈ l
            ∧ (l.foldl (fun visits vid => setCell c visits vid 1) visits) p n = 1) := by
  induction l generalizing visits with
  | nil => exact ⟨hv, fun _ => rfl, fun _ _ => Or.inl rfl⟩
  | cons vid rest ih =>
    obtain ⟨p0, n0, hn1, hnN, rfl⟩ := hl vid (List.mem_cons_self _ _)
    simp only [List.foldl_cons]
    rw [setCell_encode c visits p0 n0 hnN]
    obtain ⟨h1, h2, h3⟩ := ih (fun v hv' => hl v (List.mem_cons_of_mem _ hv'))
      (visits.set p0 n0 1) (hv.set p0 n0 1 (Or.inr rfl))
    refine ⟨h1, ?_, ?_⟩
    · intro p
      rw [h2 p]
      unfold Visits.set
      have h0 : ¬ (0 = n0) := by omega
      simp [h0]
    · intro p n
      rcases h3 p n with h | ⟨hm1, hmN, hm, h⟩
      · by_cases hcell : p = p0 ∧ n = n0
        · right
          obtain ⟨rfl, rfl⟩ := hcell
          refine ⟨hn1, hnN, List.mem_cons_self _ _, ?_⟩
          rw [h]
          unfold Visits.set
          simp
        · left
          rw [h]
          unfold Visits.set
          simp [hcell]
      · exact Or.inr ⟨hm1, hmN, List.mem_cons_of_mem _ hm, h⟩

theorem disturbAdded_spec (c : Config) (addNumber : Nat) (visits : Visits) (rs : List Nat)
    (hv : IsVisitMatrix c visits) :
    IsVisitMatrix c (disturbAdded c addNumber visits rs)
      ∧ (∀ p, disturbAdded c addNumber visits rs p 0 = visits p 0)
      ∧ ∀ p n, disturbAdded c addNumber visits rs p n = visits p n
          ∨ (1 ≤ n ∧ n < c.nodeNum ∧ visits p n = 0
            ∧ disturbAdded c addNumber visits rs p n = 1) := by
  have hl : ∀ vid, vid ∈ (sampling (cellRoom c visits false) addNumber rs).1 →
      ∃ p n, 1 ≤ n ∧ n < c.nodeNum ∧ vid = p * c.nodeNum + n := by
    intro vid hvid
    obtain ⟨p, n, _, hn1, hnN, _, rfl⟩ :=
      (mem_cellRoom c visits false vid).mp (sampling_subset _ _ _ vid hvid)
    exact ⟨p, n, hn1, hnN, rfl⟩
  obtain ⟨h1, h2, h3⟩ := foldl_setCell_added c _ hl visits hv
  refine ⟨h1, h2, ?_⟩
  intro p n
  rcases h3 p n with h | ⟨hn1, hnN, hm, h⟩
  · exact Or.inl h
  · right
    refine ⟨hn1, hnN, ?_, h⟩
    obtain ⟨p', n', _, _, hnN', hb, he⟩ :=
      (mem_cellRoom c visits false _).mp (sampling_subset _ _ _ _ hm)
    have d1 := cell_decode c.nodeNum p n hnN
    have d2 := cell_decode c.nodeNum p' n' hnN'
    rw [he] at d1
    have hp : p' = p := d2.1.symm.trans d1.1
    have hn : n' = n := d2.2.symm.trans d1.2
    subst hp hn
    simpa using hb

theorem movInv_init (c : Config) (visits : Visits) (hv : IsVisitMatrix c visits)
    (rs : List Nat) :
    MovInv c { visits := visits, addOpts := [], delOpts := [], mvNum := 0,
               movRoom := movRoom c visits, rs := rs } := by
  intro mov hm
  obtain ⟨pa, pd, n, _, hpd, hn1, hnN, h0, h1, hshape⟩ := mem_movRoom c visits mov hm
  exact ⟨pa, pd, n, hn1, hnN, hshape, fun _ => h0, fun _ => hv.eq_one hpd hnN h1⟩

theorem delInv_init (c : Config) (visits : Visits) (hv : IsVisitMatrix c visits)
    (rs : List Nat) :
    DelInv c { visits := visits, delNum := 0, room := cellRoom c visits true, rs := rs } := by
  refine ⟨cellRoom_nodup c visits true, ?_⟩
  intro d hd
  obtain ⟨p, n, hp, hn1, hnN, hb, rfl⟩ := (mem_cellRoom c visits true d).mp hd
  refine ⟨p, n, hn1, hnN, rfl, ?_⟩
  have hne : visits p n ≠ 0 := by
    simpa using hb
  exact hv.eq_one hp hnN hne

/-- A round of `disturb`: after the additions, the matrix is changed by
validated moves and deletions only. -/
theorem disturbRound_chain (c : Config) (addNumber delNumber movNumber : Nat) (visits : Visits)
    (rs : List Nat) (hv : IsVisitMatrix c visits) :
    Relation.ReflTransGen (ValidatedStep c) (disturbAdded c addNumber visits rs)
      (disturbRound c addNumber delNumber movNumber visits rs).1 := by
  have hv1 := (disturbAdded_spec c addNumber visits rs hv).1
  have hmov : Relation.ReflTransGen (ValidatedStep c) (disturbAdded c addNumber visits rs)
      (disturbMoved c addNumber movNumber visits rs).visits :=
    movLoop_validated c movNumber _ _ (movInv_init c _ hv1 _)
  have hv2 := validated_isVisitMatrix hmov hv1
  have hdel : Relation.ReflTransGen (ValidatedStep c)
      (disturbMoved c addNumber movNumber visits rs).visits
      (delLoop c delNumber
        (cellRoom c (disturbMoved c addNumber movNumber visits rs).visits true).length
        { visits := (disturbMoved c addNumber movNumber visits rs).visits, delNum := 0,
          room := cellRoom c (disturbMoved c addNumber movNumber visits rs).visits true,
          rs := (disturbMoved c addNumber movNumber visits rs).rs }).visits :=
    delLoop_validated c delNumber _ _ (delInv_init c _ hv2 _)
  exact hmov.trans hdel

theorem disturbRound_inv (c : Config) (addNumber delNumber movNumber : Nat) (visits : Visits)
    (rs : List Nat) (hv : IsVisitMatrix c visits) :
    IsVisitMatrix c (disturbRound c addNumber delNumber movNumber visits rs).1
      ∧ ∀ p, (disturbRound c addNumber delNumber movNumber visits rs).1 p 0 = visits p 0 := by
  obtain ⟨h1, h2, _⟩ := disturbAdded_spec c addNumber visits rs hv
  have hch := disturbRound_chain c addNumber delNumber movNumber visits rs hv
  exact ⟨validated_isVisitMatrix hch h1, fun p => (validated_depot_column hch p).trans (h2 p)⟩

theorem disturbLoop_inv (c : Config) (s : Solver) (addNumber delNumber movNumber rounds : Nat)
    (visits : Visits) (rs : List Nat) (hv : IsVisitMatrix c visits) :
    IsVisitMatrix c (disturbLoop c s addNumber delNumber movNumber rounds visits rs).1
      ∧ ∀ p, (disturbLoop c s addNumber delNumber movNumber rounds visits rs).1 p 0
          = visits p 0 := by
  induction rounds generalizing visits rs with
  | zero => exact disturbRound_inv c addNumber delNumber movNumber visits rs hv
  | succ rounds ih =>
    obtain ⟨h1, h2⟩ := disturbRound_inv c addNumber delNumber movNumber visits rs hv
    unfold disturbLoop
    simp only
    split
    · obtain ⟨g1, g2⟩ := ih _ (disturbRound c addNumber delNumber movNumber visits rs).2 h1
      exact ⟨g1, fun p => (g2 p).trans (h2 p)⟩
    · exact ⟨h1, h2⟩

theorem disturbHead_inv (c : Config) (o : DisturbOracle) (s : Solver) (visits : Visits)
    (hv : IsVisitMatrix c visits) :
    IsVisitMatrix c (disturbHead c o s visits).2.1
      ∧ ∀ p, (disturbHead c o s visits).2.1 p 0 = visits p 0 := by
  unfold disturbHead
  simp only
  split <;> exact disturbLoop_inv c s _ _ _ _ visits _ hv

/-- C25, as stated, fails for the additions: with an LP engine that reports
failure on every call, `disturb` still leaves its two additions applied
(customer `2` in period `0`, customer `1` in period `1`), while every move and
deletion is reverted; `callModel` returns the sentinel on the matrix it
leaves. -/
theorem disturb_add_not_validated :
    exampleVisits 0 2 = 0 ∧ exampleVisits 1 1 = 0
      ∧ (disturbHead { exampleConfig with mpOptimize := fun _ => none } ⟨[], 0, []⟩
          exampleSolver exampleVisits).2.1 0 2 = 1
      ∧ (disturbHead { exampleConfig with mpOptimize := fun _ => none } ⟨[], 0, []⟩
          exampleSolver exampleVisits).2.1 1 1 = 1
      ∧ callModel { exampleConfig with mpOptimize := fun _ => none }
          (disturbHead { exampleConfig with mpOptimize := fun _ => none } ⟨[], 0, []⟩
            exampleSolver exampleVisits).2.1 = -1 := by
  decide!

/-- C25, amended: in every round of a disturbance burst the additions set cells
of customers that held `0` and are applied as they are, without a call of
`callModel`; from the matrix after the additions on, the matrix changes only by
moves and deletions on which `callModel`, called on the matrix right after the
operation, returned a value `≥ 0`: a move or deletion for which it returned the
sentinel is reverted, and the cells regain their previous values. -/
theorem disturb_moves_validated (c : Config) (addNumber delNumber movNumber : Nat)
    (visits : Visits) (rs : List Nat) (hv : IsVisitMatrix c visits) :
    (∀ p n, disturbAdded c addNumber visits rs p n = visits p n
        ∨ (1 ≤ n ∧ n < c.nodeNum ∧ visits p n = 0
          ∧ disturbAdded c addNumber visits rs p n = 1))
      ∧ Relation.ReflTransGen (ValidatedStep c) (disturbAdded c addNumber visits rs)
          (disturbRound c addNumber delNumber movNumber visits rs).1 :=
  ⟨(disturbAdded_spec c addNumber visits rs hv).2.2,
    disturbRound_chain c addNumber delNumber movNumber visits rs hv⟩

theorem disturb_moves_validated_witness :
    IsVisitMatrix exampleConfig exampleVisits
      ∧ Relation.ReflTransGen (ValidatedStep exampleConfig)
          (disturbAdded exampleConfig 2 exampleVisits [])
          (disturbRound exampleConfig 2 1 4 exampleVisits []).1 :=
  ⟨exampleVisits_isVisitMatrix,
    (disturb_moves_validated exampleConfig 2 1 4 exampleVisits []
      exampleVisits_isVisitMatrix).2⟩

/-- On the example (the LP is feasible exactly when customer `1` is visited in
period `0`), a round adds the two missing visits; the deletion of customer `1`
from period `0` is rejected and reverted, the one picked next is kept. -/
theorem disturbRound_example :
    (List.range 2).map (fun p => (List.range 3).map
        (disturbAdded exampleConfig 2 exampleVisits [] p))
      = [[1, 1, 1], [1, 1, 1]]
    ∧ (List.range 2).map (fun p => (List.range 3).map
        ((disturbRound exampleConfig 2 1 4 exampleVisits []).1 p))
      = [[1, 1, 0], [1, 1, 1]] := by
  decide!

/-! ## The depot column -/

theorem applyMove_depot_column (visits : Visits) (act : Actor)
    (hswp : act.actype = ActorType.SWP → 1 ≤ act.n1 ∧ 1 ≤ act.n2) (p : Nat) :
    applyMove visits act p 0 = visits p 0 := by
  unfold applyMove
  by_cases hs : act.actype = ActorType.SWP
  · obtain ⟨h1, h2⟩ := hswp hs
    have e1 : ¬ (0 = act.n1.toNat) := by omega
    have e2 : ¬ (0 = act.n2.toNat) := by omega
    simp only [hs, if_true, Visits.set]
    simp [e1, e2]
  · simp only [hs, if_false]
    by_cases h1 : act.n1 > 0 <;> by_cases h2 : act.n2 > 0
    · have e1 : ¬ (0 = act.n1.toNat) := by omega
      have e2 : ¬ (0 = act.n2.toNat) := by omega
      simp [h1, h2, Visits.set, e1, e2]
    · have e1 : ¬ (0 = act.n1.toNat) := by omega
      simp [h1, h2, Visits.set, e1]
    · have e2 : ¬ (0 = act.n2.toNat) := by omega
      simp [h1, h2, Visits.set, e2]
    · simp [h1, h2]

/-- The nodes of an enumerated candidate are customers `n ≥ 1`. -/
theorem candidate_nodes_pos (c : Config) (visits : Visits) (a : Actor)
    (h : DelCand c visits a ∨ MovCand c visits a ∨ SwpCand c visits a) :
    1 ≤ a.n2 ∧ (a.actype ≠ ActorType.DEL → 1 ≤ a.n1) := by
  rcases h with h | h | h
  · obtain ⟨ht, _, _, p, n, _, hn2, _, hn, _, _⟩ := h
    refine ⟨by rw [hn2]; exact_mod_cast hn, fun hne => absurd ht hne⟩
  · obtain ⟨_, p0, p1, n, _, hn1, _, hn2, _, _, hn, _, _, _⟩ := h
    exact ⟨by rw [hn2]; exact_mod_cast hn, fun _ => by rw [hn1]; exact_mod_cast hn⟩
  · obtain ⟨_, t1, t2, n, m, _, hn1, _, hn2, _, _, hn, hnm, _, _, _, _, _⟩ := h
    refine ⟨by rw [hn2]; omega, fun _ => by rw [hn1]; exact_mod_cast hn⟩

/-- One pass through the loop of `mixTabuSearch` keeps the matrix a 0/1 matrix
and does not write the depot column. -/
theorem mixTabuIter_depot (c : Config) (r : Nat) (st : TabuRun)
    (hv : IsVisitMatrix c st.visits) :
    IsVisitMatrix c (mixTabuIter c r st).2.visits
      ∧ ∀ p, (mixTabuIter c r st).2.visits p 0 = st.visits p 0 := by
  unfold mixTabuIter
  split
  · cases hb : buildMixNeigh c st.solver st.visits c.defaultMinCost with
    | none => exact ⟨hv, fun _ => rfl⟩
    | some res =>
      obtain ⟨s1, visits1⟩ := res
      obtain ⟨dl, ml, sl, _, hvis, hgood, _, _⟩ :=
        buildMixNeigh_spec c st.solver st.visits c.defaultMinCost hv (s1, visits1) hb
      simp only at hvis hgood
      subst hvis
      simp only
      cases hget : s1.mixNeigh[r % s1.mixNeigh.length]? with
      | none => exact ⟨hv, fun _ => rfl⟩
      | some act =>
        have hmem : act ∈ s1.mixNeigh := List.getElem?_mem hget
        obtain ⟨hcand, _, _⟩ := hgood act hmem
        have hpos := candidate_nodes_pos c st.visits act hcand
        have hcol : ∀ p, applyMove st.visits act p 0 = st.visits p 0 :=
          applyMove_depot_column st.visits act (fun hs => ⟨hpos.2 (by rw [hs]; decide), hpos.1⟩)
        simp only
        split
        · exact ⟨hv.applyMove act, hcol⟩
        · exact ⟨hv.applyMove act, hcol⟩
  · exact ⟨hv, fun _ => rfl⟩

theorem mixTabuLoop_depot (c : Config) (picks : List Nat) (st : TabuRun)
    (hv : IsVisitMatrix c st.visits) :
    IsVisitMatrix c (mixTabuLoop c picks st).visits
      ∧ ∀ p, (mixTabuLoop c picks st).visits p 0 = st.visits p 0 := by
  induction picks generalizing st with
  | nil => exact ⟨hv, fun _ => rfl⟩
  | cons r rs ih =>
    have hstep := mixTabuIter_depot c r st hv
    unfold mixTabuLoop
    cases hit : mixTabuIter c r st with
    | mk flag st1 =>
      rw [hit] at hstep
      cases flag with
      | false => exact hstep
      | true =>
        obtain ⟨h1, h2⟩ := ih st1 hstep.1
        exact ⟨h1, fun p => (h2 p).trans (hstep.2 p)⟩

theorem mixTabuSearch_depot (c : Config) (picks : List Nat) (s : Solver) (visits : Visits)
    (modelCost : Price) (hv : IsVisitMatrix c visits) :
    IsVisitMatrix c (mixTabuSearch c picks s visits modelCost).visits
      ∧ ∀ p, (mixTabuSearch c picks s visits modelCost).visits p 0 = visits p 0 := by
  unfold mixTabuSearch
  exact mixTabuLoop_depot c picks _ hv

/-- C24, as stated, fails for two depots: the loops of the search start at node
`1` whatever the number of depots is. With nodes `0` and `1` as depots, the
enumeration of `buildMixNeigh` on `[[1,1,0],[1,0,1]]` holds the deletion of
node `1` from period `0`, and with an LP that accepts every matrix the first
pass of `mixTabuSearch` applies it. -/
theorem depot_one_is_moved :
    (1 : Nat) < twoDepotInput.depotnum
      ∧ (candidateLists exampleConfig exampleSolver exampleVisits).map
          (fun l => l.1.map (fun a => (a.actype, a.p2, a.n2)))
        = some [(ActorType.DEL, 0, 1), (ActorType.DEL, 1, 2)]
      ∧ exampleVisits 0 1 = 1
      ∧ (mixTabuSearch { exampleConfig with mpOptimize := fun _ => some 5 } [0] exampleSolver
          exampleVisits 100).visits 0 1 = 0 := by
  decide!

/-- C24, amended to the one depot `0`: every DEL, MOV and SWP candidate that
`buildMixNeigh` enumerates concerns customers `n ≥ 1`, and `disturb` and
`mixTabuSearch` (with its move applications) leave `visits[p][0]` unchanged for
every period `p`, on every 0/1 matrix. -/
theorem depot_zero_untouched (c : Config) (s : Solver) (visits : Visits)
    (hv : IsVisitMatrix c visits) :
    (∀ dl ml sl, candidateLists c s visits = some (dl, ml, sl) →
        ∀ a, a ∈ dl ++ ml ++ sl → 1 ≤ a.n2 ∧ (a.actype ≠ ActorType.DEL → 1 ≤ a.n1))
      ∧ (∀ (picks : List Nat) (modelCost : Price) (p : Nat),
          (mixTabuSearch c picks s visits modelCost).visits p 0 = visits p 0)
      ∧ (∀ (o : DisturbOracle) (p : Nat), (disturbHead c o s visits).2.1 p 0 = visits p 0)
      ∧ ∀ (o : DisturbOracle) (p : Nat), (disturb c o s visits).visits p 0 = visits p 0 := by
  refine ⟨?_, ?_, ?_, ?_⟩
  · intro dl ml sl hcl a ha
    obtain ⟨hd, hm, hs⟩ := candidateLists_mem c s visits dl ml sl hcl
    simp only [List.mem_append] at ha
    rcases ha with (ha | ha) | ha
    · exact candidate_nodes_pos c visits a (Or.inl (hd a ha))
    · exact candidate_nodes_pos c visits a (Or.inr (Or.inl (hm a ha)))
    · exact candidate_nodes_pos c visits a (Or.inr (Or.inr (hs a ha)))
  · intro picks modelCost p
    exact (mixTabuSearch_depot c picks s visits modelCost hv).2 p
  · intro o p
    exact (disturbHead_inv c o s visits hv).2 p
  · intro o p
    obtain ⟨h1, h2⟩ := disturbHead_inv c o s visits hv
    unfold disturb
    simp only
    rw [(mixTabuSearch_depot c o.picks _ _ _ h1).2 p]
    exact h2 p

theorem depot_zero_untouched_witness :
    IsVisitMatrix exampleConfig exampleVisits
      ∧ ∀ (o : DisturbOracle) (p : Nat),
          (disturb exampleConfig o exampleSolver exampleVisits).visits p 0 = exampleVisits p 0 :=
  ⟨exampleVisits_isVisitMatrix,
    (depot_zero_untouched exampleConfig exampleSolver exampleVisits
      exampleVisits_isVisitMatrix).2.2.2⟩

/-! ## The walk of `subTourHandler` -/

theorem nextNode_some (nodeNum : Nat) (x : Edges) (a b : Nat)
    (h : nextNode nodeNum x a = some b) : b < nodeNum ∧ b ≠ a ∧ x a b = true := by
  unfold nextNode at h
  have h1 := List.mem_of_find?_eq_some h
  have h2 := List.find?_some h
  simp only [Bool.and_eq_true, decide_eq_true_eq] at h2
  exact ⟨List.mem_range.mp h1, h2.1, h2.2⟩

theorem nextNode_isSome (nodeNum : Nat) (x : Edges) (a b : Nat) (hb : b < nodeNum)
    (hne : b ≠ a) (hx : x a b = true) : ∃ d, nextNode nodeNum x a = some d := by
  unfold nextNode
  cases hf : (List.range nodeNum).find? (fun n => decide (n ≠ a) && x a n) with
  | some d => exact ⟨d, rfl⟩
  | none =>
    rw [List.find?_eq_none] at hf
    have := hf b (List.mem_range.mpr hb)
    simp [hne, hx] at this

theorem eq_of_mem_of_length_le_one {α : Type} (l : List α) (h : l.length ≤ 1) (a b : α)
    (ha : a ∈ l) (hb : b ∈ l) : a = b := by
  match l, h, ha, hb with
  | [z], _, ha, hb =>
    simp only [List.mem_singleton] at ha hb
    rw [ha, hb]
  | _ :: _ :: _, h, _, _ => simp at h

/-- Under the degree constraints two nodes with the same successor are equal. -/
theorem nextNode_injective (nodeNum : Nat) (x : Edges) (hdeg : DegreeOK nodeNum x)
    (a a' b : Nat) (ha : a < nodeNum) (ha' : a' < nodeNum)
    (h : nextNode nodeNum x a = some b) (h' : nextNode nodeNum x a' = some b) : a = a' := by
  obtain ⟨hb, hne, hx⟩ := nextNode_some nodeNum x a b h
  obtain ⟨_, hne', hx'⟩ := nextNode_some nodeNum x a' b h'
  have hin := (hdeg b hb).2
  unfold inDegree at hin
  apply eq_of_mem_of_length_le_one _ hin
  · rw [List.mem_filter]
    refine ⟨List.mem_range.mpr ha, ?_⟩
    simp only [Bool.and_eq_true, decide_eq_true_eq]
    exact ⟨fun e => hne e.symm, hx⟩
  · rw [List.mem_filter]
    refine ⟨List.mem_range.mpr ha', ?_⟩
    simp only [Bool.and_eq_true, decide_eq_true_eq]
    exact ⟨fun e => hne' e.symm, hx'⟩

/-- Under the degree constraints the successor of a node has a successor. -/
theorem nextNode_continues (nodeNum : Nat) (x : Edges) (hdeg : DegreeOK nodeNum x)
    (a b : Nat) (ha : a < nodeNum) (h : nextNode nodeNum x a = some b) :
    ∃ d, nextNode nodeNum x b = some d := by
  obtain ⟨hb, hne, hx⟩ := nextNode_some nodeNum x a b h
  have hin : 0 < inDegree nodeNum x b := by
    unfold inDegree
    apply List.length_pos_of_mem (a := a)
    rw [List.mem_filter]
    refine ⟨List.mem_range.mpr ha, ?_⟩
    simp only [Bool.and_eq_true, decide_eq_true_eq]
    exact ⟨fun e => hne e.symm, hx⟩
  rw [(hdeg b hb).1] at hin
  unfold outDegree at hin
  obtain ⟨m, hm⟩ := List.exists_mem_of_length_pos hin
  rw [List.mem_filter] at hm
  simp only [Bool.and_eq_true, decide_eq_true_eq] at hm
  exact nextNode_isSome nodeNum x b m (List.mem_range.mp hm.1) hm.2.1 hm.2.2

theorem length_le_of_nodup_lt (l : List Nat) (N : Nat) (hnd : l.Nodup)
    (hlt : ∀ a, a ∈ l → a < N) : l.length ≤ N := by
  have hsub : l ⊆ List.range N := fun a ha => List.mem_range.mpr (hlt a ha)
  have := (List.subperm_of_subset hnd hsub).length_le
  simpa using this

theorem walk_succ_some (nodeNum depotNum : Nat) (x : Edges) (s fuel prev n : Nat)
    (tour : List Nat) (visited : Nat → Bool) (h : nextNode nodeNum x prev = some n) :
    walk nodeNum depotNum x s (fuel + 1) prev tour visited
      = if n ≠ s then
          walk nodeNum depotNum x s fuel n (if s ≥ depotNum then tour ++ [n] else tour)
            (setBit visited n)
        else some (if s ≥ depotNum then tour ++ [n] else tour, setBit visited n) := by
  rw [walk]
  simp only [h]

theorem walk_succ_none (nodeNum depotNum : Nat) (x : Edges) (s fuel : Nat)
    (tour : List Nat) (visited : Nat → Bool) (h : nextNode nodeNum x s = none) :
    walk nodeNum depotNum x s (fuel + 1) s tour visited = some (tour, visited) := by
  rw [walk]
  simp only [h, ne_eq, not_true_eq_false, if_false]

theorem setBit_eq_or_mem (visited : Nat → Bool) (n : Nat) :
    setBit visited n = fun j => visited j || decide (j ∈ [n]) := by
  funext j
  unfold setBit
  by_cases hj : j = n
  · simp [hj]
  · simp [hj]

theorem setBit_or_mem_cons (visited : Nat → Bool) (n : Nat) (R : List Nat) :
    (fun j => setBit visited n j || decide (j ∈ R))
      = fun j => visited j || decide (j ∈ n :: R) := by
  funext j
  unfold setBit
  by_cases hj : j = n
  · simp [hj]
  · simp [hj]

/-- The walk from `prev`, after the pairwise distinct nodes `seen` (which hold
the start `s` and `prev`), under the degree constraints: it ends, having pushed
the rest `R` of the cycle of `s`, which leads from `prev` back to `s`. -/
theorem walk_spec (nodeNum depotNum : Nat) (x : Edges) (hdeg : DegreeOK nodeNum x) (s : Nat)
    (fuel : Nat) (seen : List Nat) (prev : Nat) (tour : List Nat) (visited : Nat → Bool)
    (hnd : seen.Nodup) (hlt : ∀ a, a ∈ seen → a < nodeNum) (hs : s ∈ seen) (hprev : prev ∈ seen)
    (hpred : ∀ n, n ∈ seen → n ≠ s →
      ∃ a, a ∈ seen ∧ a ≠ prev ∧ nextNode nodeNum x a = some n)
    (hnext : ∃ d, nextNode nodeNum x prev = some d)
    (hfuel : nodeNum + 1 ≤ fuel + seen.length) :
    ∃ R : List Nat,
      walk nodeNum depotNum x s fuel prev tour visited
        = some (if s ≥ depotNum then tour ++ R else tour,
            fun n => visited n || decide (n ∈ R))
      ∧ List.Chain (fun a b => nextNode nodeNum x a = some b) prev R
      ∧ R.getLast? = some s ∧ R.Nodup ∧ (∀ n, n ∈ R → n < nodeNum)
      ∧ ∀ n, n ∈ R → n ≠ s → n ∉ seen := by
  induction fuel generalizing seen prev tour visited with
  | zero =>
    have := length_le_of_nodup_lt seen nodeNum hnd hlt
    omega
  | succ fuel ih =>
    obtain ⟨n, hn⟩ := hnext
    obtain ⟨hnN, hnp, _⟩ := nextNode_some nodeNum x prev n hn
    rw [walk_succ_some nodeNum depotNum x s fuel prev n tour visited hn]
    by_cases hns : n = s
    · refine ⟨[n], ?_, List.Chain.cons hn List.Chain.nil, by rw [hns]; rfl,
        List.nodup_singleton n, ?_, ?_⟩
      · rw [if_neg (by simpa using hns), setBit_eq_or_mem]
      · intro m hm
        simp only [List.mem_singleton] at hm
        rw [hm]
        exact hnN
      · intro m hm hms
        simp only [List.mem_singleton] at hm
        exact absurd (hm.trans hns) hms
    · have hnew : n ∉ seen := by
        intro hmem
        obtain ⟨a, ha, hap, haf⟩ := hpred n hmem hns
        exact hap (nextNode_injective nodeNum x hdeg a prev n (hlt a ha) (hlt prev hprev) haf hn)
      obtain ⟨R, hR, hchain, hlast, hRnd, hRlt, hRnew⟩ := ih (n :: seen) n
        (if s ≥ depotNum then tour ++ [n] else tour) (setBit visited n)
        (List.nodup_cons.mpr ⟨hnew, hnd⟩)
        (fun a ha => by
          rcases List.mem_cons.mp ha with rfl | ha
          · exact hnN
          · exact hlt a ha)
        (List.mem_cons_of_mem _ hs) (List.mem_cons_self _ _)
        (fun m hm hms => by
          rcases List.mem_cons.mp hm with rfl | hm
          · exact ⟨prev, List.mem_cons_of_mem _ hprev, fun e => hnp e.symm, hn⟩
          · obtain ⟨a, ha, _, haf⟩ := hpred m hm hms
            exact ⟨a, List.mem_cons_of_mem _ ha, fun e => hnew (e ▸ ha), haf⟩)
        (nextNode_continues nodeNum x hdeg prev n (hlt prev hprev) hn)
        (by simp only [List.length_cons]; omega)
      have hRs : ∀ m, m ∈ R → m ≠ s → m ≠ n ∧ m ∉ seen := by
        intro m hm hms
        have := hRnew m hm hms
        simp only [List.mem_cons, not_or] at this
        exact this
      have hnR : n ∉ R := fun hmem => (hRs n hmem hns).1 rfl
      refine ⟨n :: R, ?_, List.Chain.cons hn hchain, ?_, List.nodup_cons.mpr ⟨hnR, hRnd⟩,
        ?_, ?_⟩
      · rw [if_pos hns, hR, setBit_or_mem_cons]
        by_cases hsd : s ≥ depotNum
        · simp only [hsd, if_true, List.append_assoc, List.singleton_append]
        · simp only [hsd, if_false]
      · cases R with
        | nil => simp at hlast
        | cons r rs => simpa using hlast
      · intro m hm
        rcases List.mem_cons.mp hm with rfl | hm
        · exact hnN
        · exact hRlt m hm
      · intro m hm hms
        rcases List.mem_cons.mp hm with rfl | hm
        · exact hnew
        · exact (hRs m hm hms).2

theorem chain_zip_edges {α : Type} (R : α → α → Prop) (a : α) (l : List α)
    (h : List.Chain R a l) : ∀ e, e ∈ List.zip (a :: l) l → R e.1 e.2 := by
  induction l generalizing a with
  | nil => intro e he; simp at he
  | cons b rest ih =>
    rw [List.chain_cons] at h
    intro e he
    simp only [List.zip_cons_cons, List.mem_cons] at he
    rcases he with rfl | he
    · exact h.1
    · exact ih b h.2 e he

/-- Along a chain of successors, the successor of a member is the next member,
unless the member is the last one. -/
theorem chain_succ_mem (f : Nat → Option Nat) (a : Nat) (l : List Nat)
    (h : List.Chain (fun a b => f a = some b) a l) (m b : Nat) (hm : m ∈ l)
    (hf : f m = some b) : b ∈ l ∨ l.getLast? = some m := by
  induction l generalizing a with
  | nil => simp at hm
  | cons c rest ih =>
    rw [List.chain_cons] at h
    rcases List.mem_cons.mp hm with rfl | hm
    · cases rest with
      | nil => right; rfl
      | cons d rest2 =>
        left
        have hd := h.2
        rw [List.chain_cons] at hd
        rw [hf] at hd
        simp only [Option.some.injEq] at hd
        rw [hd.1]
        simp
    · rcases ih c h.2 hm with hb | hl
      · exact Or.inl (List.mem_cons_of_mem _ hb)
      · right
        cases rest with
        | nil => simp at hm
        | cons d rest2 => simpa using hl

/-- A closed chain of successors is closed under the successor. -/
theorem cycle_succ_closed (f : Nat → Option Nat) (s : Nat) (l : List Nat)
    (h : List.Chain (fun a b => f a = some b) s l) (hlast : l.getLast? = some s)
    (m b : Nat) (hm : m ∈ l) (hf : f m = some b) : b ∈ l := by
  rcases chain_succ_mem f s l h m b hm hf with hb | hl
  · exact hb
  · rw [hlast] at hl
    simp only [Option.some.injEq] at hl
    subst hl
    cases l with
    | nil => simp at hm
    | cons c rest =>
      rw [List.chain_cons] at h
      rw [hf] at h
      simp only [Option.some.injEq] at h
      rw [h.1]
      exact List.mem_cons_self _ _

/-- When the visited nodes are closed under the successor, a visited member of
a chain of successors makes the last member visited. -/
theorem chain_visited_last (f : Nat → Option Nat) (visited : Nat → Bool)
    (hcl : ∀ a b, visited a = true → f a = some b → visited b = true) (a : Nat) (l : List Nat)
    (h : List.Chain (fun a b => f a = some b) a l) (last : Nat) (hlast : l.getLast? = some last) :
    (visited a = true → visited last = true)
      ∧ ∀ m, m ∈ l → visited m = true → visited last = true := by
  induction l generalizing a with
  | nil => simp at hlast
  | cons c rest ih =>
    rw [List.chain_cons] at h
    cases rest with
    | nil =>
      simp only [List.getLast?_singleton, Option.some.injEq] at hlast
      subst hlast
      refine ⟨fun ha => hcl a c ha h.1, ?_⟩
      intro m hm hv
      simp only [List.mem_singleton] at hm
      rw [← hm]
      exact hv
    | cons d rest2 =>
      have hlast' : (d :: rest2).getLast? = some last := by simpa using hlast
      obtain ⟨h1, h2⟩ := ih c h.2 hlast'
      refine ⟨fun ha => h1 (hcl a c ha h.1), ?_⟩
      intro m hm hv
      rcases List.mem_cons.mp hm with rfl | hm
      · exact h1 hv
      · exact h2 m hm hv

theorem cycleEdges_of_last (l : List Nat) (s : Nat) (h : l.getLast? = some s) :
    cycleEdges l = List.zip (s :: l) l := by
  unfold cycleEdges
  have : l.getLastD 0 = s := by
    cases l with
    | nil => simp at h
    | cons a rest =>
      rw [List.getLast?_eq_getLast _ (List.cons_ne_nil _ _)] at h
      simp only [Option.some.injEq] at h
      rw [List.getLastD_cons, ← h]
      exact (List.getLast_eq_getLastD a rest (List.cons_ne_nil _ _)).symm
  rw [this]

theorem subTourStart_visited (nodeNum depotNum fuel : Nat) (x : Edges) (st : SubTourState)
    (s : Nat) (h : st.visited s = true) :
    subTourStart nodeNum depotNum fuel x st s = some st := by
  unfold subTourStart
  rw [if_pos h]

theorem subTourStart_walk (nodeNum depotNum fuel : Nat) (x : Edges) (st : SubTourState)
    (s : Nat) (h : ¬ st.visited s = true) (r : List Nat × (Nat → Bool))
    (hw : walk nodeNum depotNum x s fuel s st.tour st.visited = some r) :
    subTourStart nodeNum depotNum fuel x st s
      = if r.1.isEmpty then some { st with tour := r.1, visited := r.2 }
        else if st.bestTour.isEmpty ∨ r.1.length < st.bestTour.length then
          some { bestTour := r.1, tour := st.bestTour, visited := r.2 }
        else some { st with tour := r.1, visited := r.2 } := by
  unfold subTourStart
  rw [if_neg h]
  simp only [hw]

theorem chain_has_succ (f : Nat → Option Nat) (s : Nat) (l : List Nat)
    (h : List.Chain (fun a b => f a = some b) s l) (hlast : l.getLast? = some s)
    (m : Nat) (hm : m ∈ l) : ∃ b, f m = some b := by
  have hhead : ∃ b, f s = some b := by
    cases l with
    | nil => simp at hm
    | cons c rest =>
      rw [List.chain_cons] at h
      exact ⟨c, h.1⟩
  have hgen : ∀ (a : Nat) (l : List Nat), List.Chain (fun a b => f a = some b) a l →
      ∀ m, m ∈ l → (∃ b, f m = some b) ∨ l.getLast? = some m := by
    intro a l
    induction l generalizing a with
    | nil => intro _ m hm; simp at hm
    | cons c rest ih =>
      intro hc m hm
      rw [List.chain_cons] at hc
      cases rest with
      | nil =>
        simp only [List.mem_singleton] at hm
        right
        rw [hm]
        rfl
      | cons d rest2 =>
        rcases List.mem_cons.mp hm with rfl | hm
        · left
          have hd := hc.2
          rw [List.chain_cons] at hd
          exact ⟨d, hd.1⟩
        · rcases ih c hc.2 m hm with hb | hl
          · exact Or.inl hb
          · right
            simpa using hl
  rcases hgen s l h m hm with hb | hl
  · exact hb
  · rw [hlast] at hl
    simp only [Option.some.injEq] at hl
    rw [← hl]
    exact hhead

/-- A walk that leaves `tour` as it was leaves `bestTour` as it was. -/
theorem subTourStart_same_tour (nodeNum depotNum fuel : Nat) (x : Edges) (st : SubTourState)
    (s : Nat) (h : ¬ st.visited s = true) (r : List Nat × (Nat → Bool))
    (hw : walk nodeNum depotNum x s fuel s st.tour st.visited = some r)
    (htour : r.1 = st.tour)
    (hclean : st.tour = [] ∨ (st.bestTour ≠ [] ∧ st.bestTour.length ≤ st.tour.length)) :
    subTourStart nodeNum depotNum fuel x st s = some { st with visited := r.2 } := by
  rw [subTourStart_walk nodeNum depotNum fuel x st s h r hw, htour]
  rcases hclean with ht | ⟨hb, hlen⟩
  · rw [ht]
    simp
  · have hne : st.tour ≠ [] := by
      intro e
      rw [e] at hlen
      simp only [List.length_nil, Nat.le_zero_eq, List.length_eq_zero] at hlen
      exact hb hlen
    have h1 : st.tour.isEmpty = false := by
      cases hst : st.tour with
      | nil => exact absurd hst hne
      | cons a l => rfl
    have h2 : ¬ (st.bestTour.isEmpty = true ∨ st.tour.length < st.bestTour.length) := by
      rintro (h' | h')
      · exact hb (List.isEmpty_iff.mp h')
      · omega
    rw [h1, if_neg h2]
    simp

/-- A walk that leaves a `tour` at least as long as a non-empty `bestTour`
leaves `bestTour` as it was. -/
theorem subTourStart_long_tour (nodeNum depotNum fuel : Nat) (x : Edges) (st : SubTourState)
    (s : Nat) (h : ¬ st.visited s = true) (r : List Nat × (Nat → Bool))
    (hw : walk nodeNum depotNum x s fuel s st.tour st.visited = some r)
    (hb : st.bestTour ≠ []) (hlen : st.bestTour.length ≤ r.1.length) :
    subTourStart nodeNum depotNum fuel x st s
      = some { st with tour := r.1, visited := r.2 } := by
  rw [subTourStart_walk nodeNum depotNum fuel x st s h r hw]
  have h2 : ¬ (st.bestTour.isEmpty = true ∨ r.1.length < st.bestTour.length) := by
    rintro (h' | h')
    · exact hb (List.isEmpty_iff.mp h')
    · omega
  rw [if_neg h2]
  split <;> rfl

/-- One start node of the loop of `subTourHandler`, under the degree
constraints: the walk ends and the invariant is kept. -/
theorem subTourStart_step (nodeNum depotNum fuel : Nat) (x : Edges)
    (hdeg : DegreeOK nodeNum x) (best0 : List Nat) (k : Nat) (st : SubTourState)
    (hinv : SubTourInv nodeNum depotNum x best0 k st) (hk : k < nodeNum)
    (hfuel : nodeNum ≤ fuel) :
    ∃ st', subTourStart nodeNum depotNum fuel x st k = some st'
      ∧ SubTourInv nodeNum depotNum x best0 (k + 1) st' := by
  obtain ⟨hbest, hclean, hclosed, hdone⟩ := hinv
  by_cases hvis : st.visited k = true
  · refine ⟨st, subTourStart_visited _ _ _ _ _ _ hvis, hbest, hclean, hclosed, ?_⟩
    intro s' hs' hsucc
    by_cases he : s' = k
    · rw [he]; exact hvis
    · exact hdone s' (by omega) hsucc
  · by_cases hnext : ∃ d, nextNode nodeNum x k = some d
    · obtain ⟨R, hR, hchain, hlast, hRnd, hRlt, _⟩ := walk_spec nodeNum depotNum x hdeg k fuel
        [k] k st.tour st.visited (List.nodup_singleton k)
        (fun a ha => by simp only [List.mem_singleton] at ha; rw [ha]; exact hk)
        (List.mem_singleton_self k) (List.mem_singleton_self k)
        (fun n hn hne => by simp only [List.mem_singleton] at hn; exact absurd hn hne)
        hnext (by simp only [List.length_singleton]; omega)
      have hRne : R ≠ [] := by
        intro e
        rw [e] at hlast
        simp at hlast
      have hkR : k ∈ R := List.mem_of_getLast?_eq_some hlast
      have hclosed' : ∀ a b, (st.visited a || decide (a ∈ R)) = true →
          nextNode nodeNum x a = some b → (st.visited b || decide (b ∈ R)) = true := by
        intro a b ha hf
        simp only [Bool.or_eq_true, decide_eq_true_eq] at ha ⊢
        rcases ha with ha | ha
        · exact Or.inl (hclosed a b ha hf)
        · exact Or.inr (cycle_succ_closed _ k R hchain hlast a b ha hf)
      have hdone' : ∀ s', s' < k + 1 → (∃ d, nextNode nodeNum x s' = some d) →
          (st.visited s' || decide (s' ∈ R)) = true := by
        intro s' hs' hsucc
        simp only [Bool.or_eq_true, decide_eq_true_eq]
        by_cases he : s' = k
        · right; rw [he]; exact hkR
        · exact Or.inl (hdone s' (by omega) hsucc)
      by_cases hkD : k ≥ depotNum
      · rw [if_pos hkD] at hR
        rcases hclean with htour | ⟨hbne, hlen⟩
        · have hR' : walk nodeNum depotNum x k fuel k st.tour st.visited
              = some (R, fun n => st.visited n || decide (n ∈ R)) := by
            rw [hR, htour]
            rfl
          have hcyc : IsCustomerCycle nodeNum depotNum x R := by
            refine ⟨hRne, hRnd, ?_, ?_⟩
            · intro n hn
              refine ⟨?_, hRlt n hn⟩
              by_contra hlt
              have hsucc := chain_has_succ _ k R hchain hlast n hn
              have hv := hdone n (by omega) hsucc
              exact hvis ((chain_visited_last _ st.visited hclosed k R hchain k hlast).2 n hn hv)
            · intro e he
              rw [cycleEdges_of_last R k hlast] at he
              have := chain_zip_edges _ k R hchain e he
              obtain ⟨_, h1, h2⟩ := nextNode_some nodeNum x e.1 e.2 this
              exact ⟨fun eq => h1 eq.symm, h2⟩
          rw [subTourStart_walk nodeNum depotNum fuel x st k hvis _ hR']
          have hemp : R.isEmpty = false := by
            cases hR' : R with
            | nil => exact absurd hR' hRne
            | cons a l => rfl
          simp only [hemp]
          by_cases hcond : st.bestTour.isEmpty = true ∨ R.length < st.bestTour.length
          · rw [if_pos hcond]
            refine ⟨_, rfl, Or.inr hcyc, ?_, hclosed', hdone'⟩
            rcases hcond with hc | hc
            · exact Or.inl (List.isEmpty_iff.mp hc)
            · exact Or.inr ⟨hRne, by show R.length ≤ st.bestTour.length; omega⟩
          · rw [if_neg hcond]
            refine ⟨_, rfl, hbest, Or.inr ⟨?_, ?_⟩, hclosed', hdone'⟩
            · intro e
              exact hcond (Or.inl (List.isEmpty_iff.mpr e))
            · show st.bestTour.length ≤ R.length
              have : ¬ R.length < st.bestTour.length := fun h => hcond (Or.inr h)
              omega
        · rw [subTourStart_long_tour nodeNum depotNum fuel x st k hvis _ hR hbne
            (by simp only [List.length_append]; omega)]
          refine ⟨_, rfl, hbest, Or.inr ⟨hbne, ?_⟩, hclosed', hdone'⟩
          show st.bestTour.length ≤ (st.tour ++ R).length
          simp only [List.length_append]
          omega
      · rw [if_neg hkD] at hR
        rw [subTourStart_same_tour nodeNum depotNum fuel x st k hvis _ hR rfl hclean]
        exact ⟨_, rfl, hbest, hclean, hclosed', hdone'⟩
    · have hnone : nextNode nodeNum x k = none := by
        cases hf : nextNode nodeNum x k with
        | none => rfl
        | some d => exact absurd ⟨d, hf⟩ hnext
      obtain ⟨fuel', rfl⟩ : ∃ f', fuel = f' + 1 := ⟨fuel - 1, by omega⟩
      have hw := walk_succ_none nodeNum depotNum x k fuel' st.tour st.visited hnone
      rw [subTourStart_same_tour nodeNum depotNum (fuel' + 1) x st k hvis _ hw rfl hclean]
      refine ⟨_, rfl, hbest, hclean, hclosed, ?_⟩
      intro s' hs' hsucc
      by_cases he : s' = k
      · rw [he] at hsucc
        exact absurd hsucc hnext
      · exact hdone s' (by omega) hsucc

theorem subTourStarts_spec (nodeNum depotNum fuel : Nat) (x : Edges)
    (hdeg : DegreeOK nodeNum x) (hfuel : nodeNum ≤ fuel) (best0 : List Nat) (k : Nat)
    (hk : k ≤ nodeNum) :
    ∃ st, (List.range k).foldlM (subTourStart nodeNum depotNum fuel x)
        { bestTour := best0, tour := [], visited := fun _ => false } = some st
      ∧ SubTourInv nodeNum depotNum x best0 k st := by
  induction k with
  | zero =>
    refine ⟨_, rfl, Or.inl rfl, Or.inl rfl, ?_, ?_⟩
    · intro a b ha
      simp at ha
    · intro s' hs'
      omega
  | succ k ih =>
    obtain ⟨st, hst, hinv⟩ := ih (by omega)
    obtain ⟨st', hst', hinv'⟩ := subTourStart_step nodeNum depotNum fuel x hdeg best0 k st hinv
      (by omega) hfuel
    refine ⟨st', ?_, hinv'⟩
    rw [List.range_succ, List.foldlM_append, hst]
    simp only [Option.bind_eq_bind, Option.some_bind, List.foldlM_cons, List.foldlM_nil]
    rw [hst']
    rfl

/-- The loop over the start nodes for one pair, under the degree constraints:
it ends, and `bestTour` is what it was on entry or a closed customer cycle of
the edges of the pair. -/
theorem subTourPair_spec (nodeNum depotNum fuel : Nat) (x : Edges)
    (hdeg : DegreeOK nodeNum x) (hfuel : nodeNum ≤ fuel) (best0 : List Nat) :
    ∃ best1, subTourPair nodeNum depotNum fuel x best0 = some best1
      ∧ (best1 = best0 ∨ IsCustomerCycle nodeNum depotNum x best1) := by
  obtain ⟨st, hst, hinv⟩ := subTourStarts_spec nodeNum depotNum fuel x hdeg hfuel best0 nodeNum
    (le_refl _)
  refine ⟨st.bestTour, ?_, hinv.1⟩
  unfold subTourPair
  rw [hst]
  rfl

theorem subTourLoop_spec (nodeNum depotNum fuel : Nat) (x : Nat → Nat → Edges)
    (hfuel : nodeNum ≤ fuel) (all : List (Nat × Nat)) (pairs done : List (Nat × Nat))
    (hall : all = done ++ pairs)
    (hdeg : ∀ pv, pv ∈ pairs → DegreeOK nodeNum (x pv.1 pv.2))
    (best : List Nat) (cuts : List LazyCut)
    (hbest : best = [] ∨ ∃ pv, pv ∈ done ∧ IsCustomerCycle nodeNum depotNum (x pv.1 pv.2) best)
    (hcuts : ∀ cut, cut ∈ cuts → CutFromCycle nodeNum depotNum x all cut) :
    ∃ r, subTourLoop nodeNum depotNum fuel x pairs best cuts = some r
      ∧ ∀ cut, cut ∈ r.2 → CutFromCycle nodeNum depotNum x all cut := by
  induction pairs generalizing done best cuts with
  | nil => exact ⟨_, rfl, hcuts⟩
  | cons pv rest ih =>
    obtain ⟨best1, hb1, hcase⟩ := subTourPair_spec nodeNum depotNum fuel (x pv.1 pv.2)
      (hdeg pv (List.mem_cons_self _ _)) hfuel best
    have hbest1 : best1 = [] ∨ ∃ pv', pv' ∈ done ++ [pv]
        ∧ IsCustomerCycle nodeNum depotNum (x pv'.1 pv'.2) best1 := by
      rcases hcase with h | h
      · rw [h]
        rcases hbest with hb | ⟨pv', hm, hc⟩
        · exact Or.inl hb
        · exact Or.inr ⟨pv', List.mem_append_left _ hm, hc⟩
      · exact Or.inr ⟨pv, by simp, h⟩
    have hall' : all = (done ++ [pv]) ++ rest := by
      rw [hall]; simp
    rw [subTourLoop]
    simp only [hb1]
    apply ih (done ++ [pv]) hall' (fun q hq => hdeg q (List.mem_cons_of_mem _ hq)) best1 _ hbest1
    intro cut hcut
    split at hcut
    · exact hcuts cut hcut
    · next hne =>
      rcases List.mem_append.mp hcut with h | h
      · exact hcuts cut h
      · simp only [List.mem_singleton] at h
        rcases hbest1 with he | ⟨pv', hm, hc⟩
        · rw [he] at hne
          simp at hne
        · subst h
          exact ⟨best1, done, rest, hall, rfl, rfl, pv', hm, hc⟩

theorem mem_handlerPairs (periods vehicleNum : Nat) (pv : Nat × Nat) :
    pv ∈ handlerPairs periods vehicleNum ↔ pv.1 < periods ∧ pv.2 < vehicleNum := by
  unfold handlerPairs
  simp only [List.mem_flatMap, List.mem_range, List.mem_map]
  constructor
  · rintro ⟨p, hp, v, hv, rfl⟩
    exact ⟨hp, hv⟩
  · rintro ⟨hp, hv⟩
    exact ⟨pv.1, hp, pv.2, hv, rfl⟩

/-- Under the degree constraints `subTourHandler` returns, and every cut it
adds is built from a closed customer cycle of the pair or of a pair before. -/
theorem subTourHandler_spec (c : Config) (inp : Input) (fuel periods : Nat)
    (x : Nat → Nat → Edges) (hfuel : c.nodeNum ≤ fuel)
    (hdeg : ∀ p v, p < periods → v < inp.vehicles.length → DegreeOK c.nodeNum (x p v)) :
    ∃ cuts, subTourHandler c inp fuel periods x = some cuts
      ∧ ∀ cut, cut ∈ cuts → CutFromCycle c.nodeNum inp.depotnum x
          (handlerPairs periods inp.vehicles.length) cut := by
  obtain ⟨r, hr, hcuts⟩ := subTourLoop_spec c.nodeNum inp.depotnum fuel x hfuel
    (handlerPairs periods inp.vehicles.length) (handlerPairs periods inp.vehicles.length) []
    rfl
    (fun pv hpv => by
      rw [mem_handlerPairs] at hpv
      exact hdeg pv.1 pv.2 hpv.1 hpv.2)
    [] [] (Or.inl rfl) (fun cut h => absurd h (List.not_mem_nil cut))
  refine ⟨r.2, ?_, hcuts⟩
  unfold subTourHandler
  rw [hr]
  rfl

theorem length_cycleEdges (tour : List Nat) : (cycleEdges tour).length = tour.length := by
  unfold cycleEdges
  simp

/-- A cut over the cyclic edges of a list of customers holds for every edge
assignment in which each cycle passes through a depot. -/
theorem customerCycle_cut_holds (nodeNum depotNum : Nat) (x : Edges) (tour : List Nat)
    (hc : IsCustomerCycle nodeNum depotNum x tour) (p v : Nat) (y : Edges)
    (hy : CyclesThroughDepot depotNum y) :
    LazyCut.holds ⟨p, v, cycleEdges tour, tour.length - 1⟩ y := by
  obtain ⟨hne, _, hnodes, _⟩ := hc
  unfold LazyCut.holds
  simp only
  have hle := List.length_filter_le (fun e : Nat × Nat => y e.1 e.2) (cycleEdges tour)
  rw [length_cycleEdges] at hle
  have hlt : ((cycleEdges tour).filter (fun e => y e.1 e.2)).length ≠ tour.length := by
    intro heq
    rw [← length_cycleEdges tour, List.filter_length_eq_length] at heq
    obtain ⟨n, hn, hlt⟩ := hy tour hne heq
    have := (hnodes n hn).1
    omega
  omega

/-- The degree constraints are part of the constraints of `iteratedModel`. -/
theorem iteratedModelConstraints_degreeOK (inp : Input) (x : Nat → Nat → Edges)
    (delivery : Nat → Nat → Nat → ℚ) (h : IteratedModelConstraints inp x delivery)
    (p v : Nat) (hp : p < inp.periodnum) (hv : v < inp.vehicles.length) :
    DegreeOK inp.nodes.length (x p v) := by
  intro n hn
  obtain ⟨h1, _, _, h4⟩ := h.2.2.2 p hp v hv n hn
  exact ⟨h1, h4⟩

theorem staleEdges_constraints :
    IteratedModelConstraints fourCustomerInput staleEdges staleDelivery := by
  unfold IteratedModelConstraints
  refine ⟨?_, ?_, ?_, ?_⟩ <;> decide!

theorem depotAndThreeCycles_constraints :
    IteratedModelConstraints nineCustomerInput depotAndThreeCycles nineCustomerDelivery := by
  unfold IteratedModelConstraints
  refine ⟨?_, ?_, ?_, ?_⟩ <;> decide!

theorem staleEdges_degreeOK (p v : Nat) (hp : p < 2) :
    DegreeOK 5 (staleEdges p v) :=
  iteratedModelConstraints_degreeOK fourCustomerInput staleEdges staleDelivery
    staleEdges_constraints p 0 hp (by decide)

theorem threeCycles_degreeOK (p v : Nat) : DegreeOK 9 (threeCycles p v) := by
  unfold DegreeOK inDegree outDegree threeCycles
  decide

/-- C23: the handler, whose `bestTour` is meant to be the tour with least nodes,
misses the smallest sub-tour of a pair in two ways, on edge values that satisfy
every constraint of the model of `iteratedModel` together with the deliveries
given (one depot, one vehicle; every visited customer is supplied from the depot,
which is on a route of its own). With two periods on five nodes, the cut for
period `1` is built from the cycle `1 → 2 → 1` of period `0`, which is kept in
`bestTour`: the list `[2, 1]` is not a cycle of period `1`, whose own sub-tour
`2 → 3 → 4 → 2` gets no cut. With the depot route `0 → 9 → 0` and the cycles
`1 → 2 → 3 → 1`, `4 → 5 → 6 → 4` and `7 → 8 → 7` in one period, `tour` is not
cleared between start nodes and the cut is over the first cycle of three nodes,
not over the cycle of two nodes. -/
theorem subTourHandler_cut_not_smallest :
    IteratedModelConstraints fourCustomerInput staleEdges staleDelivery
    ∧ (subTourHandler { exampleConfig with nodeNum := 5 } fourCustomerInput 5 2 staleEdges).map
        (fun cuts => cuts.map (fun cut => (cut.period, cut.vehicle, cut.edges)))
      = some [(0, 0, [(1, 2), (2, 1)]), (1, 0, [(1, 2), (2, 1)])]
    ∧ (subTourHandler { exampleConfig with nodeNum := 5 } fourCustomerInput 5 2 staleEdges).map
        (fun cuts => cuts.map (fun cut => cut.bound)) = some [1, 1]
    ∧ cycleEdges [2, 1] = [(1, 2), (2, 1)]
    ∧ ¬ IsCustomerCycle 5 1 (staleEdges 1 0) [2, 1]
    ∧ IsCustomerCycle 5 1 (staleEdges 1 0) [3, 4, 2]
    ∧ IteratedModelConstraints nineCustomerInput depotAndThreeCycles nineCustomerDelivery
    ∧ (subTourHandler { exampleConfig with nodeNum := 10 } nineCustomerInput 10 1
          depotAndThreeCycles).map
        (fun cuts => cuts.map (fun cut => (cut.period, cut.vehicle, cut.edges)))
      = some [(0, 0, [(1, 2), (2, 3), (3, 1)])]
    ∧ (subTourHandler { exampleConfig with nodeNum := 10 } nineCustomerInput 10 1
          depotAndThreeCycles).map
        (fun cuts => cuts.map (fun cut => cut.bound)) = some [2]
    ∧ cycleEdges [2, 3, 1] = [(1, 2), (2, 3), (3, 1)]
    ∧ IsCustomerCycle 10 1 (depotAndThreeCycles 0 0) [8, 7] := by
  refine ⟨staleEdges_constraints, ?_, ?_, ?_, ?_, ?_, depotAndThreeCycles_constraints,
    ?_, ?_, ?_, ?_⟩
  · decide
  · decide
  · decide
  · unfold IsCustomerCycle; decide
  · unfold IsCustomerCycle; decide
  · decide
  · decide
  · decide
  · unfold IsCustomerCycle; decide

/-- What the handler does ensure: on every callback whose edge values satisfy
the degree constraints `subTourHandler` returns, and every lazy cut it adds for a pair
(period index, vehicle) is `sum of x over the cyclic edges of T <= |T| - 1` for a
node list `T` that is a closed cycle made of customers only (pairwise distinct
nodes `≥ depotnum`, every one joined to the next) of the edge values of that
pair or of a pair handled before it in the same callback. -/
theorem subTourHandler_cut_from_cycle (c : Config) (inp : Input) (fuel periods : Nat)
    (x : Nat → Nat → Edges) (hfuel : c.nodeNum ≤ fuel)
    (hdeg : ∀ p v, p < periods → v < inp.vehicles.length → DegreeOK c.nodeNum (x p v)) :
    ∃ cuts, subTourHandler c inp fuel periods x = some cuts
      ∧ ∀ cut, cut ∈ cuts → CutFromCycle c.nodeNum inp.depotnum x
          (handlerPairs periods inp.vehicles.length) cut :=
  subTourHandler_spec c inp fuel periods x hfuel hdeg

theorem subTourHandler_cut_from_cycle_witness :
    ∃ cuts,
      subTourHandler { exampleConfig with nodeNum := 5 } fourCustomerInput 5 2 staleEdges
        = some cuts
      ∧ ∀ cut, cut ∈ cuts → CutFromCycle 5 fourCustomerInput.depotnum staleEdges
          (handlerPairs 2 fourCustomerInput.vehicles.length) cut :=
  subTourHandler_cut_from_cycle { exampleConfig with nodeNum := 5 } fourCustomerInput 5 2
    staleEdges (le_refl 5) (fun p v hp _ => staleEdges_degreeOK p v hp)

/-- C28: soundness of the lazy cuts. For 0/1 edge values that satisfy the
degree constraints of the model (in-degree = out-degree ≤ 1 at every node),
`subTourHandler` returns, and the node list `bestTour` from which it builds a
cut is the vertex sequence of a single closed cycle made only of customer nodes
(pairwise distinct, none below `depotnum`, all edges set in the edge values of a
pair of the callback); so the cut is satisfied by every edge assignment in
which each cycle passes through a depot. -/
theorem subTourHandler_cuts_sound (c : Config) (inp : Input) (fuel periods : Nat)
    (x : Nat → Nat → Edges) (hfuel : c.nodeNum ≤ fuel)
    (hdeg : ∀ p v, p < periods → v < inp.vehicles.length → DegreeOK c.nodeNum (x p v)) :
    ∃ cuts, subTourHandler c inp fuel periods x = some cuts
      ∧ ∀ cut, cut ∈ cuts →
          (∃ tour : List Nat, tour ≠ [] ∧ tour.Nodup
            ∧ (∀ n, n ∈ tour → inp.depotnum ≤ n ∧ n < c.nodeNum)
            ∧ cut.edges = cycleEdges tour ∧ cut.bound = tour.length - 1
            ∧ ∃ p v, p < periods ∧ v < inp.vehicles.length
                ∧ ∀ e, e ∈ cut.edges → x p v e.1 e.2 = true)
          ∧ ∀ y : Edges, CyclesThroughDepot inp.depotnum y → cut.holds y := by
  obtain ⟨cuts, hcuts, hall⟩ := subTourHandler_spec c inp fuel periods x hfuel hdeg
  refine ⟨cuts, hcuts, ?_⟩
  intro cut hcut
  obtain ⟨tour, pre, post, hsplit, hedges, hbound, pv, hpv, hcyc⟩ := hall cut hcut
  have hmem : pv ∈ handlerPairs periods inp.vehicles.length := by
    rw [hsplit]
    rcases List.mem_append.mp hpv with h | h
    · exact List.mem_append_left _ h
    · simp only [List.mem_singleton] at h
      rw [h]
      exact List.mem_append_right _ (List.mem_cons_self _ _)
  rw [mem_handlerPairs] at hmem
  refine ⟨⟨tour, hcyc.1, hcyc.2.1, hcyc.2.2.1, hedges, hbound, pv.1, pv.2, hmem.1, hmem.2, ?_⟩, ?_⟩
  · intro e he
    rw [hedges] at he
    exact (hcyc.2.2.2 e he).2
  · intro y hy
    have := customerCycle_cut_holds c.nodeNum inp.depotnum (x pv.1 pv.2) tour hcyc cut.period
      cut.vehicle y hy
    unfold LazyCut.holds at this ⊢
    rw [hedges, hbound]
    exact this

theorem subTourHandler_cuts_sound_witness :
    ∃ cuts,
      subTourHandler { exampleConfig with nodeNum := 9 } oneVehicleInput 9 1 threeCycles
        = some cuts
      ∧ ∀ cut, cut ∈ cuts →
          ∀ y : Edges, CyclesThroughDepot oneVehicleInput.depotnum y → cut.holds y := by
  obtain ⟨cuts, h1, h2⟩ := subTourHandler_cuts_sound { exampleConfig with nodeNum := 9 }
    oneVehicleInput 9 1 threeCycles (le_refl 9) (fun p v _ _ => threeCycles_degreeOK p v)
  exact ⟨cuts, h1, fun cut hcut => (h2 cut hcut).2⟩

/-- Without the degree constraints the walk need not end: from node `1` the
path `1 → 2 → 3 → 2` never comes back to `1`. -/
theorem walk_without_degree_constraints :
    (walk 4 1 (fun a b => decide ((a = 1 ∧ b = 2) ∨ (a = 2 ∧ b = 3) ∨ (a = 3 ∧ b = 2)))
      1 100 1 [] (fun _ => false)).isNone = true := by
  decide

end IRP
